import Mathlib

/-!
# Rebalancer: the genetic search of `src/genetic.js`

A shallow embedding of `src/genetic.js`, of `normalizeNumericString` of `src/ui.js`,
and of the part of bignumber.js 9.1.2 (the version imported by the worker,
`src/ui.js`) that `src/genetic.js` calls.

Conventions of the embedding.

* `BigNumber` is a bignumber.js value: a finite decimal (held as a rational),
  `±Infinity` or `NaN`.  `plus`, `minus` and `multipliedBy` are exact;
  `dividedBy` rounds a finite quotient to `DECIMAL_PLACES = 20` decimal places with
  `ROUNDING_MODE = ROUND_HALF_UP` (the library defaults, which the repository never
  changes); `dividedToIntegerBy` truncates the quotient towards zero.  The rounding
  applied by `dividedBy` is an explicit argument `R` of every function that divides,
  `BigNumber.ROUND_HALF_UP` being the one the program runs with.  The sign of a zero
  and the exponent limit `1e±1000000000` of the library are not tracked.
* A JavaScript number is an IEEE 754 double.  `Double.round` rounds a rational to the
  nearest double, a tie going to the even significand, subnormal doubles included;
  `JSValue.ofRat` adds the overflow to `±Infinity`.  A product of two numbers and
  `x.toNumber()` are rounded that way, the literals `0.4` and `0.6` are the doubles
  nearest to them, and a draw of `Math.random()` is a double.  The sign of a zero is
  not tracked.
* `JSValue` is what a strategy map holds: a JavaScript number (a finite one is held as
  the rational it is equal to), `±Infinity`, `NaN`, or `undefined`.
* `JSMap` is a JavaScript `Map` with string keys: its entries in insertion order.
  A `Map` never holds a key twice; `JSMap.set` keeps that property and the theorems
  ask it of the maps they are given (`JSMap.WF`).
* A function that can throw a `TypeError` (a property read on `undefined`) returns an
  `Option`, `none` standing for the throw.
* `Math.random` is a stream of draws, doubles in `[0, 1)`, threaded through the calls.
* `Array.prototype.sort` is a stable sort (ECMAScript 2019).  When the comparison
  function is consistent, which it is when no fitness is `NaN`, every stable sort
  returns the same array, the one `sortPopulation` returns.  When a fitness is `NaN`
  the comparison function is not consistent and the order is left to the engine;
  `sortPopulation` is then the order an insertion sort gives.
-/

namespace Rebalancer

/-! ## bignumber.js -/

/-- A bignumber.js value. -/
inductive BigNumber where
  | fin (q : ℚ)
  | inf (neg : Bool)
  | nan
  deriving DecidableEq

namespace BigNumber

/-- The library default of `DECIMAL_PLACES`. -/
def DECIMAL_PLACES : ℕ := 20

/-- Rounding mode 4 of the library: to the nearest decimal with `dp` places,
a tie going away from zero. -/
def roundHalfUp (dp : ℕ) (q : ℚ) : ℚ :=
  if 0 ≤ q then (⌊q * 10 ^ dp + 1 / 2⌋ : ℚ) / 10 ^ dp
  else -((⌊-q * 10 ^ dp + 1 / 2⌋ : ℚ) / 10 ^ dp)

/-- The rounding `dividedBy` applies under the default configuration. -/
def ROUND_HALF_UP : ℚ → ℚ := roundHalfUp DECIMAL_PLACES

/-- Rounding mode 1 of the library at zero decimal places: towards zero. -/
def roundDown (q : ℚ) : ℚ :=
  if 0 ≤ q then (⌊q⌋ : ℚ) else (⌈q⌉ : ℚ)

/-- JavaScript `x.plus(y)`. -/
def plus : BigNumber → BigNumber → BigNumber
  | nan, _ => nan
  | _, nan => nan
  | inf s, inf t => if s = t then inf s else nan
  | inf s, fin _ => inf s
  | fin _, inf t => inf t
  | fin x, fin y => fin (x + y)

/-- JavaScript `x.minus(y)`. -/
def minus : BigNumber → BigNumber → BigNumber
  | nan, _ => nan
  | _, nan => nan
  | inf s, inf t => if s = t then nan else inf s
  | inf s, fin _ => inf s
  | fin _, inf t => inf (!t)
  | fin x, fin y => fin (x - y)

/-- JavaScript `x.multipliedBy(y)`. -/
def multipliedBy : BigNumber → BigNumber → BigNumber
  | nan, _ => nan
  | _, nan => nan
  | inf s, inf t => inf (xor s t)
  | inf s, fin y => if y = 0 then nan else inf (xor s (decide (y < 0)))
  | fin x, inf t => if x = 0 then nan else inf (xor (decide (x < 0)) t)
  | fin x, fin y => fin (x * y)

/-- The internal `div(x, y, dp, rm)` of the library, `R` being the rounding that
`dp` and `rm` select. -/
def div (R : ℚ → ℚ) : BigNumber → BigNumber → BigNumber
  | nan, _ => nan
  | _, nan => nan
  | inf _, inf _ => nan
  | inf s, fin y => inf (xor s (decide (y < 0)))
  | fin _, inf _ => fin 0
  | fin x, fin y =>
    if y = 0 then (if x = 0 then nan else inf (decide (x < 0)))
    else fin (R (x / y))

/-- JavaScript `x.dividedBy(y)`, under the configuration whose rounding is `R`. -/
def dividedBy (R : ℚ → ℚ) (x y : BigNumber) : BigNumber := div R x y

/-- JavaScript `x.dividedToIntegerBy(y)`. -/
def dividedToIntegerBy (x y : BigNumber) : BigNumber := div roundDown x y

/-- JavaScript `x.absoluteValue()`. -/
def absoluteValue : BigNumber → BigNumber
  | nan => nan
  | inf _ => inf false
  | fin x => fin |x|

/-- JavaScript `x.isZero()`. -/
def isZero : BigNumber → Bool
  | fin x => decide (x = 0)
  | _ => false

/-- JavaScript `x.isNaN()`. -/
def isNaN : BigNumber → Bool
  | nan => true
  | _ => false

/-- JavaScript `x.comparedTo(y)`: `1`, `-1` or `0`, and `null` (here `none`) when either is `NaN`. -/
def comparedTo : BigNumber → BigNumber → Option ℤ
  | nan, _ => none
  | _, nan => none
  | inf s, inf t => some (if s = t then 0 else if s then -1 else 1)
  | inf s, fin _ => some (if s then -1 else 1)
  | fin _, inf t => some (if t then 1 else -1)
  | fin x, fin y => some (if x < y then -1 else if y < x then 1 else 0)

/-- JavaScript `x.isLessThan(y)`. -/
def isLessThan (x y : BigNumber) : Bool := decide (x.comparedTo y = some (-1))

/-- JavaScript `x.isLessThanOrEqualTo(y)`. -/
def isLessThanOrEqualTo (x y : BigNumber) : Bool :=
  decide (x.comparedTo y = some (-1)) || decide (x.comparedTo y = some 0)

end BigNumber

/-! ## Doubles -/

namespace Double

/-- The exponent of the unit in the last place of the doubles around `q`: the binary
exponent of `q` less the 52 fraction bits, and -1074 in the subnormal range. -/
def exponent (q : ℚ) : ℤ := max (Int.log 2 |q| - 52) (-1074)

/-- The nearest integer, a tie going to the even one. -/
def roundHalfEven (s : ℚ) : ℤ :=
  if s - ⌊s⌋ < 1 / 2 then ⌊s⌋
  else if 1 / 2 < s - ⌊s⌋ then ⌊s⌋ + 1
  else if ⌊s⌋ % 2 = 0 then ⌊s⌋ else ⌊s⌋ + 1

/-- The double nearest to `q`, a tie going to the even significand, the exponent being
unbounded above. -/
def round (q : ℚ) : ℚ := (roundHalfEven (q / 2 ^ exponent q) : ℚ) * 2 ^ exponent q

/-- The least magnitude that rounds to `Infinity`: half a unit in the last place above
`Number.MAX_VALUE = 2^1024 - 2^971`. -/
def overflow : ℚ := 2 ^ 1024 - 2 ^ 970

/-- A rational that is a double, the exponent being unbounded above: a significand of
at most 53 bits times a power of two not below `2^-1074`. -/
def IsValue (q : ℚ) : Prop := ∃ m e : ℤ, |m| ≤ 2 ^ 53 ∧ -1074 ≤ e ∧ q = m * 2 ^ e

end Double

/-! ## JavaScript values and maps -/

/-- A value stored in a strategy map. -/
inductive JSValue where
  | number (q : ℚ)
  | infinity (neg : Bool)
  | nan
  | undefined
  deriving DecidableEq

/-- The JavaScript number for a real `q`: the nearest double, or `±Infinity` from
`Double.overflow` on. -/
def JSValue.ofRat (q : ℚ) : JSValue :=
  if Double.overflow ≤ |q| then .infinity (decide (q < 0)) else .number (Double.round q)

/-- JavaScript `new BigNumber(v)` for a JavaScript value `v`.  The library reads a
number through its decimal string `String(v)`, the shortest decimal that reads back as
`v`.  For an integer of magnitude up to `2^53` that decimal is the integer itself, and
the definition is exact; a share count beyond that range is taken for the value of the
double, the digits of its shortest decimal not being followed. -/
def BigNumber.ofValue : JSValue → BigNumber
  | .number q => .fin q
  | .infinity s => .inf s
  | .nan => .nan
  | .undefined => .nan

/-- JavaScript `x.toNumber()`: the decimal is read as a number, so rounded to a
double. -/
def BigNumber.toNumber : BigNumber → JSValue
  | .fin q => JSValue.ofRat q
  | .inf s => .infinity s
  | .nan => .nan

/-- JavaScript `new BigNumber(Number.MAX_VALUE)`: the library reads the number through
its decimal string `1.7976931348623157e+308`. -/
def MAX_VALUE : BigNumber := .fin (17976931348623157 * 10 ^ 292)

/-- JavaScript `Math.round(v)` for a number `v`: the nearest integer, a tie going up.
The nearest integer of a double is a double, so nothing is rounded twice. -/
def Math.round : JSValue → JSValue
  | .number q => .number (⌊q + 1 / 2⌋ : ℚ)
  | .infinity s => .infinity s
  | _ => .nan

/-- The JavaScript product `r * v` of a finite non-negative number `r` and a value `v`:
the product of two numbers is rounded to a double, and `0 * Infinity` is `NaN`. -/
def JSValue.times (r : ℚ) : JSValue → JSValue
  | .number q => JSValue.ofRat (r * q)
  | .infinity s => if r = 0 then .nan else .infinity s
  | _ => .nan

/-- A JavaScript `Map` with string keys, as its entries in insertion order. -/
structure JSMap (α : Type) where
  entries : List (String × α)

namespace JSMap

variable {α : Type}

/-- JavaScript `new Map()`. -/
def empty : JSMap α := ⟨[]⟩

/-- JavaScript `m.keys()`. -/
def keys (m : JSMap α) : List String := m.entries.map Prod.fst

/-- JavaScript `m.values()`. -/
def values (m : JSMap α) : List α := m.entries.map Prod.snd

/-- JavaScript `m.has(k)`. -/
def has (m : JSMap α) (k : String) : Bool := m.entries.any (fun e => e.1 == k)

/-- JavaScript `m.get(k)`, `none` standing for `undefined`. -/
def get (m : JSMap α) (k : String) : Option α := m.entries.lookup k

/-- JavaScript `m.set(k, v)`: the value of an existing key is replaced in place, a new
key is appended. -/
def set (m : JSMap α) (k : String) (v : α) : JSMap α :=
  if m.has k then ⟨m.entries.map (fun e => if e.1 = k then (k, v) else e)⟩
  else ⟨m.entries ++ [(k, v)]⟩

/-- The keys of a `Map` are pairwise distinct. -/
def WF (m : JSMap α) : Prop := m.keys.Nodup

end JSMap

/-- A strategy: `Map<assetName, sharesCount>`. -/
abbrev Strategy := JSMap JSValue

/-- JavaScript `strategy.get(assetName)` as a JavaScript value. -/
def Strategy.count (strategy : Strategy) (assetName : String) : JSValue :=
  (strategy.get assetName).getD .undefined

/-! ## Random numbers -/

/-- One result of `Math.random()`: a double in `[0, 1)`. -/
structure Draw where
  val : ℚ
  nonneg : 0 ≤ val
  lt_one : val < 1
  isDouble : Double.IsValue val

/-- The source of random numbers: the draws still to come, in order. -/
abbrev RandomSource := ℕ → Draw

/-- JavaScript `Math.random()`: the next draw and the source left after it. -/
def Math.random (rng : RandomSource) : ℚ × RandomSource :=
  ((rng 0).val, fun n => rng (n + 1))

/-! ## `genetic.js` -/

/-- The class `AssetData`; the three fields are finite decimals. -/
structure AssetData where
  targetPercentage : ℚ
  currentTotalValue : ℚ
  currentSharePrice : ℚ
  deriving DecidableEq

/-- The class `InvestmentStrategy`: an individual of the population. -/
structure InvestmentStrategy where
  strategy : Strategy
  fitness : BigNumber

/-- The class `StrategyData`: one row of the statistics of a strategy;
`projectedInvestment` holds the result of a `Map.get`, `none` being `undefined`. -/
structure StrategyData where
  assetName : String
  targetPercentage : BigNumber
  currentTotalValue : BigNumber
  currentSharePrice : BigNumber
  currentPercentage : BigNumber
  sharesCount : JSValue
  rebalancedPercentage : BigNumber
  projectedInvestment : Option BigNumber

/-- The object returned by `Utility.calculateStrategyStats`. -/
structure StrategyStats where
  stats : List StrategyData
  totalProjectedInvestment : BigNumber

namespace Utility

/-- Source function `Utility.sumMoney`. -/
def sumMoney (moneyPerAsset : JSMap BigNumber) : BigNumber :=
  moneyPerAsset.values.foldl (fun partialSum a => partialSum.plus a) (.fin 0)

/-- Source function `Utility.sumCurrentAssetValues`. -/
def sumCurrentAssetValues (assetData : JSMap AssetData) : BigNumber :=
  sumMoney (assetData.entries.foldl
    (fun currentTotalValues e => currentTotalValues.set e.1 (.fin e.2.currentTotalValue))
    JSMap.empty)

/-- Source function `Utility.calculateProjectedInvestmentPerAsset`; `none` when the
strategy names an asset that `assetData` lacks. -/
def calculateProjectedInvestmentPerAsset (strategy : Strategy) (assetData : JSMap AssetData) :
    Option (JSMap BigNumber) :=
  strategy.keys.foldlM
    (fun (projectedInvestmentPerAsset : JSMap BigNumber) (assetName : String) => do
      let assetCount := strategy.count assetName
      let asset ← assetData.get assetName
      pure (projectedInvestmentPerAsset.set assetName
        ((BigNumber.fin asset.currentSharePrice).multipliedBy (BigNumber.ofValue assetCount))))
    JSMap.empty

/-- The body of the loop over the assets in `calculateStrategyStats`: the row of one
asset is pushed to `stats`. -/
def pushStrategyData (R : ℚ → ℚ) (strategy : Strategy) (assetData : JSMap AssetData)
    (projectedInvestments : JSMap BigNumber)
    (currentTotalValueSum currentTotalValueAndProjectedInvestmentSum : BigNumber)
    (stats : List StrategyData) (assetName : String) : Option (List StrategyData) := do
  let _100 := BigNumber.fin 100
  let asset ← assetData.get assetName
  let projectedAssetValue := (BigNumber.fin asset.currentTotalValue).plus
    ((projectedInvestments.get assetName).getD .nan)
  pure (stats ++ [{
    assetName := assetName
    targetPercentage := .fin asset.targetPercentage
    currentTotalValue := .fin asset.currentTotalValue
    currentSharePrice := .fin asset.currentSharePrice
    currentPercentage :=
      if currentTotalValueSum.isZero then .fin 0
      else ((BigNumber.fin asset.currentTotalValue).dividedBy R
        currentTotalValueSum).multipliedBy _100
    sharesCount := strategy.count assetName
    rebalancedPercentage :=
      if currentTotalValueAndProjectedInvestmentSum.isZero then .fin 0
      else (projectedAssetValue.dividedBy R
        currentTotalValueAndProjectedInvestmentSum).multipliedBy _100
    projectedInvestment := projectedInvestments.get assetName }])

/-- Source function `Utility.calculateStrategyStats`; `none` when the strategy names an
asset that `assetData` lacks. -/
def calculateStrategyStats (R : ℚ → ℚ) (strategy : Strategy) (assetData : JSMap AssetData) :
    Option StrategyStats := do
  let currentTotalValueSum := sumCurrentAssetValues assetData
  let projectedInvestments ← calculateProjectedInvestmentPerAsset strategy assetData
  let totalProjectedInvestment := sumMoney projectedInvestments
  let currentTotalValueAndProjectedInvestmentSum :=
    currentTotalValueSum.plus totalProjectedInvestment
  let stats ← strategy.keys.foldlM
    (pushStrategyData R strategy assetData projectedInvestments currentTotalValueSum
      currentTotalValueAndProjectedInvestmentSum)
    []
  pure { stats := stats, totalProjectedInvestment := totalProjectedInvestment }

end Utility

namespace InvestmentStrategyManager

/-- The constant `_100`. -/
def _100 : BigNumber := .fin 100

/-- The value `projectedInvestments.get(assetName)` as an operand of `plus`. -/
def operand (projectedInvestments : JSMap BigNumber) (assetName : String) : BigNumber :=
  (projectedInvestments.get assetName).getD .nan

/-- The body of the loop over the assets in `calculateStrategyFitness`: one asset's
distance from its target percentage is added to the running sum. -/
def addDiffFromTargetPercentage (R : ℚ → ℚ) (assetData : JSMap AssetData)
    (projectedInvestments : JSMap BigNumber) (projectedTotalValue : BigNumber)
    (totalDiffFromTargetPercentage : BigNumber) (assetName : String) : Option BigNumber := do
  let asset ← assetData.get assetName
  let newAssetValue :=
    (BigNumber.fin asset.currentTotalValue).plus (operand projectedInvestments assetName)
  let newAssetPercentage := (newAssetValue.dividedBy R projectedTotalValue).multipliedBy _100
  let diffFromTargetPercentage :=
    ((BigNumber.fin asset.targetPercentage).minus newAssetPercentage).absoluteValue
  pure (totalDiffFromTargetPercentage.plus diffFromTargetPercentage)

/-- Source function `InvestmentStrategyManager.calculateStrategyFitness`. -/
def calculateStrategyFitness (R : ℚ → ℚ) (strategy : Strategy) (assetData : JSMap AssetData)
    (investmentLimit : ℚ) : Option BigNumber := do
  let projectedInvestments ← Utility.calculateProjectedInvestmentPerAsset strategy assetData
  let totalProjectedInvestment := Utility.sumMoney projectedInvestments
  if totalProjectedInvestment.comparedTo (.fin investmentLimit) = some 1 then
    pure MAX_VALUE
  else
    let currentTotalValue := Utility.sumCurrentAssetValues assetData
    let projectedTotalValue := currentTotalValue.plus totalProjectedInvestment
    let totalDiffFromTargetPercentage ← strategy.keys.foldlM
      (addDiffFromTargetPercentage R assetData projectedInvestments projectedTotalValue)
      (BigNumber.fin 0)
    let diffFromInvestmentLimitPercentage :=
      _100.minus ((totalProjectedInvestment.dividedBy R (.fin investmentLimit)).multipliedBy _100)
    pure (totalDiffFromTargetPercentage.plus diffFromInvestmentLimitPercentage)

/-- Source function `InvestmentStrategyManager.setRandomSharesCountForAssetToStrategy`;
`none` when `assetData` lacks the asset. -/
def setRandomSharesCountForAssetToStrategy (strategy : Strategy) (assetName : String)
    (assetData : JSMap AssetData) (investmentLimit : ℚ) (rng : RandomSource) :
    Option (Strategy × RandomSource) := do
  let asset ← assetData.get assetName
  let currentSharePrice := asset.currentSharePrice
  let maxSharesCountPossibleToBuy :=
    ((BigNumber.fin investmentLimit).dividedToIntegerBy (.fin currentSharePrice)).toNumber
  let draw := Math.random rng
  let randomShareCount := Math.round (maxSharesCountPossibleToBuy.times draw.1)
  pure (strategy.set assetName randomShareCount, draw.2)

/-- Source function `InvestmentStrategyManager.createStrategy`. -/
def createStrategy (assetData : JSMap AssetData) (investmentLimit : ℚ) (rng : RandomSource) :
    Option (Strategy × RandomSource) :=
  assetData.keys.foldlM
    (fun (acc : Strategy × RandomSource) (assetName : String) =>
      setRandomSharesCountForAssetToStrategy acc.1 assetName assetData investmentLimit acc.2)
    (JSMap.empty, rng)

/-- The body of the loop of `mateStrategies`: the gene of one asset of the child. The
literals `0.4` and `0.6` of the source are the doubles `Double.round 0.4` and
`Double.round 0.6`. -/
def mateGene (parent1 parent2 : Strategy) (assetData : JSMap AssetData) (investmentLimit : ℚ)
    (acc : Strategy × RandomSource) (assetName : String) : Option (Strategy × RandomSource) :=
  let draw := Math.random acc.2
  let probability := draw.1
  if probability < Double.round 0.4 then
    pure (acc.1.set assetName (parent1.count assetName), draw.2)
  else if probability < Double.round 0.6 then
    setRandomSharesCountForAssetToStrategy acc.1 assetName assetData investmentLimit draw.2
  else
    pure (acc.1.set assetName (parent2.count assetName), draw.2)

/-- Source function `InvestmentStrategyManager.mateStrategies`. -/
def mateStrategies (parent1 parent2 : Strategy) (assetData : JSMap AssetData)
    (investmentLimit : ℚ) (rng : RandomSource) : Option (Strategy × RandomSource) :=
  assetData.keys.foldlM (mateGene parent1 parent2 assetData investmentLimit) (JSMap.empty, rng)

end InvestmentStrategyManager

/-- A message passed to the callback of `runWorker`. -/
inductive Message where
  | intermediate (generation : ℕ) (result : InvestmentStrategy)
  | final (generation : ℕ) (result : InvestmentStrategy) (strategyStats : StrategyStats)
      (investmentLimit : ℚ)

/-- The variables of `runWorker` that live across the iterations of its loop. -/
structure WorkerState where
  generation : ℕ
  population : List InvestmentStrategy
  lastNBestFitnesses : List BigNumber
  rng : RandomSource

/-- How far an execution of `runWorker` got: it threw a `TypeError`, it returned, or
the loop is still running when the fuel of the model ends. Each carries the messages
passed to the callback so far. -/
inductive Run where
  | threw (messages : List Message)
  | completed (messages : List Message)
  | pending (state : WorkerState) (messages : List Message)

namespace StrategyPopulationManager

open InvestmentStrategyManager

/-- Source function `StrategyPopulationManager.stop`; `none` when
`lastNBestFitnesses[0]` is read from an empty array. -/
def stop (lastNBestFitnesses : List BigNumber)
    (stopAfterNGenerationsWithoutBetterResult : ℕ) : Option Bool :=
  if (match lastNBestFitnesses.getLast? with
      | some last => last.isZero
      | none => false) then
    some true
  else if stopAfterNGenerationsWithoutBetterResult ≤ lastNBestFitnesses.length then
    match lastNBestFitnesses.head?, lastNBestFitnesses.getLast? with
    | some first, some last => some (decide (first.comparedTo last = some 0))
    | _, _ => none
  else
    some false

/-- The loop that creates the initial population: `count` individuals are pushed. -/
def createInitialPopulation (R : ℚ → ℚ) (assetData : JSMap AssetData) (investmentLimit : ℚ) :
    ℕ → List InvestmentStrategy → RandomSource → Option (List InvestmentStrategy × RandomSource)
  | 0, population, rng => some (population, rng)
  | count + 1, population, rng => do
    let created ← createStrategy assetData investmentLimit rng
    let fitness ← calculateStrategyFitness R created.1 assetData investmentLimit
    createInitialPopulation R assetData investmentLimit count
      (population ++ [{ strategy := created.1, fitness := fitness }]) created.2

/-- The index `Math.floor(Math.random() * length)`: the floor of the product as a
double. -/
def parentIndex (r : ℚ) (length : ℕ) : ℕ := (⌊Double.round (r * length)⌋).toNat

/-- The expression `populationHalf[Math.floor(Math.random() * populationHalf.length)]`,
`none` standing for `undefined`. -/
def pickParent (populationHalf : List InvestmentStrategy) (rng : RandomSource) :
    Option InvestmentStrategy × RandomSource :=
  let draw := Math.random rng
  (populationHalf[parentIndex draw.1 populationHalf.length]?, draw.2)

/-- The loop that mates the fittest half: `count` children are pushed; `none` when a
parent is `undefined`. -/
def produceOffspring (R : ℚ → ℚ) (assetData : JSMap AssetData) (investmentLimit : ℚ)
    (population : List InvestmentStrategy) (half : ℕ) :
    ℕ → List InvestmentStrategy → RandomSource → Option (List InvestmentStrategy × RandomSource)
  | 0, newGeneration, rng => some (newGeneration, rng)
  | count + 1, newGeneration, rng => do
    let populationHalf := population.take half
    let pick1 := pickParent populationHalf rng
    let pick2 := pickParent populationHalf pick1.2
    let parent1 ← pick1.1
    let parent2 ← pick2.1
    let mated ← mateStrategies parent1.strategy parent2.strategy assetData investmentLimit pick2.2
    let fitness ← calculateStrategyFitness R mated.1 assetData investmentLimit
    produceOffspring R assetData investmentLimit population half count
      (newGeneration ++ [{ strategy := mated.1, fitness := fitness }]) mated.2

/-- The comparison function given to `sort`, a `null` result counting as 0. -/
def compareFitness (a b : InvestmentStrategy) : ℤ := (a.fitness.comparedTo b.fitness).getD 0

/-- JavaScript `population.sort(...)`: a stable sort, `a` staying before `b` unless the
comparison function returns a positive number. Every stable sort returns this list
when no fitness is `NaN`; with a `NaN` the order depends on the engine, and this is the
order of an insertion sort. -/
def sortPopulation (population : List InvestmentStrategy) : List InvestmentStrategy :=
  population.insertionSort (fun a b => compareFitness a b ≤ 0)

/-- The first part of an iteration of the loop of `runWorker`: the initial population
in generation 1, afterwards the fittest 10 % of the previous population followed by the
offspring of its fittest half. -/
def buildPopulation (R : ℚ → ℚ) (populationSize : ℕ) (assetData : JSMap AssetData)
    (investmentLimit : ℚ) (st : WorkerState) :
    Option (List InvestmentStrategy × RandomSource) :=
  if st.generation = 1 then
    createInitialPopulation R assetData investmentLimit populationSize st.population st.rng
  else
    produceOffspring R assetData investmentLimit st.population (50 * populationSize / 100)
      (90 * populationSize / 100) (st.population.take (10 * populationSize / 100)) st.rng

/-- One iteration of the loop of `runWorker` up to the call of `stop`: the population
of this generation is built and sorted, its best fitness is pushed to
`lastNBestFitnesses` and the list is truncated. -/
def generationStep (R : ℚ → ℚ) (populationSize stopAfterNGenerationsWithoutBetterResult : ℕ)
    (assetData : JSMap AssetData) (investmentLimit : ℚ) (st : WorkerState) :
    Option WorkerState := do
  let built ← buildPopulation R populationSize assetData investmentLimit st
  let population := sortPopulation built.1
  let best ← population.head?
  let pushed := st.lastNBestFitnesses ++ [best.fitness]
  pure {
    generation := st.generation
    population := population
    lastNBestFitnesses :=
      pushed.drop (pushed.length - stopAfterNGenerationsWithoutBetterResult)
    rng := built.2 }

/-- The loop of `runWorker` from the state `st`, for at most `fuel` iterations. -/
def runLoop (R : ℚ → ℚ) (populationSize stopAfterNGenerationsWithoutBetterResult : ℕ)
    (assetData : JSMap AssetData) (investmentLimit : ℚ) :
    ℕ → WorkerState → List Message → Run
  | 0, st, messages => .pending st messages
  | fuel + 1, st, messages =>
    match generationStep R populationSize stopAfterNGenerationsWithoutBetterResult assetData
        investmentLimit st with
    | none => .threw messages
    | some st1 =>
      match st1.population.head? with
      | none => .threw messages
      | some best =>
        match stop st1.lastNBestFitnesses stopAfterNGenerationsWithoutBetterResult with
        | none => .threw messages
        | some true =>
          match Utility.calculateStrategyStats R best.strategy assetData with
          | none => .threw messages
          | some strategyStats =>
            .completed (messages ++ [.final st1.generation best strategyStats investmentLimit])
        | some false =>
          runLoop R populationSize stopAfterNGenerationsWithoutBetterResult assetData
            investmentLimit fuel { st1 with generation := st1.generation + 1 }
            (messages ++ [.intermediate st1.generation best])

/-- The variables of `runWorker` before the loop. -/
def initialState (rng : RandomSource) : WorkerState :=
  { generation := 1, population := [], lastNBestFitnesses := [], rng := rng }

/-- Source function `StrategyPopulationManager.runWorker`, the loop being given `fuel`
iterations. -/
def runWorker (R : ℚ → ℚ) (fuel : ℕ)
    (populationSize stopAfterNGenerationsWithoutBetterResult : ℕ)
    (assetData : JSMap AssetData) (investmentLimit : ℚ) (rng : RandomSource) : Run :=
  runLoop R populationSize stopAfterNGenerationsWithoutBetterResult assetData investmentLimit
    fuel (initialState rng) []

/-- The state of `runWorker` right after the push-and-truncate step of generation `g`
(`g = 1, 2, ...`), when the loop gets that far: `none` if it stopped or threw in an
earlier generation, or throws in this one before that point. -/
def generationState (R : ℚ → ℚ) (populationSize stopAfterNGenerationsWithoutBetterResult : ℕ)
    (assetData : JSMap AssetData) (investmentLimit : ℚ) (rng : RandomSource) :
    ℕ → Option WorkerState
  | 0 => none
  | 1 =>
    generationStep R populationSize stopAfterNGenerationsWithoutBetterResult assetData
      investmentLimit (initialState rng)
  | g + 2 => do
    let st ← generationState R populationSize stopAfterNGenerationsWithoutBetterResult
      assetData investmentLimit rng (g + 1)
    let stopped ← stop st.lastNBestFitnesses stopAfterNGenerationsWithoutBetterResult
    if stopped then none
    else
      generationStep R populationSize stopAfterNGenerationsWithoutBetterResult assetData
        investmentLimit { st with generation := st.generation + 1 }

/-- The best fitness of generation `g`: the fitness of `population[0]` after the sort. -/
def bestFitness (R : ℚ → ℚ) (populationSize stopAfterNGenerationsWithoutBetterResult : ℕ)
    (assetData : JSMap AssetData) (investmentLimit : ℚ) (rng : RandomSource) (g : ℕ) :
    Option BigNumber :=
  (generationState R populationSize stopAfterNGenerationsWithoutBetterResult assetData
    investmentLimit rng g).bind (fun st => st.population.head?.map (fun best => best.fitness))

/-- The best individual of generation `g`: `population[0]` after the sort. -/
def bestIndividual (R : ℚ → ℚ) (populationSize stopAfterNGenerationsWithoutBetterResult : ℕ)
    (assetData : JSMap AssetData) (investmentLimit : ℚ) (rng : RandomSource) (g : ℕ) :
    Option InvestmentStrategy :=
  (generationState R populationSize stopAfterNGenerationsWithoutBetterResult assetData
    investmentLimit rng g).bind (fun st => st.population.head?)

end StrategyPopulationManager

/-! ## `ui.js` and `init.js` -/

namespace UI

/-- The constant `PERCENT_SIGN` of `init.js`. -/
def PERCENT_SIGN : Char := '%'

/-- The constant `CURRENCY_SIGN` of `init.js`. -/
def CURRENCY_SIGN : Char := '$'

/-- The constant `GROUP_SEPARATOR` of `init.js`. -/
def GROUP_SEPARATOR : Char := ','

/-- JavaScript `str.replace(/^c/, '')` for a character `c`: a leading `c` is removed. -/
def replaceLeading (c : Char) : List Char → List Char
  | [] => []
  | x :: rest => if x = c then rest else x :: rest

/-- JavaScript `str.replace(/c$/, '')` for a character `c`: a trailing `c` is removed. -/
def replaceTrailing (c : Char) (str : List Char) : List Char :=
  if str.getLast? = some c then str.dropLast else str

/-- JavaScript `str.replace(/c/, '')` for a character `c`: a regular expression without
the flag `g` replaces the first match only. -/
def replaceFirst (c : Char) (str : List Char) : List Char := str.erase c

/-- The function `normalizeNumericString` of `ui.js`, for a string argument: the three
regular expressions are applied in turn. -/
def normalizeNumericString (str : String) : String :=
  ⟨replaceFirst GROUP_SEPARATOR
    (replaceTrailing PERCENT_SIGN (replaceLeading CURRENCY_SIGN str.data))⟩

end UI

/-! ## Quantities the specification names -/

/-- One asset of a strategy together with its catalog entry and the number of
shares the strategy buys of it. -/
structure Position where
  name : String
  asset : AssetData
  shares : ℚ

namespace Spec

/-- The strategy map that buys `p.shares` shares of `p.name` for every position. -/
def strategyOf (ps : List Position) : Strategy :=
  ⟨ps.map (fun p => (p.name, JSValue.number p.shares))⟩

/-- The positions are those of a `Map` (no name twice) and carry the catalog's
data for their asset. -/
def Covers (assetData : JSMap AssetData) (ps : List Position) : Prop :=
  (ps.map Position.name).Nodup ∧ ∀ p ∈ ps, assetData.get p.name = some p.asset

/-- Projected investment of one asset: share price times shares count. -/
def projectedInvestment (p : Position) : ℚ := p.asset.currentSharePrice * p.shares

/-- Total projected investment of a strategy. -/
def totalProjected (ps : List Position) : ℚ := (ps.map projectedInvestment).sum

/-- Sum of the current values of all assets of the catalog. -/
def currentValueSum (assetData : JSMap AssetData) : ℚ :=
  (assetData.entries.map (fun e => e.2.currentTotalValue)).sum

/-- Projected total value: current holdings plus the money about to be invested. -/
def projectedTotalValue (assetData : JSMap AssetData) (ps : List Position) : ℚ :=
  currentValueSum assetData + totalProjected ps

/-- Value of one asset after the purchase. -/
def newValue (p : Position) : ℚ := p.asset.currentTotalValue + projectedInvestment p

/-- Post-purchase percentage of one asset in exact arithmetic. -/
def exactPercentage (V : ℚ) (p : Position) : ℚ := 100 * newValue p / V

/-- Post-purchase percentage of one asset as the program computes it: the quotient
is rounded by `R`, then multiplied by 100. -/
def newPercentage (R : ℚ → ℚ) (V : ℚ) (p : Position) : ℚ := R (newValue p / V) * 100

/-- Sum over the assets of the distance between target and computed percentage. -/
def totalDiff (R : ℚ → ℚ) (V : ℚ) (ps : List Position) : ℚ :=
  (ps.map (fun p => |p.asset.targetPercentage - newPercentage R V p|)).sum

/-- Share of the budget left unspent, in percent, as the program computes it. -/
def unspentPenalty (R : ℚ → ℚ) (T budget : ℚ) : ℚ := 100 - R (T / budget) * 100

/-- The fitness of a within-budget strategy as the specification writes it, in exact
arithmetic. -/
def exactFitness (V budget : ℚ) (ps : List Position) : ℚ :=
  (ps.map (fun p => |p.asset.targetPercentage - exactPercentage V p|)).sum
    + (100 - 100 * totalProjected ps / budget)

/-- The row of the report for one position as the specification writes it, in exact
arithmetic: `S` is the sum of the current values, `V` the projected total value. -/
def exactRow (S V : ℚ) (p : Position) : StrategyData :=
  { assetName := p.name
    targetPercentage := .fin p.asset.targetPercentage
    currentTotalValue := .fin p.asset.currentTotalValue
    currentSharePrice := .fin p.asset.currentSharePrice
    currentPercentage := .fin (if S = 0 then 0 else 100 * p.asset.currentTotalValue / S)
    sharesCount := .number p.shares
    rebalancedPercentage := .fin (if V = 0 then 0 else 100 * newValue p / V)
    projectedInvestment := some (.fin (projectedInvestment p)) }

/-- The report as the specification writes it, in exact arithmetic. -/
def exactStats (assetData : JSMap AssetData) (ps : List Position) : StrategyStats :=
  { stats := ps.map (exactRow (currentValueSum assetData) (projectedTotalValue assetData ps))
    totalProjectedInvestment := .fin (totalProjected ps) }

/-- The row of the report for one position with both quotients rounded by `R` before
the multiplication by 100. -/
def roundedRow (R : ℚ → ℚ) (S V : ℚ) (p : Position) : StrategyData :=
  { assetName := p.name
    targetPercentage := .fin p.asset.targetPercentage
    currentTotalValue := .fin p.asset.currentTotalValue
    currentSharePrice := .fin p.asset.currentSharePrice
    currentPercentage := .fin (if S = 0 then 0 else R (p.asset.currentTotalValue / S) * 100)
    sharesCount := .number p.shares
    rebalancedPercentage := .fin (if V = 0 then 0 else R (newValue p / V) * 100)
    projectedInvestment := some (.fin (projectedInvestment p)) }

/-- The report with the quotients rounded by `R`. -/
def roundedStats (R : ℚ → ℚ) (assetData : JSMap AssetData) (ps : List Position) :
    StrategyStats :=
  { stats := ps.map
      (roundedRow R (currentValueSum assetData) (projectedTotalValue assetData ps))
    totalProjectedInvestment := .fin (totalProjected ps) }

/-- Exact arithmetic: the quotient of a division is not rounded. -/
def exact : ℚ → ℚ := fun q => q

/-- The sum of a list of values, added up with `plus` from 0. -/
def sumOf (values : List BigNumber) : BigNumber :=
  values.foldl (fun partialSum a => partialSum.plus a) (.fin 0)

/-- A valid catalog: distinct names, target percentages in (0, 100] that sum to 100,
current values >= 0 and share prices > 0. -/
def ValidCatalog (assetData : JSMap AssetData) : Prop :=
  assetData.WF
    ∧ (∀ e ∈ assetData.entries, 0 < e.2.targetPercentage ∧ e.2.targetPercentage ≤ 100
        ∧ 0 ≤ e.2.currentTotalValue ∧ 0 < e.2.currentSharePrice)
    ∧ (assetData.entries.map (fun e => e.2.targetPercentage)).sum = 100

/-- A feasible strategy: non-negative share counts and a total projected investment
within the budget. -/
def Feasible (budget : ℚ) (ps : List Position) : Prop :=
  (∀ p ∈ ps, 0 ≤ p.shares) ∧ totalProjected ps ≤ budget

/-- The positions name every asset of the catalog once, in catalog order. -/
def CoversAll (assetData : JSMap AssetData) (ps : List Position) : Prop :=
  assetData.entries = ps.map (fun p => (p.name, p.asset))

/-- The gene that `setRandomSharesCountForAssetToStrategy` may set for an asset: an
integer between 0 and `floor(investmentLimit / currentSharePrice)`. -/
def RandomGene (assetData : JSMap AssetData) (investmentLimit : ℚ) (assetName : String)
    (v : JSValue) : Prop :=
  ∃ (asset : AssetData) (n : ℤ), assetData.get assetName = some asset
    ∧ v = .number (n : ℚ) ∧ 0 ≤ n ∧ n ≤ ⌊investmentLimit / asset.currentSharePrice⌋

/-- A strategy over exactly the catalog's assets whose every gene is within the bounds
of a random gene. -/
def InBounds (assetData : JSMap AssetData) (investmentLimit : ℚ) (strategy : Strategy) : Prop :=
  strategy.keys = assetData.keys
    ∧ ∀ k ∈ assetData.keys, ∃ v, strategy.get k = some v
        ∧ RandomGene assetData investmentLimit k v

/-- The best fitnesses of the generations 1 to `g`, in generation order. -/
def bestHistory (R : ℚ → ℚ) (populationSize stopAfterNGenerationsWithoutBetterResult : ℕ)
    (assetData : JSMap AssetData) (investmentLimit : ℚ) (rng : RandomSource) (g : ℕ) :
    List (Option BigNumber) :=
  (List.range g).map (fun i => StrategyPopulationManager.bestFitness R populationSize
    stopAfterNGenerationsWithoutBetterResult assetData investmentLimit rng (i + 1))

/-- A property `G` of strategies and a property `F` of fitness values are kept by
the program: a created strategy has `G`, the child of two parents with `G` has `G`,
and the fitness of a strategy with `G` is computed and has `F`. -/
def Kept (R : ℚ → ℚ) (assetData : JSMap AssetData) (investmentLimit : ℚ)
    (G : Strategy → Prop) (F : BigNumber → Prop) : Prop :=
  (∀ rng, ∃ strategy rng1,
      InvestmentStrategyManager.createStrategy assetData investmentLimit rng
        = some (strategy, rng1) ∧ G strategy)
    ∧ (∀ parent1 parent2 rng, G parent1 → G parent2 → ∃ child rng1,
        InvestmentStrategyManager.mateStrategies parent1 parent2 assetData investmentLimit rng
          = some (child, rng1) ∧ G child)
    ∧ (∀ strategy, G strategy → ∃ f,
        InvestmentStrategyManager.calculateStrategyFitness R strategy assetData investmentLimit
          = some f ∧ F f)

/-- An individual whose strategy has `G` and whose stored fitness is the fitness of its
strategy and has `F`. -/
def Sound (R : ℚ → ℚ) (assetData : JSMap AssetData) (investmentLimit : ℚ)
    (G : Strategy → Prop) (F : BigNumber → Prop) (a : InvestmentStrategy) : Prop :=
  G a.strategy
    ∧ InvestmentStrategyManager.calculateStrategyFitness R a.strategy assetData investmentLimit
        = some a.fitness
    ∧ F a.fitness

/-- The intermediate messages of the generations 1 to `g`, in generation order. -/
def intermediateMessages (R : ℚ → ℚ)
    (populationSize stopAfterNGenerationsWithoutBetterResult : ℕ)
    (assetData : JSMap AssetData) (investmentLimit : ℚ) (rng : RandomSource) (g : ℕ) :
    List (Option Message) :=
  (List.range g).map (fun k =>
    (StrategyPopulationManager.bestIndividual R populationSize
      stopAfterNGenerationsWithoutBetterResult assetData investmentLimit rng (k + 1)).map
      (Message.intermediate (k + 1)))

/-- The loop of `runWorker` is about to run generation `g + 1` from the state `pre`:
either nothing has run yet, or generation `g` has run and `stop` returned `false`. -/
def LoopEntry (R : ℚ → ℚ) (populationSize stopAfterNGenerationsWithoutBetterResult : ℕ)
    (assetData : JSMap AssetData) (investmentLimit : ℚ) (rng : RandomSource) (g : ℕ)
    (pre : WorkerState) : Prop :=
  (g = 0 ∧ pre = StrategyPopulationManager.initialState rng)
    ∨ ∃ st, StrategyPopulationManager.generationState R populationSize
          stopAfterNGenerationsWithoutBetterResult assetData investmentLimit rng g = some st
        ∧ StrategyPopulationManager.stop st.lastNBestFitnesses
            stopAfterNGenerationsWithoutBetterResult = some false
        ∧ pre = { st with generation := st.generation + 1 }

/-- One pass of the mating loop from the source `rng`, as the specification describes
it: the first two draws pick the parents at the indices
`Math.floor(Math.random() * half)`, both below `half` and both individuals of the first
`half` of the population; the child's strategy is what `mateStrategies` returns for
them from the draws that follow, `rng1` being the source left; the child's fitness is
what `calculateStrategyFitness` returns for that strategy. -/
def Mated (R : ℚ → ℚ) (assetData : JSMap AssetData) (investmentLimit : ℚ)
    (population : List InvestmentStrategy) (half : ℕ) (rng : RandomSource)
    (child : InvestmentStrategy) (rng1 : RandomSource) : Prop :=
  ∃ parent1 parent2 : InvestmentStrategy,
    StrategyPopulationManager.parentIndex (rng 0).val half < half
      ∧ StrategyPopulationManager.parentIndex (rng 1).val half < half
      ∧ population[StrategyPopulationManager.parentIndex (rng 0).val half]? = some parent1
      ∧ population[StrategyPopulationManager.parentIndex (rng 1).val half]? = some parent2
      ∧ parent1 ∈ population.take half ∧ parent2 ∈ population.take half
      ∧ InvestmentStrategyManager.mateStrategies parent1.strategy parent2.strategy assetData
          investmentLimit (fun n => rng (n + 2)) = some (child.strategy, rng1)
      ∧ InvestmentStrategyManager.calculateStrategyFitness R child.strategy assetData
          investmentLimit = some child.fitness

/-- The children of consecutive passes of the mating loop, in order: the first pass
starts from the source `rng`, every later pass from the source the pass before it left,
and `rng1` is the source left by the last pass. -/
def Offspring (R : ℚ → ℚ) (assetData : JSMap AssetData) (investmentLimit : ℚ)
    (population : List InvestmentStrategy) (half : ℕ) :
    List InvestmentStrategy → RandomSource → RandomSource → Prop
  | [], rng, rng1 => rng1 = rng
  | child :: rest, rng, rng1 =>
    ∃ next, Mated R assetData investmentLimit population half rng child next
      ∧ Offspring R assetData investmentLimit population half rest next rng1

/-- Two fitness values are numerically equal: the same value, which is not `NaN`. -/
def NumericallyEqual (x y : BigNumber) : Prop := x ≠ .nan ∧ x = y

end Spec

/-! ## Concrete inputs -/

namespace Example

/-- The catalog of the specification's scenarios: A and B, target 50 %, no holdings,
share price 10. -/
def catalogAB : JSMap AssetData := ⟨[("A", ⟨50, 0, 10⟩), ("B", ⟨50, 0, 10⟩)]⟩

/-- The strategy buying `a` shares of A and `b` shares of B from `catalogAB`. -/
def buyAB (a b : ℚ) : List Position := [⟨"A", ⟨50, 0, 10⟩, a⟩, ⟨"B", ⟨50, 0, 10⟩, b⟩]

/-- A portfolio worth 2097151 with a position of 1 in A; the targets are the
percentages reached by buying one share of B. -/
def catalogFine : JSMap AssetData :=
  ⟨[("A", ⟨0.0000476837158203125, 1, 1⟩), ("B", ⟨99.9999523162841796875, 2097150, 1⟩)]⟩

/-- The strategy buying one share of B from `catalogFine`. -/
def buyFine : List Position :=
  [⟨"A", ⟨0.0000476837158203125, 1, 1⟩, 0⟩, ⟨"B", ⟨99.9999523162841796875, 2097150, 1⟩, 1⟩]

/-- A single asset whose share costs a little less than the budget of 1. -/
def catalogNear : JSMap AssetData := ⟨[("A", ⟨100, 0, 0.999999999999999999999⟩)]⟩

/-- The strategy buying one share from `catalogNear`. -/
def buyNear : List Position := [⟨"A", ⟨100, 0, 0.999999999999999999999⟩, 1⟩]

/-- Two assets with share prices 1 and 2. -/
def catalogThirds : JSMap AssetData := ⟨[("A", ⟨50, 0, 1⟩), ("B", ⟨50, 0, 2⟩)]⟩

/-- The strategy buying one share of each asset of `catalogThirds`. -/
def buyThirds : List Position := [⟨"A", ⟨50, 0, 1⟩, 1⟩, ⟨"B", ⟨50, 0, 2⟩, 1⟩]

/-- The draw 1/2. -/
def half : Draw :=
  ⟨1 / 2, by norm_num, by norm_num, 1, -1, by norm_num, by norm_num, by norm_num⟩

/-- The draw 0. -/
def zero : Draw :=
  ⟨0, le_refl 0, by norm_num, 0, 0, by norm_num, by norm_num, by norm_num⟩

/-- The draw 0.6: the double 5404319552844595 / 2^53 that the literal `0.6` denotes. -/
def threeFifths : Draw :=
  ⟨5404319552844595 / 2 ^ 53, by norm_num, by norm_num,
    5404319552844595, -53, by norm_num, by norm_num, by norm_num⟩

/-- A source that returns the same draw for ever. -/
def constantDraws (d : Draw) : RandomSource := fun _ => d

/-- A parent strategy with one share of A and one of B. -/
def parentOnes : Strategy := ⟨[("A", .number 1), ("B", .number 1)]⟩

/-- A parent strategy with two shares of A and two of B. -/
def parentTwos : Strategy := ⟨[("A", .number 2), ("B", .number 2)]⟩

/-- A source whose first two draws are 0 and whose later draws are 1/2. -/
def zerosThenHalves : RandomSource := fun n => if n < 2 then zero else half

end Example

namespace Example

/-- Two assets held at the values 1 and 2. -/
def catalogHeld : JSMap AssetData := ⟨[("A", ⟨50, 1, 1⟩), ("B", ⟨50, 2, 1⟩)]⟩

/-- The strategy buying nothing from `catalogHeld`. -/
def buyHeld : List Position := [⟨"A", ⟨50, 1, 1⟩, 0⟩, ⟨"B", ⟨50, 2, 1⟩, 0⟩]

/-- Three assets held at the value 1 each. -/
def catalogTriple : JSMap AssetData :=
  ⟨[("A", ⟨33.33, 1, 1⟩), ("B", ⟨33.33, 1, 1⟩), ("C", ⟨33.34, 1, 1⟩)]⟩

/-- The strategy buying nothing from `catalogTriple`. -/
def buyTriple : List Position :=
  [⟨"A", ⟨33.33, 1, 1⟩, 0⟩, ⟨"B", ⟨33.33, 1, 1⟩, 0⟩, ⟨"C", ⟨33.34, 1, 1⟩, 0⟩]

/-- The draw 1/4. -/
def quarter : Draw :=
  ⟨1 / 4, by norm_num, by norm_num, 1, -2, by norm_num, by norm_num, by norm_num⟩

/-- The individual that buys nothing from `catalogAB`, with the fitness `NaN` that
`calculateStrategyFitness` gives it. -/
def nothingBought : InvestmentStrategy := ⟨Spec.strategyOf (buyAB 0 0), .nan⟩

/-- A budget and a class `P` of sources of draws under which `createStrategy` and
`mateStrategies` only ever produce the strategy that buys nothing from `catalogAB`. -/
def Barren (investmentLimit : ℚ) (P : RandomSource → Prop) : Prop :=
  0 ≤ investmentLimit
    ∧ (∀ rng, P rng → P (Math.random rng).2)
    ∧ (∀ rng, P rng → ∃ rng1, P rng1
        ∧ InvestmentStrategyManager.createStrategy catalogAB investmentLimit rng
          = some (Spec.strategyOf (buyAB 0 0), rng1))
    ∧ (∀ rng, P rng → ∃ rng1, P rng1
        ∧ InvestmentStrategyManager.mateStrategies (Spec.strategyOf (buyAB 0 0))
            (Spec.strategyOf (buyAB 0 0)) catalogAB investmentLimit rng
          = some (Spec.strategyOf (buyAB 0 0), rng1))

/-- A state of the loop of `runWorker` in which every best fitness so far is `NaN`, the
source of draws is in the class `P`, and the population is either still empty, before
generation 1, or made of copies of `nothingBought`, at least as many as the fittest
half takes. -/
def Stuck (P : RandomSource → Prop) (populationSize : ℕ) (st : WorkerState) : Prop :=
  (∀ f ∈ st.lastNBestFitnesses, f = BigNumber.nan)
    ∧ P st.rng
    ∧ ((st.generation = 1 ∧ st.population = [])
      ∨ (2 ≤ st.generation ∧ ∃ m, 50 * populationSize / 100 ≤ m
          ∧ st.population = List.replicate m nothingBought))

/-- The draw 3/8. -/
def threeEighths : Draw :=
  ⟨3 / 8, by norm_num, by norm_num, 3, -3, by norm_num, by norm_num, by norm_num⟩

/-- A source that returns the draws of a list, in order, and then the same draw for
ever. -/
def drawsFrom (draws : List Draw) (d : Draw) : RandomSource := fun n => draws.getD n d

/-- A source under which a run with two individuals improves twice: four draws 1/4
create two individuals that buy 3 shares of each asset; two draws pick the parents of
the only child of generation 2 and the draws 1/2, 3/8, 1/2, 3/8 mutate both its genes
to 4; two draws pick the parents of the only child of generation 3 and the draws 1/2
that follow mutate both its genes to 5. -/
def climbing : RandomSource :=
  drawsFrom [quarter, quarter, quarter, quarter, quarter, quarter, half, threeEighths, half,
    threeEighths, quarter, quarter] half

/-- A source whose draws are 1/4, 1/4, 0, 0 and then 1/2 for ever. -/
def quartersZerosThenHalves : RandomSource :=
  fun n => if n < 2 then quarter else if n < 4 then zero else half

end Example

/-! ## Doubles -/

theorem log_eq (q : ℚ) (k : ℤ) (h1 : (2 : ℚ) ^ k ≤ |q|) (h2 : |q| < 2 ^ (k + 1)) :
    Int.log 2 |q| = k := by
  have hpos : 0 < |q| := lt_of_lt_of_le (by positivity) h1
  have a := (Int.zpow_le_iff_le_log (R := ℚ) (b := 2) (by norm_num) hpos (x := k)).mp
    (by simpa using h1)
  have b := (Int.lt_zpow_iff_log_lt (R := ℚ) (b := 2) (by norm_num) hpos (x := k + 1)).mp
    (by simpa using h2)
  omega

theorem exponent_eq (q : ℚ) (k : ℤ) (h1 : (2 : ℚ) ^ k ≤ |q|) (h2 : |q| < 2 ^ (k + 1)) :
    Double.exponent q = max (k - 52) (-1074) := by
  unfold Double.exponent
  rw [log_eq q k h1 h2]

theorem round_eq (q : ℚ) (k : ℤ) (h1 : (2 : ℚ) ^ k ≤ |q|) (h2 : |q| < 2 ^ (k + 1))
    (hk : -1022 ≤ k) :
    Double.round q = (Double.roundHalfEven (q / 2 ^ (k - 52)) : ℚ) * 2 ^ (k - 52) := by
  unfold Double.round
  rw [exponent_eq q k h1 h2, max_eq_left (by omega)]

theorem round_eq_pos (q : ℚ) (k : ℤ) (h1 : (2 : ℚ) ^ k ≤ q) (h2 : q < 2 ^ (k + 1))
    (hk : -1022 ≤ k) :
    Double.round q = (Double.roundHalfEven (q / 2 ^ (k - 52)) : ℚ) * 2 ^ (k - 52) := by
  have hpos : 0 < q := lt_of_lt_of_le (by positivity) h1
  exact round_eq q k (by rwa [abs_of_pos hpos]) (by rwa [abs_of_pos hpos]) hk

theorem roundHalfEven_cases (s : ℚ) :
    ((Double.roundHalfEven s : ℚ) = ⌊s⌋ ∧ s - ⌊s⌋ ≤ 1 / 2)
      ∨ ((Double.roundHalfEven s : ℚ) = ⌊s⌋ + 1 ∧ 1 / 2 ≤ s - ⌊s⌋) := by
  unfold Double.roundHalfEven
  by_cases h1 : s - ⌊s⌋ < 1 / 2
  · left
    simp only [h1, if_true]
    exact ⟨trivial, le_of_lt h1⟩
  · by_cases h2 : 1 / 2 < s - ⌊s⌋
    · right
      simp only [h1, h2, if_true, if_false]
      exact ⟨by push_cast; rfl, le_of_lt h2⟩
    · have heq : s - ⌊s⌋ = 1 / 2 := le_antisymm (not_lt.mp h2) (not_lt.mp h1)
      by_cases h3 : ⌊s⌋ % 2 = 0
      · left
        simp only [h1, h2, h3, if_true, if_false]
        exact ⟨trivial, le_of_eq heq⟩
      · right
        simp only [h1, h2, h3, if_false]
        exact ⟨by push_cast; rfl, le_of_eq heq.symm⟩

theorem roundHalfEven_nearest (s : ℚ) (k : ℤ) :
    |(Double.roundHalfEven s : ℚ) - s| ≤ |(k : ℚ) - s| := by
  have hf1 : (⌊s⌋ : ℚ) ≤ s := Int.floor_le s
  have hf2 : s < (⌊s⌋ : ℚ) + 1 := Int.lt_floor_add_one s
  have hk : k ≤ ⌊s⌋ ∨ ⌊s⌋ + 1 ≤ k := by omega
  have hd : s - ⌊s⌋ ≤ |(k : ℚ) - s| ∨ (⌊s⌋ : ℚ) + 1 - s ≤ |(k : ℚ) - s| := by
    rcases hk with h | h
    · left
      have : (k : ℚ) ≤ ⌊s⌋ := by exact_mod_cast h
      rw [abs_sub_comm, abs_of_nonneg (by linarith)]
      linarith
    · right
      have : (⌊s⌋ : ℚ) + 1 ≤ k := by exact_mod_cast h
      rw [abs_of_nonneg (by linarith)]
      linarith
  rcases roundHalfEven_cases s with ⟨h, hle⟩ | ⟨h, hle⟩
  · rw [h, abs_sub_comm, abs_of_nonneg (by linarith)]
    rcases hd with h1 | h1 <;> linarith
  · rw [h, abs_of_nonneg (by linarith)]
    rcases hd with h1 | h1 <;> linarith

theorem roundHalfEven_int (k : ℤ) : Double.roundHalfEven (k : ℚ) = k := by
  have h := roundHalfEven_nearest (k : ℚ) k
  simp only [sub_self, abs_zero, abs_nonpos_iff] at h
  have : (Double.roundHalfEven (k : ℚ) : ℚ) = k := by linarith
  exact_mod_cast this

theorem exponent_ge (q : ℚ) : -1074 ≤ Double.exponent q := le_max_right _ _

theorem abs_lt_of_exponent (q : ℚ) : |q| < 2 ^ (Double.exponent q + 53) := by
  have h := Int.lt_zpow_succ_log_self (R := ℚ) (b := 2) (by norm_num) |q|
  have h2 : Int.log 2 |q| + 1 ≤ Double.exponent q + 53 := by
    have := le_max_left (Int.log 2 |q| - 52) (-1074)
    unfold Double.exponent
    omega
  calc |q| < (2 : ℚ) ^ (Int.log 2 |q| + 1) := by simpa using h
    _ ≤ 2 ^ (Double.exponent q + 53) := zpow_le_zpow_right₀ (by norm_num) h2

theorem le_abs_of_exponent (q : ℚ) (hne : q ≠ 0) (h : -1074 < Double.exponent q) :
    (2 : ℚ) ^ (Double.exponent q + 52) ≤ |q| := by
  have hlog : Double.exponent q = Int.log 2 |q| - 52 := by
    unfold Double.exponent at h ⊢
    rcases max_cases (Int.log 2 |q| - 52) (-1074) with ⟨h1, _⟩ | ⟨h1, _⟩
    · exact h1
    · rw [h1] at h; omega
  have hq : 0 < |q| := abs_pos.mpr hne
  have := Int.zpow_log_le_self (R := ℚ) (b := 2) (by norm_num) hq
  rw [hlog, show Int.log 2 |q| - 52 + 52 = Int.log 2 |q| from by ring]
  simpa using this

theorem isValue_round (q : ℚ) : Double.IsValue (Double.round q) := by
  refine ⟨Double.roundHalfEven (q / 2 ^ Double.exponent q), Double.exponent q, ?_,
    exponent_ge q, rfl⟩
  have hpos : (0 : ℚ) < 2 ^ Double.exponent q := by positivity
  have hs : |q / 2 ^ Double.exponent q| < 2 ^ 53 := by
    rw [abs_div, abs_of_pos hpos, div_lt_iff₀ hpos]
    have := abs_lt_of_exponent q
    rw [zpow_add₀ (by norm_num)] at this
    calc |q| < 2 ^ Double.exponent q * 2 ^ (53 : ℤ) := this
      _ = 2 ^ 53 * 2 ^ Double.exponent q := by rw [mul_comm]; norm_cast
  have h1 := roundHalfEven_nearest (q / 2 ^ Double.exponent q) (2 ^ 53)
  have h2 := roundHalfEven_nearest (q / 2 ^ Double.exponent q) (-2 ^ 53)
  have h3 := abs_lt.mp hs
  have : |(Double.roundHalfEven (q / 2 ^ Double.exponent q) : ℚ)| ≤ 2 ^ 53 := by
    push_cast at h1 h2
    rw [abs_le]
    constructor
    · by_contra hc
      push_neg at hc
      rw [abs_of_nonpos (by linarith), abs_of_nonpos (by linarith)] at h2
      linarith
    · by_contra hc
      push_neg at hc
      rw [abs_of_nonneg (by linarith), abs_of_nonneg (by linarith)] at h1
      linarith
  exact_mod_cast this

theorem abs_sub_le_of_between (t a x : ℚ) (h : (t ≤ a ∧ a ≤ x) ∨ (x ≤ a ∧ a ≤ t)) :
    |a - x| ≤ |t - x| := by
  rcases h with ⟨h1, h2⟩ | ⟨h1, h2⟩
  · rw [abs_sub_comm a, abs_sub_comm t, abs_of_nonneg (by linarith),
      abs_of_nonneg (by linarith)]
    linarith
  · rw [abs_of_nonneg (by linarith), abs_of_nonneg (by linarith)]
    linarith

theorem round_zero : Double.round 0 = 0 := by
  simp [Double.round, Double.roundHalfEven]

/-- The nearest double. -/
theorem round_nearest (q d : ℚ) (hd : Double.IsValue d) : |Double.round q - q| ≤ |d - q| := by
  rcases eq_or_ne q 0 with rfl | hq0
  · rw [round_zero]
    simp
  obtain ⟨m, e', hm, he', rfl⟩ := hd
  have hpos : (0 : ℚ) < 2 ^ Double.exponent q := by positivity
  -- scale by the unit in the last place
  have hscale : ∀ x : ℚ, |x * 2 ^ Double.exponent q - q|
      = |x - q / 2 ^ Double.exponent q| * 2 ^ Double.exponent q := by
    intro x
    rw [← abs_of_pos hpos, ← abs_mul, abs_of_pos hpos, sub_mul, div_mul_cancel₀ _ (ne_of_gt hpos)]
  unfold Double.round
  rw [hscale]
  by_cases hle : Double.exponent q ≤ e'
  · -- `d` is a multiple of the unit
    obtain ⟨j, hj⟩ : ∃ j : ℕ, e' = Double.exponent q + j :=
      ⟨(e' - Double.exponent q).toNat, by omega⟩
    have hd2 : (m : ℚ) * 2 ^ e' = ((m * 2 ^ j : ℤ) : ℚ) * 2 ^ Double.exponent q := by
      rw [hj, zpow_add₀ (by norm_num)]
      push_cast
      rw [zpow_natCast]
      ring
    rw [hd2, hscale]
    exact mul_le_mul_of_nonneg_right (roundHalfEven_nearest _ _) (le_of_lt hpos)
  · -- `d` is below the binade of `q`
    push_neg at hle
    have hbig := le_abs_of_exponent q hq0 (by omega)
    have hs : (2 : ℚ) ^ 52 ≤ |q / 2 ^ Double.exponent q| := by
      rw [abs_div, abs_of_pos hpos, le_div_iff₀ hpos]
      rw [zpow_add₀ (by norm_num)] at hbig
      calc (2 : ℚ) ^ 52 * 2 ^ Double.exponent q
          = 2 ^ Double.exponent q * 2 ^ (52 : ℤ) := by rw [mul_comm]; norm_cast
        _ ≤ |q| := hbig
    have hd2 : (m : ℚ) * 2 ^ e'
        = ((m : ℚ) * 2 ^ (e' - Double.exponent q)) * 2 ^ Double.exponent q := by
      rw [mul_assoc, ← zpow_add₀ (by norm_num)]
      congr 2
      ring
    have ht : |(m : ℚ) * 2 ^ (e' - Double.exponent q)| ≤ 2 ^ 52 := by
      have h1 : (2 : ℚ) ^ (e' - Double.exponent q) ≤ 2 ^ (-1 : ℤ) :=
        zpow_le_zpow_right₀ (by norm_num) (by omega)
      have h2 : |(m : ℚ)| ≤ 2 ^ 53 := by exact_mod_cast hm
      have h3 : (0 : ℚ) < 2 ^ (e' - Double.exponent q) := by positivity
      rw [abs_mul, abs_of_pos h3]
      calc |(m : ℚ)| * 2 ^ (e' - Double.exponent q) ≤ 2 ^ 53 * 2 ^ (-1 : ℤ) :=
            mul_le_mul h2 h1 (le_of_lt h3) (by norm_num)
        _ = 2 ^ 52 := by norm_num
    rw [hd2, hscale]
    apply mul_le_mul_of_nonneg_right _ (le_of_lt hpos)
    have ht2 := abs_le.mp ht
    rcases le_or_lt 0 (q / 2 ^ Double.exponent q) with hsign | hsign
    · rw [abs_of_nonneg hsign] at hs
      have h := roundHalfEven_nearest (q / 2 ^ Double.exponent q) (2 ^ 52)
      refine le_trans h ?_
      push_cast
      exact abs_sub_le_of_between _ _ _ (Or.inl ⟨ht2.2, hs⟩)
    · rw [abs_of_neg hsign] at hs
      have h := roundHalfEven_nearest (q / 2 ^ Double.exponent q) (-2 ^ 52)
      refine le_trans h ?_
      push_cast
      exact abs_sub_le_of_between _ _ _ (Or.inr ⟨by linarith, ht2.1⟩)

theorem round_of_isValue (q : ℚ) (h : Double.IsValue q) : Double.round q = q := by
  have := round_nearest q q h
  simp only [sub_self, abs_zero, abs_nonpos_iff] at this
  linarith

theorem mid_le_of_nearer (a b x : ℚ) (hab : a < b) (h : |b - x| ≤ |a - x|) :
    (a + b) / 2 ≤ x := by
  by_contra hc
  push_neg at hc
  rcases le_or_lt x a with hx | hx
  · rw [abs_of_nonneg (by linarith), abs_of_nonneg (by linarith)] at h
    linarith
  · rw [abs_of_nonneg (by linarith), abs_sub_comm, abs_of_nonneg (by linarith)] at h
    linarith

theorem le_mid_of_nearer (a b x : ℚ) (hab : a < b) (h : |a - x| ≤ |b - x|) :
    x ≤ (a + b) / 2 := by
  by_contra hc
  push_neg at hc
  rcases le_or_lt b x with hx | hx
  · rw [abs_sub_comm, abs_of_nonneg (by linarith), abs_sub_comm b,
      abs_of_nonneg (by linarith)] at h
    linarith
  · rw [abs_sub_comm, abs_of_nonneg (by linarith), abs_of_nonneg (by linarith)] at h
    linarith

theorem round_mono (p q : ℚ) (h : p ≤ q) : Double.round p ≤ Double.round q := by
  by_contra hc
  push_neg at hc
  have h1 := mid_le_of_nearer _ _ p hc (round_nearest p (Double.round q) (isValue_round q))
  have h2 := le_mid_of_nearer _ _ q hc (round_nearest q (Double.round p) (isValue_round p))
  have hpq : p = q := le_antisymm h (by linarith)
  rw [hpq] at hc
  exact lt_irrefl _ hc

theorem round_nonneg (q : ℚ) (h : 0 ≤ q) : 0 ≤ Double.round q := by
  have := round_mono 0 q h
  rwa [round_zero] at this

theorem isValue_int (n : ℤ) (h : |n| ≤ 2 ^ 53) : Double.IsValue (n : ℚ) :=
  ⟨n, 0, h, by norm_num, by simp⟩

theorem isValue_nat (n : ℕ) (h : n ≤ 2 ^ 53) : Double.IsValue (n : ℚ) :=
  ⟨n, 0, by simpa using h, by norm_num, by simp⟩

theorem isValue_lt_one (r : ℚ) (hr : Double.IsValue r) (h1 : r < 1) :
    r ≤ 1 - 1 / 2 ^ 53 := by
  obtain ⟨m, e, hm, he, rfl⟩ := hr
  rcases le_or_lt 0 e with he0 | he0
  · -- an integer below 1
    obtain ⟨j, rfl⟩ : ∃ j : ℕ, e = j := ⟨e.toNat, by omega⟩
    have hcast : (m : ℚ) * 2 ^ (j : ℤ) = ((m * 2 ^ j : ℤ) : ℚ) := by
      push_cast
      rw [zpow_natCast]
    rw [hcast] at h1 ⊢
    have h2 : m * 2 ^ j < 1 := by exact_mod_cast h1
    have h3 : ((m * 2 ^ j : ℤ) : ℚ) ≤ 0 := by exact_mod_cast (by omega : m * 2 ^ j ≤ 0)
    have : (0 : ℚ) ≤ 1 - 1 / 2 ^ 53 := by norm_num
    linarith
  · obtain ⟨j, rfl⟩ : ∃ j : ℕ, e = -(j : ℤ) := ⟨(-e).toNat, by omega⟩
    have hcast : (m : ℚ) * 2 ^ (-(j : ℤ)) = (m : ℚ) / 2 ^ j := by
      rw [zpow_neg, zpow_natCast, div_eq_mul_inv]
    have hpow : (0 : ℚ) < 2 ^ j := by positivity
    rw [hcast] at h1 ⊢
    rw [div_lt_one hpow] at h1
    have h2 : m < 2 ^ j := by exact_mod_cast h1
    have h3 : (m : ℚ) ≤ 2 ^ j - 1 := by
      have : m ≤ 2 ^ j - 1 := by omega
      exact_mod_cast this
    rcases le_or_lt j 53 with hj | hj
    · have h4 : (m : ℚ) / 2 ^ j ≤ 1 - 1 / 2 ^ j := by
        rw [div_le_iff₀ hpow, sub_mul, one_mul, div_mul_cancel₀ _ (ne_of_gt hpow)]
        exact h3
      have h5 : (1 : ℚ) / 2 ^ 53 ≤ 1 / 2 ^ j :=
        one_div_le_one_div_of_le hpow (pow_le_pow_right₀ (by norm_num) hj)
      linarith
    · have h4 : (m : ℚ) ≤ 2 ^ 53 := by
        have := le_trans (le_abs_self m) hm
        exact_mod_cast this
      have h5 : (2 : ℚ) ^ 54 ≤ 2 ^ j := pow_le_pow_right₀ (by norm_num) (by omega)
      have h6 : (m : ℚ) / 2 ^ j ≤ 1 / 2 := by
        rw [div_le_iff₀ hpow]
        linarith
      have : (1 : ℚ) / 2 ≤ 1 - 1 / 2 ^ 53 := by norm_num
      linarith

/-- The double below: a double `d < L` nearer to `L` than twice `L / 2^53`. -/
theorem exists_isValue_below (L : ℚ) (h1 : 1 ≤ L) :
    ∃ d, Double.IsValue d ∧ d < L ∧ L - d < 2 * (L / 2 ^ 53) := by
  have hpos : 0 < L := by linarith
  have hk0 : 0 ≤ Int.log 2 L :=
    (Int.zpow_le_iff_le_log (R := ℚ) (b := 2) (by norm_num) hpos (x := 0)).mp (by simpa using h1)
  have hlow : (2 : ℚ) ^ Int.log 2 L ≤ L := Int.zpow_log_le_self (by norm_num) hpos
  have hhigh : L < (2 : ℚ) ^ (Int.log 2 L + 1) := Int.lt_zpow_succ_log_self (by norm_num) L
  generalize Int.log 2 L = k at hk0 hlow hhigh
  have hp : (0 : ℚ) < 2 ^ (k - 53) := by positivity
  have e1 : (2 : ℚ) ^ k = 2 ^ 53 * 2 ^ (k - 53) := by
    rw [show k = 53 + (k - 53) by ring, zpow_add₀ (by norm_num)]
    norm_num
  have e2 : (2 : ℚ) ^ (k + 1) = 2 ^ 54 * 2 ^ (k - 53) := by
    rw [show k + 1 = 54 + (k - 53) by ring, zpow_add₀ (by norm_num)]
    norm_num
  have e3 : (2 : ℚ) ^ (k - 52) = 2 * 2 ^ (k - 53) := by
    rw [show k - 52 = 1 + (k - 53) by ring, zpow_add₀ (by norm_num)]
    norm_num
  rcases eq_or_lt_of_le hlow with heq | hlt
  · -- a power of two: the double below is half a unit away
    refine ⟨((2 ^ 53 - 1 : ℤ) : ℚ) * 2 ^ (k - 53), ⟨2 ^ 53 - 1, k - 53, by norm_num, by omega,
      rfl⟩, ?_, ?_⟩
    · rw [← heq, e1]
      push_cast
      nlinarith
    · rw [← heq, e1]
      push_cast
      have : (2 : ℚ) * (2 ^ 53 * 2 ^ (k - 53) / 2 ^ 53) = 2 * 2 ^ (k - 53) := by
        field_simp
      rw [this]
      nlinarith
  · -- the largest multiple of the unit below `L`
    have hu : (0 : ℚ) < 2 ^ (k - 52) := by positivity
    have hc1 : L / 2 ^ (k - 52) ≤ (⌈L / 2 ^ (k - 52)⌉ : ℚ) := Int.le_ceil _
    have hc2 : (⌈L / 2 ^ (k - 52)⌉ : ℚ) < L / 2 ^ (k - 52) + 1 := Int.ceil_lt_add_one _
    have hs1 : (2 : ℚ) ^ 52 < L / 2 ^ (k - 52) := by
      rw [lt_div_iff₀ hu, e3]
      rw [e1] at hlt
      linarith
    have hs2 : L / 2 ^ (k - 52) < 2 ^ 53 := by
      rw [div_lt_iff₀ hu, e3]
      rw [e2] at hhigh
      linarith
    have hm1 : (2 : ℤ) ^ 52 < ⌈L / 2 ^ (k - 52)⌉ := by
      have : ((2 ^ 52 : ℤ) : ℚ) < (⌈L / 2 ^ (k - 52)⌉ : ℚ) := by
        push_cast
        linarith
      exact_mod_cast this
    have hm2 : ⌈L / 2 ^ (k - 52)⌉ ≤ 2 ^ 53 := by
      rw [Int.ceil_le]
      push_cast
      linarith
    have hL : L = L / 2 ^ (k - 52) * 2 ^ (k - 52) := by field_simp
    refine ⟨((⌈L / 2 ^ (k - 52)⌉ - 1 : ℤ) : ℚ) * 2 ^ (k - 52),
      ⟨⌈L / 2 ^ (k - 52)⌉ - 1, k - 52, ?_, by omega, rfl⟩, ?_, ?_⟩
    · rw [abs_of_nonneg (by omega)]
      omega
    · push_cast
      nlinarith
    · have h3 : (2 : ℚ) * (L / 2 ^ 53) = L / 2 ^ (k - 52) / 2 ^ 52 * 2 ^ (k - 52) := by
        field_simp
        ring
      have h4 : (1 : ℚ) < L / 2 ^ (k - 52) / 2 ^ 52 := by
        rw [lt_div_iff₀ (by norm_num)]
        linarith
      rw [h3]
      push_cast
      nlinarith

/-- The product of a number `L >= 1` and a double `r < 1` rounds to a double below
`L`. -/
theorem round_mul_lt (L r : ℚ) (h1 : 1 ≤ L) (hr : Double.IsValue r) (hr1 : r < 1) :
    Double.round (L * r) < L := by
  by_contra hc
  push_neg at hc
  obtain ⟨d, hd, hdlt, hgap⟩ := exists_isValue_below L h1
  have hgapr := isValue_lt_one r hr hr1
  have hLpos : 0 < L := by linarith
  have ha : L / 2 ^ 53 ≤ L - L * r := by
    have : L * r ≤ L * (1 - 1 / 2 ^ 53) := mul_le_mul_of_nonneg_left hgapr (le_of_lt hLpos)
    have h2 : L * (1 - 1 / 2 ^ 53) = L - L / 2 ^ 53 := by ring
    linarith
  have hnear := round_nearest (L * r) d hd
  have hapos : 0 < L / 2 ^ 53 := by positivity
  rw [abs_of_nonneg (by linarith)] at hnear
  rcases abs_cases (d - L * r) with ⟨h2, _⟩ | ⟨h2, _⟩ <;> rw [h2] at hnear <;> linarith

/-- The product of the double nearest to `L >= 1` and a double `r < 1` rounds to a
double below the double nearest to `L`, and not above `L`. -/
theorem round_round_mul_le (L r : ℚ) (h1 : 1 ≤ L) (hr : Double.IsValue r) (hr1 : r < 1) :
    Double.round (Double.round L * r) < Double.round L
      ∧ Double.round (Double.round L * r) ≤ L := by
  have hone : Double.round 1 = 1 := round_of_isValue 1 (by simpa using isValue_int 1 (by norm_num))
  have hD1 : 1 ≤ Double.round L := by
    have := round_mono 1 L h1
    rwa [hone] at this
  have hlt := round_mul_lt (Double.round L) r hD1 hr hr1
  refine ⟨hlt, ?_⟩
  rcases le_or_lt (Double.round L) L with hDL | hDL
  · linarith
  · by_contra hc
    push_neg at hc
    have hnear := round_nearest L (Double.round (Double.round L * r)) (isValue_round _)
    rw [abs_of_nonneg (by linarith), abs_of_nonneg (by linarith)] at hnear
    linarith

/-! ## Maps -/

theorem JSMap.has_eq_false_of_not_mem {α : Type} (m : JSMap α) (k : String)
    (h : k ∉ m.keys) : m.has k = false := by
  unfold JSMap.has
  rw [List.any_eq_false]
  intro e he
  have : e.1 ≠ k := fun hk => h (hk ▸ List.mem_map_of_mem Prod.fst he)
  simpa using this

theorem JSMap.set_of_not_mem {α : Type} (m : JSMap α) (k : String) (v : α)
    (h : k ∉ m.keys) : m.set k v = ⟨m.entries ++ [(k, v)]⟩ := by
  simp [JSMap.set, JSMap.has_eq_false_of_not_mem m k h]

theorem lookup_map_of_nodup {γ β : Type} (key : γ → String) (val : γ → β) :
    ∀ (l : List γ), (l.map key).Nodup → ∀ c ∈ l,
      (l.map (fun c => (key c, val c))).lookup (key c) = some (val c) := by
  intro l
  induction l with
  | nil => intro _ c hc; simp at hc
  | cons a t ih =>
    intro hnd c hc
    rw [List.map_cons, List.nodup_cons] at hnd
    rcases List.mem_cons.mp hc with rfl | hct
    · simp [List.lookup]
    · have hne : key c ≠ key a := fun h => hnd.1 (h ▸ List.mem_map_of_mem key hct)
      simp only [List.map_cons, List.lookup]
      rw [show (key c == key a) = false from by simpa using hne]
      exact ih hnd.2 c hct

/-- The loop "for each key: look something up, then `set` the key" appends one
entry per key when the keys are distinct and new to the map. -/
theorem foldlM_set {γ β : Type} (key : γ → String) (g : String → Option β) (val : γ → β) :
    ∀ (l : List γ) (acc : JSMap β), (l.map key).Nodup → (∀ c ∈ l, key c ∉ acc.keys) →
      (∀ c ∈ l, g (key c) = some (val c)) →
      (l.map key).foldlM (fun (m : JSMap β) (k : String) => (g k).bind
        (fun v => some (m.set k v))) acc
        = some ⟨acc.entries ++ l.map (fun c => (key c, val c))⟩ := by
  intro l
  induction l with
  | nil => intro acc _ _ _; simp
  | cons a t ih =>
    intro acc hnd hnew hg
    rw [List.map_cons, List.nodup_cons] at hnd
    simp only [List.map_cons, List.foldlM_cons]
    rw [hg a (List.mem_cons_self _ _)]
    simp only [Option.bind_eq_bind, Option.some_bind]
    rw [JSMap.set_of_not_mem acc (key a) (val a) (hnew a (List.mem_cons_self _ _))]
    rw [ih _ hnd.2 ?_ (fun c hc => hg c (List.mem_cons_of_mem _ hc))]
    · simp
    · intro c hc
      have h1 := hnew c (List.mem_cons_of_mem _ hc)
      have hne : key c ≠ key a := fun h => hnd.1 (h ▸ List.mem_map_of_mem key hc)
      simpa [JSMap.keys, hne] using h1

theorem foldl_set {γ β : Type} (key : γ → String) (val : γ → β) :
    ∀ (l : List γ) (acc : JSMap β), (l.map key).Nodup → (∀ c ∈ l, key c ∉ acc.keys) →
      l.foldl (fun (m : JSMap β) (c : γ) => m.set (key c) (val c)) acc
        = ⟨acc.entries ++ l.map (fun c => (key c, val c))⟩ := by
  intro l
  induction l with
  | nil => intro acc _ _; simp
  | cons a t ih =>
    intro acc hnd hnew
    rw [List.map_cons, List.nodup_cons] at hnd
    simp only [List.foldl_cons]
    rw [JSMap.set_of_not_mem acc (key a) (val a) (hnew a (List.mem_cons_self _ _))]
    rw [ih _ hnd.2 ?_]
    · simp
    · intro c hc
      have h1 := hnew c (List.mem_cons_of_mem _ hc)
      have hne : key c ≠ key a := fun h => hnd.1 (h ▸ List.mem_map_of_mem key hc)
      simpa [JSMap.keys, hne] using h1

/-! ## Arithmetic on finite values -/

@[simp] theorem BigNumber.plus_fin (x y : ℚ) :
    (BigNumber.fin x).plus (.fin y) = .fin (x + y) := rfl

@[simp] theorem BigNumber.minus_fin (x y : ℚ) :
    (BigNumber.fin x).minus (.fin y) = .fin (x - y) := rfl

@[simp] theorem BigNumber.multipliedBy_fin (x y : ℚ) :
    (BigNumber.fin x).multipliedBy (.fin y) = .fin (x * y) := rfl

@[simp] theorem BigNumber.absoluteValue_fin (x : ℚ) :
    (BigNumber.fin x).absoluteValue = .fin |x| := rfl

@[simp] theorem BigNumber.nan_plus (x : BigNumber) : BigNumber.nan.plus x = .nan := by
  cases x <;> rfl

theorem BigNumber.dividedBy_fin (R : ℚ → ℚ) (x y : ℚ) (hy : y ≠ 0) :
    (BigNumber.fin x).dividedBy R (.fin y) = .fin (R (x / y)) := by
  simp [BigNumber.dividedBy, BigNumber.div, hy]

theorem BigNumber.dividedBy_zero_zero (R : ℚ → ℚ) :
    (BigNumber.fin 0).dividedBy R (.fin 0) = .nan := by
  simp [BigNumber.dividedBy, BigNumber.div]

/-! ## Sums of money -/

theorem foldl_plus_fin (qs : List ℚ) : ∀ (s : ℚ),
    (qs.map BigNumber.fin).foldl (fun (partialSum a : BigNumber) => partialSum.plus a)
      (BigNumber.fin s) = BigNumber.fin (s + qs.sum) := by
  induction qs with
  | nil => intro s; simp
  | cons a t ih =>
    intro s
    simp only [List.map_cons, List.foldl_cons, BigNumber.plus_fin, List.sum_cons]
    rw [ih]
    congr 1
    ring

theorem sumMoney_fin {γ : Type} (key : γ → String) (f : γ → ℚ) (l : List γ) :
    Utility.sumMoney ⟨l.map (fun c => (key c, BigNumber.fin (f c)))⟩
      = .fin ((l.map f).sum) := by
  have h := foldl_plus_fin (l.map f) 0
  simp only [List.map_map, zero_add] at h
  simpa [Utility.sumMoney, JSMap.values, Function.comp_def] using h

theorem sumCurrentAssetValues_eq (assetData : JSMap AssetData) (hwf : assetData.WF) :
    Utility.sumCurrentAssetValues assetData = .fin (Spec.currentValueSum assetData) := by
  unfold Utility.sumCurrentAssetValues
  rw [foldl_set Prod.fst (fun e => BigNumber.fin e.2.currentTotalValue) assetData.entries
    JSMap.empty hwf (by simp [JSMap.empty, JSMap.keys])]
  simpa [JSMap.empty, Spec.currentValueSum] using
    sumMoney_fin Prod.fst (fun e : String × AssetData => e.2.currentTotalValue) assetData.entries

theorem strategyOf_count (ps : List Position) (hnd : (ps.map Position.name).Nodup)
    (p : Position) (hp : p ∈ ps) :
    (Spec.strategyOf ps).count p.name = .number p.shares := by
  simp [Strategy.count, JSMap.get, Spec.strategyOf,
    lookup_map_of_nodup Position.name (fun p => JSValue.number p.shares) ps hnd p hp]

theorem calculateProjectedInvestmentPerAsset_eq (assetData : JSMap AssetData)
    (ps : List Position) (h : Spec.Covers assetData ps) :
    Utility.calculateProjectedInvestmentPerAsset (Spec.strategyOf ps) assetData
      = some ⟨ps.map (fun p => (p.name, BigNumber.fin (Spec.projectedInvestment p)))⟩ := by
  have key := foldlM_set Position.name
    (fun k => (assetData.get k).map (fun asset =>
      (BigNumber.fin asset.currentSharePrice).multipliedBy
        (BigNumber.ofValue ((Spec.strategyOf ps).count k))))
    (fun p => BigNumber.fin (Spec.projectedInvestment p)) ps JSMap.empty h.1
    (by simp [JSMap.empty, JSMap.keys])
    (by
      intro p hp
      simp [h.2 p hp, strategyOf_count ps h.1 p hp, BigNumber.ofValue,
        BigNumber.multipliedBy, Spec.projectedInvestment])
  have hk : (Spec.strategyOf ps).keys = ps.map Position.name := by
    simp [JSMap.keys, Spec.strategyOf, Function.comp_def]
  unfold Utility.calculateProjectedInvestmentPerAsset
  rw [hk]
  simp only [JSMap.empty, List.nil_append] at key
  rw [← key]
  congr 1
  funext m k
  cases assetData.get k <;> rfl

/-! ## The fitness of a strategy -/

theorem operand_eq (ps : List Position) (hnd : (ps.map Position.name).Nodup)
    (p : Position) (hp : p ∈ ps) :
    InvestmentStrategyManager.operand
      ⟨ps.map (fun p => (p.name, BigNumber.fin (Spec.projectedInvestment p)))⟩ p.name
      = .fin (Spec.projectedInvestment p) := by
  simp [InvestmentStrategyManager.operand, JSMap.get,
    lookup_map_of_nodup Position.name (fun p => BigNumber.fin (Spec.projectedInvestment p))
      ps hnd p hp]

theorem addDiff_fin (R : ℚ → ℚ) (assetData : JSMap AssetData) (ps : List Position)
    (h : Spec.Covers assetData ps) (V : ℚ) (hV : V ≠ 0) (p : Position) (hp : p ∈ ps) (s : ℚ) :
    InvestmentStrategyManager.addDiffFromTargetPercentage R assetData
      ⟨ps.map (fun p => (p.name, BigNumber.fin (Spec.projectedInvestment p)))⟩ (.fin V)
      (.fin s) p.name
      = some (.fin (s + |p.asset.targetPercentage - Spec.newPercentage R V p|)) := by
  unfold InvestmentStrategyManager.addDiffFromTargetPercentage
  rw [h.2 p hp]
  simp only [Option.bind_eq_bind, Option.some_bind]
  rw [operand_eq ps h.1 p hp, BigNumber.plus_fin, BigNumber.dividedBy_fin R _ V hV]
  rfl

theorem addDiff_zero (R : ℚ → ℚ) (assetData : JSMap AssetData) (ps : List Position)
    (h : Spec.Covers assetData ps) (p : Position) (hp : p ∈ ps)
    (hz : Spec.newValue p = 0) (acc : BigNumber) :
    InvestmentStrategyManager.addDiffFromTargetPercentage R assetData
      ⟨ps.map (fun p => (p.name, BigNumber.fin (Spec.projectedInvestment p)))⟩ (.fin 0)
      acc p.name = some .nan := by
  unfold InvestmentStrategyManager.addDiffFromTargetPercentage
  rw [h.2 p hp]
  simp only [Option.bind_eq_bind, Option.some_bind]
  rw [operand_eq ps h.1 p hp, BigNumber.plus_fin]
  have hz0 : p.asset.currentTotalValue + Spec.projectedInvestment p = 0 := hz
  rw [hz0, BigNumber.dividedBy_zero_zero]
  cases acc <;> rfl

/-- The loop over the assets of `calculateStrategyFitness`, for a projected total
value `V` other than zero. -/
theorem fitness_loop (R : ℚ → ℚ) (assetData : JSMap AssetData) (ps : List Position)
    (h : Spec.Covers assetData ps) (V : ℚ) (hV : V ≠ 0) :
    ∀ (l : List Position), (∀ p ∈ l, p ∈ ps) → ∀ (s : ℚ),
      (l.map Position.name).foldlM
        (InvestmentStrategyManager.addDiffFromTargetPercentage R assetData
          ⟨ps.map (fun p => (p.name, BigNumber.fin (Spec.projectedInvestment p)))⟩ (.fin V))
        (BigNumber.fin s)
      = some (.fin (s + Spec.totalDiff R V l)) := by
  intro l
  induction l with
  | nil => intro _ s; simp [Spec.totalDiff]
  | cons a t ih =>
    intro hl s
    have ha : a ∈ ps := hl a (List.mem_cons_self _ _)
    simp only [List.map_cons, List.foldlM_cons]
    rw [addDiff_fin R assetData ps h V hV a ha s]
    simp only [Option.bind_eq_bind, Option.some_bind]
    rw [ih (fun p hp => hl p (List.mem_cons_of_mem _ hp))]
    simp [Spec.totalDiff, add_assoc]

/-- The same loop when the projected total value and every new asset value are zero:
the first quotient is `0 / 0 = NaN` and the sum stays `NaN`. -/
theorem fitness_loop_zero (R : ℚ → ℚ) (assetData : JSMap AssetData) (ps : List Position)
    (h : Spec.Covers assetData ps) (hz : ∀ p ∈ ps, Spec.newValue p = 0) :
    ∀ (l : List Position), (∀ p ∈ l, p ∈ ps) → ∀ (acc : BigNumber), (l ≠ [] ∨ acc = .nan) →
      (l.map Position.name).foldlM
        (InvestmentStrategyManager.addDiffFromTargetPercentage R assetData
          ⟨ps.map (fun p => (p.name, BigNumber.fin (Spec.projectedInvestment p)))⟩ (.fin 0))
        acc
      = some .nan := by
  intro l
  induction l with
  | nil =>
    intro _ acc hacc
    rcases hacc with hne | rfl
    · exact absurd rfl hne
    · simp
  | cons a t ih =>
    intro hl acc _
    have ha : a ∈ ps := hl a (List.mem_cons_self _ _)
    simp only [List.map_cons, List.foldlM_cons]
    rw [addDiff_zero R assetData ps h a ha (hz a ha) acc]
    simp only [Option.bind_eq_bind, Option.some_bind]
    exact ih (fun p hp => hl p (List.mem_cons_of_mem _ hp)) _ (Or.inr rfl)

theorem strategyOf_keys (ps : List Position) :
    (Spec.strategyOf ps).keys = ps.map Position.name := by
  simp [JSMap.keys, Spec.strategyOf, Function.comp_def]

theorem comparedTo_fin_eq_one (x y : ℚ) :
    (BigNumber.fin x).comparedTo (.fin y) = some 1 ↔ y < x := by
  unfold BigNumber.comparedTo
  by_cases h1 : x < y
  · simp [h1, not_lt.mpr (le_of_lt h1)]
  · by_cases h2 : y < x
    · simp [h1, h2]
    · simp [h1, h2]

/-- The fitness of an over-budget strategy. -/
theorem fitness_of_over (R : ℚ → ℚ) (assetData : JSMap AssetData) (investmentLimit : ℚ)
    (ps : List Position) (h : Spec.Covers assetData ps)
    (hover : investmentLimit < Spec.totalProjected ps) :
    InvestmentStrategyManager.calculateStrategyFitness R (Spec.strategyOf ps) assetData
      investmentLimit = some MAX_VALUE := by
  unfold InvestmentStrategyManager.calculateStrategyFitness
  rw [calculateProjectedInvestmentPerAsset_eq assetData ps h]
  simp only [Option.bind_eq_bind, Option.some_bind]
  rw [sumMoney_fin Position.name Spec.projectedInvestment ps,
    show (ps.map Spec.projectedInvestment).sum = Spec.totalProjected ps from rfl]
  rw [if_pos ((comparedTo_fin_eq_one _ _).mpr hover)]
  rfl

/-- The fitness of a strategy within the budget, for a projected total value and a
budget other than zero. -/
theorem fitness_of_within (R : ℚ → ℚ) (assetData : JSMap AssetData) (investmentLimit : ℚ)
    (ps : List Position) (hwf : assetData.WF) (h : Spec.Covers assetData ps)
    (hle : Spec.totalProjected ps ≤ investmentLimit)
    (hV : Spec.projectedTotalValue assetData ps ≠ 0) (hb : investmentLimit ≠ 0) :
    InvestmentStrategyManager.calculateStrategyFitness R (Spec.strategyOf ps) assetData
      investmentLimit
      = some (.fin (Spec.totalDiff R (Spec.projectedTotalValue assetData ps) ps
          + Spec.unspentPenalty R (Spec.totalProjected ps) investmentLimit)) := by
  unfold InvestmentStrategyManager.calculateStrategyFitness
  rw [calculateProjectedInvestmentPerAsset_eq assetData ps h]
  simp only [Option.bind_eq_bind, Option.some_bind]
  rw [sumMoney_fin Position.name Spec.projectedInvestment ps,
    show (ps.map Spec.projectedInvestment).sum = Spec.totalProjected ps from rfl]
  rw [if_neg (fun hc => absurd ((comparedTo_fin_eq_one _ _).mp hc) (not_lt.mpr hle))]
  rw [sumCurrentAssetValues_eq assetData hwf, BigNumber.plus_fin, strategyOf_keys]
  have hloop := fitness_loop R assetData ps h _ hV ps (fun _ hp => hp) 0
  rw [show Spec.currentValueSum assetData + Spec.totalProjected ps
    = Spec.projectedTotalValue assetData ps from rfl, hloop]
  simp only [Option.some_bind, zero_add]
  rw [BigNumber.dividedBy_fin R _ _ hb]
  rfl

/-- The fitness of a strategy whose projected total value and new asset values are all
zero is `NaN`. -/
theorem fitness_of_zero (R : ℚ → ℚ) (assetData : JSMap AssetData) (investmentLimit : ℚ)
    (ps : List Position) (hwf : assetData.WF) (h : Spec.Covers assetData ps)
    (hle : Spec.totalProjected ps ≤ investmentLimit) (hne : ps ≠ [])
    (hV : Spec.projectedTotalValue assetData ps = 0) (hz : ∀ p ∈ ps, Spec.newValue p = 0) :
    InvestmentStrategyManager.calculateStrategyFitness R (Spec.strategyOf ps) assetData
      investmentLimit = some .nan := by
  unfold InvestmentStrategyManager.calculateStrategyFitness
  rw [calculateProjectedInvestmentPerAsset_eq assetData ps h]
  simp only [Option.bind_eq_bind, Option.some_bind]
  rw [sumMoney_fin Position.name Spec.projectedInvestment ps,
    show (ps.map Spec.projectedInvestment).sum = Spec.totalProjected ps from rfl]
  rw [if_neg (fun hc => absurd ((comparedTo_fin_eq_one _ _).mp hc) (not_lt.mpr hle))]
  rw [sumCurrentAssetValues_eq assetData hwf, BigNumber.plus_fin, strategyOf_keys]
  have hloop := fitness_loop_zero R assetData ps h hz ps (fun _ hp => hp) (.fin 0) (Or.inl hne)
  rw [show Spec.currentValueSum assetData + Spec.totalProjected ps
    = Spec.projectedTotalValue assetData ps from rfl, hV, hloop]
  simp

/-! ## The claims -/

open InvestmentStrategyManager

/-- C1: a strategy whose total projected investment exceeds the budget has the
sentinel fitness `BigNumber(Number.MAX_VALUE)`, whatever else the catalog and the
strategy hold. -/
theorem C1_over_budget_sentinel (R : ℚ → ℚ) (assetData : JSMap AssetData) (investmentLimit : ℚ)
    (ps : List Position) (hcov : Spec.Covers assetData ps)
    (hover : investmentLimit < Spec.totalProjected ps) :
    calculateStrategyFitness R (Spec.strategyOf ps) assetData investmentLimit
      = some MAX_VALUE :=
  fitness_of_over R assetData investmentLimit ps hcov hover

theorem covers_buyAB (a b : ℚ) : Spec.Covers Example.catalogAB (Example.buyAB a b) := by
  constructor
  · simp [Example.buyAB]
  · intro p hp
    simp only [Example.buyAB, List.mem_cons, List.mem_singleton, List.not_mem_nil, or_false] at hp
    rcases hp with rfl | rfl <;> simp [Example.catalogAB, JSMap.get, List.lookup]

/-- C1 at the specification's scenario: budget 100, 11 shares of A and none of B. -/
theorem C1_over_budget_sentinel_witness :
    Spec.Covers Example.catalogAB (Example.buyAB 11 0)
      ∧ (100 : ℚ) < Spec.totalProjected (Example.buyAB 11 0)
      ∧ calculateStrategyFitness BigNumber.ROUND_HALF_UP (Spec.strategyOf (Example.buyAB 11 0))
          Example.catalogAB 100 = some MAX_VALUE :=
  have h1 := covers_buyAB 11 0
  have h2 : (100 : ℚ) < Spec.totalProjected (Example.buyAB 11 0) := by
    norm_num [Spec.totalProjected, Spec.projectedInvestment, Example.buyAB]
  ⟨h1, h2, C1_over_budget_sentinel _ _ _ _ h1 h2⟩
theorem ROUND_HALF_UP_one : BigNumber.ROUND_HALF_UP 1 = 1 := by
  norm_num [BigNumber.ROUND_HALF_UP, BigNumber.roundHalfUp, BigNumber.DECIMAL_PLACES]

theorem ROUND_HALF_UP_le_one (q : ℚ) (hq : q ≤ 1) : BigNumber.ROUND_HALF_UP q ≤ 1 := by
  unfold BigNumber.ROUND_HALF_UP BigNumber.roundHalfUp BigNumber.DECIMAL_PLACES
  split
  · rw [div_le_one (by norm_num)]
    have h1 : q * 10 ^ 20 + 1 / 2 < ((10 ^ 20 : ℤ) : ℚ) + 1 := by
      push_cast
      nlinarith
    have h2 : ⌊q * 10 ^ 20 + 1 / 2⌋ < 10 ^ 20 + 1 := by
      rw [Int.floor_lt]
      exact_mod_cast h1
    have h3 : ⌊q * 10 ^ 20 + 1 / 2⌋ ≤ 10 ^ 20 := by omega
    exact_mod_cast h3
  · rename_i hneg
    have hneg' : 0 ≤ -q := by linarith
    have h0 : (0 : ℤ) ≤ ⌊-q * 10 ^ 20 + 1 / 2⌋ := by
      apply Int.floor_nonneg.mpr
      positivity
    have h1 : (0 : ℚ) ≤ (⌊-q * 10 ^ 20 + 1 / 2⌋ : ℚ) / 10 ^ 20 := by
      apply div_nonneg
      · exact_mod_cast h0
      · norm_num
    linarith

theorem ROUND_HALF_UP_eq_one (q : ℚ) (h : BigNumber.ROUND_HALF_UP q = 1) :
    1 - 1 / (2 * 10 ^ 20) ≤ q := by
  unfold BigNumber.ROUND_HALF_UP BigNumber.roundHalfUp BigNumber.DECIMAL_PLACES at h
  split at h
  · rw [div_eq_one_iff_eq (by norm_num)] at h
    have h1 : ((⌊q * 10 ^ 20 + 1 / 2⌋ : ℤ) : ℚ) ≤ q * 10 ^ 20 + 1 / 2 := Int.floor_le _
    rw [h] at h1
    have : (1 - 1 / (2 * 10 ^ 20)) * (10 ^ 20 : ℚ) ≤ q * 10 ^ 20 := by
      norm_num
      linarith
    exact le_of_mul_le_mul_right this (by norm_num)
  · rename_i hneg
    have hneg' : 0 ≤ -q := by linarith
    have h0 : (0 : ℤ) ≤ ⌊-q * 10 ^ 20 + 1 / 2⌋ := by
      apply Int.floor_nonneg.mpr
      positivity
    have h1 : (0 : ℚ) ≤ (⌊-q * 10 ^ 20 + 1 / 2⌋ : ℚ) / 10 ^ 20 := by
      apply div_nonneg
      · exact_mod_cast h0
      · norm_num
    linarith

theorem covers_buyFine : Spec.Covers Example.catalogFine Example.buyFine := by
  constructor
  · simp [Example.buyFine]
  · intro p hp
    simp only [Example.buyFine, List.mem_cons, List.mem_singleton, List.not_mem_nil, or_false] at hp
    rcases hp with rfl | rfl <;> simp [Example.catalogFine, JSMap.get, List.lookup]

theorem fitness_buyFine :
    calculateStrategyFitness BigNumber.ROUND_HALF_UP (Spec.strategyOf Example.buyFine)
      Example.catalogFine 1 = some (.fin 0.000000000000000001) := by
  rw [fitness_of_within _ _ _ _ (by simp [JSMap.WF, JSMap.keys, Example.catalogFine])
    covers_buyFine
    (by norm_num [Spec.totalProjected, Spec.projectedInvestment, Example.buyFine])
    (by norm_num [Spec.projectedTotalValue, Spec.currentValueSum, Spec.totalProjected,
      Spec.projectedInvestment, Example.buyFine, Example.catalogFine])
    (by norm_num)]
  congr 2
  norm_num [Spec.totalDiff, Spec.newPercentage, Spec.newValue, Spec.unspentPenalty,
    Spec.projectedTotalValue, Spec.currentValueSum, Spec.totalProjected,
    Spec.projectedInvestment, Example.buyFine, Example.catalogFine,
    BigNumber.ROUND_HALF_UP, BigNumber.roundHalfUp, BigNumber.DECIMAL_PLACES]
  rw [abs_of_pos (by norm_num)]
  norm_num

/-- C2 as stated fails: in `catalogFine` with budget 1, buying one share of B spends
the budget exactly and brings both assets to their target percentages exactly, yet the
fitness is 0.000000000000000001, because `dividedBy` rounds the two quotients (21
decimal places each) to 20 places. -/
theorem C2_exact_targets_counterexample :
    Example.catalogFine.WF ∧ Spec.Covers Example.catalogFine Example.buyFine
      ∧ Spec.totalProjected Example.buyFine = 1
      ∧ (∀ p ∈ Example.buyFine,
          Spec.exactPercentage (Spec.projectedTotalValue Example.catalogFine Example.buyFine) p
            = p.asset.targetPercentage)
      ∧ calculateStrategyFitness BigNumber.ROUND_HALF_UP (Spec.strategyOf Example.buyFine)
          Example.catalogFine 1 = some (.fin 0.000000000000000001)
      ∧ calculateStrategyFitness BigNumber.ROUND_HALF_UP (Spec.strategyOf Example.buyFine)
          Example.catalogFine 1 ≠ some (.fin 0) := by
  refine ⟨by simp [JSMap.WF, JSMap.keys, Example.catalogFine], covers_buyFine, ?_, ?_,
    fitness_buyFine, ?_⟩
  · norm_num [Spec.totalProjected, Spec.projectedInvestment, Example.buyFine]
  · intro p hp
    simp only [Example.buyFine, List.mem_cons, List.mem_singleton, List.not_mem_nil,
      or_false] at hp
    rcases hp with rfl | rfl <;>
      norm_num [Spec.exactPercentage, Spec.newValue, Spec.projectedTotalValue,
        Spec.currentValueSum, Spec.totalProjected, Spec.projectedInvestment, Example.buyFine,
        Example.catalogFine]
  · rw [fitness_buyFine]
    intro h
    have h2 := BigNumber.fin.inj (Option.some.inj h)
    norm_num at h2

theorem totalDiff_eq_zero (R : ℚ → ℚ) (V : ℚ) (ps : List Position)
    (h : ∀ p ∈ ps, Spec.newPercentage R V p = p.asset.targetPercentage) :
    Spec.totalDiff R V ps = 0 := by
  unfold Spec.totalDiff
  apply List.sum_eq_zero
  intro x hx
  obtain ⟨p, hp, rfl⟩ := List.mem_map.mp hx
  simp [h p hp]

/-- C2, amended: a strategy that spends exactly the budget (budget > 0, projected total
value non-zero) and whose computed percentage, 100 times the quotient rounded to 20
decimal places, equals the target for every asset has fitness exactly 0. -/
theorem C2_exact_budget_and_targets (assetData : JSMap AssetData) (investmentLimit : ℚ)
    (ps : List Position) (hwf : assetData.WF) (hcov : Spec.Covers assetData ps)
    (hb : 0 < investmentLimit) (hT : Spec.totalProjected ps = investmentLimit)
    (hV : Spec.projectedTotalValue assetData ps ≠ 0)
    (hpct : ∀ p ∈ ps,
      Spec.newPercentage BigNumber.ROUND_HALF_UP (Spec.projectedTotalValue assetData ps) p
        = p.asset.targetPercentage) :
    calculateStrategyFitness BigNumber.ROUND_HALF_UP (Spec.strategyOf ps) assetData
      investmentLimit = some (.fin 0) := by
  rw [fitness_of_within _ _ _ _ hwf hcov (le_of_eq hT) hV (ne_of_gt hb),
    totalDiff_eq_zero _ _ _ hpct]
  simp [Spec.unspentPenalty, hT, div_self (ne_of_gt hb), ROUND_HALF_UP_one]

/-- C2 at the specification's scenario: budget 100, 5 shares of A and 5 of B. -/
theorem C2_exact_budget_and_targets_witness :
    Example.catalogAB.WF ∧ Spec.Covers Example.catalogAB (Example.buyAB 5 5)
      ∧ Spec.totalProjected (Example.buyAB 5 5) = 100
      ∧ calculateStrategyFitness BigNumber.ROUND_HALF_UP (Spec.strategyOf (Example.buyAB 5 5))
          Example.catalogAB 100 = some (.fin 0) :=
  have hwf : Example.catalogAB.WF := by simp [JSMap.WF, JSMap.keys, Example.catalogAB]
  have hT : Spec.totalProjected (Example.buyAB 5 5) = 100 := by
    norm_num [Spec.totalProjected, Spec.projectedInvestment, Example.buyAB]
  ⟨hwf, covers_buyAB 5 5, hT,
    C2_exact_budget_and_targets _ _ _ hwf (covers_buyAB 5 5) (by norm_num) hT
      (by norm_num [Spec.projectedTotalValue, Spec.currentValueSum, Spec.totalProjected,
        Spec.projectedInvestment, Example.buyAB, Example.catalogAB])
      (by
        intro p hp
        simp only [Example.buyAB, List.mem_cons, List.mem_singleton, List.not_mem_nil,
          or_false] at hp
        rcases hp with rfl | rfl <;>
          norm_num [Spec.newPercentage, Spec.newValue, Spec.projectedTotalValue,
            Spec.currentValueSum, Spec.totalProjected, Spec.projectedInvestment,
            Example.buyAB, Example.catalogAB, BigNumber.ROUND_HALF_UP,
            BigNumber.roundHalfUp, BigNumber.DECIMAL_PLACES])⟩
theorem ROUND_HALF_UP_zero : BigNumber.ROUND_HALF_UP 0 = 0 := by
  norm_num [BigNumber.ROUND_HALF_UP, BigNumber.roundHalfUp, BigNumber.DECIMAL_PLACES]

/-- One pass of the loop body when the projected total value is zero: the quotient is
`NaN` or infinite, and so is the running sum from then on. -/
theorem addDiff_zero_total (R : ℚ → ℚ) (assetData : JSMap AssetData) (ps : List Position)
    (h : Spec.Covers assetData ps) (p : Position) (hp : p ∈ ps) (acc : BigNumber)
    (hacc : acc ≠ .inf true) :
    InvestmentStrategyManager.addDiffFromTargetPercentage R assetData
        ⟨ps.map (fun p => (p.name, BigNumber.fin (Spec.projectedInvestment p)))⟩ (.fin 0)
        acc p.name = some .nan
      ∨ InvestmentStrategyManager.addDiffFromTargetPercentage R assetData
        ⟨ps.map (fun p => (p.name, BigNumber.fin (Spec.projectedInvestment p)))⟩ (.fin 0)
        acc p.name = some (.inf false) := by
  unfold InvestmentStrategyManager.addDiffFromTargetPercentage
  rw [h.2 p hp]
  simp only [Option.bind_eq_bind, Option.some_bind]
  rw [operand_eq ps h.1 p hp, BigNumber.plus_fin]
  by_cases hx : p.asset.currentTotalValue + Spec.projectedInvestment p = 0
  · rw [hx, BigNumber.dividedBy_zero_zero]
    left
    cases acc <;> rfl
  · have hd : (BigNumber.fin (p.asset.currentTotalValue + Spec.projectedInvestment p)).dividedBy
        R (.fin 0)
        = .inf (decide (p.asset.currentTotalValue + Spec.projectedInvestment p < 0)) := by
      simp [BigNumber.dividedBy, BigNumber.div, hx]
    rw [hd]
    have hm : ∀ s : Bool, ((BigNumber.fin p.asset.targetPercentage).minus
        ((BigNumber.inf s).multipliedBy InvestmentStrategyManager._100)).absoluteValue
        = .inf false := by
      intro s
      simp [InvestmentStrategyManager._100, BigNumber.multipliedBy, BigNumber.minus,
        BigNumber.absoluteValue]
    rw [hm]
    cases acc with
    | fin q => right; rfl
    | nan => left; rfl
    | inf s =>
      cases s with
      | true => exact absurd rfl hacc
      | false => right; rfl

theorem fitness_loop_zero_total (R : ℚ → ℚ) (assetData : JSMap AssetData) (ps : List Position)
    (h : Spec.Covers assetData ps) :
    ∀ (l : List Position), (∀ p ∈ l, p ∈ ps) → ∀ (acc : BigNumber), acc ≠ .inf true →
      (l ≠ [] ∨ acc = .nan ∨ acc = .inf false) →
      (l.map Position.name).foldlM
          (InvestmentStrategyManager.addDiffFromTargetPercentage R assetData
            ⟨ps.map (fun p => (p.name, BigNumber.fin (Spec.projectedInvestment p)))⟩ (.fin 0))
          acc = some .nan
        ∨ (l.map Position.name).foldlM
          (InvestmentStrategyManager.addDiffFromTargetPercentage R assetData
            ⟨ps.map (fun p => (p.name, BigNumber.fin (Spec.projectedInvestment p)))⟩ (.fin 0))
          acc = some (.inf false) := by
  intro l
  induction l with
  | nil =>
    intro _ acc _ hacc
    rcases hacc with hne | rfl | rfl
    · exact absurd rfl hne
    · left; simp
    · right; simp
  | cons a t ih =>
    intro hl acc hacc _
    have ha : a ∈ ps := hl a (List.mem_cons_self _ _)
    simp only [List.map_cons, List.foldlM_cons]
    rcases addDiff_zero_total R assetData ps h a ha acc hacc with h1 | h1
    · rw [h1]
      simp only [Option.bind_eq_bind, Option.some_bind]
      exact ih (fun p hp => hl p (List.mem_cons_of_mem _ hp)) _ (by simp) (Or.inr (Or.inl rfl))
    · rw [h1]
      simp only [Option.bind_eq_bind, Option.some_bind]
      exact ih (fun p hp => hl p (List.mem_cons_of_mem _ hp)) _ (by simp) (Or.inr (Or.inr rfl))

/-- With a projected total value of zero the fitness of a within-budget strategy is
never the number 0. -/
theorem fitness_ne_zero_of_zero_total (assetData : JSMap AssetData) (investmentLimit : ℚ)
    (ps : List Position) (hwf : assetData.WF) (h : Spec.Covers assetData ps)
    (hle : Spec.totalProjected ps ≤ investmentLimit) (hb : investmentLimit ≠ 0)
    (hV : Spec.projectedTotalValue assetData ps = 0) :
    calculateStrategyFitness BigNumber.ROUND_HALF_UP (Spec.strategyOf ps) assetData
      investmentLimit ≠ some (.fin 0) := by
  unfold InvestmentStrategyManager.calculateStrategyFitness
  rw [calculateProjectedInvestmentPerAsset_eq assetData ps h]
  simp only [Option.bind_eq_bind, Option.some_bind]
  rw [sumMoney_fin Position.name Spec.projectedInvestment ps,
    show (ps.map Spec.projectedInvestment).sum = Spec.totalProjected ps from rfl]
  rw [if_neg (fun hc => absurd ((comparedTo_fin_eq_one _ _).mp hc) (not_lt.mpr hle))]
  rw [sumCurrentAssetValues_eq assetData hwf, BigNumber.plus_fin, strategyOf_keys]
  rw [show Spec.currentValueSum assetData + Spec.totalProjected ps
    = Spec.projectedTotalValue assetData ps from rfl, hV, BigNumber.dividedBy_fin _ _ _ hb]
  by_cases hps : ps = []
  · subst hps
    simp [InvestmentStrategyManager._100, Spec.totalProjected, ROUND_HALF_UP_zero]
  · rcases fitness_loop_zero_total BigNumber.ROUND_HALF_UP assetData ps h ps (fun _ hp => hp)
      (.fin 0) (by simp) (Or.inl hps) with h1 | h1 <;> rw [h1] <;>
      simp [InvestmentStrategyManager._100, BigNumber.plus]

theorem MAX_VALUE_ne_zero : MAX_VALUE ≠ .fin 0 := by
  intro h
  have h2 := BigNumber.fin.inj h
  norm_num at h2

/-- C3, amended: when the fitness is exactly 0 (budget > 0), the strategy is within
the budget and spends it up to rounding: the quotient of total projected investment by
budget rounds to 1 at 20 decimal places, so at most the fraction 1 / (2 * 10^20) of the
budget is left; and every asset's computed percentage, 100 times the quotient rounded
to 20 decimal places, equals its target. -/
theorem C3_zero_fitness_means_ideal (assetData : JSMap AssetData) (investmentLimit : ℚ)
    (ps : List Position) (hwf : assetData.WF) (hcov : Spec.Covers assetData ps)
    (hb : 0 < investmentLimit)
    (h0 : calculateStrategyFitness BigNumber.ROUND_HALF_UP (Spec.strategyOf ps) assetData
      investmentLimit = some (.fin 0)) :
    Spec.totalProjected ps ≤ investmentLimit
      ∧ investmentLimit * (1 - 1 / (2 * 10 ^ 20)) ≤ Spec.totalProjected ps
      ∧ BigNumber.ROUND_HALF_UP (Spec.totalProjected ps / investmentLimit) = 1
      ∧ Spec.projectedTotalValue assetData ps ≠ 0
      ∧ ∀ p ∈ ps,
          Spec.newPercentage BigNumber.ROUND_HALF_UP (Spec.projectedTotalValue assetData ps) p
            = p.asset.targetPercentage := by
  have hle : Spec.totalProjected ps ≤ investmentLimit := by
    by_contra hcon
    rw [fitness_of_over _ _ _ _ hcov (not_le.mp hcon)] at h0
    exact MAX_VALUE_ne_zero (Option.some.inj h0)
  have hV : Spec.projectedTotalValue assetData ps ≠ 0 := fun hV =>
    fitness_ne_zero_of_zero_total assetData investmentLimit ps hwf hcov hle (ne_of_gt hb) hV h0
  rw [fitness_of_within _ _ _ _ hwf hcov hle hV (ne_of_gt hb)] at h0
  have hsum := BigNumber.fin.inj (Option.some.inj h0)
  have hq : Spec.totalProjected ps / investmentLimit ≤ 1 := (div_le_one hb).mpr hle
  have hR := ROUND_HALF_UP_le_one _ hq
  have hS : 0 ≤ Spec.totalDiff BigNumber.ROUND_HALF_UP (Spec.projectedTotalValue assetData ps) ps := by
    unfold Spec.totalDiff
    apply List.sum_nonneg
    intro x hx
    obtain ⟨p, _, rfl⟩ := List.mem_map.mp hx
    exact abs_nonneg _
  have hP : Spec.unspentPenalty BigNumber.ROUND_HALF_UP (Spec.totalProjected ps) investmentLimit
      = 0 := by
    unfold Spec.unspentPenalty at hsum ⊢
    linarith
  have hS0 : Spec.totalDiff BigNumber.ROUND_HALF_UP (Spec.projectedTotalValue assetData ps) ps
      = 0 := by
    linarith
  have hR1 : BigNumber.ROUND_HALF_UP (Spec.totalProjected ps / investmentLimit) = 1 := by
    unfold Spec.unspentPenalty at hP
    linarith
  refine ⟨hle, ?_, hR1, hV, ?_⟩
  · have := ROUND_HALF_UP_eq_one _ hR1
    rw [le_div_iff₀ hb] at this
    linarith
  · intro p hp
    have hall := List.all_zero_of_le_zero_le_of_sum_eq_zero
      (l := ps.map (fun p => |p.asset.targetPercentage
        - Spec.newPercentage BigNumber.ROUND_HALF_UP (Spec.projectedTotalValue assetData ps) p|))
      (by
        intro x hx
        obtain ⟨p, _, rfl⟩ := List.mem_map.mp hx
        exact abs_nonneg _)
      hS0 (List.mem_map_of_mem _ hp)
    have := abs_eq_zero.mp hall
    linarith

theorem covers_buyNear : Spec.Covers Example.catalogNear Example.buyNear := by
  constructor
  · simp [Example.buyNear]
  · intro p hp
    simp only [Example.buyNear, List.mem_singleton] at hp
    subst hp
    simp [Example.catalogNear, JSMap.get, List.lookup]

theorem fitness_buyNear :
    calculateStrategyFitness BigNumber.ROUND_HALF_UP (Spec.strategyOf Example.buyNear)
      Example.catalogNear 1 = some (.fin 0) := by
  rw [fitness_of_within _ _ _ _ (by simp [JSMap.WF, JSMap.keys, Example.catalogNear])
    covers_buyNear
    (by norm_num [Spec.totalProjected, Spec.projectedInvestment, Example.buyNear])
    (by norm_num [Spec.projectedTotalValue, Spec.currentValueSum, Spec.totalProjected,
      Spec.projectedInvestment, Example.buyNear, Example.catalogNear])
    (by norm_num)]
  congr 2
  norm_num [Spec.totalDiff, Spec.newPercentage, Spec.newValue, Spec.unspentPenalty,
    Spec.projectedTotalValue, Spec.currentValueSum, Spec.totalProjected,
    Spec.projectedInvestment, Example.buyNear, Example.catalogNear,
    BigNumber.ROUND_HALF_UP, BigNumber.roundHalfUp, BigNumber.DECIMAL_PLACES]

/-- C3 as stated fails: in `catalogNear` with budget 1, buying one share (a
non-negative count) costs 0.999999999999999999999 and leaves part of the budget
unspent, yet the fitness is exactly 0, because the quotient of the two rounds to 1. -/
theorem C3_zero_fitness_counterexample :
    Example.catalogNear.WF ∧ Spec.Covers Example.catalogNear Example.buyNear
      ∧ (∀ p ∈ Example.buyNear, 0 ≤ p.shares)
      ∧ calculateStrategyFitness BigNumber.ROUND_HALF_UP (Spec.strategyOf Example.buyNear)
          Example.catalogNear 1 = some (.fin 0)
      ∧ Spec.totalProjected Example.buyNear ≠ 1 := by
  refine ⟨by simp [JSMap.WF, JSMap.keys, Example.catalogNear], covers_buyNear, ?_,
    fitness_buyNear, ?_⟩
  · intro p hp
    simp only [Example.buyNear, List.mem_singleton] at hp
    subst hp
    norm_num
  · norm_num [Spec.totalProjected, Spec.projectedInvestment, Example.buyNear]

theorem wf_catalogAB : Example.catalogAB.WF := by
  simp [JSMap.WF, JSMap.keys, Example.catalogAB]

theorem fitness_buyAB_five :
    calculateStrategyFitness BigNumber.ROUND_HALF_UP (Spec.strategyOf (Example.buyAB 5 5))
      Example.catalogAB 100 = some (.fin 0) := by
  rw [fitness_of_within _ _ _ _ wf_catalogAB (covers_buyAB 5 5)
    (by norm_num [Spec.totalProjected, Spec.projectedInvestment, Example.buyAB])
    (by norm_num [Spec.projectedTotalValue, Spec.currentValueSum, Spec.totalProjected,
      Spec.projectedInvestment, Example.buyAB, Example.catalogAB])
    (by norm_num)]
  congr 2
  norm_num [Spec.totalDiff, Spec.newPercentage, Spec.newValue, Spec.unspentPenalty,
    Spec.projectedTotalValue, Spec.currentValueSum, Spec.totalProjected,
    Spec.projectedInvestment, Example.buyAB, Example.catalogAB,
    BigNumber.ROUND_HALF_UP, BigNumber.roundHalfUp, BigNumber.DECIMAL_PLACES]

/-- C3, amended, at the specification's scenario: budget 100, 5 shares of A and 5 of
B have fitness 0, and indeed spend the budget and meet both targets. -/
theorem C3_zero_fitness_means_ideal_witness :
    calculateStrategyFitness BigNumber.ROUND_HALF_UP (Spec.strategyOf (Example.buyAB 5 5))
        Example.catalogAB 100 = some (.fin 0)
      ∧ Spec.totalProjected (Example.buyAB 5 5) ≤ 100
      ∧ BigNumber.ROUND_HALF_UP (Spec.totalProjected (Example.buyAB 5 5) / 100) = 1
      ∧ ∀ p ∈ Example.buyAB 5 5,
          Spec.newPercentage BigNumber.ROUND_HALF_UP
            (Spec.projectedTotalValue Example.catalogAB (Example.buyAB 5 5)) p
            = p.asset.targetPercentage :=
  have h := C3_zero_fitness_means_ideal Example.catalogAB 100 (Example.buyAB 5 5)
    wf_catalogAB (covers_buyAB 5 5) (by norm_num) fitness_buyAB_five
  ⟨fitness_buyAB_five, h.1, h.2.2.1, h.2.2.2.2⟩
theorem covers_buyThirds : Spec.Covers Example.catalogThirds Example.buyThirds := by
  constructor
  · simp [Example.buyThirds]
  · intro p hp
    simp only [Example.buyThirds, List.mem_cons, List.mem_singleton, List.not_mem_nil,
      or_false] at hp
    rcases hp with rfl | rfl <;> simp [Example.catalogThirds, JSMap.get, List.lookup]

theorem fitness_buyThirds :
    calculateStrategyFitness BigNumber.ROUND_HALF_UP (Spec.strategyOf Example.buyThirds)
      Example.catalogThirds 3 = some (.fin 33.333333333333333334) := by
  rw [fitness_of_within _ _ _ _ (by simp [JSMap.WF, JSMap.keys, Example.catalogThirds])
    covers_buyThirds
    (by norm_num [Spec.totalProjected, Spec.projectedInvestment, Example.buyThirds])
    (by norm_num [Spec.projectedTotalValue, Spec.currentValueSum, Spec.totalProjected,
      Spec.projectedInvestment, Example.buyThirds, Example.catalogThirds])
    (by norm_num)]
  congr 2
  norm_num [Spec.totalDiff, Spec.newPercentage, Spec.newValue, Spec.unspentPenalty,
    Spec.projectedTotalValue, Spec.currentValueSum, Spec.totalProjected,
    Spec.projectedInvestment, Example.buyThirds, Example.catalogThirds,
    BigNumber.ROUND_HALF_UP, BigNumber.roundHalfUp, BigNumber.DECIMAL_PLACES]
  rw [abs_of_pos (by norm_num)]
  norm_num

/-- C4 as stated fails: in `catalogThirds` with budget 3, buying one share of each
asset is within the budget and has projected total value 3, the formula of the claim
gives 100/3 in exact arithmetic, and the program returns 33.333333333333333334, the
two quotients 1/3 and 2/3 being rounded to 20 decimal places. -/
theorem C4_fitness_formula_counterexample :
    Example.catalogThirds.WF ∧ Spec.Covers Example.catalogThirds Example.buyThirds
      ∧ Spec.totalProjected Example.buyThirds ≤ 3
      ∧ Spec.projectedTotalValue Example.catalogThirds Example.buyThirds = 3
      ∧ Spec.exactFitness 3 3 Example.buyThirds = 100 / 3
      ∧ calculateStrategyFitness BigNumber.ROUND_HALF_UP (Spec.strategyOf Example.buyThirds)
          Example.catalogThirds 3 = some (.fin 33.333333333333333334)
      ∧ calculateStrategyFitness BigNumber.ROUND_HALF_UP (Spec.strategyOf Example.buyThirds)
          Example.catalogThirds 3 ≠ some (.fin (Spec.exactFitness 3 3 Example.buyThirds)) := by
  have hex : Spec.exactFitness 3 3 Example.buyThirds = 100 / 3 := by
    norm_num [Spec.exactFitness, Spec.exactPercentage, Spec.newValue, Spec.totalProjected,
      Spec.projectedInvestment, Example.buyThirds]
    rw [abs_of_pos (by norm_num)]
    norm_num
  refine ⟨by simp [JSMap.WF, JSMap.keys, Example.catalogThirds], covers_buyThirds, ?_, ?_,
    hex, fitness_buyThirds, ?_⟩
  · norm_num [Spec.totalProjected, Spec.projectedInvestment, Example.buyThirds]
  · norm_num [Spec.projectedTotalValue, Spec.currentValueSum, Spec.totalProjected,
      Spec.projectedInvestment, Example.buyThirds, Example.catalogThirds]
  · rw [fitness_buyThirds, hex]
    intro h
    have h2 := BigNumber.fin.inj (Option.some.inj h)
    norm_num at h2

/-- C4, amended: for a strategy within the budget (budget > 0) whose projected total
value V is non-zero, the fitness is the sum over the assets of
|target - 100 * q| plus 100 - 100 * qT, where q is the quotient
(currentTotalValue + sharePrice * sharesCount) / V and qT the quotient T / budget, each
rounded half-up to 20 decimal places as `dividedBy` returns it. -/
theorem C4_fitness_formula (assetData : JSMap AssetData) (investmentLimit : ℚ)
    (ps : List Position) (hwf : assetData.WF) (hcov : Spec.Covers assetData ps)
    (hb : 0 < investmentLimit) (hle : Spec.totalProjected ps ≤ investmentLimit)
    (hV : Spec.projectedTotalValue assetData ps ≠ 0) :
    calculateStrategyFitness BigNumber.ROUND_HALF_UP (Spec.strategyOf ps) assetData
      investmentLimit
      = some (.fin
          ((ps.map (fun p => |p.asset.targetPercentage
              - BigNumber.ROUND_HALF_UP
                  ((p.asset.currentTotalValue + p.asset.currentSharePrice * p.shares)
                    / Spec.projectedTotalValue assetData ps) * 100|)).sum
            + (100 - BigNumber.ROUND_HALF_UP (Spec.totalProjected ps / investmentLimit) * 100))) :=
  fitness_of_within _ _ _ _ hwf hcov hle hV (ne_of_gt hb)

/-- C4, amended, at `catalogThirds`: budget 3, one share of each asset. -/
theorem C4_fitness_formula_witness :
    Spec.totalProjected Example.buyThirds ≤ 3
      ∧ Spec.projectedTotalValue Example.catalogThirds Example.buyThirds ≠ 0
      ∧ calculateStrategyFitness BigNumber.ROUND_HALF_UP (Spec.strategyOf Example.buyThirds)
          Example.catalogThirds 3
        = some (.fin
          ((Example.buyThirds.map (fun p => |p.asset.targetPercentage
              - BigNumber.ROUND_HALF_UP
                  ((p.asset.currentTotalValue + p.asset.currentSharePrice * p.shares)
                    / Spec.projectedTotalValue Example.catalogThirds Example.buyThirds)
                  * 100|)).sum
            + (100 - BigNumber.ROUND_HALF_UP (Spec.totalProjected Example.buyThirds / 3)
                * 100))) :=
  have h1 : Spec.totalProjected Example.buyThirds ≤ 3 := by
    norm_num [Spec.totalProjected, Spec.projectedInvestment, Example.buyThirds]
  have h2 : Spec.projectedTotalValue Example.catalogThirds Example.buyThirds ≠ 0 := by
    norm_num [Spec.projectedTotalValue, Spec.currentValueSum, Spec.totalProjected,
      Spec.projectedInvestment, Example.buyThirds, Example.catalogThirds]
  ⟨h1, h2, C4_fitness_formula Example.catalogThirds 3 Example.buyThirds
    (by simp [JSMap.WF, JSMap.keys, Example.catalogThirds]) covers_buyThirds (by norm_num) h1 h2⟩

theorem mem_of_lookup {β : Type} (k : String) (v : β) :
    ∀ (l : List (String × β)), l.lookup k = some v → (k, v) ∈ l := by
  intro l
  induction l with
  | nil => intro h; simp [List.lookup] at h
  | cons a t ih =>
    intro h
    obtain ⟨k1, v1⟩ := a
    by_cases hk : k = k1
    · subst hk
      simp [List.lookup] at h
      simp [h]
    · have hb : (k == k1) = false := by simpa using hk
      simp only [List.lookup, hb] at h
      exact List.mem_cons_of_mem _ (ih h)

theorem mem_of_get {β : Type} (m : JSMap β) (k : String) (v : β) (h : m.get k = some v) :
    (k, v) ∈ m.entries :=
  mem_of_lookup k v m.entries h

/-- C5: the code does not treat the percentage as 0 when the projected total value is
zero. For a non-empty catalog without holdings and the strategy that buys nothing,
every quotient is `0 / 0` and `calculateStrategyFitness` returns `NaN`, not the number
(sum of targetPercentage) + 100. -/
theorem C5_zero_total_gives_nan (R : ℚ → ℚ) (assetData : JSMap AssetData)
    (investmentLimit : ℚ) (ps : List Position) (hwf : assetData.WF)
    (hcov : Spec.Covers assetData ps) (hb : 0 < investmentLimit) (hne : ps ≠ [])
    (hhold : ∀ e ∈ assetData.entries, e.2.currentTotalValue = 0)
    (hbuy : ∀ p ∈ ps, p.shares = 0) :
    calculateStrategyFitness R (Spec.strategyOf ps) assetData investmentLimit
      = some .nan := by
  have hpi : ∀ p ∈ ps, Spec.projectedInvestment p = 0 := by
    intro p hp
    simp [Spec.projectedInvestment, hbuy p hp]
  have hT : Spec.totalProjected ps = 0 := by
    unfold Spec.totalProjected
    apply List.sum_eq_zero
    intro x hx
    obtain ⟨p, hp, rfl⟩ := List.mem_map.mp hx
    exact hpi p hp
  have hC : Spec.currentValueSum assetData = 0 := by
    unfold Spec.currentValueSum
    apply List.sum_eq_zero
    intro x hx
    obtain ⟨e, he, rfl⟩ := List.mem_map.mp hx
    exact hhold e he
  have hval : ∀ p ∈ ps, p.asset.currentTotalValue = 0 := by
    intro p hp
    exact hhold _ (mem_of_get assetData p.name p.asset (hcov.2 p hp))
  apply fitness_of_zero R assetData investmentLimit ps hwf hcov (by rw [hT]; exact le_of_lt hb)
    hne (by simp [Spec.projectedTotalValue, hT, hC])
  intro p hp
  simp [Spec.newValue, hpi p hp, hval p hp]

/-- C5 at the specification's catalog: budget 100, no share of A and none of B. -/
theorem C5_zero_total_gives_nan_witness :
    Example.catalogAB.WF ∧ Spec.Covers Example.catalogAB (Example.buyAB 0 0)
      ∧ (∀ e ∈ Example.catalogAB.entries, e.2.currentTotalValue = 0)
      ∧ calculateStrategyFitness BigNumber.ROUND_HALF_UP (Spec.strategyOf (Example.buyAB 0 0))
          Example.catalogAB 100 = some .nan :=
  have hhold : ∀ e ∈ Example.catalogAB.entries, e.2.currentTotalValue = 0 := by
    intro e he
    simp only [Example.catalogAB, List.mem_cons, List.mem_singleton, List.not_mem_nil,
      or_false] at he
    rcases he with rfl | rfl <;> rfl
  ⟨wf_catalogAB, covers_buyAB 0 0, hhold,
    C5_zero_total_gives_nan _ Example.catalogAB 100 (Example.buyAB 0 0) wf_catalogAB
      (covers_buyAB 0 0) (by norm_num) (by simp [Example.buyAB]) hhold
      (by
        intro p hp
        simp only [Example.buyAB, List.mem_cons, List.mem_singleton, List.not_mem_nil,
          or_false] at hp
        rcases hp with rfl | rfl <;> rfl)⟩
theorem ROUND_HALF_UP_nonneg (q : ℚ) (hq : 0 ≤ q) : 0 ≤ BigNumber.ROUND_HALF_UP q := by
  unfold BigNumber.ROUND_HALF_UP BigNumber.roundHalfUp BigNumber.DECIMAL_PLACES
  rw [if_pos hq]
  apply div_nonneg
  · have h0 : (0 : ℤ) ≤ ⌊q * 10 ^ 20 + 1 / 2⌋ := by
      apply Int.floor_nonneg.mpr
      positivity
    exact_mod_cast h0
  · norm_num

theorem ROUND_HALF_UP_le_two_mul (q : ℚ) (hq : 0 ≤ q) : BigNumber.ROUND_HALF_UP q ≤ 2 * q := by
  unfold BigNumber.ROUND_HALF_UP BigNumber.roundHalfUp BigNumber.DECIMAL_PLACES
  rw [if_pos hq, div_le_iff₀ (by norm_num)]
  by_cases hsmall : q * 10 ^ 20 + 1 / 2 < 1
  · have h0 : ⌊q * 10 ^ 20 + 1 / 2⌋ = 0 := by
      rw [Int.floor_eq_iff]
      constructor
      · push_cast; positivity
      · push_cast; linarith
    rw [h0]
    push_cast
    positivity
  · have h1 : ((⌊q * 10 ^ 20 + 1 / 2⌋ : ℤ) : ℚ) ≤ q * 10 ^ 20 + 1 / 2 := Int.floor_le _
    linarith

theorem covers_of_coversAll (assetData : JSMap AssetData) (ps : List Position)
    (hwf : assetData.WF) (hall : Spec.CoversAll assetData ps) : Spec.Covers assetData ps := by
  have hk : ps.map Position.name = assetData.keys := by
    rw [JSMap.keys, show assetData.entries = _ from hall]
    simp [Function.comp_def]
  refine ⟨hk ▸ hwf, ?_⟩
  intro p hp
  unfold JSMap.get
  rw [hall]
  exact lookup_map_of_nodup Position.name Position.asset ps (hk ▸ hwf) p hp

theorem sum_newValue_of_coversAll (assetData : JSMap AssetData) (ps : List Position)
    (hall : Spec.CoversAll assetData ps) :
    (ps.map Spec.newValue).sum = Spec.projectedTotalValue assetData ps := by
  unfold Spec.projectedTotalValue Spec.currentValueSum Spec.totalProjected
  rw [hall, List.map_map, ← List.sum_map_add]
  rfl

theorem isLessThan_MAX_VALUE (f : ℚ) (hf : f ≤ 400) :
    (BigNumber.fin f).isLessThan MAX_VALUE = true := by
  have h : f < 17976931348623157 * 10 ^ 292 := lt_of_le_of_lt hf (by norm_num)
  simp [BigNumber.isLessThan, MAX_VALUE, BigNumber.comparedTo, h]

/-- For a valid catalog and a feasible strategy that names every asset, with a
projected total value other than zero, the fitness is a number of at most 400, hence
below the sentinel. -/
theorem fitness_le_of_valid (assetData : JSMap AssetData) (investmentLimit : ℚ)
    (ps : List Position) (hval : Spec.ValidCatalog assetData)
    (hall : Spec.CoversAll assetData ps) (hb : 0 < investmentLimit)
    (hfeas : Spec.Feasible investmentLimit ps)
    (hV : Spec.projectedTotalValue assetData ps ≠ 0) :
    ∃ f : ℚ, calculateStrategyFitness BigNumber.ROUND_HALF_UP (Spec.strategyOf ps) assetData
        investmentLimit = some (.fin f)
      ∧ f ≤ 400 ∧ (BigNumber.fin f).isLessThan MAX_VALUE = true := by
  have hcov := covers_of_coversAll assetData ps hval.1 hall
  have hmem : ∀ p ∈ ps, (p.name, p.asset) ∈ assetData.entries := by
    intro p hp
    rw [show assetData.entries = _ from hall]
    exact List.mem_map_of_mem (fun p => (p.name, p.asset)) hp
  have hpi : ∀ p ∈ ps, 0 ≤ Spec.projectedInvestment p := by
    intro p hp
    exact mul_nonneg (le_of_lt (hval.2.1 _ (hmem p hp)).2.2.2) (hfeas.1 p hp)
  have hnv : ∀ p ∈ ps, 0 ≤ Spec.newValue p := by
    intro p hp
    exact add_nonneg (hval.2.1 _ (hmem p hp)).2.2.1 (hpi p hp)
  have hT : 0 ≤ Spec.totalProjected ps := by
    apply List.sum_nonneg
    intro x hx
    obtain ⟨p, hp, rfl⟩ := List.mem_map.mp hx
    exact hpi p hp
  have hsumV := sum_newValue_of_coversAll assetData ps hall
  have hVpos : 0 < Spec.projectedTotalValue assetData ps := by
    apply lt_of_le_of_ne _ (Ne.symm hV)
    rw [← hsumV]
    apply List.sum_nonneg
    intro x hx
    obtain ⟨p, hp, rfl⟩ := List.mem_map.mp hx
    exact hnv p hp
  have htargets : (ps.map (fun p => p.asset.targetPercentage)).sum = 100 := by
    have h := hval.2.2
    rw [show assetData.entries = _ from hall, List.map_map] at h
    exact h
  have hfit := fitness_of_within BigNumber.ROUND_HALF_UP _ _ _ hval.1 hcov hfeas.2 hV
    (ne_of_gt hb)
  have hbound : Spec.totalDiff BigNumber.ROUND_HALF_UP (Spec.projectedTotalValue assetData ps) ps
      + Spec.unspentPenalty BigNumber.ROUND_HALF_UP (Spec.totalProjected ps) investmentLimit
      ≤ 400 := by
    have hterm : ∀ p ∈ ps,
        |p.asset.targetPercentage - Spec.newPercentage BigNumber.ROUND_HALF_UP
            (Spec.projectedTotalValue assetData ps) p|
          ≤ p.asset.targetPercentage
            + 200 / Spec.projectedTotalValue assetData ps * Spec.newValue p := by
      intro p hp
      have hq : 0 ≤ Spec.newValue p / Spec.projectedTotalValue assetData ps :=
        div_nonneg (hnv p hp) (le_of_lt hVpos)
      have h1 := ROUND_HALF_UP_nonneg _ hq
      have h2 := ROUND_HALF_UP_le_two_mul _ hq
      have ht := (hval.2.1 _ (hmem p hp)).1
      have h3 : 200 / Spec.projectedTotalValue assetData ps * Spec.newValue p
          = 2 * (Spec.newValue p / Spec.projectedTotalValue assetData ps) * 100 := by
        field_simp
        ring
      unfold Spec.newPercentage
      rw [h3, abs_le]
      constructor
      · linarith
      · linarith
    have hS : Spec.totalDiff BigNumber.ROUND_HALF_UP (Spec.projectedTotalValue assetData ps) ps
        ≤ 300 := by
      unfold Spec.totalDiff
      calc (ps.map (fun p => |p.asset.targetPercentage - Spec.newPercentage
              BigNumber.ROUND_HALF_UP (Spec.projectedTotalValue assetData ps) p|)).sum
          ≤ (ps.map (fun p => p.asset.targetPercentage
              + 200 / Spec.projectedTotalValue assetData ps * Spec.newValue p)).sum :=
            List.sum_le_sum hterm
        _ = 100 + 200 / Spec.projectedTotalValue assetData ps
              * Spec.projectedTotalValue assetData ps := by
            rw [List.sum_map_add, htargets, List.sum_map_mul_left, hsumV]
        _ = 300 := by
            field_simp
            norm_num
    have hP : Spec.unspentPenalty BigNumber.ROUND_HALF_UP (Spec.totalProjected ps)
        investmentLimit ≤ 100 := by
      have := ROUND_HALF_UP_nonneg _ (div_nonneg hT (le_of_lt hb))
      unfold Spec.unspentPenalty
      linarith
    linarith
  exact ⟨_, hfit, hbound, isLessThan_MAX_VALUE _ hbound⟩

theorem fitness_buyAB_zero (R : ℚ → ℚ) :
    calculateStrategyFitness R (Spec.strategyOf (Example.buyAB 0 0)) Example.catalogAB 100
      = some .nan := by
  apply fitness_of_zero R Example.catalogAB 100 (Example.buyAB 0 0) wf_catalogAB
    (covers_buyAB 0 0)
  · norm_num [Spec.totalProjected, Spec.projectedInvestment, Example.buyAB]
  · simp [Example.buyAB]
  · norm_num [Spec.projectedTotalValue, Spec.currentValueSum, Spec.totalProjected,
      Spec.projectedInvestment, Example.buyAB, Example.catalogAB]
  · intro p hp
    simp only [Example.buyAB, List.mem_cons, List.mem_singleton, List.not_mem_nil,
      or_false] at hp
    rcases hp with rfl | rfl <;> norm_num [Spec.newValue, Spec.projectedInvestment]

theorem valid_catalogAB : Spec.ValidCatalog Example.catalogAB := by
  refine ⟨wf_catalogAB, ?_, ?_⟩
  · intro e he
    simp only [Example.catalogAB, List.mem_cons, List.mem_singleton, List.not_mem_nil,
      or_false] at he
    rcases he with rfl | rfl <;> norm_num
  · norm_num [Example.catalogAB]

/-- C6: a feasible strategy whose fitness is not below the sentinel. The catalog of
the specification's scenarios is valid, and with budget 100 the strategy that buys
nothing is feasible; its projected total value is zero, the fitness is `NaN` (the
missing zero guard of C5), and `NaN` compares below nothing. -/
theorem C6_feasible_not_below_sentinel :
    Spec.ValidCatalog Example.catalogAB
      ∧ Spec.CoversAll Example.catalogAB (Example.buyAB 0 0)
      ∧ Spec.Feasible 100 (Example.buyAB 0 0)
      ∧ calculateStrategyFitness BigNumber.ROUND_HALF_UP (Spec.strategyOf (Example.buyAB 0 0))
          Example.catalogAB 100 = some .nan
      ∧ BigNumber.nan.isLessThan MAX_VALUE = false
      ∧ BigNumber.nan.comparedTo MAX_VALUE = none := by
  refine ⟨valid_catalogAB, rfl, ⟨?_, ?_⟩, fitness_buyAB_zero _, rfl, rfl⟩
  · intro p hp
    simp only [Example.buyAB, List.mem_cons, List.mem_singleton, List.not_mem_nil,
      or_false] at hp
    rcases hp with rfl | rfl <;> norm_num
  · norm_num [Spec.totalProjected, Spec.projectedInvestment, Example.buyAB]
/-! ## Random genes -/

theorem roundDown_of_nonneg (q : ℚ) (hq : 0 ≤ q) : BigNumber.roundDown q = (⌊q⌋ : ℚ) := by
  simp [BigNumber.roundDown, hq]

/-- The literal `0.4` is the double 3602879701896397 / 2^53, a little above 2/5. -/
theorem round_two_fifths : Double.round 0.4 = 3602879701896397 / 2 ^ 53 := by
  rw [round_eq_pos 0.4 (-2) (by norm_num) (by norm_num) (by norm_num)]
  norm_num [Double.roundHalfEven]

/-- The literal `0.6` is the double 5404319552844595 / 2^53, a little below 3/5. -/
theorem round_three_fifths : Double.round 0.6 = 5404319552844595 / 2 ^ 53 := by
  rw [round_eq_pos 0.6 (-1) (by norm_num) (by norm_num) (by norm_num)]
  norm_num [Double.roundHalfEven]

theorem round_two_fifths_eq :
    Double.round (2 / 5) = 3602879701896397 / 9007199254740992 := by
  have h := round_two_fifths
  norm_num at h
  exact h

theorem round_three_fifths_eq :
    Double.round (3 / 5) = 5404319552844595 / 9007199254740992 := by
  have h := round_three_fifths
  norm_num at h
  exact h

theorem ofRat_of_lt (q : ℚ) (h : |q| < Double.overflow) :
    JSValue.ofRat q = .number (Double.round q) := by
  simp [JSValue.ofRat, not_le.mpr h]

theorem ofRat_of_isValue (q : ℚ) (hv : Double.IsValue q) (h : |q| < Double.overflow) :
    JSValue.ofRat q = .number q := by
  rw [ofRat_of_lt q h, round_of_isValue q hv]

/-- A number below the overflow threshold rounds to a double below `2^1024`. -/
theorem round_lt_of_lt_overflow (q : ℚ) (h : q < Double.overflow) :
    Double.round q < 2 ^ 1024 := by
  have hmax : Double.IsValue (2 ^ 1024 - 2 ^ 971 : ℚ) :=
    ⟨2 ^ 53 - 1, 971, by norm_num, by norm_num, by norm_num⟩
  unfold Double.overflow at h
  rcases le_or_lt q (2 ^ 1024 - 2 ^ 971) with hq | hq
  · have := round_mono q _ hq
    rw [round_of_isValue _ hmax] at this
    have h2 : (0 : ℚ) < 2 ^ 971 := by positivity
    linarith
  · have hn := round_nearest q _ hmax
    rw [abs_of_neg (by linarith : (2 ^ 1024 - 2 ^ 971 : ℚ) - q < 0)] at hn
    have h1 := le_abs_self (Double.round q - q)
    have h2 : (2 : ℚ) ^ 971 = 2 * 2 ^ 970 := by norm_num
    linarith

/-- The product `Math.random() * max.toNumber()` for a maximum `q >= 0` below the
overflow threshold: the maximum is rounded to a double, and so is the product. -/
theorem times_toNumber (r : Draw) (q : ℚ) (h0 : 0 ≤ q) (h : q < Double.overflow) :
    JSValue.times r.val (BigNumber.toNumber (.fin q))
      = .number (Double.round (r.val * Double.round q)) := by
  have hD0 := round_nonneg q h0
  have hD1 := round_lt_of_lt_overflow q h
  have hr := isValue_lt_one r.val r.isDouble r.lt_one
  have hp0 : 0 ≤ r.val * Double.round q := mul_nonneg r.nonneg hD0
  have hp1 : r.val * Double.round q < Double.overflow := by
    have h1 : r.val * Double.round q ≤ (1 - 1 / 2 ^ 53) * Double.round q :=
      mul_le_mul_of_nonneg_right hr hD0
    have h2 : (1 - 1 / 2 ^ 53 : ℚ) * Double.round q ≤ (1 - 1 / 2 ^ 53) * 2 ^ 1024 :=
      mul_le_mul_of_nonneg_left (le_of_lt hD1) (by norm_num)
    have h3 : (1 - 1 / 2 ^ 53 : ℚ) * 2 ^ 1024 < Double.overflow := by
      unfold Double.overflow
      norm_num
    linarith
  show JSValue.times r.val (JSValue.ofRat q) = _
  rw [ofRat_of_lt q (by rwa [abs_of_nonneg h0])]
  show JSValue.ofRat (r.val * Double.round q) = _
  rw [ofRat_of_lt _ (by rwa [abs_of_nonneg hp0])]

/-- The value `Math.round(r * max)` for a draw `r` and a non-negative integer `max`, the
product being a double, is an integer between 0 and `max`. -/
theorem round_draw_bounds (r : Draw) (m : ℤ) (hm : 0 ≤ m) :
    0 ≤ ⌊Double.round (r.val * Double.round m) + 1 / 2⌋
      ∧ ⌊Double.round (r.val * Double.round m) + 1 / 2⌋ ≤ m := by
  have hmq : (0 : ℚ) ≤ (m : ℚ) := by exact_mod_cast hm
  have h1 : 0 ≤ Double.round (r.val * Double.round m) :=
    round_nonneg _ (mul_nonneg r.nonneg (round_nonneg _ hmq))
  have h2 : Double.round (r.val * Double.round m) ≤ (m : ℚ) := by
    rcases eq_or_lt_of_le hm with h0 | h0
    · rw [← h0]
      simp [round_zero]
    · have hm1 : (1 : ℚ) ≤ (m : ℚ) := by exact_mod_cast (by omega : (1 : ℤ) ≤ m)
      have := (round_round_mul_le (m : ℚ) r.val hm1 r.isDouble r.lt_one).2
      rwa [mul_comm] at this
  constructor
  · apply Int.floor_nonneg.mpr
    linarith
  · have h3 : ⌊Double.round (r.val * Double.round m) + 1 / 2⌋ < m + 1 := by
      rw [Int.floor_lt]
      push_cast
      linarith
    omega

/-- What `setRandomSharesCountForAssetToStrategy` sets for an asset of price > 0 under a
budget >= 0 whose `floor(budget / price)` is below the overflow threshold. -/
theorem setRandom_eq (strategy : Strategy) (assetName : String) (assetData : JSMap AssetData)
    (investmentLimit : ℚ) (rng : RandomSource) (asset : AssetData)
    (hget : assetData.get assetName = some asset) (hprice : 0 < asset.currentSharePrice)
    (hb : 0 ≤ investmentLimit)
    (hfin : (⌊investmentLimit / asset.currentSharePrice⌋ : ℚ) < Double.overflow) :
    setRandomSharesCountForAssetToStrategy strategy assetName assetData investmentLimit rng
      = some (strategy.set assetName
          (.number ((⌊Double.round ((rng 0).val
            * Double.round (⌊investmentLimit / asset.currentSharePrice⌋ : ℤ)) + 1 / 2⌋ : ℤ) : ℚ)),
          (Math.random rng).2) := by
  have hq : 0 ≤ investmentLimit / asset.currentSharePrice := div_nonneg hb (le_of_lt hprice)
  have hfl : (0 : ℚ) ≤ (⌊investmentLimit / asset.currentSharePrice⌋ : ℚ) := by
    exact_mod_cast Int.floor_nonneg.mpr hq
  have ht := times_toNumber (rng 0) _ hfl hfin
  unfold setRandomSharesCountForAssetToStrategy
  rw [hget]
  simp only [BigNumber.dividedToIntegerBy, BigNumber.div, ne_of_gt hprice, if_false,
    roundDown_of_nonneg _ hq, Math.random, ht, Math.round, Option.bind_eq_bind,
    Option.some_bind]
  rfl

theorem setRandom_spec (strategy : Strategy) (assetName : String) (assetData : JSMap AssetData)
    (investmentLimit : ℚ) (rng : RandomSource) (asset : AssetData)
    (hget : assetData.get assetName = some asset) (hprice : 0 < asset.currentSharePrice)
    (hb : 0 ≤ investmentLimit)
    (hfin : (⌊investmentLimit / asset.currentSharePrice⌋ : ℚ) < Double.overflow) :
    ∃ v, setRandomSharesCountForAssetToStrategy strategy assetName assetData investmentLimit rng
        = some (strategy.set assetName v, (Math.random rng).2)
      ∧ Spec.RandomGene assetData investmentLimit assetName v := by
  have hq : 0 ≤ investmentLimit / asset.currentSharePrice := div_nonneg hb (le_of_lt hprice)
  have hfl : (0 : ℤ) ≤ ⌊investmentLimit / asset.currentSharePrice⌋ := Int.floor_nonneg.mpr hq
  have hb2 := round_draw_bounds (rng 0) _ hfl
  exact ⟨_, setRandom_eq strategy assetName assetData investmentLimit rng asset hget hprice hb
    hfin, asset, _, hget, rfl, hb2.1, hb2.2⟩

theorem get_of_mem {β : Type} (m : JSMap β) (hwf : m.WF) (e : String × β)
    (he : e ∈ m.entries) : m.get e.1 = some e.2 := by
  have h := lookup_map_of_nodup (Prod.fst : String × β → String) Prod.snd m.entries hwf e he
  simpa [JSMap.get] using h

theorem keys_set_of_not_mem {β : Type} (m : JSMap β) (k : String) (v : β) (h : k ∉ m.keys) :
    (m.set k v).keys = m.keys ++ [k] := by
  rw [JSMap.set_of_not_mem m k v h]
  simp [JSMap.keys]

/-- A loop over distinct new keys whose every pass sets the key to a value with the
property `P` yields a map with the keys appended in order, every new entry having `P`. -/
theorem foldlM_set_inv (allKeys : List String) (P : String → JSValue → Prop)
    (step : Strategy × RandomSource → String → Option (Strategy × RandomSource))
    (hstep : ∀ (acc : Strategy × RandomSource) (k : String), k ∈ allKeys →
      ∃ v rng, step acc k = some (acc.1.set k v, rng) ∧ P k v) :
    ∀ (ks : List String) (acc : Strategy × RandomSource), (∀ k ∈ ks, k ∈ allKeys) → ks.Nodup →
      (∀ k ∈ ks, k ∉ acc.1.keys) →
      ∃ res, ks.foldlM step acc = some res ∧ res.1.keys = acc.1.keys ++ ks
        ∧ ∀ e ∈ res.1.entries, e ∈ acc.1.entries ∨ P e.1 e.2 := by
  intro ks
  induction ks with
  | nil =>
    intro acc _ _ _
    exact ⟨acc, by simp, by simp, fun e he => Or.inl he⟩
  | cons k t ih =>
    intro acc hall hnd hnew
    rw [List.nodup_cons] at hnd
    obtain ⟨v, rng, hs, hP⟩ := hstep acc k (hall k (List.mem_cons_self _ _))
    have hk : k ∉ acc.1.keys := hnew k (List.mem_cons_self _ _)
    have hkeys := keys_set_of_not_mem acc.1 k v hk
    obtain ⟨res, hres, hrk, hre⟩ := ih (acc.1.set k v, rng)
      (fun x hx => hall x (List.mem_cons_of_mem _ hx)) hnd.2
      (by
        intro x hx
        rw [hkeys]
        intro hmem
        rcases List.mem_append.mp hmem with h1 | h1
        · exact hnew x (List.mem_cons_of_mem _ hx) h1
        · have : x = k := by simpa using h1
          exact hnd.1 (this ▸ hx))
    refine ⟨res, ?_, ?_, ?_⟩
    · simp only [List.foldlM_cons, hs]
      exact hres
    · rw [hrk, hkeys]
      simp
    · intro e he
      rcases hre e he with h1 | h1
      · rw [JSMap.set_of_not_mem acc.1 k v hk] at h1
        rcases List.mem_append.mp h1 with h2 | h2
        · exact Or.inl h2
        · have : e = (k, v) := by simpa using h2
          exact Or.inr (this ▸ hP)
      · exact Or.inr h1

theorem exists_entry_of_mem_keys {β : Type} (m : JSMap β) (k : String) (h : k ∈ m.keys) :
    ∃ v, (k, v) ∈ m.entries := by
  obtain ⟨e, he, rfl⟩ := List.mem_map.mp h
  exact ⟨e.2, he⟩

/-- What a loop as in `foldlM_set_inv`, run from the empty map over the keys of the
catalog, returns. -/
theorem loop_over_catalog (assetData : JSMap AssetData) (hwf : assetData.WF)
    (P : String → JSValue → Prop)
    (step : Strategy × RandomSource → String → Option (Strategy × RandomSource))
    (hstep : ∀ (acc : Strategy × RandomSource) (k : String), k ∈ assetData.keys →
      ∃ v rng, step acc k = some (acc.1.set k v, rng) ∧ P k v) (rng : RandomSource) :
    ∃ strategy rng1, assetData.keys.foldlM step (JSMap.empty, rng) = some (strategy, rng1)
      ∧ strategy.keys = assetData.keys
      ∧ ∀ k ∈ assetData.keys, ∃ v, strategy.get k = some v ∧ P k v := by
  obtain ⟨res, hres, hkeys, hent⟩ := foldlM_set_inv assetData.keys P step hstep assetData.keys
    (JSMap.empty, rng) (fun _ h => h) hwf (by simp [JSMap.empty, JSMap.keys])
  have hk : res.1.keys = assetData.keys := by simpa [JSMap.empty, JSMap.keys] using hkeys
  refine ⟨res.1, res.2, hres, hk, ?_⟩
  intro k hkm
  obtain ⟨v, hv⟩ := exists_entry_of_mem_keys res.1 k (hk ▸ hkm)
  have hwf1 : res.1.WF := by
    unfold JSMap.WF
    rw [hk]
    exact hwf
  refine ⟨v, get_of_mem res.1 hwf1 (k, v) hv, ?_⟩
  rcases hent (k, v) hv with h1 | h1
  · simp [JSMap.empty] at h1
  · exact h1

theorem createStrategy_spec (assetData : JSMap AssetData) (investmentLimit : ℚ)
    (rng : RandomSource) (hwf : assetData.WF)
    (hprice : ∀ e ∈ assetData.entries, 0 < e.2.currentSharePrice) (hb : 0 ≤ investmentLimit)
    (hfin : ∀ e ∈ assetData.entries,
      (⌊investmentLimit / e.2.currentSharePrice⌋ : ℚ) < Double.overflow) :
    ∃ strategy rng1, createStrategy assetData investmentLimit rng = some (strategy, rng1)
      ∧ strategy.keys = assetData.keys
      ∧ ∀ k ∈ assetData.keys, ∃ v, strategy.get k = some v
          ∧ Spec.RandomGene assetData investmentLimit k v := by
  have hstep : ∀ (acc : Strategy × RandomSource) (k : String), k ∈ assetData.keys →
      ∃ v rng1, setRandomSharesCountForAssetToStrategy acc.1 k assetData investmentLimit acc.2
          = some (acc.1.set k v, rng1) ∧ Spec.RandomGene assetData investmentLimit k v := by
    intro acc k hk
    obtain ⟨a, ha⟩ := exists_entry_of_mem_keys assetData k hk
    have hf := hfin _ ha
    obtain ⟨v, hv, hP⟩ := setRandom_spec acc.1 k assetData investmentLimit acc.2 a
      (get_of_mem assetData hwf (k, a) ha) (hprice _ ha) hb hf
    exact ⟨v, _, hv, hP⟩
  exact loop_over_catalog assetData hwf (Spec.RandomGene assetData investmentLimit) _ hstep rng

theorem mateStrategies_spec (parent1 parent2 : Strategy) (assetData : JSMap AssetData)
    (investmentLimit : ℚ) (rng : RandomSource) (hwf : assetData.WF)
    (hprice : ∀ e ∈ assetData.entries, 0 < e.2.currentSharePrice) (hb : 0 ≤ investmentLimit)
    (hfin : ∀ e ∈ assetData.entries,
      (⌊investmentLimit / e.2.currentSharePrice⌋ : ℚ) < Double.overflow) :
    ∃ child rng1, mateStrategies parent1 parent2 assetData investmentLimit rng
        = some (child, rng1)
      ∧ child.keys = assetData.keys
      ∧ ∀ k ∈ assetData.keys, ∃ v, child.get k = some v
          ∧ (v = parent1.count k ∨ v = parent2.count k
            ∨ Spec.RandomGene assetData investmentLimit k v) := by
  have hstep : ∀ (acc : Strategy × RandomSource) (k : String), k ∈ assetData.keys →
      ∃ v rng1, mateGene parent1 parent2 assetData investmentLimit acc k
          = some (acc.1.set k v, rng1)
        ∧ (v = parent1.count k ∨ v = parent2.count k
          ∨ Spec.RandomGene assetData investmentLimit k v) := by
    intro acc k hk
    unfold mateGene
    by_cases h1 : (Math.random acc.2).1 < Double.round 0.4
    · exact ⟨_, _, by simp only [h1, if_true]; rfl, Or.inl rfl⟩
    · by_cases h2 : (Math.random acc.2).1 < Double.round 0.6
      · obtain ⟨a, ha⟩ := exists_entry_of_mem_keys assetData k hk
        have hf := hfin _ ha
        obtain ⟨v, hv, hP⟩ := setRandom_spec acc.1 k assetData investmentLimit
          (Math.random acc.2).2 a (get_of_mem assetData hwf (k, a) ha) (hprice _ ha) hb hf
        exact ⟨v, _, by simp only [h1, h2, if_true, if_false]; exact hv, Or.inr (Or.inr hP)⟩
      · exact ⟨_, _, by simp only [h1, h2, if_false]; rfl, Or.inr (Or.inl rfl)⟩
  exact loop_over_catalog assetData hwf (fun k v => v = parent1.count k ∨ v = parent2.count k
    ∨ Spec.RandomGene assetData investmentLimit k v) _ hstep rng

theorem prices_catalogAB : ∀ e ∈ Example.catalogAB.entries, 0 < e.2.currentSharePrice := by
  intro e he
  simp only [Example.catalogAB, List.mem_cons, List.mem_singleton, List.not_mem_nil,
    or_false] at he
  rcases he with rfl | rfl <;> norm_num

theorem finite_catalogAB : ∀ e ∈ Example.catalogAB.entries,
    (⌊(100 : ℚ) / e.2.currentSharePrice⌋ : ℚ) < Double.overflow := by
  intro e he
  simp only [Example.catalogAB, List.mem_cons, List.mem_singleton, List.not_mem_nil,
    or_false] at he
  have hfl : ⌊(100 : ℚ) / 10⌋ = 10 := by norm_num
  rcases he with rfl | rfl <;> simp only [hfl] <;> norm_num [Double.overflow]

/-- Within the limits the form of `ui.js` enforces, a budget of at most 100000 and a
share price of at least 0.01, the maximum `floor(budget / price)` is at most 10^7, far
below the overflow threshold. -/
theorem floor_div_lt_overflow (investmentLimit price : ℚ) (hp : 1 / 100 ≤ price)
    (hb : investmentLimit ≤ 100000) :
    (⌊investmentLimit / price⌋ : ℚ) < Double.overflow := by
  have hpos : 0 < price := by linarith
  have h1 : investmentLimit / price ≤ 10000000 := by
    rw [div_le_iff₀ hpos]
    nlinarith
  have h2 : (⌊investmentLimit / price⌋ : ℚ) ≤ investmentLimit / price := Int.floor_le _
  have h3 : (10000000 : ℚ) < Double.overflow := by norm_num [Double.overflow]
  linarith

/-! ## A budget beyond the range of a number -/

theorem toNumber_overflow : BigNumber.toNumber (.fin (10 ^ 309)) = .infinity false := by
  have h : Double.overflow ≤ |(10 : ℚ) ^ 309| := by
    rw [abs_of_nonneg (by positivity)]
    norm_num [Double.overflow]
  have h0 : ¬ ((10 : ℚ) ^ 309 < 0) := not_lt.mpr (by positivity)
  show JSValue.ofRat (10 ^ 309) = _
  unfold JSValue.ofRat
  rw [if_pos h, decide_eq_false h0]

/-- From the overflow threshold on the maximum is `Infinity` as a number, and the gene
is `Infinity`, or `NaN` for the draw 0: the bound of a random gene holds for no maximum
that is not below the threshold. -/
theorem random_gene_of_overflow (r : ℚ) (q : ℚ) (h : Double.overflow ≤ q) :
    Math.round (JSValue.times r (BigNumber.toNumber (.fin q)))
      = if r = 0 then .nan else .infinity false := by
  have h0 : (0 : ℚ) < Double.overflow := by norm_num [Double.overflow]
  have hq : ¬ q < 0 := not_lt.mpr (le_of_lt (lt_of_lt_of_le h0 h))
  have habs : Double.overflow ≤ |q| := le_trans h (le_abs_self q)
  show Math.round (JSValue.times r (JSValue.ofRat q)) = _
  unfold JSValue.ofRat
  rw [if_pos habs, decide_eq_false hq]
  show Math.round (if r = 0 then JSValue.nan else JSValue.infinity false) = _
  split <;> rfl

/-- With the budget 10^310 and a share price of 10 the maximum 10^309 is `Infinity` as a
number, and so is the gene of a draw other than 0. -/
theorem setRandom_overflow (strategy : Strategy) (assetName : String) (rng : RandomSource)
    (asset : AssetData) (hget : Example.catalogAB.get assetName = some asset)
    (hprice : asset.currentSharePrice = 10) (hr : (rng 0).val ≠ 0) :
    setRandomSharesCountForAssetToStrategy strategy assetName Example.catalogAB (10 ^ 310) rng
      = some (strategy.set assetName (.infinity false), (Math.random rng).2) := by
  have hq : BigNumber.roundDown ((10 : ℚ) ^ 310 / 10) = 10 ^ 309 := by
    rw [roundDown_of_nonneg _ (by positivity)]
    have : ((10 : ℚ) ^ 310 / 10) = ((10 ^ 309 : ℤ) : ℚ) := by norm_num
    rw [this, Int.floor_intCast]
    norm_num
  have hdiv : (BigNumber.fin (10 ^ 310)).dividedToIntegerBy (.fin asset.currentSharePrice)
      = .fin (10 ^ 309) := by
    rw [hprice]
    show BigNumber.div BigNumber.roundDown (.fin (10 ^ 310)) (.fin 10) = _
    simp only [BigNumber.div]
    rw [if_neg (by norm_num), hq]
  unfold setRandomSharesCountForAssetToStrategy
  rw [hget]
  simp only [hdiv, toNumber_overflow, JSValue.times, Math.random, hr, Math.round, if_false,
    Option.bind_eq_bind, Option.some_bind]
  rfl

theorem random_constantDraws (d : Draw) :
    Math.random (Example.constantDraws d) = (d.val, Example.constantDraws d) := rfl

theorem createStrategy_overflow_full :
    createStrategy Example.catalogAB (10 ^ 310) (Example.constantDraws Example.half)
      = some (⟨[("A", JSValue.infinity false), ("B", JSValue.infinity false)]⟩,
          Example.constantDraws Example.half) := by
  have hA : Example.catalogAB.get "A" = some ⟨50, 0, 10⟩ := rfl
  have hB : Example.catalogAB.get "B" = some ⟨50, 0, 10⟩ := rfl
  have hr : ∀ rng : RandomSource, rng = Example.constantDraws Example.half →
      (rng 0).val ≠ 0 := by
    intro rng h
    rw [h]
    norm_num [Example.constantDraws, Example.half]
  simp only [createStrategy, Example.catalogAB, JSMap.keys, List.map_cons, List.map_nil,
    List.foldlM_cons, List.foldlM_nil]
  rw [show (⟨[("A", (⟨50, 0, 10⟩ : AssetData)), ("B", ⟨50, 0, 10⟩)]⟩ : JSMap AssetData)
    = Example.catalogAB from rfl]
  rw [setRandom_overflow _ "A" _ _ hA rfl (hr _ rfl)]
  simp only [Option.bind_eq_bind, Option.some_bind, random_constantDraws]
  rw [setRandom_overflow _ "B" _ _ hB rfl (hr _ rfl)]
  rfl

theorem createStrategy_overflow :
    (createStrategy Example.catalogAB (10 ^ 310) (Example.constantDraws Example.half)).map
      (fun r => r.1.entries)
      = some [("A", JSValue.infinity false), ("B", JSValue.infinity false)] := by
  rw [createStrategy_overflow_full]
  rfl

theorem mateStrategies_overflow :
    (mateStrategies Example.parentOnes Example.parentTwos Example.catalogAB (10 ^ 310)
      (Example.constantDraws Example.half)).map (fun r => r.1.entries)
      = some [("A", JSValue.infinity false), ("B", JSValue.infinity false)] := by
  have hA : Example.catalogAB.get "A" = some ⟨50, 0, 10⟩ := rfl
  have hB : Example.catalogAB.get "B" = some ⟨50, 0, 10⟩ := rfl
  have hr : ∀ rng : RandomSource, rng = Example.constantDraws Example.half →
      (rng 0).val ≠ 0 := by
    intro rng h
    rw [h]
    norm_num [Example.constantDraws, Example.half]
  have h1 : ¬ ((1 : ℚ) / 2 < Double.round 0.4) := by
    rw [round_two_fifths]
    norm_num
  have h2 : (1 : ℚ) / 2 < Double.round 0.6 := by
    rw [round_three_fifths]
    norm_num
  have hv : Example.half.val = 1 / 2 := rfl
  simp only [mateStrategies, Example.catalogAB, JSMap.keys, List.map_cons, List.map_nil,
    List.foldlM_cons, List.foldlM_nil]
  rw [show (⟨[("A", (⟨50, 0, 10⟩ : AssetData)), ("B", ⟨50, 0, 10⟩)]⟩ : JSMap AssetData)
    = Example.catalogAB from rfl]
  simp only [mateGene, random_constantDraws, hv, h1, h2, if_true, if_false]
  rw [setRandom_overflow _ "A" _ _ hA rfl (hr _ rfl)]
  simp only [Option.bind_eq_bind, Option.some_bind, random_constantDraws, hv, h1, h2, if_true,
    if_false]
  rw [setRandom_overflow _ "B" _ _ hB rfl (hr _ rfl)]
  rfl

/-- C7 as stated fails for a budget beyond the range of a JavaScript number. With the
catalog of the scenarios (share price 10), the budget 10^310 and the draws 1/2, the
maximum `floor(budget / price) = 10^309` is `Infinity` after `toNumber()`, both genes
of the child are mutated to `Math.round(0.5 * Infinity) = Infinity`, which is neither
parent's gene (1 and 2) and not an integer. -/
theorem C7_mate_gene_counterexample :
    (∀ e ∈ Example.catalogAB.entries, 0 < e.2.currentSharePrice) ∧ (0 : ℚ) < 10 ^ 310
      ∧ (mateStrategies Example.parentOnes Example.parentTwos Example.catalogAB (10 ^ 310)
          (Example.constantDraws Example.half)).map (fun r => r.1.entries)
          = some [("A", JSValue.infinity false), ("B", JSValue.infinity false)]
      ∧ JSValue.infinity false ≠ Example.parentOnes.count "A"
      ∧ JSValue.infinity false ≠ Example.parentTwos.count "A"
      ∧ ¬ ∃ n : ℤ, JSValue.infinity false = .number (n : ℚ) := by
  refine ⟨prices_catalogAB, by positivity, mateStrategies_overflow, ?_, ?_, ?_⟩
  · simp [Example.parentOnes, Strategy.count, JSMap.get, List.lookup]
  · simp [Example.parentTwos, Strategy.count, JSMap.get, List.lookup]
  · rintro ⟨n, hn⟩
    cases hn

/-- C7, amended: for share prices > 0 and a budget >= 0 whose `floor(budget / price)`
is, for every asset, below 2^1024 - 2^970 (the least number that `toNumber()` turns
into `Infinity`), whatever the parents and the draws are, `mateStrategies` returns a
child with exactly the catalog's assets whose gene for every asset is parent1's gene,
or parent2's gene, or an integer in [0, floor(budget / price)]. -/
theorem C7_mate_gene_origin (parent1 parent2 : Strategy) (assetData : JSMap AssetData)
    (investmentLimit : ℚ) (rng : RandomSource) (hwf : assetData.WF)
    (hprice : ∀ e ∈ assetData.entries, 0 < e.2.currentSharePrice) (hb : 0 ≤ investmentLimit)
    (hfin : ∀ e ∈ assetData.entries,
      (⌊investmentLimit / e.2.currentSharePrice⌋ : ℚ) < 2 ^ 1024 - 2 ^ 970) :
    ∃ child rng1, mateStrategies parent1 parent2 assetData investmentLimit rng
        = some (child, rng1)
      ∧ child.keys = assetData.keys
      ∧ ∀ e ∈ assetData.entries, ∃ v, child.get e.1 = some v
          ∧ (v = parent1.count e.1 ∨ v = parent2.count e.1
            ∨ ∃ n : ℤ, v = .number (n : ℚ) ∧ 0 ≤ n
                ∧ n ≤ ⌊investmentLimit / e.2.currentSharePrice⌋) := by
  obtain ⟨child, rng1, hm, hk, hg⟩ :=
    mateStrategies_spec parent1 parent2 assetData investmentLimit rng hwf hprice hb hfin
  refine ⟨child, rng1, hm, hk, ?_⟩
  intro e he
  obtain ⟨v, hv, hor⟩ := hg e.1 (List.mem_map_of_mem Prod.fst he)
  refine ⟨v, hv, ?_⟩
  rcases hor with h1 | h1 | ⟨a, n, ha, hn, h0, hle⟩
  · exact Or.inl h1
  · exact Or.inr (Or.inl h1)
  · have hae : a = e.2 := by
      have := get_of_mem assetData hwf e he
      rw [ha] at this
      exact Option.some.inj this
    exact Or.inr (Or.inr ⟨n, hn, h0, hae ▸ hle⟩)

/-- C7, amended, at the catalog of the scenarios: budget 100, the draws 1/2. -/
theorem C7_mate_gene_origin_witness :
    Example.catalogAB.WF ∧ (∀ e ∈ Example.catalogAB.entries, 0 < e.2.currentSharePrice)
      ∧ (∀ e ∈ Example.catalogAB.entries,
          (⌊(100 : ℚ) / e.2.currentSharePrice⌋ : ℚ) < 2 ^ 1024 - 2 ^ 970)
      ∧ ∃ child rng1, mateStrategies Example.parentOnes Example.parentTwos Example.catalogAB
          100 (Example.constantDraws Example.half) = some (child, rng1)
        ∧ child.keys = Example.catalogAB.keys
        ∧ ∀ e ∈ Example.catalogAB.entries, ∃ v, child.get e.1 = some v
            ∧ (v = Example.parentOnes.count e.1 ∨ v = Example.parentTwos.count e.1
              ∨ ∃ n : ℤ, v = .number (n : ℚ) ∧ 0 ≤ n
                  ∧ n ≤ ⌊(100 : ℚ) / e.2.currentSharePrice⌋) :=
  ⟨wf_catalogAB, prices_catalogAB, finite_catalogAB,
    C7_mate_gene_origin Example.parentOnes Example.parentTwos Example.catalogAB 100
      (Example.constantDraws Example.half) wf_catalogAB prices_catalogAB (by norm_num)
      finite_catalogAB⟩

/-- C8 as stated fails for a budget beyond the range of a JavaScript number. With the
catalog of the scenarios (share price 10), the budget 10^310 and the draws 1/2, the
maximum `floor(budget / price) = 10^309` is `Infinity` after `toNumber()` and both
genes are `Math.round(0.5 * Infinity) = Infinity`, which is not an integer. -/
theorem C8_create_strategy_counterexample :
    Example.catalogAB.WF ∧ (∀ e ∈ Example.catalogAB.entries, 0 < e.2.currentSharePrice)
      ∧ (0 : ℚ) ≤ 10 ^ 310
      ∧ (createStrategy Example.catalogAB (10 ^ 310) (Example.constantDraws Example.half)).map
          (fun r => r.1.entries)
          = some [("A", JSValue.infinity false), ("B", JSValue.infinity false)]
      ∧ ¬ ∃ n : ℤ, JSValue.infinity false = .number (n : ℚ) := by
  refine ⟨wf_catalogAB, prices_catalogAB, by positivity, createStrategy_overflow, ?_⟩
  rintro ⟨n, hn⟩
  cases hn

/-- C8, amended: for share prices > 0 and a budget >= 0 whose `floor(budget / price)`
is, for every asset, below 2^1024 - 2^970 (the least number that `toNumber()` turns
into `Infinity`), whatever the draws are, `createStrategy` returns a strategy whose
keys are exactly the catalog's asset names, each once and in catalog order, and whose
gene for every asset is an integer n with 0 <= n <= floor(budget / currentSharePrice). -/
theorem C8_create_strategy_bounds (assetData : JSMap AssetData) (investmentLimit : ℚ)
    (rng : RandomSource) (hwf : assetData.WF)
    (hprice : ∀ e ∈ assetData.entries, 0 < e.2.currentSharePrice) (hb : 0 ≤ investmentLimit)
    (hfin : ∀ e ∈ assetData.entries,
      (⌊investmentLimit / e.2.currentSharePrice⌋ : ℚ) < 2 ^ 1024 - 2 ^ 970) :
    ∃ strategy rng1, createStrategy assetData investmentLimit rng = some (strategy, rng1)
      ∧ strategy.keys = assetData.keys ∧ strategy.keys.Nodup
      ∧ ∀ e ∈ assetData.entries, ∃ n : ℤ, strategy.get e.1 = some (.number (n : ℚ)) ∧ 0 ≤ n
          ∧ n ≤ ⌊investmentLimit / e.2.currentSharePrice⌋ := by
  obtain ⟨strategy, rng1, hm, hk, hg⟩ :=
    createStrategy_spec assetData investmentLimit rng hwf hprice hb hfin
  refine ⟨strategy, rng1, hm, hk, hk ▸ hwf, ?_⟩
  intro e he
  obtain ⟨v, hv, a, n, ha, hn, h0, hle⟩ := hg e.1 (List.mem_map_of_mem Prod.fst he)
  have hae : a = e.2 := by
    have := get_of_mem assetData hwf e he
    rw [ha] at this
    exact Option.some.inj this
  exact ⟨n, hn ▸ hv, h0, hae ▸ hle⟩

/-- C8, amended, at the catalog of the scenarios: budget 100, the draws 1/2. -/
theorem C8_create_strategy_bounds_witness :
    Example.catalogAB.WF ∧ (∀ e ∈ Example.catalogAB.entries, 0 < e.2.currentSharePrice)
      ∧ (∀ e ∈ Example.catalogAB.entries,
          (⌊(100 : ℚ) / e.2.currentSharePrice⌋ : ℚ) < 2 ^ 1024 - 2 ^ 970)
      ∧ ∃ strategy rng1, createStrategy Example.catalogAB 100
          (Example.constantDraws Example.half) = some (strategy, rng1)
        ∧ strategy.keys = Example.catalogAB.keys ∧ strategy.keys.Nodup
        ∧ ∀ e ∈ Example.catalogAB.entries, ∃ n : ℤ,
            strategy.get e.1 = some (.number (n : ℚ)) ∧ 0 ≤ n
              ∧ n ≤ ⌊(100 : ℚ) / e.2.currentSharePrice⌋ :=
  ⟨wf_catalogAB, prices_catalogAB, finite_catalogAB,
    C8_create_strategy_bounds Example.catalogAB 100 (Example.constantDraws Example.half)
      wf_catalogAB prices_catalogAB (by norm_num) finite_catalogAB⟩
/-! ## The sort step -/

open StrategyPopulationManager

theorem comparedTo_total (x y : BigNumber) (hx : x ≠ .nan) (hy : y ≠ .nan) :
    (x.comparedTo y).getD 0 ≤ 0 ∨ (y.comparedTo x).getD 0 ≤ 0 := by
  cases x with
  | nan => exact absurd rfl hx
  | inf s =>
    cases y with
    | nan => exact absurd rfl hy
    | inf t => cases s <;> cases t <;> simp [BigNumber.comparedTo]
    | fin b => cases s <;> simp [BigNumber.comparedTo]
  | fin a =>
    cases y with
    | nan => exact absurd rfl hy
    | inf t => cases t <;> simp [BigNumber.comparedTo]
    | fin b =>
      simp only [BigNumber.comparedTo, Option.getD_some]
      rcases lt_trichotomy a b with h | h | h
      · left; simp [h]
      · left; simp [h]
      · right; simp [h]

theorem comparedTo_le_iff (x y : BigNumber) (hx : x ≠ .nan) (hy : y ≠ .nan) :
    (x.comparedTo y).getD 0 ≤ 0 ↔ x.isLessThanOrEqualTo y = true := by
  cases x with
  | nan => exact absurd rfl hx
  | inf s =>
    cases y with
    | nan => exact absurd rfl hy
    | inf t => cases s <;> cases t <;> simp [BigNumber.comparedTo, BigNumber.isLessThanOrEqualTo]
    | fin b => cases s <;> simp [BigNumber.comparedTo, BigNumber.isLessThanOrEqualTo]
  | fin a =>
    cases y with
    | nan => exact absurd rfl hy
    | inf t => cases t <;> simp [BigNumber.comparedTo, BigNumber.isLessThanOrEqualTo]
    | fin b =>
      simp only [BigNumber.comparedTo, BigNumber.isLessThanOrEqualTo, Option.getD_some]
      rcases lt_trichotomy a b with h | h | h
      · simp [h]
      · simp [h]
      · simp [h, not_lt.mpr (le_of_lt h)]

theorem isLessThanOrEqualTo_trans (x y z : BigNumber)
    (hxy : x.isLessThanOrEqualTo y = true) (hyz : y.isLessThanOrEqualTo z = true) :
    x.isLessThanOrEqualTo z = true := by
  cases x with
  | nan => simp [BigNumber.isLessThanOrEqualTo, BigNumber.comparedTo] at hxy
  | inf s =>
    cases y with
    | nan => simp [BigNumber.isLessThanOrEqualTo, BigNumber.comparedTo] at hxy
    | inf t =>
      cases z with
      | nan => simp [BigNumber.isLessThanOrEqualTo, BigNumber.comparedTo] at hyz
      | inf u =>
        cases s <;> cases t <;> cases u <;>
          simp_all [BigNumber.isLessThanOrEqualTo, BigNumber.comparedTo]
      | fin c =>
        cases s <;> cases t <;> simp_all [BigNumber.isLessThanOrEqualTo, BigNumber.comparedTo]
    | fin b =>
      cases z with
      | nan => simp [BigNumber.isLessThanOrEqualTo, BigNumber.comparedTo] at hyz
      | inf u =>
        cases s <;> cases u <;> simp_all [BigNumber.isLessThanOrEqualTo, BigNumber.comparedTo]
      | fin c =>
        cases s <;> simp_all [BigNumber.isLessThanOrEqualTo, BigNumber.comparedTo]
  | fin a =>
    cases y with
    | nan => simp [BigNumber.isLessThanOrEqualTo, BigNumber.comparedTo] at hxy
    | inf t =>
      cases z with
      | nan => simp [BigNumber.isLessThanOrEqualTo, BigNumber.comparedTo] at hyz
      | inf u =>
        cases t <;> cases u <;> simp_all [BigNumber.isLessThanOrEqualTo, BigNumber.comparedTo]
      | fin c =>
        cases t <;> simp_all [BigNumber.isLessThanOrEqualTo, BigNumber.comparedTo]
    | fin b =>
      cases z with
      | nan => simp [BigNumber.isLessThanOrEqualTo, BigNumber.comparedTo] at hyz
      | inf u =>
        cases u <;> simp_all [BigNumber.isLessThanOrEqualTo, BigNumber.comparedTo]
      | fin c =>
        have hab : a ≤ b := by
          by_contra hcon
          have h1 : b < a := not_le.mp hcon
          simp [BigNumber.isLessThanOrEqualTo, BigNumber.comparedTo, h1,
            not_lt.mpr (le_of_lt h1)] at hxy
        have hbc : b ≤ c := by
          by_contra hcon
          have h1 : c < b := not_le.mp hcon
          simp [BigNumber.isLessThanOrEqualTo, BigNumber.comparedTo, h1,
            not_lt.mpr (le_of_lt h1)] at hyz
        rcases lt_or_eq_of_le (le_trans hab hbc) with h | h
        · simp [BigNumber.isLessThanOrEqualTo, BigNumber.comparedTo, h]
        · simp [BigNumber.isLessThanOrEqualTo, BigNumber.comparedTo, h]

/-- Inserting into a list ordered by a relation that is total and transitive on the
elements at hand keeps the list ordered. -/
theorem orderedInsert_pairwise {α : Type} (r : α → α → Prop) [DecidableRel r] (P : α → Prop)
    (htot : ∀ a b, P a → P b → r a b ∨ r b a)
    (htrans : ∀ a b c, P a → P b → P c → r a b → r b c → r a c) :
    ∀ (l : List α) (a : α), P a → (∀ x ∈ l, P x) → l.Pairwise r →
      (l.orderedInsert r a).Pairwise r := by
  intro l
  induction l with
  | nil => intro a _ _ _; simp
  | cons b t ih =>
    intro a ha hl hp
    rw [List.pairwise_cons] at hp
    by_cases hab : r a b
    · simp only [List.orderedInsert, hab, if_true]
      refine List.pairwise_cons.mpr ⟨?_, List.pairwise_cons.mpr hp⟩
      intro x hx
      rcases List.mem_cons.mp hx with rfl | hxt
      · exact hab
      · exact htrans _ _ _ ha (hl b (List.mem_cons_self _ _))
          (hl x (List.mem_cons_of_mem _ hxt)) hab (hp.1 x hxt)
    · simp only [List.orderedInsert, hab, if_false]
      have hba : r b a := (htot a b ha (hl b (List.mem_cons_self _ _))).resolve_left hab
      refine List.pairwise_cons.mpr ⟨?_, ih a ha (fun x hx => hl x (List.mem_cons_of_mem _ hx))
        hp.2⟩
      intro x hx
      rcases (List.mem_orderedInsert r).mp hx with rfl | hxt
      · exact hba
      · exact hp.1 x hxt

theorem insertionSort_pairwise {α : Type} (r : α → α → Prop) [DecidableRel r] (P : α → Prop)
    (htot : ∀ a b, P a → P b → r a b ∨ r b a)
    (htrans : ∀ a b c, P a → P b → P c → r a b → r b c → r a c) :
    ∀ (l : List α), (∀ x ∈ l, P x) → (l.insertionSort r).Pairwise r := by
  intro l
  induction l with
  | nil => intro _; simp
  | cons b t ih =>
    intro hl
    simp only [List.insertionSort]
    apply orderedInsert_pairwise r P htot htrans _ b (hl b (List.mem_cons_self _ _))
    · intro x hx
      exact hl x (List.mem_cons_of_mem _ ((List.mem_insertionSort r).mp hx))
    · exact ih (fun x hx => hl x (List.mem_cons_of_mem _ hx))

/-- The sort step orders a population without `NaN` fitness by non-decreasing
fitness. -/
theorem sortPopulation_pairwise (population : List InvestmentStrategy)
    (h : ∀ a ∈ population, a.fitness ≠ .nan) :
    (sortPopulation population).Pairwise
      (fun a b => a.fitness.isLessThanOrEqualTo b.fitness = true) := by
  have hsorted := insertionSort_pairwise (fun a b : InvestmentStrategy => compareFitness a b ≤ 0)
    (fun a => a.fitness ≠ .nan)
    (fun a b ha hb => comparedTo_total a.fitness b.fitness ha hb)
    (fun a b c ha hb hc hab hbc =>
      (comparedTo_le_iff _ _ ha hc).mpr (isLessThanOrEqualTo_trans _ _ _
        ((comparedTo_le_iff _ _ ha hb).mp hab) ((comparedTo_le_iff _ _ hb hc).mp hbc)))
    population h
  have hmem : ∀ a ∈ sortPopulation population, a.fitness ≠ .nan := fun a ha =>
    h a ((List.mem_insertionSort _).mp ha)
  exact List.Pairwise.imp_of_mem
    (fun {a b} ha hb hab => (comparedTo_le_iff _ _ (hmem a ha) (hmem b hb)).mp hab) hsorted

theorem generationStep_population (R : ℚ → ℚ) (populationSize c : ℕ)
    (assetData : JSMap AssetData) (investmentLimit : ℚ) (st st1 : WorkerState)
    (h : generationStep R populationSize c assetData investmentLimit st = some st1) :
    ∃ built best, st1.population = sortPopulation built
      ∧ st1.population.head? = some best
      ∧ st1.generation = st.generation
      ∧ st1.lastNBestFitnesses
        = (st.lastNBestFitnesses ++ [best.fitness]).drop
            ((st.lastNBestFitnesses ++ [best.fitness]).length - c) := by
  unfold generationStep at h
  simp only [Option.bind_eq_bind, Option.bind_eq_some] at h
  obtain ⟨built, _, best, hbest, hst⟩ := h
  have hst1 := Option.some.inj hst
  subst hst1
  exact ⟨built.1, best, rfl, hbest, rfl, rfl⟩

theorem generationState_step (R : ℚ → ℚ) (populationSize c : ℕ)
    (assetData : JSMap AssetData) (investmentLimit : ℚ) (rng : RandomSource) (g : ℕ)
    (st : WorkerState)
    (h : generationState R populationSize c assetData investmentLimit rng g = some st) :
    ∃ prev, generationStep R populationSize c assetData investmentLimit prev = some st := by
  match g, h with
  | 1, h => exact ⟨initialState rng, h⟩
  | g + 2, h =>
    unfold generationState at h
    simp only [Option.bind_eq_bind, Option.bind_eq_some] at h
    obtain ⟨prev, _, stopped, _, hif⟩ := h
    by_cases hs : stopped = true
    · simp [hs] at hif
    · simp only [hs] at hif
      exact ⟨_, hif⟩

/-- After the sort step of any generation whose individuals all have a fitness other
than `NaN`, the population is ordered by non-decreasing fitness. -/
theorem generation_sorted_of_no_nan (R : ℚ → ℚ) (populationSize c : ℕ)
    (assetData : JSMap AssetData) (investmentLimit : ℚ) (rng : RandomSource) (g : ℕ)
    (st : WorkerState)
    (h : generationState R populationSize c assetData investmentLimit rng g = some st)
    (hnan : ∀ a ∈ st.population, a.fitness ≠ .nan) :
    st.population.Pairwise (fun a b => a.fitness.isLessThanOrEqualTo b.fitness = true) := by
  obtain ⟨prev, hprev⟩ := generationState_step R populationSize c assetData investmentLimit rng
    g st h
  obtain ⟨built, _, hpop, _⟩ := generationStep_population R populationSize c assetData
    investmentLimit prev st hprev
  rw [hpop]
  apply sortPopulation_pairwise
  intro a ha
  apply hnan
  rw [hpop]
  exact (List.mem_insertionSort _).mpr ha
theorem round_zero_mul (q : ℚ) : Double.round (0 * q) = 0 := by
  rw [zero_mul, round_zero]

theorem round_ten : Double.round 10 = 10 :=
  round_of_isValue 10 ⟨10, 0, by norm_num, by norm_num, by norm_num⟩

theorem round_five : Double.round 5 = 5 :=
  round_of_isValue 5 ⟨5, 0, by norm_num, by norm_num, by norm_num⟩

theorem round_five_halves : Double.round (5 / 2) = 5 / 2 :=
  round_of_isValue (5 / 2) ⟨5, -1, by norm_num, by norm_num, by norm_num⟩

theorem round_fifteen_quarters : Double.round (15 / 4) = 15 / 4 :=
  round_of_isValue (15 / 4) ⟨15, -2, by norm_num, by norm_num, by norm_num⟩

/-- The strategy `createStrategy` returns for the catalog of the scenarios and the
budget 100: the maximum is 10 for both assets. -/
theorem createStrategy_catalogAB (rng : RandomSource) :
    createStrategy Example.catalogAB 100 rng
      = some (Spec.strategyOf (Example.buyAB (⌊Double.round ((rng 0).val * 10) + 1 / 2⌋ : ℤ)
          (⌊Double.round ((rng 1).val * 10) + 1 / 2⌋ : ℤ)), fun n => rng (n + 2)) := by
  have hA : Example.catalogAB.get "A" = some ⟨50, 0, 10⟩ := rfl
  have hB : Example.catalogAB.get "B" = some ⟨50, 0, 10⟩ := rfl
  have hfl : ⌊(100 : ℚ) / 10⌋ = 10 := by norm_num
  have hfin : ((⌊(100 : ℚ) / 10⌋ : ℤ) : ℚ) < Double.overflow := by
    rw [hfl]
    norm_num [Double.overflow]
  simp only [createStrategy, Example.catalogAB, JSMap.keys, List.map_cons, List.map_nil,
    List.foldlM_cons, List.foldlM_nil]
  rw [show (⟨[("A", (⟨50, 0, 10⟩ : AssetData)), ("B", ⟨50, 0, 10⟩)]⟩ : JSMap AssetData)
    = Example.catalogAB from rfl]
  rw [setRandom_eq _ "A" _ _ _ _ hA (by norm_num) (by norm_num) hfin]
  simp only [Option.bind_eq_bind, Option.some_bind]
  rw [setRandom_eq _ "B" _ _ _ _ hB (by norm_num) (by norm_num) hfin]
  simp only [hfl, Int.cast_ofNat, round_ten, Math.random]
  simp [Example.buyAB, Spec.strategyOf, JSMap.set, JSMap.has, JSMap.empty]

theorem fitness_strategyOf_buyAB_zero (R : ℚ → ℚ) :
    calculateStrategyFitness R (Spec.strategyOf (Example.buyAB ((0 : ℤ) : ℚ) ((0 : ℤ) : ℚ)))
      Example.catalogAB 100 = some .nan := by
  have h := fitness_buyAB_zero R
  simpa using h

theorem fitness_strategyOf_buyAB_five :
    calculateStrategyFitness BigNumber.ROUND_HALF_UP
      (Spec.strategyOf (Example.buyAB ((5 : ℤ) : ℚ) ((5 : ℤ) : ℚ)))
      Example.catalogAB 100 = some (.fin 0) := by
  have h := fitness_buyAB_five
  simpa using h

/-- The first generation of the run with the catalog of the scenarios, budget 100,
population size 2 and the draws 0, 0, 1/2, 1/2, ...: the individual that buys nothing
(fitness `NaN`) stays in front of the ideal individual (fitness 0). -/
theorem generationState_nan_first (c : ℕ) :
    (generationState BigNumber.ROUND_HALF_UP 2 c Example.catalogAB 100
        Example.zerosThenHalves 1).map (fun st => st.population)
      = some [⟨Spec.strategyOf (Example.buyAB 0 0), .nan⟩,
           ⟨Spec.strategyOf (Example.buyAB 5 5), .fin 0⟩] := by
  have h0 : ⌊Double.round ((Example.zerosThenHalves 0).val * 10) + 1 / 2⌋ = 0 := by
    norm_num [Example.zerosThenHalves, Example.zero,
      round_zero, round_five, round_five_halves]
  have h1 : ⌊Double.round ((Example.zerosThenHalves 1).val * 10) + 1 / 2⌋ = 0 := by
    norm_num [Example.zerosThenHalves, Example.zero,
      round_zero, round_five, round_five_halves]
  have h2 : ⌊Double.round ((Example.zerosThenHalves (0 + 2)).val * 10) + 1 / 2⌋ = 5 := by
    norm_num [Example.zerosThenHalves, Example.half,
      round_zero, round_five, round_five_halves]
  have h3 : ⌊Double.round ((Example.zerosThenHalves (1 + 2)).val * 10) + 1 / 2⌋ = 5 := by
    norm_num [Example.zerosThenHalves, Example.half,
      round_zero, round_five, round_five_halves]
  unfold generationState generationStep buildPopulation
  simp only [initialState, if_true, createInitialPopulation, createStrategy_catalogAB, h0, h1,
    h2, h3, Option.bind_eq_bind, Option.some_bind, fitness_strategyOf_buyAB_zero,
    fitness_strategyOf_buyAB_five, List.nil_append, List.cons_append]
  simp [sortPopulation, List.insertionSort, List.orderedInsert, compareFitness,
    BigNumber.comparedTo]

/-- C9: a run whose sort step does not leave the population ordered. With the catalog
of the scenarios (no holdings), budget 100, population size 2 and the draws
0, 0, 1/2, 1/2, ..., generation 1 holds the strategy that buys nothing, whose fitness is
`NaN` (the missing zero guard of C5), and the ideal strategy of fitness 0. `comparedTo`
returns `null` against `NaN`, the sort leaves `NaN` in front, `population[0].fitness`
is not <= `population[1].fitness`, and `population[0]` is not the minimum. -/
theorem C9_sort_leaves_nan_in_front :
    Spec.ValidCatalog Example.catalogAB
      ∧ (generationState BigNumber.ROUND_HALF_UP 2 5 Example.catalogAB 100
          Example.zerosThenHalves 1).map (fun st => st.population.map (fun a => a.fitness))
        = some [.nan, .fin 0]
      ∧ BigNumber.nan.isLessThanOrEqualTo (.fin 0) = false
      ∧ ¬ List.Pairwise (fun x y => BigNumber.isLessThanOrEqualTo x y = true)
          [BigNumber.nan, BigNumber.fin 0] := by
  refine ⟨valid_catalogAB, ?_, rfl, ?_⟩
  · have h := generationState_nan_first 5
    cases hg : generationState BigNumber.ROUND_HALF_UP 2 5 Example.catalogAB 100
        Example.zerosThenHalves 1 with
    | none => simp [hg] at h
    | some st =>
      simp only [hg, Option.map_some'] at h ⊢
      rw [Option.some.inj h]
      rfl
  · intro h
    have h2 := (List.pairwise_cons.mp h).1 (.fin 0) (List.mem_singleton_self _)
    simp [BigNumber.isLessThanOrEqualTo, BigNumber.comparedTo] at h2

/-! ## The list of the last best fitnesses -/

theorem bestFitness_of_state (R : ℚ → ℚ) (populationSize c : ℕ)
    (assetData : JSMap AssetData) (investmentLimit : ℚ) (rng : RandomSource) (g : ℕ)
    (st : WorkerState) (best : InvestmentStrategy)
    (h : generationState R populationSize c assetData investmentLimit rng g = some st)
    (hbest : st.population.head? = some best) :
    bestFitness R populationSize c assetData investmentLimit rng g = some best.fitness := by
  simp [bestFitness, h, hbest]

theorem bestHistory_succ (R : ℚ → ℚ) (populationSize c : ℕ)
    (assetData : JSMap AssetData) (investmentLimit : ℚ) (rng : RandomSource) (g : ℕ) :
    Spec.bestHistory R populationSize c assetData investmentLimit rng (g + 1)
      = Spec.bestHistory R populationSize c assetData investmentLimit rng g
        ++ [bestFitness R populationSize c assetData investmentLimit rng (g + 1)] := by
  simp [Spec.bestHistory, List.range_succ]

theorem bestHistory_length (R : ℚ → ℚ) (populationSize c : ℕ)
    (assetData : JSMap AssetData) (investmentLimit : ℚ) (rng : RandomSource) (g : ℕ) :
    (Spec.bestHistory R populationSize c assetData investmentLimit rng g).length = g := by
  simp [Spec.bestHistory]

/-- Pushing one value and truncating to the last `c` turns the last `c` of a history
into the last `c` of the history extended by the value. -/
theorem push_truncate {α : Type} (H : List α) (x : α) (c : ℕ) (hc : 1 ≤ c) :
    ((H.drop (H.length - c) ++ [x]).drop ((H.drop (H.length - c) ++ [x]).length - c))
      = (H ++ [x]).drop ((H ++ [x]).length - c) := by
  simp only [List.length_append, List.length_drop, List.length_singleton]
  by_cases hle : c ≤ H.length
  · have h1 : H.length - (H.length - c) + 1 - c = 1 := by omega
    have h2 : H.length + 1 - c = H.length - c + 1 := by omega
    rw [h1, h2, List.drop_append_of_le_length (by simp; omega),
      List.drop_append_of_le_length (by omega), List.drop_drop]
  · have h1 : H.length - c = 0 := by omega
    have h2 : H.length + 1 - c = 0 := by omega
    simp [h1, h2]

/-- The list `lastNBestFitnesses` after generation `g` holds the last `c` best
fitnesses of the generations 1 to `g`. -/
theorem window_eq_history (R : ℚ → ℚ) (populationSize c : ℕ) (hc : 1 ≤ c)
    (assetData : JSMap AssetData) (investmentLimit : ℚ) (rng : RandomSource) :
    ∀ (g : ℕ) (st : WorkerState),
      generationState R populationSize c assetData investmentLimit rng g = some st →
      st.lastNBestFitnesses.map some
        = (Spec.bestHistory R populationSize c assetData investmentLimit rng g).drop (g - c) := by
  intro g
  induction g with
  | zero => intro st h; simp [generationState] at h
  | succ g ih =>
    intro st h
    obtain ⟨prev, hprev⟩ := generationState_step R populationSize c assetData investmentLimit
      rng (g + 1) st h
    cases g with
    | zero =>
      have hinit : generationStep R populationSize c assetData investmentLimit (initialState rng)
          = some st := h
      obtain ⟨_, best, _, hbest, _, hw⟩ := generationStep_population R populationSize c
        assetData investmentLimit _ st hinit
      have hb := bestFitness_of_state R populationSize c assetData investmentLimit rng 1 st best
        h hbest
      rw [hw]
      have h0 : 1 - c = 0 := by omega
      simp [initialState, Spec.bestHistory, h0, hb, List.range_succ]
    | succ g =>
      have h2 := h
      unfold generationState at h2
      simp only [Option.bind_eq_bind, Option.bind_eq_some] at h2
      obtain ⟨st0, hst0, stopped, _, hif⟩ := h2
      have hstep : generationStep R populationSize c assetData investmentLimit
          { st0 with generation := st0.generation + 1 } = some st := by
        by_cases hs : stopped = true
        · simp [hs] at hif
        · simpa [hs] using hif
      obtain ⟨_, best, _, hbest, _, hw⟩ := generationStep_population R populationSize c
        assetData investmentLimit _ st hstep
      have hb := bestFitness_of_state R populationSize c assetData investmentLimit rng (g + 2)
        st best h hbest
      have ih0 := ih st0 hst0
      rw [hw, bestHistory_succ, hb]
      have hlen := bestHistory_length R populationSize c assetData investmentLimit rng (g + 1)
      have hpt := push_truncate
        (Spec.bestHistory R populationSize c assetData investmentLimit rng (g + 1))
        (some best.fitness) c hc
      rw [hlen] at hpt
      simp only [List.length_append, List.length_singleton, hlen] at hpt ⊢
      rw [← hpt, ← ih0]
      simp [List.map_drop]

/-- C10: with capacity c >= 1, after the push-and-truncate step of generation g the
list `lastNBestFitnesses` has min(g, c) entries, never more than c, and its entry i is
the best fitness of generation max(1, g - c + 1) + i: the best fitnesses of the last
min(g, c) generations, oldest first. -/
theorem C10_last_best_fitnesses (R : ℚ → ℚ) (populationSize c : ℕ) (hc : 1 ≤ c)
    (assetData : JSMap AssetData) (investmentLimit : ℚ) (rng : RandomSource) (g : ℕ)
    (st : WorkerState)
    (h : generationState R populationSize c assetData investmentLimit rng g = some st) :
    st.lastNBestFitnesses.length = min g c
      ∧ st.lastNBestFitnesses.length ≤ c
      ∧ ∀ i, i < min g c →
          st.lastNBestFitnesses[i]?
            = bestFitness R populationSize c assetData investmentLimit rng
                (max 1 (g + 1 - c) + i) := by
  have hw := window_eq_history R populationSize c hc assetData investmentLimit rng g st h
  have hlen : st.lastNBestFitnesses.length = min g c := by
    have := congrArg List.length hw
    simp only [List.length_map, List.length_drop, bestHistory_length] at this
    omega
  refine ⟨hlen, by omega, ?_⟩
  intro i hi
  have hget : (st.lastNBestFitnesses.map some)[i]?
      = ((Spec.bestHistory R populationSize c assetData investmentLimit rng g).drop (g - c))[i]? :=
    congrArg (fun l => l[i]?) hw
  have hidx : g - c + i < g := by omega
  simp only [List.getElem?_map, List.getElem?_drop, Spec.bestHistory,
    List.getElem?_range hidx, Option.map_some'] at hget
  have hmax : max 1 (g + 1 - c) + i = g - c + i + 1 := by omega
  rw [hmax]
  cases hx : st.lastNBestFitnesses[i]? with
  | none => simp [hx] at hget
  | some x =>
    simp only [hx, Option.map_some'] at hget
    exact Option.some.inj hget

/-! ## The stop test -/

theorem comparedTo_eq_zero_iff (x y : BigNumber) :
    x.comparedTo y = some 0 ↔ Spec.NumericallyEqual x y := by
  unfold Spec.NumericallyEqual
  cases x with
  | nan => simp [BigNumber.comparedTo]
  | inf s =>
    cases y with
    | nan => simp [BigNumber.comparedTo]
    | inf t => cases s <;> cases t <;> simp [BigNumber.comparedTo]
    | fin b => cases s <;> simp [BigNumber.comparedTo]
  | fin a =>
    cases y with
    | nan => simp [BigNumber.comparedTo]
    | inf t => cases t <;> simp [BigNumber.comparedTo]
    | fin b =>
      simp only [BigNumber.comparedTo]
      rcases lt_trichotomy a b with h | h | h
      · simp [h, ne_of_lt h]
      · simp [h]
      · simp [h, not_lt.mpr (le_of_lt h), ne_of_gt h]

theorem isZero_iff (x : BigNumber) : x.isZero = true ↔ x = .fin 0 := by
  cases x <;> simp [BigNumber.isZero]

/-- What `stop` returns for a non-empty list. -/
theorem stop_of_ne_nil (w : List BigNumber) (c : ℕ) (hw : w ≠ []) :
    ∃ b, stop w c = some b
      ∧ (b = true ↔ (w.getLast hw = .fin 0
          ∨ (c ≤ w.length ∧ Spec.NumericallyEqual (w.head hw) (w.getLast hw)))) := by
  have hl : w.getLast? = some (w.getLast hw) := List.getLast?_eq_getLast w hw
  have hh : w.head? = some (w.head hw) := List.head?_eq_head hw
  unfold stop
  rw [hl, hh]
  by_cases hz : (w.getLast hw).isZero = true
  · refine ⟨true, by simp [hz], ?_⟩
    simp [(isZero_iff _).mp hz]
  · have hz2 : w.getLast hw ≠ .fin 0 := fun h => hz ((isZero_iff _).mpr h)
    by_cases hc : c ≤ w.length
    · refine ⟨decide ((w.head hw).comparedTo (w.getLast hw) = some 0), by simp [hz, hc], ?_⟩
      simp [hz2, hc, comparedTo_eq_zero_iff]
    · refine ⟨false, by simp [hz, hc], ?_⟩
      simp [hz2, hc]

/-- C11: for a non-empty list w of best fitnesses and a capacity c, `stop`
returns a boolean, and it is `true` exactly when the last entry of w is the number 0,
or w has at least c entries and its first and last entries are numerically equal. -/
theorem C11_stop_iff (w : List BigNumber) (c : ℕ) (hw : w ≠ []) :
    ∃ b, stop w c = some b
      ∧ (b = true ↔ (w.getLast hw = .fin 0
          ∨ (c ≤ w.length ∧ Spec.NumericallyEqual (w.head hw) (w.getLast hw)))) :=
  stop_of_ne_nil w c hw

theorem stop_example_false :
    stop [.fin 10, .fin 8, .fin 8, .fin 8, .fin 8] 5 = some false := by
  norm_num [stop, BigNumber.isZero, BigNumber.comparedTo]

theorem stop_example_true :
    stop [.fin 8, .fin 8, .fin 8, .fin 8, .fin 8] 5 = some true := by
  simp [stop, BigNumber.isZero, BigNumber.comparedTo]

/-- C11 at the specification's scenario, capacity 5: the list 10, 8, 8, 8, 8 does not
stop the run and the list 8, 8, 8, 8, 8 does. -/
theorem C11_stop_iff_witness :
    stop [.fin 10, .fin 8, .fin 8, .fin 8, .fin 8] 5 = some false
      ∧ stop [.fin 8, .fin 8, .fin 8, .fin 8, .fin 8] 5 = some true
      ∧ ∃ b, stop [.fin 8, .fin 8, .fin 8, .fin 8, .fin 8] 5 = some b
        ∧ (b = true ↔
          (([.fin 8, .fin 8, .fin 8, .fin 8, .fin 8] : List BigNumber).getLast (by simp)
              = .fin 0
            ∨ (5 ≤ ([.fin 8, .fin 8, .fin 8, .fin 8, .fin 8] : List BigNumber).length
              ∧ Spec.NumericallyEqual
                (([.fin 8, .fin 8, .fin 8, .fin 8, .fin 8] : List BigNumber).head (by simp))
                (([.fin 8, .fin 8, .fin 8, .fin 8, .fin 8] : List BigNumber).getLast
                  (by simp))))) :=
  ⟨stop_example_false, stop_example_true,
    C11_stop_iff [.fin 8, .fin 8, .fin 8, .fin 8, .fin 8] 5 (by simp)⟩

/-! ## Numeric strings -/

/-- C17: `normalizeNumericString` does not remove every group separator. The third
regular expression is built without the flag `g`, so only the first comma goes: the
string $1,234,567.00 becomes 1234,567.00, which still holds a separator. The two
examples of the documentation, one separator at most, come out as documented. -/
theorem C17_normalize_keeps_a_separator :
    UI.normalizeNumericString "$1,234,567.00" = "1234,567.00"
      ∧ UI.GROUP_SEPARATOR ∈ (UI.normalizeNumericString "$1,234,567.00").data
      ∧ UI.normalizeNumericString "13.01%" = "13.01"
      ∧ UI.normalizeNumericString "$5,124.88" = "5124.88" := by
  refine ⟨?_, ?_, ?_, ?_⟩ <;> decide
/-! ## The loops never throw on the assets of the catalog -/

theorem foldlM_some {σ κ : Type} (step : σ → κ → Option σ) :
    ∀ (ks : List κ) (acc : σ), (∀ (a : σ) (k : κ), k ∈ ks → ∃ r, step a k = some r) →
      ∃ r, ks.foldlM step acc = some r := by
  intro ks
  induction ks with
  | nil => intro acc _; exact ⟨acc, rfl⟩
  | cons k t ih =>
    intro acc h
    obtain ⟨r, hr⟩ := h acc k (List.mem_cons_self _ _)
    obtain ⟨r2, hr2⟩ := ih r (fun a x hx => h a x (List.mem_cons_of_mem _ hx))
    exact ⟨r2, by simp only [List.foldlM_cons, hr]; exact hr2⟩

theorem get_some_of_mem_keys {β : Type} (m : JSMap β) (k : String) (h : k ∈ m.keys) :
    ∃ v, m.get k = some v := by
  unfold JSMap.get
  obtain ⟨e, he, rfl⟩ := List.mem_map.mp h
  cases hl : List.lookup e.1 m.entries with
  | some v => exact ⟨v, rfl⟩
  | none =>
    rw [List.lookup_eq_none_iff] at hl
    have := hl e he
    simp at this

theorem setRandom_total (strategy : Strategy) (assetName : String) (assetData : JSMap AssetData)
    (investmentLimit : ℚ) (rng : RandomSource) (h : assetName ∈ assetData.keys) :
    ∃ v, setRandomSharesCountForAssetToStrategy strategy assetName assetData investmentLimit rng
      = some (strategy.set assetName v, (Math.random rng).2) := by
  obtain ⟨a, ha⟩ := get_some_of_mem_keys assetData assetName h
  unfold setRandomSharesCountForAssetToStrategy
  rw [ha]
  exact ⟨_, rfl⟩

theorem createStrategy_keys (assetData : JSMap AssetData) (investmentLimit : ℚ)
    (hwf : assetData.WF) (rng : RandomSource) :
    ∃ strategy rng1, createStrategy assetData investmentLimit rng = some (strategy, rng1)
      ∧ strategy.keys = assetData.keys := by
  obtain ⟨s, r, h1, h2, _⟩ := loop_over_catalog assetData hwf (fun _ _ => True)
    (fun (acc : Strategy × RandomSource) (assetName : String) =>
      setRandomSharesCountForAssetToStrategy acc.1 assetName assetData investmentLimit acc.2)
    (fun acc k hk => by
      obtain ⟨v, hv⟩ := setRandom_total acc.1 k assetData investmentLimit acc.2 hk
      exact ⟨v, _, hv, trivial⟩) rng
  exact ⟨s, r, h1, h2⟩

theorem mateGene_total (parent1 parent2 : Strategy) (assetData : JSMap AssetData)
    (investmentLimit : ℚ) (acc : Strategy × RandomSource) (k : String)
    (hk : k ∈ assetData.keys) :
    ∃ v rng, mateGene parent1 parent2 assetData investmentLimit acc k
      = some (acc.1.set k v, rng) := by
  unfold mateGene
  by_cases h1 : (Math.random acc.2).1 < Double.round 0.4
  · exact ⟨_, _, by simp only [h1, if_true]; rfl⟩
  · by_cases h2 : (Math.random acc.2).1 < Double.round 0.6
    · obtain ⟨v, hv⟩ := setRandom_total acc.1 k assetData investmentLimit (Math.random acc.2).2 hk
      exact ⟨v, _, by simp only [h1, h2, if_true, if_false]; exact hv⟩
    · exact ⟨_, _, by simp only [h1, h2, if_false]; rfl⟩

theorem mateStrategies_keys (parent1 parent2 : Strategy) (assetData : JSMap AssetData)
    (investmentLimit : ℚ) (hwf : assetData.WF) (rng : RandomSource) :
    ∃ child rng1, mateStrategies parent1 parent2 assetData investmentLimit rng
        = some (child, rng1)
      ∧ child.keys = assetData.keys := by
  obtain ⟨s, r, h1, h2, _⟩ := loop_over_catalog assetData hwf (fun _ _ => True)
    (mateGene parent1 parent2 assetData investmentLimit)
    (fun acc k hk => by
      obtain ⟨v, r, hv⟩ := mateGene_total parent1 parent2 assetData investmentLimit acc k hk
      exact ⟨v, r, hv, trivial⟩) rng
  exact ⟨s, r, h1, h2⟩

theorem calculateStrategyFitness_total (R : ℚ → ℚ) (strategy : Strategy)
    (assetData : JSMap AssetData) (investmentLimit : ℚ)
    (hkeys : strategy.keys = assetData.keys) :
    ∃ f, calculateStrategyFitness R strategy assetData investmentLimit = some f := by
  have hget : ∀ k ∈ strategy.keys, ∃ a, assetData.get k = some a := fun k hk =>
    get_some_of_mem_keys assetData k (hkeys ▸ hk)
  obtain ⟨m, hm⟩ : ∃ m, Utility.calculateProjectedInvestmentPerAsset strategy assetData
      = some m := by
    unfold Utility.calculateProjectedInvestmentPerAsset
    apply foldlM_some
    intro a k hk
    obtain ⟨x, hx⟩ := hget k hk
    exact ⟨_, by simp only [hx]; rfl⟩
  unfold calculateStrategyFitness
  rw [hm]
  simp only [Option.bind_eq_bind, Option.some_bind]
  split
  · exact ⟨_, rfl⟩
  · obtain ⟨t, ht⟩ := foldlM_some
      (addDiffFromTargetPercentage R assetData m
        ((Utility.sumCurrentAssetValues assetData).plus (Utility.sumMoney m)))
      strategy.keys (BigNumber.fin 0)
      (by
        intro a k hk
        obtain ⟨x, hx⟩ := hget k hk
        unfold addDiffFromTargetPercentage
        exact ⟨_, by simp only [hx]; rfl⟩)
    rw [ht]
    exact ⟨_, rfl⟩
/-! ## The population of a generation -/

theorem createInitialPopulation_shape (R : ℚ → ℚ) (assetData : JSMap AssetData)
    (investmentLimit : ℚ) :
    ∀ (count : ℕ) (population : List InvestmentStrategy) (rng : RandomSource)
      (result : List InvestmentStrategy × RandomSource),
      createInitialPopulation R assetData investmentLimit count population rng = some result →
      ∃ created, result.1 = population ++ created ∧ created.length = count := by
  intro count
  induction count with
  | zero =>
    intro population rng result h
    simp only [createInitialPopulation] at h
    rw [← Option.some.inj h]
    exact ⟨[], by simp, rfl⟩
  | succ n ih =>
    intro population rng result h
    simp only [createInitialPopulation, Option.bind_eq_bind, Option.bind_eq_some] at h
    obtain ⟨created, _, fitness, _, hrec⟩ := h
    obtain ⟨more, hmore, hlen⟩ := ih _ _ _ hrec
    refine ⟨{ strategy := created.1, fitness := fitness } :: more, ?_, by simp [hlen]⟩
    rw [hmore]
    simp

theorem produceOffspring_shape (R : ℚ → ℚ) (assetData : JSMap AssetData)
    (investmentLimit : ℚ) (population : List InvestmentStrategy) (half : ℕ) :
    ∀ (count : ℕ) (newGeneration : List InvestmentStrategy) (rng : RandomSource)
      (result : List InvestmentStrategy × RandomSource),
      produceOffspring R assetData investmentLimit population half count newGeneration rng
        = some result →
      ∃ children, result.1 = newGeneration ++ children ∧ children.length = count := by
  intro count
  induction count with
  | zero =>
    intro newGeneration rng result h
    simp only [produceOffspring] at h
    rw [← Option.some.inj h]
    exact ⟨[], by simp, rfl⟩
  | succ n ih =>
    intro newGeneration rng result h
    simp only [produceOffspring, Option.bind_eq_bind, Option.bind_eq_some] at h
    obtain ⟨parent1, _, parent2, _, mated, _, fitness, _, hrec⟩ := h
    obtain ⟨more, hmore, hlen⟩ := ih _ _ _ hrec
    refine ⟨{ strategy := mated.1, fitness := fitness } :: more, ?_, by simp [hlen]⟩
    rw [hmore]
    simp

theorem sortPopulation_length (population : List InvestmentStrategy) :
    (sortPopulation population).length = population.length :=
  List.length_insertionSort _ population

theorem mem_sortPopulation (population : List InvestmentStrategy) (a : InvestmentStrategy) :
    a ∈ sortPopulation population ↔ a ∈ population :=
  List.mem_insertionSort _

/-- What a successful `generationStep` did. -/
theorem generationStep_built (R : ℚ → ℚ) (populationSize c : ℕ)
    (assetData : JSMap AssetData) (investmentLimit : ℚ) (st st1 : WorkerState)
    (h : generationStep R populationSize c assetData investmentLimit st = some st1) :
    ∃ built best, buildPopulation R populationSize assetData investmentLimit st = some built
      ∧ st1.population = sortPopulation built.1
      ∧ st1.population.head? = some best
      ∧ st1.generation = st.generation
      ∧ st1.rng = built.2
      ∧ st1.lastNBestFitnesses
        = (st.lastNBestFitnesses ++ [best.fitness]).drop
            ((st.lastNBestFitnesses ++ [best.fitness]).length - c) := by
  unfold generationStep at h
  simp only [Option.bind_eq_bind, Option.bind_eq_some] at h
  obtain ⟨built, hbuilt, best, hbest, hst⟩ := h
  have hst1 := Option.some.inj hst
  subst hst1
  exact ⟨built, best, hbuilt, rfl, hbest, rfl, rfl, rfl⟩

/-- Unfolding of `generationState` at a generation after the first. -/
theorem generationState_succ (R : ℚ → ℚ) (populationSize c : ℕ)
    (assetData : JSMap AssetData) (investmentLimit : ℚ) (rng : RandomSource) (g : ℕ)
    (st : WorkerState)
    (h : generationState R populationSize c assetData investmentLimit rng (g + 2) = some st) :
    ∃ prev, generationState R populationSize c assetData investmentLimit rng (g + 1) = some prev
      ∧ stop prev.lastNBestFitnesses c = some false
      ∧ generationStep R populationSize c assetData investmentLimit
          { prev with generation := prev.generation + 1 } = some st := by
  unfold generationState at h
  simp only [Option.bind_eq_bind, Option.bind_eq_some] at h
  obtain ⟨prev, hprev, stopped, hstop, hif⟩ := h
  by_cases hs : stopped = true
  · simp [hs] at hif
  · have hs2 : stopped = false := by simpa using hs
    subst hs2
    exact ⟨prev, hprev, hstop, by simpa using hif⟩

theorem generationState_generation (R : ℚ → ℚ) (populationSize c : ℕ)
    (assetData : JSMap AssetData) (investmentLimit : ℚ) (rng : RandomSource) :
    ∀ (g : ℕ) (st : WorkerState),
      generationState R populationSize c assetData investmentLimit rng g = some st →
      st.generation = g := by
  intro g
  induction g with
  | zero => intro st h; simp [generationState] at h
  | succ g ih =>
    intro st h
    cases g with
    | zero =>
      obtain ⟨_, _, _, _, _, hg, _⟩ := generationStep_built R populationSize c assetData
        investmentLimit (initialState rng) st h
      rw [hg]
      rfl
    | succ g =>
      obtain ⟨prev, hprev, _, hstep⟩ := generationState_succ R populationSize c assetData
        investmentLimit rng g st h
      obtain ⟨_, _, _, _, _, hg, _⟩ := generationStep_built R populationSize c assetData
        investmentLimit _ st hstep
      rw [hg]
      simp [ih prev hprev]

/-- The population of a generation after the first, before the sort: the first
`floor(10 * N / 100)` individuals of the previous population followed by
`floor(90 * N / 100)` children. -/
theorem buildPopulation_later (R : ℚ → ℚ) (populationSize : ℕ) (assetData : JSMap AssetData)
    (investmentLimit : ℚ) (st : WorkerState) (hg : st.generation ≠ 1)
    (built : List InvestmentStrategy × RandomSource)
    (h : buildPopulation R populationSize assetData investmentLimit st = some built) :
    ∃ children, built.1 = st.population.take (10 * populationSize / 100) ++ children
      ∧ children.length = 90 * populationSize / 100 := by
  unfold buildPopulation at h
  rw [if_neg hg] at h
  exact produceOffspring_shape R assetData investmentLimit _ _ _ _ _ _ h

theorem buildPopulation_first (R : ℚ → ℚ) (populationSize : ℕ) (assetData : JSMap AssetData)
    (investmentLimit : ℚ) (rng : RandomSource)
    (built : List InvestmentStrategy × RandomSource)
    (h : buildPopulation R populationSize assetData investmentLimit (initialState rng)
      = some built) :
    built.1.length = populationSize := by
  unfold buildPopulation at h
  simp only [initialState, if_true] at h
  obtain ⟨created, hc, hlen⟩ := createInitialPopulation_shape R assetData investmentLimit _ _ _ _ h
  rw [hc]
  simpa using hlen

theorem generationState_length (R : ℚ → ℚ) (populationSize c : ℕ)
    (assetData : JSMap AssetData) (investmentLimit : ℚ) (rng : RandomSource) :
    ∀ (g : ℕ) (st : WorkerState),
      generationState R populationSize c assetData investmentLimit rng g = some st →
      st.population.length
        = if g = 1 then populationSize
          else 10 * populationSize / 100 + 90 * populationSize / 100 := by
  intro g
  induction g with
  | zero => intro st h; simp [generationState] at h
  | succ g ih =>
    intro st h
    cases g with
    | zero =>
      obtain ⟨built, _, hb, hpop, _⟩ := generationStep_built R populationSize c assetData
        investmentLimit (initialState rng) st h
      rw [hpop, sortPopulation_length,
        buildPopulation_first R populationSize assetData investmentLimit rng built hb]
      simp
    | succ g =>
      obtain ⟨prev, hprev, _, hstep⟩ := generationState_succ R populationSize c assetData
        investmentLimit rng g st h
      obtain ⟨built, _, hb, hpop, _⟩ := generationStep_built R populationSize c assetData
        investmentLimit _ st hstep
      have hgen := generationState_generation R populationSize c assetData investmentLimit rng
        (g + 1) prev hprev
      obtain ⟨children, hc, hlen⟩ := buildPopulation_later R populationSize assetData
        investmentLimit _ (by simp [hgen]) built hb
      have hprevlen := ih prev hprev
      rw [hpop, sortPopulation_length, hc, List.length_append, List.length_take, hlen]
      simp only [hprevlen]
      split <;> simp
      omega
/-! ## Properties kept from generation to generation -/

theorem kept_keys (R : ℚ → ℚ) (assetData : JSMap AssetData) (investmentLimit : ℚ)
    (hwf : assetData.WF) :
    Spec.Kept R assetData investmentLimit (fun s => s.keys = assetData.keys) (fun _ => True) := by
  refine ⟨fun rng => createStrategy_keys assetData investmentLimit hwf rng,
    fun p1 p2 rng _ _ => mateStrategies_keys p1 p2 assetData investmentLimit hwf rng, ?_⟩
  intro s hs
  obtain ⟨f, hf⟩ := calculateStrategyFitness_total R s assetData investmentLimit hs
  exact ⟨f, hf, trivial⟩

theorem createInitialPopulation_sound (R : ℚ → ℚ) (assetData : JSMap AssetData)
    (investmentLimit : ℚ) (G : Strategy → Prop) (F : BigNumber → Prop)
    (hk : Spec.Kept R assetData investmentLimit G F) :
    ∀ (count : ℕ) (population : List InvestmentStrategy) (rng : RandomSource),
      ∃ created rng1,
        createInitialPopulation R assetData investmentLimit count population rng
          = some (population ++ created, rng1)
        ∧ created.length = count
        ∧ ∀ a ∈ created, Spec.Sound R assetData investmentLimit G F a := by
  intro count
  induction count with
  | zero =>
    intro population rng
    exact ⟨[], rng, by simp [createInitialPopulation], rfl, by simp⟩
  | succ n ih =>
    intro population rng
    obtain ⟨s, rng1, hs, hG⟩ := hk.1 rng
    obtain ⟨f, hf, hF⟩ := hk.2.2 s hG
    obtain ⟨more, rng2, hrec, hlen, hsound⟩ :=
      ih (population ++ [{ strategy := s, fitness := f }]) rng1
    refine ⟨{ strategy := s, fitness := f } :: more, rng2, ?_, by simp [hlen], ?_⟩
    · simp only [createInitialPopulation, hs, hf, Option.bind_eq_bind, Option.some_bind, hrec]
      simp
    · intro a ha
      rcases List.mem_cons.mp ha with rfl | ha
      · exact ⟨hG, hf, hF⟩
      · exact hsound a ha

/-- The index `Math.floor(Math.random() * half)` is below `half`: the product of a
draw and `half`, rounded to a double, stays below `half`. -/
theorem parentIndex_lt (r : Draw) (half : ℕ) (h1 : 1 ≤ half) :
    parentIndex r.val half < half := by
  have hL : (1 : ℚ) ≤ (half : ℚ) := by exact_mod_cast h1
  have hlt := round_mul_lt (half : ℚ) r.val hL r.isDouble r.lt_one
  rw [mul_comm] at hlt
  have h0 : 0 ≤ Double.round (r.val * (half : ℚ)) :=
    round_nonneg _ (mul_nonneg r.nonneg (by positivity))
  have hfl : 0 ≤ ⌊Double.round (r.val * (half : ℚ))⌋ := Int.floor_nonneg.mpr h0
  have hlt2 : ⌊Double.round (r.val * (half : ℚ))⌋ < (half : ℤ) := by
    rw [Int.floor_lt]
    exact_mod_cast hlt
  unfold parentIndex
  omega

/-- The parent picked by one draw: its index is `floor(r * half)`, the product being a
double, it is below `half`, and the individual at that index of the population is
returned. -/
theorem pickParent_spec (population : List InvestmentStrategy) (half : ℕ)
    (h1 : 1 ≤ half) (h2 : half ≤ population.length) (rng : RandomSource) :
    ∃ (i : ℕ) (parent : InvestmentStrategy),
      i = parentIndex (rng 0).val half ∧ i < half ∧ population[i]? = some parent
        ∧ parent ∈ population.take half
        ∧ pickParent (population.take half) rng = (some parent, (Math.random rng).2) := by
  have hlen : (population.take half).length = half := by simp [h2]
  have hih := parentIndex_lt (rng 0) half h1
  have hip : parentIndex (rng 0).val half < population.length := lt_of_lt_of_le hih h2
  refine ⟨_, population[parentIndex (rng 0).val half], rfl, hih,
    List.getElem?_eq_getElem hip, ?_, ?_⟩
  · rw [List.mem_iff_getElem]
    exact ⟨parentIndex (rng 0).val half, by simp [hih, hip], by simp⟩
  · simp only [pickParent, Math.random, hlen]
    simp [List.getElem?_take, hih, hip]

theorem produceOffspring_sound (R : ℚ → ℚ) (assetData : JSMap AssetData)
    (investmentLimit : ℚ) (G : Strategy → Prop) (F : BigNumber → Prop)
    (hk : Spec.Kept R assetData investmentLimit G F)
    (population : List InvestmentStrategy) (half : ℕ)
    (hpop : ∀ a ∈ population, Spec.Sound R assetData investmentLimit G F a) :
    ∀ (count : ℕ) (newGeneration : List InvestmentStrategy) (rng : RandomSource),
      (0 < count → 1 ≤ half ∧ half ≤ population.length) →
      ∃ children rng1,
        produceOffspring R assetData investmentLimit population half count newGeneration rng
          = some (newGeneration ++ children, rng1)
        ∧ children.length = count
        ∧ ∀ a ∈ children, Spec.Sound R assetData investmentLimit G F a := by
  intro count
  induction count with
  | zero =>
    intro newGeneration rng _
    exact ⟨[], rng, by simp [produceOffspring], rfl, by simp⟩
  | succ n ih =>
    intro newGeneration rng hhalf
    obtain ⟨h1, h2⟩ := hhalf (Nat.succ_pos n)
    obtain ⟨_, parent1, _, _, _, hm1, hp1⟩ := pickParent_spec population half h1 h2 rng
    obtain ⟨_, parent2, _, _, _, hm2, hp2⟩ :=
      pickParent_spec population half h1 h2 (Math.random rng).2
    have hs1 := hpop parent1 (List.mem_of_mem_take hm1)
    have hs2 := hpop parent2 (List.mem_of_mem_take hm2)
    obtain ⟨child, rng1, hchild, hG⟩ := hk.2.1 parent1.strategy parent2.strategy
      (Math.random (Math.random rng).2).2 hs1.1 hs2.1
    obtain ⟨f, hf, hF⟩ := hk.2.2 child hG
    obtain ⟨more, rng2, hrec, hlen, hsound⟩ :=
      ih (newGeneration ++ [{ strategy := child, fitness := f }]) rng1 (fun _ => ⟨h1, h2⟩)
    refine ⟨{ strategy := child, fitness := f } :: more, rng2, ?_, by simp [hlen], ?_⟩
    · simp only [produceOffspring, hp1, hp2, hchild, hf, Option.bind_eq_bind, Option.some_bind,
        hrec]
      simp
    · intro a ha
      rcases List.mem_cons.mp ha with rfl | ha
      · exact ⟨hG, hf, hF⟩
      · exact hsound a ha
theorem half_bounds (populationSize : ℕ) (len : ℕ)
    (hlen : len = populationSize
      ∨ len = 10 * populationSize / 100 + 90 * populationSize / 100)
    (hcount : 0 < 90 * populationSize / 100) :
    1 ≤ 50 * populationSize / 100 ∧ 50 * populationSize / 100 ≤ len := by
  rcases hlen with h | h <;> omega

theorem generationState_length_cases (R : ℚ → ℚ) (populationSize c : ℕ)
    (assetData : JSMap AssetData) (investmentLimit : ℚ) (rng : RandomSource) (g : ℕ)
    (st : WorkerState)
    (h : generationState R populationSize c assetData investmentLimit rng g = some st) :
    st.population.length = populationSize
      ∨ st.population.length = 10 * populationSize / 100 + 90 * populationSize / 100 := by
  have := generationState_length R populationSize c assetData investmentLimit rng g st h
  split at this
  · exact Or.inl this
  · exact Or.inr this

/-- Every individual of every generation the loop reaches has the kept properties. -/
theorem generationState_sound (R : ℚ → ℚ) (populationSize c : ℕ)
    (assetData : JSMap AssetData) (investmentLimit : ℚ) (rng : RandomSource)
    (G : Strategy → Prop) (F : BigNumber → Prop)
    (hk : Spec.Kept R assetData investmentLimit G F) :
    ∀ (g : ℕ) (st : WorkerState),
      generationState R populationSize c assetData investmentLimit rng g = some st →
      ∀ a ∈ st.population, Spec.Sound R assetData investmentLimit G F a := by
  intro g
  induction g with
  | zero => intro st h; simp [generationState] at h
  | succ g ih =>
    intro st h
    cases g with
    | zero =>
      obtain ⟨built, _, hb, hpop, _⟩ := generationStep_built R populationSize c assetData
        investmentLimit (initialState rng) st h
      obtain ⟨created, rng1, hc, _, hsound⟩ := createInitialPopulation_sound R assetData
        investmentLimit G F hk populationSize [] rng
      have hb2 : built = ([] ++ created, rng1) := by
        unfold buildPopulation at hb
        simp only [initialState, if_true] at hb
        rw [hc] at hb
        exact (Option.some.inj hb).symm
      intro a ha
      rw [hpop, mem_sortPopulation, hb2] at ha
      exact hsound a (by simpa using ha)
    | succ g =>
      obtain ⟨prev, hprev, _, hstep⟩ := generationState_succ R populationSize c assetData
        investmentLimit rng g st h
      obtain ⟨built, _, hb, hpop, _⟩ := generationStep_built R populationSize c assetData
        investmentLimit _ st hstep
      have hgen := generationState_generation R populationSize c assetData investmentLimit rng
        (g + 1) prev hprev
      have hprevsound := ih prev hprev
      obtain ⟨children, rng1, hc, _, hsound⟩ := produceOffspring_sound R assetData
        investmentLimit G F hk prev.population (50 * populationSize / 100) hprevsound
        (90 * populationSize / 100) (prev.population.take (10 * populationSize / 100)) prev.rng
        (half_bounds populationSize _ (generationState_length_cases R populationSize c assetData
          investmentLimit rng (g + 1) prev hprev))
      have hb2 : built = (prev.population.take (10 * populationSize / 100) ++ children, rng1) := by
        unfold buildPopulation at hb
        rw [if_neg (by simp [hgen])] at hb
        simp only at hb
        rw [hc] at hb
        exact (Option.some.inj hb).symm
      intro a ha
      rw [hpop, mem_sortPopulation, hb2] at ha
      rcases List.mem_append.mp ha with h1 | h1
      · exact hprevsound a (List.mem_of_mem_take h1)
      · exact hsound a h1

/-- The population of the generation after a reached one is built without a throw:
the elites followed by `floor(90 * N / 100)` children. -/
theorem buildPopulation_total (R : ℚ → ℚ) (populationSize c : ℕ)
    (assetData : JSMap AssetData) (investmentLimit : ℚ) (rng : RandomSource)
    (G : Strategy → Prop) (F : BigNumber → Prop)
    (hk : Spec.Kept R assetData investmentLimit G F) (g : ℕ) (prev : WorkerState)
    (hprev : generationState R populationSize c assetData investmentLimit rng g = some prev) :
    ∃ children rng1,
      buildPopulation R populationSize assetData investmentLimit
          { prev with generation := prev.generation + 1 }
        = some (prev.population.take (10 * populationSize / 100) ++ children, rng1)
      ∧ children.length = 90 * populationSize / 100
      ∧ ∀ a ∈ children, Spec.Sound R assetData investmentLimit G F a := by
  have hgen := generationState_generation R populationSize c assetData investmentLimit rng
    g prev hprev
  have hg1 : 1 ≤ g := by
    cases g with
    | zero => simp [generationState] at hprev
    | succ g => omega
  obtain ⟨children, rng1, hc, hlen, hsound⟩ := produceOffspring_sound R assetData
    investmentLimit G F hk prev.population (50 * populationSize / 100)
    (generationState_sound R populationSize c assetData investmentLimit rng G F hk g prev hprev)
    (90 * populationSize / 100) (prev.population.take (10 * populationSize / 100)) prev.rng
    (half_bounds populationSize _ (generationState_length_cases R populationSize c assetData
      investmentLimit rng g prev hprev))
  refine ⟨children, rng1, ?_, hlen, hsound⟩
  unfold buildPopulation
  rw [if_neg (by simp [hgen]; omega)]
  exact hc

theorem head_sortPopulation_of_ne_nil (built : List InvestmentStrategy) (h : built ≠ []) :
    ∃ best, (sortPopulation built).head? = some best := by
  cases hs : sortPopulation built with
  | nil =>
    have := sortPopulation_length built
    rw [hs] at this
    exact absurd (List.length_eq_zero.mp this.symm) h
  | cons a t => exact ⟨a, rfl⟩

theorem generationStep_total (R : ℚ → ℚ) (populationSize c : ℕ)
    (assetData : JSMap AssetData) (investmentLimit : ℚ) (st : WorkerState)
    (built : List InvestmentStrategy × RandomSource)
    (hb : buildPopulation R populationSize assetData investmentLimit st = some built)
    (hne : built.1 ≠ []) :
    ∃ st1, generationStep R populationSize c assetData investmentLimit st = some st1 := by
  obtain ⟨best, hbest⟩ := head_sortPopulation_of_ne_nil _ hne
  unfold generationStep
  simp only [hb, Option.bind_eq_bind, Option.some_bind, hbest]
  exact ⟨_, rfl⟩

/-- The first generation is reached for a population size of at least 1. -/
theorem generationState_one_total (R : ℚ → ℚ) (populationSize c : ℕ)
    (assetData : JSMap AssetData) (investmentLimit : ℚ) (rng : RandomSource)
    (G : Strategy → Prop) (F : BigNumber → Prop)
    (hk : Spec.Kept R assetData investmentLimit G F) (hN : 1 ≤ populationSize) :
    ∃ st, generationState R populationSize c assetData investmentLimit rng 1 = some st := by
  obtain ⟨created, rng1, hc, hlen, _⟩ := createInitialPopulation_sound R assetData
    investmentLimit G F hk populationSize [] rng
  have hne : ([] ++ created : List InvestmentStrategy) ≠ [] := by
    intro h
    have : created = [] := by simpa using h
    rw [this] at hlen
    simp at hlen
    omega
  have hb : buildPopulation R populationSize assetData investmentLimit (initialState rng)
      = some ([] ++ created, rng1) := by
    unfold buildPopulation
    simp only [initialState, if_true]
    exact hc
  exact generationStep_total R populationSize c assetData investmentLimit _ _ hb hne

/-- The generation after a reached one at which the loop did not stop is reached too,
for a population size of at least 2. -/
theorem generationState_next_total (R : ℚ → ℚ) (populationSize c : ℕ)
    (assetData : JSMap AssetData) (investmentLimit : ℚ) (rng : RandomSource)
    (G : Strategy → Prop) (F : BigNumber → Prop)
    (hk : Spec.Kept R assetData investmentLimit G F) (hN : 2 ≤ populationSize) (g : ℕ)
    (prev : WorkerState)
    (hprev : generationState R populationSize c assetData investmentLimit rng (g + 1)
      = some prev)
    (hstop : stop prev.lastNBestFitnesses c = some false) :
    ∃ st, generationState R populationSize c assetData investmentLimit rng (g + 2) = some st := by
  obtain ⟨children, rng1, hc, hlen, _⟩ := buildPopulation_total R populationSize c assetData
    investmentLimit rng G F hk (g + 1) prev hprev
  have hne : prev.population.take (10 * populationSize / 100) ++ children ≠ [] := by
    intro h
    have h2 := congrArg List.length h
    simp only [List.length_append, hlen, List.length_nil] at h2
    omega
  obtain ⟨st, hst⟩ := generationStep_total R populationSize c assetData investmentLimit _ _ hc
    hne
  refine ⟨st, ?_⟩
  unfold generationState
  simp only [hprev, hstop, Option.bind_eq_bind, Option.some_bind]
  exact hst
/-! ## A run with the draws 1/4 -/

theorem fitness_buyAB_three :
    calculateStrategyFitness BigNumber.ROUND_HALF_UP
      (Spec.strategyOf (Example.buyAB ((3 : ℤ) : ℚ) ((3 : ℤ) : ℚ)))
      Example.catalogAB 100 = some (.fin 40) := by
  rw [fitness_of_within _ _ _ _ wf_catalogAB (covers_buyAB _ _)
    (by norm_num [Spec.totalProjected, Spec.projectedInvestment, Example.buyAB])
    (by norm_num [Spec.projectedTotalValue, Spec.currentValueSum, Spec.totalProjected,
      Spec.projectedInvestment, Example.buyAB, Example.catalogAB])
    (by norm_num)]
  congr 2
  norm_num [Spec.totalDiff, Spec.newPercentage, Spec.newValue, Spec.unspentPenalty,
    Spec.projectedTotalValue, Spec.currentValueSum, Spec.totalProjected,
    Spec.projectedInvestment, Example.buyAB, Example.catalogAB,
    BigNumber.ROUND_HALF_UP, BigNumber.roundHalfUp, BigNumber.DECIMAL_PLACES]

theorem round_quarter (n : ℕ) :
    ⌊Double.round ((Example.constantDraws Example.quarter n).val * 10) + 1 / 2⌋ = 3 := by
  norm_num [Example.constantDraws, Example.quarter,
      round_zero, round_five, round_five_halves]

theorem createStrategy_quarters :
    createStrategy Example.catalogAB 100 (Example.constantDraws Example.quarter)
      = some (Spec.strategyOf (Example.buyAB 3 3), Example.constantDraws Example.quarter) := by
  rw [createStrategy_catalogAB, round_quarter, round_quarter]
  norm_num
  rfl

theorem createInitialPopulation_quarters :
    ∀ (count : ℕ) (population : List InvestmentStrategy),
      createInitialPopulation BigNumber.ROUND_HALF_UP Example.catalogAB 100 count population
          (Example.constantDraws Example.quarter)
        = some (population
            ++ List.replicate count ⟨Spec.strategyOf (Example.buyAB 3 3), .fin 40⟩,
          Example.constantDraws Example.quarter) := by
  intro count
  induction count with
  | zero => intro population; simp [createInitialPopulation]
  | succ n ih =>
    intro population
    have hf := fitness_buyAB_three
    norm_num at hf
    simp only [createInitialPopulation, createStrategy_quarters, Option.bind_eq_bind,
      Option.some_bind, hf, ih]
    simp [List.replicate_succ]

theorem orderedInsert_replicate (a : InvestmentStrategy) (h : compareFitness a a ≤ 0) :
    ∀ n : ℕ, (List.replicate n a).orderedInsert (fun x y => compareFitness x y ≤ 0) a
      = List.replicate (n + 1) a := by
  intro n
  cases n with
  | zero => rfl
  | succ n => simp [List.replicate_succ, List.orderedInsert, h]

theorem sortPopulation_replicate (a : InvestmentStrategy) (h : compareFitness a a ≤ 0) :
    ∀ n : ℕ, sortPopulation (List.replicate n a) = List.replicate n a := by
  intro n
  induction n with
  | zero => rfl
  | succ n ih =>
    unfold sortPopulation at ih ⊢
    rw [List.replicate_succ, List.insertionSort, ih, orderedInsert_replicate a h n]
    rfl

/-- Generation 1 of the run with the catalog of the scenarios, budget 100 and the draws
1/4: every individual buys 3 shares of A and 3 of B and has the fitness 40. -/
theorem generationState_quarters_first (populationSize c : ℕ) (hN : 1 ≤ populationSize) :
    (generationState BigNumber.ROUND_HALF_UP populationSize c Example.catalogAB 100
        (Example.constantDraws Example.quarter) 1).map
        (fun st => (st.population, st.lastNBestFitnesses))
      = some (List.replicate populationSize ⟨Spec.strategyOf (Example.buyAB 3 3), .fin 40⟩,
          [BigNumber.fin 40].drop (1 - c)) := by
  obtain ⟨n, rfl⟩ : ∃ n, populationSize = n + 1 := ⟨populationSize - 1, by omega⟩
  unfold generationState generationStep buildPopulation
  simp only [initialState, if_true, createInitialPopulation_quarters, Option.bind_eq_bind,
    Option.some_bind, List.nil_append]
  rw [sortPopulation_replicate _ (by simp [compareFitness, BigNumber.comparedTo])]
  simp [List.replicate_succ]
theorem quarters_first_state (populationSize c : ℕ) (hN : 1 ≤ populationSize) :
    ∃ st, generationState BigNumber.ROUND_HALF_UP populationSize c Example.catalogAB 100
        (Example.constantDraws Example.quarter) 1 = some st
      ∧ st.population
        = List.replicate populationSize ⟨Spec.strategyOf (Example.buyAB 3 3), .fin 40⟩
      ∧ st.lastNBestFitnesses = [BigNumber.fin 40].drop (1 - c) := by
  have h := generationState_quarters_first populationSize c hN
  cases hg : generationState BigNumber.ROUND_HALF_UP populationSize c Example.catalogAB 100
      (Example.constantDraws Example.quarter) 1 with
  | none => simp [hg] at h
  | some st =>
    simp only [hg, Option.map_some'] at h
    have h2 := Option.some.inj h
    exact ⟨st, rfl, congrArg Prod.fst h2, congrArg Prod.snd h2⟩

/-- The run with the draws 1/4 and a capacity of 2 reaches generation 2. -/
theorem quarters_second_state (populationSize : ℕ) (hN : 2 ≤ populationSize) :
    ∃ prev st, generationState BigNumber.ROUND_HALF_UP populationSize 2 Example.catalogAB 100
        (Example.constantDraws Example.quarter) 1 = some prev
      ∧ prev.population
        = List.replicate populationSize ⟨Spec.strategyOf (Example.buyAB 3 3), .fin 40⟩
      ∧ generationState BigNumber.ROUND_HALF_UP populationSize 2 Example.catalogAB 100
        (Example.constantDraws Example.quarter) 2 = some st := by
  obtain ⟨prev, hprev, hpop, hw⟩ := quarters_first_state populationSize 2 (by omega)
  have hstop : stop prev.lastNBestFitnesses 2 = some false := by
    rw [hw]
    norm_num [stop, BigNumber.isZero]
  obtain ⟨st, hst⟩ := generationState_next_total BigNumber.ROUND_HALF_UP populationSize 2
    Example.catalogAB 100 (Example.constantDraws Example.quarter) _ _
    (kept_keys BigNumber.ROUND_HALF_UP Example.catalogAB 100 wf_catalogAB) hN 0 prev hprev hstop
  exact ⟨prev, st, hprev, hpop, hst⟩

/-! ## Claims on the generations -/

theorem size_lt_iff (N : ℕ) : 10 * N / 100 + 90 * N / 100 < N ↔ ¬ 10 ∣ N := by
  have h1 : 10 * N / 100 = N / 10 := by omega
  have h2 : 90 * N / 100 = N - N / 10 - (if N % 10 = 0 then 0 else 1) := by
    split <;> omega
  rw [h1, h2, Nat.dvd_iff_mod_eq_zero]
  split <;> omega

/-- C13: generation 1 has exactly N individuals and every later generation the loop
reaches has exactly floor(10 * N / 100) + floor(90 * N / 100), the elites followed by
the offspring before the sort; that number never exceeds N and is smaller than N
exactly when N is not a multiple of 10. -/
theorem C13_generation_size (R : ℚ → ℚ) (populationSize c : ℕ)
    (assetData : JSMap AssetData) (investmentLimit : ℚ) (rng : RandomSource) (g : ℕ)
    (st : WorkerState)
    (h : generationState R populationSize c assetData investmentLimit rng g = some st) :
    (g = 1 → st.population.length = populationSize)
      ∧ (1 < g →
          st.population.length = 10 * populationSize / 100 + 90 * populationSize / 100)
      ∧ 10 * populationSize / 100 + 90 * populationSize / 100 ≤ populationSize
      ∧ (10 * populationSize / 100 + 90 * populationSize / 100 < populationSize
          ↔ ¬ 10 ∣ populationSize) := by
  have hlen := generationState_length R populationSize c assetData investmentLimit rng g st h
  refine ⟨?_, ?_, by omega, size_lt_iff populationSize⟩
  · intro hg
    simpa [hg] using hlen
  · intro hg
    have : g ≠ 1 := by omega
    simpa [this] using hlen

/-- C13 at generation 2 of the run with the draws 1/4, population size 12 and capacity
2: generation 1 has 12 individuals and generation 2 has 1 + 10 = 11. -/
theorem C13_generation_size_witness :
    ∃ prev st, generationState BigNumber.ROUND_HALF_UP 12 2 Example.catalogAB 100
        (Example.constantDraws Example.quarter) 1 = some prev
      ∧ generationState BigNumber.ROUND_HALF_UP 12 2 Example.catalogAB 100
        (Example.constantDraws Example.quarter) 2 = some st
      ∧ prev.population.length = 12 ∧ st.population.length = 11 := by
  obtain ⟨prev, st, hprev, _, hst⟩ := quarters_second_state 12 (by norm_num)
  have h1 := C13_generation_size BigNumber.ROUND_HALF_UP 12 2 Example.catalogAB 100
    (Example.constantDraws Example.quarter) 1 prev hprev
  have h2 := C13_generation_size BigNumber.ROUND_HALF_UP 12 2 Example.catalogAB 100
    (Example.constantDraws Example.quarter) 2 st hst
  exact ⟨prev, st, hprev, hst, h1.1 rfl, h2.2.1 (by norm_num)⟩

/-- C19: the first floor(10 * N / 100) individuals of a generation, as sorted, are all
members of the next generation, with the same strategy and the same fitness. -/
theorem C19_elites_carried_over (R : ℚ → ℚ) (populationSize c : ℕ)
    (assetData : JSMap AssetData) (investmentLimit : ℚ) (rng : RandomSource) (g : ℕ)
    (prev st : WorkerState)
    (hprev : generationState R populationSize c assetData investmentLimit rng (g + 1)
      = some prev)
    (hst : generationState R populationSize c assetData investmentLimit rng (g + 2) = some st) :
    ∀ a ∈ prev.population.take (10 * populationSize / 100), a ∈ st.population := by
  obtain ⟨prev2, hprev2, _, hstep⟩ := generationState_succ R populationSize c assetData
    investmentLimit rng g st hst
  have heq : prev2 = prev := by
    rw [hprev] at hprev2
    exact (Option.some.inj hprev2).symm
  subst heq
  obtain ⟨built, _, hb, hpop, _⟩ := generationStep_built R populationSize c assetData
    investmentLimit _ st hstep
  have hgen := generationState_generation R populationSize c assetData investmentLimit rng
    (g + 1) prev2 hprev
  obtain ⟨children, hc, _⟩ := buildPopulation_later R populationSize assetData
    investmentLimit _ (by simp [hgen]) built hb
  intro a ha
  rw [hpop, mem_sortPopulation, hc]
  exact List.mem_append_left _ ha

/-- C19 at the run with the draws 1/4, population size 10 and capacity 2: the best
individual of generation 1 is a member of generation 2. -/
theorem C19_elites_carried_over_witness :
    ∃ prev st, generationState BigNumber.ROUND_HALF_UP 10 2 Example.catalogAB 100
        (Example.constantDraws Example.quarter) 1 = some prev
      ∧ generationState BigNumber.ROUND_HALF_UP 10 2 Example.catalogAB 100
        (Example.constantDraws Example.quarter) 2 = some st
      ∧ prev.population.take (10 * 10 / 100)
        = [⟨Spec.strategyOf (Example.buyAB 3 3), .fin 40⟩]
      ∧ ∀ a ∈ prev.population.take (10 * 10 / 100), a ∈ st.population := by
  obtain ⟨prev, st, hprev, hpop, hst⟩ := quarters_second_state 10 (by norm_num)
  refine ⟨prev, st, hprev, hst, ?_,
    C19_elites_carried_over BigNumber.ROUND_HALF_UP 10 2 Example.catalogAB 100
      (Example.constantDraws Example.quarter) 0 prev st hprev hst⟩
  rw [hpop]
  rfl

/-- The mating loop never throws on a population whose individuals have the kept
properties, and its children are the offspring of consecutive passes, each mated from
two parents of the first `half` individuals. -/
theorem produceOffspring_offspring (R : ℚ → ℚ) (assetData : JSMap AssetData)
    (investmentLimit : ℚ) (G : Strategy → Prop) (F : BigNumber → Prop)
    (hk : Spec.Kept R assetData investmentLimit G F)
    (population : List InvestmentStrategy) (half : ℕ)
    (hpop : ∀ a ∈ population, Spec.Sound R assetData investmentLimit G F a) :
    ∀ (count : ℕ) (newGeneration : List InvestmentStrategy) (rng : RandomSource),
      (0 < count → 1 ≤ half ∧ half ≤ population.length) →
      ∃ children rng1,
        produceOffspring R assetData investmentLimit population half count newGeneration rng
          = some (newGeneration ++ children, rng1)
        ∧ children.length = count
        ∧ Spec.Offspring R assetData investmentLimit population half children rng rng1 := by
  intro count
  induction count with
  | zero =>
    intro newGeneration rng _
    exact ⟨[], rng, by simp [produceOffspring], rfl, rfl⟩
  | succ n ih =>
    intro newGeneration rng hhalf
    obtain ⟨h1, h2⟩ := hhalf (Nat.succ_pos n)
    obtain ⟨i, parent1, hi, hilt, hget1, hm1, hp1⟩ := pickParent_spec population half h1 h2 rng
    obtain ⟨j, parent2, hj, hjlt, hget2, hm2, hp2⟩ :=
      pickParent_spec population half h1 h2 (Math.random rng).2
    have hs1 := hpop parent1 (List.mem_of_mem_take hm1)
    have hs2 := hpop parent2 (List.mem_of_mem_take hm2)
    obtain ⟨child, rng1, hchild, hG⟩ := hk.2.1 parent1.strategy parent2.strategy
      (Math.random (Math.random rng).2).2 hs1.1 hs2.1
    obtain ⟨f, hf, _⟩ := hk.2.2 child hG
    obtain ⟨more, rng2, hrec, hlen, hoff⟩ :=
      ih (newGeneration ++ [{ strategy := child, fitness := f }]) rng1 (fun _ => ⟨h1, h2⟩)
    refine ⟨{ strategy := child, fitness := f } :: more, rng2, ?_, by simp [hlen], ?_⟩
    · simp only [produceOffspring, hp1, hp2, hchild, hf, Option.bind_eq_bind, Option.some_bind,
        hrec]
      simp
    · subst hi
      subst hj
      exact ⟨rng1, ⟨parent1, parent2, hilt, hjlt, hget1, hget2, hm1, hm2, hchild, hf⟩, hoff⟩

/-- C20: for a population size N >= 2 and a generation g the loop has reached, the best
half of that generation has floor(50 * N / 100) >= 1 individuals, all of them in the
population, and the population of generation g + 1 is built without a throw: the
elites followed by exactly floor(90 * N / 100) offspring. Each offspring is mated by
`mateStrategies` from two parents at the indices floor(r * floor(50 * N / 100)) of the
next two draws r, the product being a double; both indices are below
floor(50 * N / 100), both parents exist and are among the first floor(50 * N / 100)
individuals of generation g, and the offspring carries the fitness of its strategy.
When the loop goes on, the population of generation g + 1 is the sort of that list. -/
theorem C20_parents_and_offspring (R : ℚ → ℚ) (populationSize c : ℕ)
    (assetData : JSMap AssetData) (investmentLimit : ℚ) (rng : RandomSource)
    (hwf : assetData.WF) (hN : 2 ≤ populationSize) (g : ℕ) (prev : WorkerState)
    (hprev : generationState R populationSize c assetData investmentLimit rng g = some prev) :
    1 ≤ 50 * populationSize / 100
      ∧ 50 * populationSize / 100 ≤ prev.population.length
      ∧ ∃ children rng1,
          buildPopulation R populationSize assetData investmentLimit
              { prev with generation := prev.generation + 1 }
            = some (prev.population.take (10 * populationSize / 100) ++ children, rng1)
          ∧ children.length = 90 * populationSize / 100
          ∧ Spec.Offspring R assetData investmentLimit prev.population
              (50 * populationSize / 100) children prev.rng rng1
          ∧ ∀ st, generationState R populationSize c assetData investmentLimit rng (g + 1)
                = some st →
              st.population
                = sortPopulation (prev.population.take (10 * populationSize / 100) ++ children)
                ∧ st.rng = rng1 := by
  have hb := half_bounds populationSize _ (generationState_length_cases R populationSize c
    assetData investmentLimit rng g prev hprev) (by omega)
  have hgen := generationState_generation R populationSize c assetData investmentLimit rng
    g prev hprev
  have hg1 : 1 ≤ g := by
    cases g with
    | zero => simp [generationState] at hprev
    | succ g => omega
  have hk := kept_keys R assetData investmentLimit hwf
  obtain ⟨children, rng1, hc, hlen, hoff⟩ := produceOffspring_offspring R assetData
    investmentLimit _ _ hk prev.population (50 * populationSize / 100)
    (generationState_sound R populationSize c assetData investmentLimit rng _ _ hk g prev hprev)
    (90 * populationSize / 100) (prev.population.take (10 * populationSize / 100)) prev.rng
    (fun _ => hb)
  have hbuild : buildPopulation R populationSize assetData investmentLimit
      { prev with generation := prev.generation + 1 }
      = some (prev.population.take (10 * populationSize / 100) ++ children, rng1) := by
    unfold buildPopulation
    rw [if_neg (by simp [hgen]; omega)]
    exact hc
  refine ⟨hb.1, hb.2, children, rng1, hbuild, hlen, hoff, ?_⟩
  intro st hst
  obtain ⟨g0, rfl⟩ : ∃ g0, g = g0 + 1 := ⟨g - 1, by omega⟩
  obtain ⟨prev2, hprev2, _, hstep⟩ := generationState_succ R populationSize c assetData
    investmentLimit rng g0 st hst
  have heq : prev2 = prev := by
    rw [hprev] at hprev2
    exact (Option.some.inj hprev2).symm
  subst heq
  obtain ⟨built, _, hbuilt, hpop, _, _, hrng, _⟩ := generationStep_built R populationSize c
    assetData investmentLimit _ st hstep
  rw [hbuild] at hbuilt
  have hb2 := Option.some.inj hbuilt
  rw [hpop, hrng, ← hb2]
  exact ⟨rfl, rfl⟩

/-- C20 at generation 1 of the run with the draws 1/4, population size 12 and capacity
2: the parents are picked among the first 6 individuals and 10 offspring are mated;
with one elite they make generation 2. -/
theorem C20_parents_and_offspring_witness :
    Example.catalogAB.WF ∧ 2 ≤ 12
      ∧ ∃ prev, generationState BigNumber.ROUND_HALF_UP 12 2 Example.catalogAB 100
          (Example.constantDraws Example.quarter) 1 = some prev
        ∧ 1 ≤ 50 * 12 / 100
        ∧ 50 * 12 / 100 ≤ prev.population.length
        ∧ ∃ children rng1,
            buildPopulation BigNumber.ROUND_HALF_UP 12 Example.catalogAB 100
                { prev with generation := prev.generation + 1 }
              = some (prev.population.take (10 * 12 / 100) ++ children, rng1)
            ∧ children.length = 90 * 12 / 100
            ∧ Spec.Offspring BigNumber.ROUND_HALF_UP Example.catalogAB 100 prev.population
                (50 * 12 / 100) children prev.rng rng1
            ∧ ∀ st, generationState BigNumber.ROUND_HALF_UP 12 2 Example.catalogAB 100
                  (Example.constantDraws Example.quarter) (1 + 1) = some st →
                st.population
                  = sortPopulation (prev.population.take (10 * 12 / 100) ++ children)
                  ∧ st.rng = rng1 := by
  obtain ⟨prev, hprev, _, _⟩ := quarters_first_state 12 2 (by norm_num)
  exact ⟨wf_catalogAB, by norm_num, prev, hprev,
    C20_parents_and_offspring BigNumber.ROUND_HALF_UP 12 2 Example.catalogAB 100
      (Example.constantDraws Example.quarter) wf_catalogAB (by norm_num) 1 prev hprev⟩

/-! ## The messages of a run -/

theorem generationState_of_entry (R : ℚ → ℚ) (populationSize c : ℕ)
    (assetData : JSMap AssetData) (investmentLimit : ℚ) (rng : RandomSource) (g : ℕ)
    (pre : WorkerState)
    (he : Spec.LoopEntry R populationSize c assetData investmentLimit rng g pre) :
    generationState R populationSize c assetData investmentLimit rng (g + 1)
      = generationStep R populationSize c assetData investmentLimit pre := by
  rcases he with ⟨rfl, rfl⟩ | ⟨st, hst, hstop, rfl⟩
  · rfl
  · cases g with
    | zero => simp [generationState] at hst
    | succ g =>
      show generationState R populationSize c assetData investmentLimit rng (g + 2) = _
      unfold generationState
      simp only [hst, hstop, Option.bind_eq_bind, Option.some_bind]
      rfl

theorem intermediateMessages_succ (R : ℚ → ℚ) (populationSize c : ℕ)
    (assetData : JSMap AssetData) (investmentLimit : ℚ) (rng : RandomSource) (g : ℕ) :
    Spec.intermediateMessages R populationSize c assetData investmentLimit rng (g + 1)
      = Spec.intermediateMessages R populationSize c assetData investmentLimit rng g
        ++ [(bestIndividual R populationSize c assetData investmentLimit rng (g + 1)).map
            (Message.intermediate (g + 1))] := by
  simp [Spec.intermediateMessages, List.range_succ]

/-- A run that returns has passed one intermediate message per generation before the
last, then the final message of the last generation, at which `stop` returned `true`. -/
theorem runLoop_completed (R : ℚ → ℚ) (populationSize c : ℕ)
    (assetData : JSMap AssetData) (investmentLimit : ℚ) (rng : RandomSource) :
    ∀ (fuel g : ℕ) (pre : WorkerState) (messages out : List Message),
      Spec.LoopEntry R populationSize c assetData investmentLimit rng g pre →
      messages.map some
        = Spec.intermediateMessages R populationSize c assetData investmentLimit rng g →
      runLoop R populationSize c assetData investmentLimit fuel pre messages = .completed out →
      ∃ (last : ℕ) (st : WorkerState) (best : InvestmentStrategy) (stats : StrategyStats),
        g < last
          ∧ generationState R populationSize c assetData investmentLimit rng last = some st
          ∧ stop st.lastNBestFitnesses c = some true
          ∧ st.population.head? = some best
          ∧ Utility.calculateStrategyStats R best.strategy assetData = some stats
          ∧ out.map some
            = Spec.intermediateMessages R populationSize c assetData investmentLimit rng
                (last - 1)
              ++ [some (Message.final last best stats investmentLimit)] := by
  intro fuel
  induction fuel with
  | zero =>
    intro g pre messages out _ _ h
    simp [runLoop] at h
  | succ fuel ih =>
    intro g pre messages out he hm h
    have hgs := generationState_of_entry R populationSize c assetData investmentLimit rng g
      pre he
    unfold runLoop at h
    cases hstep : generationStep R populationSize c assetData investmentLimit pre with
    | none => simp [hstep] at h
    | some st1 =>
      rw [hstep] at hgs
      have hgen := generationState_generation R populationSize c assetData investmentLimit rng
        (g + 1) st1 hgs
      simp only [hstep] at h
      cases hhead : st1.population.head? with
      | none => simp [hhead] at h
      | some best =>
        simp only [hhead] at h
        have hbest : bestIndividual R populationSize c assetData investmentLimit rng (g + 1)
            = some best := by
          simp [bestIndividual, hgs, hhead]
        cases hstop : stop st1.lastNBestFitnesses c with
        | none => simp [hstop] at h
        | some stopped =>
          cases stopped with
          | true =>
            simp only [hstop] at h
            cases hstats : Utility.calculateStrategyStats R best.strategy assetData with
            | none => simp [hstats] at h
            | some stats =>
              simp only [hstats] at h
              have hout : out = messages ++ [Message.final st1.generation best stats
                  investmentLimit] := (Run.completed.inj h).symm
              refine ⟨g + 1, st1, best, stats, by omega, hgs, hstop, hhead, hstats, ?_⟩
              rw [hout, hgen]
              simp [hm]
          | false =>
            simp only [hstop] at h
            have he2 : Spec.LoopEntry R populationSize c assetData investmentLimit rng (g + 1)
                { st1 with generation := st1.generation + 1 } :=
              Or.inr ⟨st1, hgs, hstop, rfl⟩
            have hm2 : (messages ++ [Message.intermediate st1.generation best]).map some
                = Spec.intermediateMessages R populationSize c assetData investmentLimit rng
                    (g + 1) := by
              rw [intermediateMessages_succ, hbest, hgen]
              simp [hm]
            obtain ⟨last, st, b, stats, hlt, h1, h2, h3, h4, h5⟩ := ih (g + 1) _ _ out he2 hm2 h
            exact ⟨last, st, b, stats, by omega, h1, h2, h3, h4, h5⟩
/-! ## A run that stops in its second generation -/

theorem quarters_first_full (populationSize c : ℕ) (hN : 1 ≤ populationSize) :
    generationState BigNumber.ROUND_HALF_UP populationSize c Example.catalogAB 100
        (Example.constantDraws Example.quarter) 1
      = some ⟨1, List.replicate populationSize ⟨Spec.strategyOf (Example.buyAB 3 3), .fin 40⟩,
          [BigNumber.fin 40].drop (1 - c), Example.constantDraws Example.quarter⟩ := by
  obtain ⟨n, rfl⟩ : ∃ n, populationSize = n + 1 := ⟨populationSize - 1, by omega⟩
  unfold generationState generationStep buildPopulation
  simp only [initialState, if_true, createInitialPopulation_quarters, Option.bind_eq_bind,
    Option.some_bind, List.nil_append]
  rw [sortPopulation_replicate _ (by simp [compareFitness, BigNumber.comparedTo])]
  simp [List.replicate_succ]

theorem mateStrategies_quarters :
    mateStrategies (Spec.strategyOf (Example.buyAB 3 3)) (Spec.strategyOf (Example.buyAB 3 3))
        Example.catalogAB 100 (Example.constantDraws Example.quarter)
      = some (Spec.strategyOf (Example.buyAB 3 3), Example.constantDraws Example.quarter) := by
  simp [mateStrategies, mateGene, Example.catalogAB, Example.buyAB, Spec.strategyOf,
    Strategy.count, Example.constantDraws, Example.quarter, JSMap.keys, JSMap.get, JSMap.set,
    JSMap.has, JSMap.empty, List.lookup, Math.random, round_two_fifths,
    show ("A" : String) ≠ "B" from by decide]
  norm_num [round_two_fifths_eq, show ("A" : String) ≠ "B" from by decide]
  rfl

theorem pickParent_replicate (a : InvestmentStrategy) (n half : ℕ) (h1 : 1 ≤ half)
    (h2 : half ≤ n) (rng : RandomSource) :
    pickParent ((List.replicate n a).take half) rng = (some a, (Math.random rng).2) := by
  obtain ⟨i, parent, _, _, _, hmem, hpick⟩ := pickParent_spec (List.replicate n a) half h1
    (by simpa using h2) rng
  have : parent = a := List.eq_of_mem_replicate (List.mem_of_mem_take hmem)
  rw [hpick, this]

theorem produceOffspring_quarters (n half : ℕ) (h1 : 1 ≤ half) (h2 : half ≤ n) :
    ∀ (count : ℕ) (newGeneration : List InvestmentStrategy),
      produceOffspring BigNumber.ROUND_HALF_UP Example.catalogAB 100
          (List.replicate n ⟨Spec.strategyOf (Example.buyAB 3 3), .fin 40⟩) half count
          newGeneration (Example.constantDraws Example.quarter)
        = some (newGeneration
            ++ List.replicate count ⟨Spec.strategyOf (Example.buyAB 3 3), .fin 40⟩,
          Example.constantDraws Example.quarter) := by
  intro count
  induction count with
  | zero => intro newGeneration; simp [produceOffspring]
  | succ k ih =>
    intro newGeneration
    have hf := fitness_buyAB_three
    norm_num at hf
    have hr : (Math.random (Example.constantDraws Example.quarter)).2
        = Example.constantDraws Example.quarter := rfl
    simp only [produceOffspring, pickParent_replicate _ n half h1 h2, hr, Option.bind_eq_bind,
      Option.some_bind, mateStrategies_quarters, hf, ih]
    simp [List.replicate_succ]
theorem quarters_second_full (populationSize : ℕ) (hN : 2 ≤ populationSize) :
    generationState BigNumber.ROUND_HALF_UP populationSize 2 Example.catalogAB 100
        (Example.constantDraws Example.quarter) 2
      = some ⟨2, List.replicate (10 * populationSize / 100 + 90 * populationSize / 100)
            ⟨Spec.strategyOf (Example.buyAB 3 3), .fin 40⟩,
          [BigNumber.fin 40, BigNumber.fin 40], Example.constantDraws Example.quarter⟩ := by
  have h1 := quarters_first_full populationSize 2 (by omega)
  have hstop : stop ([BigNumber.fin 40].drop (1 - 2)) 2 = some false := by
    norm_num [stop, BigNumber.isZero]
  have hmin : min (10 * populationSize / 100) populationSize = 10 * populationSize / 100 := by
    omega
  obtain ⟨m, hm⟩ : ∃ m, 10 * populationSize / 100 + 90 * populationSize / 100 = m + 1 :=
    ⟨10 * populationSize / 100 + 90 * populationSize / 100 - 1, by omega⟩
  unfold generationState
  simp only [h1, hstop, Option.bind_eq_bind, Option.some_bind]
  unfold generationStep buildPopulation
  simp only [show ¬ (1 + 1 = 1) from by decide, if_false, Bool.false_eq_true]
  rw [produceOffspring_quarters populationSize (50 * populationSize / 100) (by omega)
    (by omega)]
  simp only [Option.bind_eq_bind, Option.some_bind, List.take_replicate, hmin,
    List.append_replicate_replicate]
  rw [sortPopulation_replicate _ (by simp [compareFitness, BigNumber.comparedTo]), hm]
  simp [List.replicate_succ]
/-! ## Runs that return -/

theorem calculateStrategyStats_total (R : ℚ → ℚ) (strategy : Strategy)
    (assetData : JSMap AssetData) (hkeys : strategy.keys = assetData.keys) :
    ∃ stats, Utility.calculateStrategyStats R strategy assetData = some stats := by
  have hget : ∀ k ∈ strategy.keys, ∃ a, assetData.get k = some a := fun k hk =>
    get_some_of_mem_keys assetData k (hkeys ▸ hk)
  obtain ⟨m, hm⟩ : ∃ m, Utility.calculateProjectedInvestmentPerAsset strategy assetData
      = some m := by
    unfold Utility.calculateProjectedInvestmentPerAsset
    apply foldlM_some
    intro a k hk
    obtain ⟨x, hx⟩ := hget k hk
    exact ⟨_, by simp only [hx]; rfl⟩
  unfold Utility.calculateStrategyStats
  rw [hm]
  simp only [Option.bind_eq_bind, Option.some_bind]
  obtain ⟨t, ht⟩ := foldlM_some
    (Utility.pushStrategyData R strategy assetData m (Utility.sumCurrentAssetValues assetData)
      ((Utility.sumCurrentAssetValues assetData).plus (Utility.sumMoney m)))
    strategy.keys []
    (by
      intro a k hk
      obtain ⟨x, hx⟩ := hget k hk
      unfold Utility.pushStrategyData
      exact ⟨_, by simp only [hx]; rfl⟩)
  rw [ht]
  exact ⟨_, rfl⟩

theorem generationState_earlier (R : ℚ → ℚ) (populationSize c : ℕ)
    (assetData : JSMap AssetData) (investmentLimit : ℚ) (rng : RandomSource) (g : ℕ) :
    ∀ (k : ℕ) (st : WorkerState),
      generationState R populationSize c assetData investmentLimit rng (g + 1 + (k + 1))
        = some st →
      ∃ st1, generationState R populationSize c assetData investmentLimit rng (g + 1) = some st1
        ∧ stop st1.lastNBestFitnesses c = some false := by
  intro k
  induction k with
  | zero =>
    intro st h
    obtain ⟨prev, hprev, hstop, _⟩ := generationState_succ R populationSize c assetData
      investmentLimit rng g st h
    exact ⟨prev, hprev, hstop⟩
  | succ k ih =>
    intro st h
    obtain ⟨prev, hprev, _, _⟩ := generationState_succ R populationSize c assetData
      investmentLimit rng (g + 1 + k) st h
    exact ih prev hprev

/-- With enough fuel the loop returns, once a generation exists at which `stop` returns
`true` and whose best individual has statistics. -/
theorem runLoop_of_stop (R : ℚ → ℚ) (populationSize c : ℕ)
    (assetData : JSMap AssetData) (investmentLimit : ℚ) (rng : RandomSource)
    (st : WorkerState) (best : InvestmentStrategy) (stats : StrategyStats)
    (hstop : stop st.lastNBestFitnesses c = some true)
    (hhead : st.population.head? = some best)
    (hstats : Utility.calculateStrategyStats R best.strategy assetData = some stats) :
    ∀ (k g : ℕ) (pre : WorkerState) (messages : List Message),
      Spec.LoopEntry R populationSize c assetData investmentLimit rng g pre →
      generationState R populationSize c assetData investmentLimit rng (g + 1 + k) = some st →
      ∃ out, runLoop R populationSize c assetData investmentLimit (k + 1) pre messages
        = .completed out := by
  intro k
  induction k with
  | zero =>
    intro g pre messages he hst
    have hstep := generationState_of_entry R populationSize c assetData investmentLimit rng g
      pre he
    rw [show g + 1 + 0 = g + 1 from rfl, hstep] at hst
    unfold runLoop
    simp only [hst, hhead, hstop, hstats]
    exact ⟨_, rfl⟩
  | succ k ih =>
    intro g pre messages he hst
    obtain ⟨st1, hst1, hstop1⟩ := generationState_earlier R populationSize c assetData
      investmentLimit rng g k st hst
    have hstep := generationState_of_entry R populationSize c assetData investmentLimit rng g
      pre he
    rw [hst1] at hstep
    obtain ⟨_, best1, _, hhead1, _, _⟩ := generationStep_population R populationSize c
      assetData investmentLimit pre st1 hstep.symm
    unfold runLoop
    simp only [← hstep, hhead1, hstop1]
    exact ih (g + 1) _ _ (Or.inr ⟨st1, hst1, hstop1, rfl⟩)
      (by rw [← hst]; congr 1; omega)

/-- Source function `runWorker` returns when its fuel covers the generation at which
`stop` returns `true`. -/
theorem runWorker_of_stop (R : ℚ → ℚ) (populationSize c : ℕ)
    (assetData : JSMap AssetData) (investmentLimit : ℚ) (rng : RandomSource)
    (hwf : assetData.WF) (g : ℕ) (st : WorkerState)
    (hst : generationState R populationSize c assetData investmentLimit rng g = some st)
    (hstop : stop st.lastNBestFitnesses c = some true) :
    ∃ out, runWorker R g populationSize c assetData investmentLimit rng = .completed out := by
  cases g with
  | zero => simp [generationState] at hst
  | succ g =>
    have hsound := generationState_sound R populationSize c assetData investmentLimit rng _ _
      (kept_keys R assetData investmentLimit hwf) (g + 1) st hst
    obtain ⟨best, hhead⟩ : ∃ best, st.population.head? = some best := by
      cases g with
      | zero =>
        obtain ⟨_, best, _, hh, _⟩ := generationStep_population R populationSize c assetData
          investmentLimit _ st hst
        exact ⟨best, hh⟩
      | succ g =>
        obtain ⟨prev, _, _, hstep⟩ := generationState_succ R populationSize c assetData
          investmentLimit rng g st hst
        obtain ⟨_, best, _, hh, _⟩ := generationStep_population R populationSize c assetData
          investmentLimit _ st hstep
        exact ⟨best, hh⟩
    obtain ⟨stats, hstats⟩ := calculateStrategyStats_total R best.strategy assetData
      (hsound best (List.mem_of_mem_head? hhead)).1
    exact runLoop_of_stop R populationSize c assetData investmentLimit rng st best stats hstop
      hhead hstats g 0 (initialState rng) [] (Or.inl ⟨rfl, rfl⟩)
      (by rw [← hst]; congr 1; omega)
/-! ## The report -/

theorem pushStrategyData_eq (R : ℚ → ℚ) (assetData : JSMap AssetData) (ps : List Position)
    (h : Spec.Covers assetData ps) (S V : ℚ) (stats : List StrategyData) (p : Position)
    (hp : p ∈ ps) :
    Utility.pushStrategyData R (Spec.strategyOf ps) assetData
      ⟨ps.map (fun p => (p.name, BigNumber.fin (Spec.projectedInvestment p)))⟩ (.fin S)
      (.fin V) stats p.name
      = some (stats ++ [Spec.roundedRow R S V p]) := by
  have hg : (⟨ps.map (fun p => (p.name, BigNumber.fin (Spec.projectedInvestment p)))⟩ :
      JSMap BigNumber).get p.name = some (.fin (Spec.projectedInvestment p)) := by
    simp [JSMap.get,
      lookup_map_of_nodup Position.name (fun p => BigNumber.fin (Spec.projectedInvestment p))
        ps h.1 p hp]
  unfold Utility.pushStrategyData
  rw [h.2 p hp]
  simp only [Option.bind_eq_bind, Option.some_bind, hg, Option.getD_some,
    strategyOf_count ps h.1 p hp, BigNumber.plus_fin]
  by_cases hS : S = 0 <;> by_cases hV : V = 0 <;>
    simp [Spec.roundedRow, BigNumber.isZero, hS, hV, BigNumber.dividedBy_fin, Spec.newValue]

theorem stats_loop (R : ℚ → ℚ) (assetData : JSMap AssetData) (ps : List Position)
    (h : Spec.Covers assetData ps) (S V : ℚ) :
    ∀ (l : List Position), (∀ p ∈ l, p ∈ ps) → ∀ (stats : List StrategyData),
      (l.map Position.name).foldlM
        (Utility.pushStrategyData R (Spec.strategyOf ps) assetData
          ⟨ps.map (fun p => (p.name, BigNumber.fin (Spec.projectedInvestment p)))⟩ (.fin S)
          (.fin V))
        stats
      = some (stats ++ l.map (Spec.roundedRow R S V)) := by
  intro l
  induction l with
  | nil => intro _ stats; simp
  | cons a t ih =>
    intro hl stats
    simp only [List.map_cons, List.foldlM_cons]
    rw [pushStrategyData_eq R assetData ps h S V stats a (hl a (List.mem_cons_self _ _))]
    simp only [Option.bind_eq_bind, Option.some_bind]
    rw [ih (fun p hp => hl p (List.mem_cons_of_mem _ hp))]
    simp

/-- The report of a strategy with finite share counts. -/
theorem calculateStrategyStats_eq (R : ℚ → ℚ) (assetData : JSMap AssetData)
    (ps : List Position) (hwf : assetData.WF) (h : Spec.Covers assetData ps) :
    Utility.calculateStrategyStats R (Spec.strategyOf ps) assetData
      = some (Spec.roundedStats R assetData ps) := by
  unfold Utility.calculateStrategyStats
  rw [calculateProjectedInvestmentPerAsset_eq assetData ps h]
  simp only [Option.bind_eq_bind, Option.some_bind]
  rw [sumMoney_fin Position.name Spec.projectedInvestment ps,
    sumCurrentAssetValues_eq assetData hwf, BigNumber.plus_fin, strategyOf_keys,
    stats_loop R assetData ps h _ _ ps (fun _ hp => hp) []]
  rfl
theorem covers_buyHeld : Spec.Covers Example.catalogHeld Example.buyHeld := by
  constructor
  · simp [Example.buyHeld]
  · intro p hp
    simp only [Example.buyHeld, List.mem_cons, List.mem_singleton, List.not_mem_nil,
      or_false] at hp
    rcases hp with rfl | rfl <;> simp [Example.catalogHeld, JSMap.get, List.lookup]

theorem wf_catalogHeld : Example.catalogHeld.WF := by
  simp [JSMap.WF, JSMap.keys, Example.catalogHeld]

/-- C16 as stated fails: in `catalogHeld` asset A holds 1 of a total of 3, the claim
gives it the current percentage 100 * 1 / 3, and the program returns
33.333333333333333333, the quotient 1/3 being rounded to 20 decimal places before the
multiplication by 100. -/
theorem C16_strategy_stats_counterexample :
    Example.catalogHeld.WF ∧ Spec.Covers Example.catalogHeld Example.buyHeld
      ∧ (Spec.exactStats Example.catalogHeld Example.buyHeld).stats.map
          (fun row => row.currentPercentage)
        = [BigNumber.fin (100 * 1 / 3), BigNumber.fin (100 * 2 / 3)]
      ∧ (Utility.calculateStrategyStats BigNumber.ROUND_HALF_UP
          (Spec.strategyOf Example.buyHeld) Example.catalogHeld).map
          (fun r => r.stats.map (fun row => row.currentPercentage))
        = some [BigNumber.fin 33.333333333333333333, BigNumber.fin 66.666666666666666667]
      ∧ Utility.calculateStrategyStats BigNumber.ROUND_HALF_UP
          (Spec.strategyOf Example.buyHeld) Example.catalogHeld
        ≠ some (Spec.exactStats Example.catalogHeld Example.buyHeld) := by
  have hex : (Spec.exactStats Example.catalogHeld Example.buyHeld).stats.map
      (fun row => row.currentPercentage)
      = [BigNumber.fin (100 * 1 / 3), BigNumber.fin (100 * 2 / 3)] := by
    norm_num [Spec.exactStats, Spec.exactRow, Spec.currentValueSum, Example.catalogHeld,
      Example.buyHeld]
  have hcode : (Utility.calculateStrategyStats BigNumber.ROUND_HALF_UP
      (Spec.strategyOf Example.buyHeld) Example.catalogHeld).map
      (fun r => r.stats.map (fun row => row.currentPercentage))
      = some [BigNumber.fin 33.333333333333333333, BigNumber.fin 66.666666666666666667] := by
    rw [calculateStrategyStats_eq _ _ _ wf_catalogHeld covers_buyHeld]
    norm_num [Spec.roundedStats, Spec.roundedRow, Spec.currentValueSum, Example.catalogHeld,
      Example.buyHeld, BigNumber.ROUND_HALF_UP, BigNumber.roundHalfUp,
      BigNumber.DECIMAL_PLACES]
  refine ⟨wf_catalogHeld, covers_buyHeld, hex, hcode, ?_⟩
  intro h
  rw [h, Option.map_some', hex] at hcode
  have h2 := BigNumber.fin.inj (List.head_eq_of_cons_eq (Option.some.inj hcode))
  norm_num at h2

/-- C16, amended: for a catalog and a strategy over assets of the catalog whose share
counts are finite numbers, `calculateStrategyStats` returns one row per asset of the
strategy, in the strategy's key order, with projectedInvestment = currentSharePrice *
sharesCount, currentPercentage = 100 * q1 or 0 when the sum of the current values is
zero, rebalancedPercentage = 100 * q2 or 0 when the projected total value is zero,
where q1 = currentTotalValue / (sum of currentTotalValue) and
q2 = (currentTotalValue + projectedInvestment) / (sum of currentTotalValue + sum of
projectedInvestment) are each rounded half-up to 20 decimal places as `dividedBy`
returns them; totalProjectedInvestment is the sum of the rows' projectedInvestment, and
target percentage, current value, share price and shares count are copied unchanged. -/
theorem C16_strategy_stats (assetData : JSMap AssetData) (ps : List Position)
    (hwf : assetData.WF) (hcov : Spec.Covers assetData ps) :
    Utility.calculateStrategyStats BigNumber.ROUND_HALF_UP (Spec.strategyOf ps) assetData
      = some
        { stats := ps.map (fun p =>
            { assetName := p.name
              targetPercentage := .fin p.asset.targetPercentage
              currentTotalValue := .fin p.asset.currentTotalValue
              currentSharePrice := .fin p.asset.currentSharePrice
              currentPercentage :=
                .fin (if Spec.currentValueSum assetData = 0 then 0
                  else BigNumber.ROUND_HALF_UP
                    (p.asset.currentTotalValue / Spec.currentValueSum assetData) * 100)
              sharesCount := .number p.shares
              rebalancedPercentage :=
                .fin (if Spec.currentValueSum assetData + Spec.totalProjected ps = 0 then 0
                  else BigNumber.ROUND_HALF_UP
                    ((p.asset.currentTotalValue + p.asset.currentSharePrice * p.shares)
                      / (Spec.currentValueSum assetData + Spec.totalProjected ps)) * 100)
              projectedInvestment := some (.fin (p.asset.currentSharePrice * p.shares)) })
          totalProjectedInvestment := .fin (Spec.totalProjected ps) } :=
  calculateStrategyStats_eq BigNumber.ROUND_HALF_UP assetData ps hwf hcov

/-- C16 at `catalogHeld` with nothing bought. -/
theorem C16_strategy_stats_witness :
    Example.catalogHeld.WF ∧ Spec.Covers Example.catalogHeld Example.buyHeld
      ∧ Utility.calculateStrategyStats BigNumber.ROUND_HALF_UP
          (Spec.strategyOf Example.buyHeld) Example.catalogHeld
        = some
          { stats := Example.buyHeld.map (fun p =>
              { assetName := p.name
                targetPercentage := .fin p.asset.targetPercentage
                currentTotalValue := .fin p.asset.currentTotalValue
                currentSharePrice := .fin p.asset.currentSharePrice
                currentPercentage :=
                  .fin (if Spec.currentValueSum Example.catalogHeld = 0 then 0
                    else BigNumber.ROUND_HALF_UP
                      (p.asset.currentTotalValue / Spec.currentValueSum Example.catalogHeld)
                        * 100)
                sharesCount := .number p.shares
                rebalancedPercentage :=
                  .fin (if Spec.currentValueSum Example.catalogHeld
                      + Spec.totalProjected Example.buyHeld = 0 then 0
                    else BigNumber.ROUND_HALF_UP
                      ((p.asset.currentTotalValue + p.asset.currentSharePrice * p.shares)
                        / (Spec.currentValueSum Example.catalogHeld
                          + Spec.totalProjected Example.buyHeld)) * 100)
                projectedInvestment := some (.fin (p.asset.currentSharePrice * p.shares)) })
            totalProjectedInvestment := .fin (Spec.totalProjected Example.buyHeld) } :=
  ⟨wf_catalogHeld, covers_buyHeld,
    C16_strategy_stats Example.catalogHeld Example.buyHeld wf_catalogHeld covers_buyHeld⟩
/-! ## Claims on the messages -/

theorem runWorker_quarters :
    runWorker BigNumber.ROUND_HALF_UP 2 2 2 Example.catalogAB 100
        (Example.constantDraws Example.quarter)
      = .completed
        [Message.intermediate 1 ⟨Spec.strategyOf (Example.buyAB 3 3), .fin 40⟩,
         Message.final 2 ⟨Spec.strategyOf (Example.buyAB 3 3), .fin 40⟩
          (Spec.roundedStats BigNumber.ROUND_HALF_UP Example.catalogAB (Example.buyAB 3 3))
          100] := by
  have h1 := quarters_first_full 2 2 (by decide)
  have h2 := quarters_second_full 2 (by decide)
  have hstop1 : stop ([BigNumber.fin 40].drop (1 - 2)) 2 = some false := by
    norm_num [stop, BigNumber.isZero]
  have hstop2 : stop [BigNumber.fin 40, BigNumber.fin 40] 2 = some true := by
    norm_num [stop, BigNumber.isZero, BigNumber.comparedTo]
  rw [generationState_of_entry BigNumber.ROUND_HALF_UP 2 2 Example.catalogAB 100
    (Example.constantDraws Example.quarter) 1 _ (Or.inr ⟨_, h1, hstop1, rfl⟩)] at h2
  have h1b : generationStep BigNumber.ROUND_HALF_UP 2 2 Example.catalogAB 100
      (initialState (Example.constantDraws Example.quarter)) = _ := h1
  unfold runWorker runLoop
  simp only [h1b, List.replicate, List.head?_cons, hstop1, List.nil_append]
  unfold runLoop
  simp only [List.replicate] at h2
  simp only [h2, List.replicate, List.head?_cons, hstop2,
    calculateStrategyStats_eq _ _ _ wf_catalogAB (covers_buyAB 3 3), List.singleton_append]

/-- C14: a run of `runWorker` that returns has stopped at a generation g >= 1 (the
first at which `stop` returned `true`), and the messages it passed to the callback are
exactly one intermediate message with generation k and the best individual of
generation k for k = 1, ..., g - 1 in that order, followed by one final message with
generation g; nothing else is passed. -/
theorem C14_message_sequence (fuel populationSize c : ℕ) (assetData : JSMap AssetData)
    (investmentLimit : ℚ) (rng : RandomSource) (out : List Message)
    (h : runWorker BigNumber.ROUND_HALF_UP fuel populationSize c assetData investmentLimit rng
      = .completed out) :
    ∃ (g : ℕ) (st : WorkerState) (best : InvestmentStrategy) (stats : StrategyStats),
      1 ≤ g
        ∧ generationState BigNumber.ROUND_HALF_UP populationSize c assetData investmentLimit
            rng g = some st
        ∧ stop st.lastNBestFitnesses c = some true
        ∧ bestIndividual BigNumber.ROUND_HALF_UP populationSize c assetData investmentLimit
            rng g = some best
        ∧ out.map some
          = (List.range (g - 1)).map (fun k =>
              (bestIndividual BigNumber.ROUND_HALF_UP populationSize c assetData
                investmentLimit rng (k + 1)).map (Message.intermediate (k + 1)))
            ++ [some (Message.final g best stats investmentLimit)] := by
  obtain ⟨g, st, best, stats, hg, hst, hstop, hhead, _, hout⟩ :=
    runLoop_completed BigNumber.ROUND_HALF_UP populationSize c assetData investmentLimit rng
      fuel 0 (initialState rng) [] out (Or.inl ⟨rfl, rfl⟩) rfl h
  exact ⟨g, st, best, stats, hg, hst, hstop, by simp [bestIndividual, hst, hhead], hout⟩

/-- C14 at the run with two individuals, a capacity of 2 and the draws 1/4: it stops
at generation 2 after one intermediate message. -/
theorem C14_message_sequence_witness :
    runWorker BigNumber.ROUND_HALF_UP 2 2 2 Example.catalogAB 100
        (Example.constantDraws Example.quarter)
      = .completed
        [Message.intermediate 1 ⟨Spec.strategyOf (Example.buyAB 3 3), .fin 40⟩,
         Message.final 2 ⟨Spec.strategyOf (Example.buyAB 3 3), .fin 40⟩
          (Spec.roundedStats BigNumber.ROUND_HALF_UP Example.catalogAB (Example.buyAB 3 3))
          100]
      ∧ ∃ (g : ℕ) (st : WorkerState) (best : InvestmentStrategy) (stats : StrategyStats),
        1 ≤ g
          ∧ generationState BigNumber.ROUND_HALF_UP 2 2 Example.catalogAB 100
              (Example.constantDraws Example.quarter) g = some st
          ∧ stop st.lastNBestFitnesses 2 = some true
          ∧ bestIndividual BigNumber.ROUND_HALF_UP 2 2 Example.catalogAB 100
              (Example.constantDraws Example.quarter) g = some best
          ∧ List.map some
              [Message.intermediate 1 ⟨Spec.strategyOf (Example.buyAB 3 3), .fin 40⟩,
               Message.final 2 ⟨Spec.strategyOf (Example.buyAB 3 3), .fin 40⟩
                (Spec.roundedStats BigNumber.ROUND_HALF_UP Example.catalogAB
                  (Example.buyAB 3 3)) 100]
            = (List.range (g - 1)).map (fun k =>
                (bestIndividual BigNumber.ROUND_HALF_UP 2 2 Example.catalogAB 100
                  (Example.constantDraws Example.quarter) (k + 1)).map
                  (Message.intermediate (k + 1)))
              ++ [some (Message.final g best stats 100)] :=
  ⟨runWorker_quarters,
    C14_message_sequence 2 2 2 Example.catalogAB 100 (Example.constantDraws Example.quarter) _
      runWorker_quarters⟩
theorem generationStep_mixed :
    (generationStep BigNumber.ROUND_HALF_UP 3 1 Example.catalogAB 100
        (initialState Example.quartersZerosThenHalves)).map
        (fun st => (st.generation, st.population, st.lastNBestFitnesses))
      = some (1, [⟨Spec.strategyOf (Example.buyAB 3 3), .fin 40⟩,
           ⟨Spec.strategyOf (Example.buyAB 0 0), .nan⟩,
           ⟨Spec.strategyOf (Example.buyAB 5 5), .fin 0⟩], [BigNumber.fin 40]) := by
  have h0 : ⌊Double.round ((Example.quartersZerosThenHalves 0).val * 10) + 1 / 2⌋ = 3 := by
    norm_num [Example.quartersZerosThenHalves, Example.quarter,
      round_zero, round_five, round_five_halves]
  have h1 : ⌊Double.round ((Example.quartersZerosThenHalves 1).val * 10) + 1 / 2⌋ = 3 := by
    norm_num [Example.quartersZerosThenHalves, Example.quarter,
      round_zero, round_five, round_five_halves]
  have h2 : ⌊Double.round ((Example.quartersZerosThenHalves (0 + 2)).val * 10) + 1 / 2⌋ = 0 := by
    norm_num [Example.quartersZerosThenHalves, Example.zero,
      round_zero, round_five, round_five_halves]
  have h3 : ⌊Double.round ((Example.quartersZerosThenHalves (1 + 2)).val * 10) + 1 / 2⌋ = 0 := by
    norm_num [Example.quartersZerosThenHalves, Example.zero,
      round_zero, round_five, round_five_halves]
  have h4 : ⌊Double.round ((Example.quartersZerosThenHalves (0 + 2 + 2)).val * 10) + 1 / 2⌋ = 5 := by
    norm_num [Example.quartersZerosThenHalves, Example.half,
      round_zero, round_five, round_five_halves]
  have h5 : ⌊Double.round ((Example.quartersZerosThenHalves (1 + 2 + 2)).val * 10) + 1 / 2⌋ = 5 := by
    norm_num [Example.quartersZerosThenHalves, Example.half,
      round_zero, round_five, round_five_halves]
  unfold generationStep buildPopulation
  simp only [initialState, if_true, createInitialPopulation, createStrategy_catalogAB, h0, h1,
    h2, h3, h4, h5, Option.bind_eq_bind, Option.some_bind, fitness_strategyOf_buyAB_zero,
    fitness_strategyOf_buyAB_five, fitness_buyAB_three, List.nil_append, List.cons_append]
  simp [sortPopulation, List.insertionSort, List.orderedInsert, compareFitness,
    BigNumber.comparedTo]

theorem runWorker_mixed :
    runWorker BigNumber.ROUND_HALF_UP 1 3 1 Example.catalogAB 100
        Example.quartersZerosThenHalves
      = .completed
        [Message.final 1 ⟨Spec.strategyOf (Example.buyAB 3 3), .fin 40⟩
          (Spec.roundedStats BigNumber.ROUND_HALF_UP Example.catalogAB (Example.buyAB 3 3))
          100] := by
  have h := generationStep_mixed
  cases hstep : generationStep BigNumber.ROUND_HALF_UP 3 1 Example.catalogAB 100
      (initialState Example.quartersZerosThenHalves) with
  | none => simp [hstep] at h
  | some st =>
    simp only [hstep, Option.map_some', Option.some.injEq, Prod.mk.injEq] at h
    obtain ⟨hgen, hpop, hw⟩ := h
    have hstop : stop [BigNumber.fin 40] 1 = some true := by
      norm_num [stop, BigNumber.isZero, BigNumber.comparedTo]
    unfold runWorker runLoop
    simp only [hstep, hpop, hw, hgen, List.head?_cons, hstop,
      calculateStrategyStats_eq _ _ _ wf_catalogAB (covers_buyAB 3 3), List.nil_append]

/-- C15: a run whose final result is not a minimum of the last generation. With the
catalog of the scenarios (no holdings), budget 100, population size 3, a capacity of 1
and the draws 1/4, 1/4, 0, 0, 1/2, 1/2, ..., generation 1 holds the strategies (3, 3) of
fitness 40, (0, 0) of fitness `NaN` (the missing zero guard of C5) and (5, 5) of fitness
0. Every comparison with `NaN` returns `null`, so the sort leaves the three in place,
`stop` returns `true` on the full window [40], and the final message carries the
individual of fitness 40 while the generation holds one of fitness 0. -/
theorem C15_final_result_not_minimum :
    (generationState BigNumber.ROUND_HALF_UP 3 1 Example.catalogAB 100
        Example.quartersZerosThenHalves 1).map (fun st => st.population)
      = some [⟨Spec.strategyOf (Example.buyAB 3 3), .fin 40⟩,
           ⟨Spec.strategyOf (Example.buyAB 0 0), .nan⟩,
           ⟨Spec.strategyOf (Example.buyAB 5 5), .fin 0⟩]
      ∧ runWorker BigNumber.ROUND_HALF_UP 1 3 1 Example.catalogAB 100
          Example.quartersZerosThenHalves
        = .completed
          [Message.final 1 ⟨Spec.strategyOf (Example.buyAB 3 3), .fin 40⟩
            (Spec.roundedStats BigNumber.ROUND_HALF_UP Example.catalogAB (Example.buyAB 3 3))
            100]
      ∧ (BigNumber.fin 0).isLessThan (.fin 40) = true := by
  refine ⟨?_, runWorker_mixed, ?_⟩
  · have h := generationStep_mixed
    show (generationStep BigNumber.ROUND_HALF_UP 3 1 Example.catalogAB 100
      (initialState Example.quartersZerosThenHalves)).map (fun st => st.population) = _
    cases hstep : generationStep BigNumber.ROUND_HALF_UP 3 1 Example.catalogAB 100
        (initialState Example.quartersZerosThenHalves) with
    | none => simp [hstep] at h
    | some st =>
      simp only [hstep, Option.map_some', Option.some.injEq, Prod.mk.injEq] at h
      simp [h.2.1]
  · norm_num [BigNumber.isLessThan, BigNumber.comparedTo]
/-! ## The gene of one asset of a child -/

theorem lookup_map_replace_self {β : Type} (k : String) (v : β) :
    ∀ (l : List (String × β)), k ∈ l.map Prod.fst →
      (l.map (fun e => if e.1 = k then (k, v) else e)).lookup k = some v := by
  intro l
  induction l with
  | nil => intro h; simp at h
  | cons a t ih =>
    intro h
    cases a with
    | mk a1 a2 =>
      rw [List.map_cons]
      by_cases ha : a1 = k
      · rw [if_pos ha, List.lookup_cons]
        simp
      · have ht : k ∈ t.map Prod.fst := by
          rcases List.mem_cons.mp h with h1 | h1
          · exact absurd h1.symm ha
          · exact h1
        have hne : (k == a1) = false := by simpa using fun h2 => ha h2.symm
        rw [if_neg ha, List.lookup_cons, hne]
        exact ih ht

theorem lookup_map_replace_ne {β : Type} (k j : String) (v : β) (h : j ≠ k) :
    ∀ (l : List (String × β)),
      (l.map (fun e => if e.1 = k then (k, v) else e)).lookup j = l.lookup j := by
  intro l
  induction l with
  | nil => rfl
  | cons a t ih =>
    cases a with
    | mk a1 a2 =>
      rw [List.map_cons]
      by_cases ha : a1 = k
      · have hne : (j == k) = false := by simpa using h
        have hne1 : (j == a1) = false := by simpa [ha] using h
        rw [if_pos ha, List.lookup_cons, List.lookup_cons, hne, hne1]
        exact ih
      · rw [if_neg ha, List.lookup_cons, List.lookup_cons, ih]

theorem JSMap.get_set_self {β : Type} (m : JSMap β) (k : String) (v : β) :
    (m.set k v).get k = some v := by
  by_cases hk : k ∈ m.keys
  · have hhas : m.has k = true := by
      unfold JSMap.has
      rw [List.any_eq_true]
      obtain ⟨e, he, rfl⟩ := List.mem_map.mp hk
      exact ⟨e, he, by simp⟩
    simp only [JSMap.set, hhas, if_true, JSMap.get]
    exact lookup_map_replace_self k v m.entries hk
  · rw [JSMap.set_of_not_mem m k v hk]
    have hnone : m.entries.lookup k = none := by
      rw [List.lookup_eq_none_iff]
      intro e he
      have : e.1 ≠ k := fun h => hk (h ▸ List.mem_map_of_mem Prod.fst he)
      simpa using fun h2 => this h2.symm
    simp [JSMap.get, List.lookup_append, hnone, List.lookup]

theorem JSMap.get_set_ne {β : Type} (m : JSMap β) (k j : String) (v : β) (h : j ≠ k) :
    (m.set k v).get j = m.get j := by
  have hne : (j == k) = false := by simpa using h
  unfold JSMap.set JSMap.get
  split
  · exact lookup_map_replace_ne k j v h m.entries
  · simp only [List.lookup_append]
    cases m.entries.lookup j <;> simp [List.lookup, hne]
theorem foldlM_get_preserved (allKeys : List String)
    (step : Strategy × RandomSource → String → Option (Strategy × RandomSource))
    (hstep : ∀ (acc : Strategy × RandomSource) (k : String), k ∈ allKeys →
      ∃ v rng, step acc k = some (acc.1.set k v, rng)) (j : String) :
    ∀ (l : List String) (acc res : Strategy × RandomSource), (∀ x ∈ l, x ∈ allKeys) → j ∉ l →
      l.foldlM step acc = some res → res.1.get j = acc.1.get j := by
  intro l
  induction l with
  | nil =>
    intro acc res _ _ h
    simp only [List.foldlM_nil] at h
    rw [← Option.some.inj h]
  | cons a t ih =>
    intro acc res hall hj h
    obtain ⟨v, rng, hv⟩ := hstep acc a (hall a (List.mem_cons_self _ _))
    simp only [List.foldlM_cons, hv, Option.bind_eq_bind, Option.some_bind] at h
    rw [ih _ res (fun x hx => hall x (List.mem_cons_of_mem _ hx))
      (fun hm => hj (List.mem_cons_of_mem _ hm)) h]
    exact JSMap.get_set_ne acc.1 a j v (fun hja => hj (hja ▸ List.mem_cons_self _ _))

/-- The gene of an asset of the child is the one set by the iteration of the loop of
`mateStrategies` for that asset. -/
theorem mateStrategies_gene (parent1 parent2 : Strategy) (assetData : JSMap AssetData)
    (investmentLimit : ℚ) (rng : RandomSource) (hwf : assetData.WF)
    (pre post : List String) (k : String) (hkeys : assetData.keys = pre ++ k :: post) :
    ∃ before child rng1,
      pre.foldlM (mateGene parent1 parent2 assetData investmentLimit) (JSMap.empty, rng)
        = some before
      ∧ mateStrategies parent1 parent2 assetData investmentLimit rng = some (child, rng1)
      ∧ ∀ v r, mateGene parent1 parent2 assetData investmentLimit before k
          = some (before.1.set k v, r) → child.get k = some v := by
  have hmem : ∀ x, x ∈ pre ++ k :: post → x ∈ assetData.keys := fun x hx => hkeys ▸ hx
  have hnd : (pre ++ k :: post).Nodup := hkeys ▸ hwf
  have hkpost : k ∉ post := by
    have := (List.nodup_append.mp hnd).2.1
    exact (List.nodup_cons.mp this).1
  obtain ⟨before, hbefore⟩ := foldlM_some
    (mateGene parent1 parent2 assetData investmentLimit) pre (JSMap.empty, rng)
    (fun a x hx => by
      obtain ⟨v, r, h⟩ := mateGene_total parent1 parent2 assetData investmentLimit a x
        (hmem x (List.mem_append_left _ hx))
      exact ⟨_, h⟩)
  obtain ⟨v0, r0, hk0⟩ := mateGene_total parent1 parent2 assetData investmentLimit before k
    (hmem k (List.mem_append_right _ (List.mem_cons_self _ _)))
  obtain ⟨final, hfinal⟩ := foldlM_some
    (mateGene parent1 parent2 assetData investmentLimit) post (before.1.set k v0, r0)
    (fun a x hx => by
      obtain ⟨v, r, h⟩ := mateGene_total parent1 parent2 assetData investmentLimit a x
        (hmem x (List.mem_append_right _ (List.mem_cons_of_mem _ hx)))
      exact ⟨_, h⟩)
  have hwhole : mateStrategies parent1 parent2 assetData investmentLimit rng
      = some (final.1, final.2) := by
    unfold mateStrategies
    rw [hkeys, List.foldlM_append, hbefore]
    simp only [Option.bind_eq_bind, Option.some_bind, List.foldlM_cons, hk0]
    exact hfinal
  have hget : final.1.get k = some v0 := by
    rw [foldlM_get_preserved assetData.keys
      (mateGene parent1 parent2 assetData investmentLimit)
      (fun acc x hx => mateGene_total parent1 parent2 assetData investmentLimit acc x hx) k
      post _ final (fun x hx => hmem x (List.mem_append_right _ (List.mem_cons_of_mem _ hx)))
      hkpost hfinal]
    exact JSMap.get_set_self before.1 k v0
  refine ⟨before, final.1, final.2, hbefore, hwhole, ?_⟩
  intro v r hv
  rw [hk0] at hv
  have h0 : before.1.set k v0 = before.1.set k v := congrArg Prod.fst (Option.some.inj hv)
  have h1 : (before.1.set k v0).get k = (before.1.set k v).get k := by rw [h0]
  rw [JSMap.get_set_self, JSMap.get_set_self] at h1
  rw [hget, h1]
theorem setRandom_unfold (strategy : Strategy) (assetName : String)
    (assetData : JSMap AssetData) (investmentLimit : ℚ) (rng : RandomSource) (asset : AssetData)
    (hget : assetData.get assetName = some asset) :
    setRandomSharesCountForAssetToStrategy strategy assetName assetData investmentLimit rng
      = some (strategy.set assetName
          (Math.round (((BigNumber.fin investmentLimit).dividedToIntegerBy
            (.fin asset.currentSharePrice)).toNumber.times (rng 0).val)),
          fun n => rng (n + 1)) := by
  unfold setRandomSharesCountForAssetToStrategy
  rw [hget]
  rfl

/-- The random gene in closed form: `Math.round(r * max)` where `max` is
`floor(budget / price)` as a double and the product is a double. -/
theorem random_gene_closed_form (investmentLimit price : ℚ) (r : Draw) (hprice : 0 < price)
    (hb : 0 ≤ investmentLimit)
    (hfin : (⌊investmentLimit / price⌋ : ℚ) < Double.overflow) :
    Math.round (((BigNumber.fin investmentLimit).dividedToIntegerBy
        (.fin price)).toNumber.times r.val)
      = .number ((⌊Double.round (r.val * Double.round (⌊investmentLimit / price⌋ : ℤ))
          + 1 / 2⌋ : ℤ) : ℚ) := by
  have hq : 0 ≤ investmentLimit / price := div_nonneg hb (le_of_lt hprice)
  have hfl : (0 : ℚ) ≤ (⌊investmentLimit / price⌋ : ℚ) := by
    exact_mod_cast Int.floor_nonneg.mpr hq
  have ht := times_toNumber r _ hfl hfin
  simp only [BigNumber.dividedToIntegerBy, BigNumber.div, ne_of_gt hprice, if_false,
    roundDown_of_nonneg _ hq, ht, Math.round]

/-- A draw is below the number 0.4 exactly when it is below the decimal 0.4: no double
lies between the two. -/
theorem draw_lt_low_iff (p : Draw) : p.val < Double.round 0.4 ↔ p.val < 2 / 5 := by
  have hD : (2 : ℚ) / 5 < Double.round 0.4 := by
    rw [round_two_fifths]
    norm_num
  constructor
  · intro h
    by_contra hc
    push_neg at hc
    have hn := round_nearest 0.4 p.val p.isDouble
    rw [show ((0.4 : ℚ)) = 2 / 5 from by norm_num] at hn hD h
    rw [abs_of_pos (by linarith), abs_of_nonneg (by linarith)] at hn
    linarith
  · intro h
    linarith

/-- A draw is below the number 0.6 exactly when it is below the decimal 0.6 and is not
the number 0.6 itself, the double just below the decimal. -/
theorem draw_lt_high_iff (p : Draw) :
    p.val < Double.round 0.6 ↔ p.val < 3 / 5 ∧ p.val ≠ Double.round 0.6 := by
  have hD : Double.round 0.6 < (3 : ℚ) / 5 := by
    rw [round_three_fifths]
    norm_num
  constructor
  · intro h
    exact ⟨by linarith, ne_of_lt h⟩
  · rintro ⟨h, hne⟩
    by_contra hc
    push_neg at hc
    have hlt : Double.round 0.6 < p.val := lt_of_le_of_ne hc (Ne.symm hne)
    have hn := round_nearest 0.6 p.val p.isDouble
    rw [show ((0.6 : ℚ)) = 3 / 5 from by norm_num] at hn hD hlt
    rw [abs_of_neg (by linarith), abs_of_neg (by linarith)] at hn
    linarith

/-- C18: in `mateStrategies` the gene of the child for an asset is decided by the draw
p made for that asset, the first draw of the source left by the assets before it, and
by the numbers 0.4 and 0.6, which are the doubles `Double.round 0.4` and
`Double.round 0.6`. If p < 0.4 the gene is parent1's gene for the asset; if
0.4 <= p < 0.6 it is the gene that `setRandomSharesCountForAssetToStrategy`, the rule
of `createStrategy`, sets from the next draw r, which is `Math.round(r * max)` for
`max = floor(budget / price)` as a number, and in closed form
floor(fl(r * fl(floor(budget / price))) + 1/2) for a share price > 0 and a budget >= 0
whose `max` is below the overflow threshold, fl rounding to the nearest double; if
p >= 0.6 it is parent2's gene for the asset. -/
theorem C18_mate_gene_by_draw (parent1 parent2 : Strategy) (assetData : JSMap AssetData)
    (investmentLimit : ℚ) (rng : RandomSource) (hwf : assetData.WF)
    (pre post : List String) (k : String) (asset : AssetData)
    (hkeys : assetData.keys = pre ++ k :: post) (hget : assetData.get k = some asset) :
    ∃ before child rng1,
      pre.foldlM (mateGene parent1 parent2 assetData investmentLimit) (JSMap.empty, rng)
        = some before
      ∧ mateStrategies parent1 parent2 assetData investmentLimit rng = some (child, rng1)
      ∧ ((before.2 0).val < Double.round 0.4 → child.get k = some (parent1.count k))
      ∧ (Double.round 0.4 ≤ (before.2 0).val → (before.2 0).val < Double.round 0.6 →
          ∃ gene, child.get k = some gene
            ∧ setRandomSharesCountForAssetToStrategy before.1 k assetData investmentLimit
                (fun n => before.2 (n + 1))
              = some (before.1.set k gene, fun n => before.2 (n + 1 + 1))
            ∧ gene = Math.round (((BigNumber.fin investmentLimit).dividedToIntegerBy
                (.fin asset.currentSharePrice)).toNumber.times (before.2 1).val)
            ∧ (0 < asset.currentSharePrice → 0 ≤ investmentLimit →
                (⌊investmentLimit / asset.currentSharePrice⌋ : ℚ) < 2 ^ 1024 - 2 ^ 970 →
                gene = .number ((⌊Double.round ((before.2 1).val
                  * Double.round (⌊investmentLimit / asset.currentSharePrice⌋ : ℤ))
                    + 1 / 2⌋ : ℤ) : ℚ)))
      ∧ (Double.round 0.6 ≤ (before.2 0).val → child.get k = some (parent2.count k)) := by
  obtain ⟨before, child, rng1, hbefore, hchild, hgene⟩ :=
    mateStrategies_gene parent1 parent2 assetData investmentLimit rng hwf pre post k hkeys
  have hlow : Double.round 0.4 ≤ Double.round 0.6 := round_mono _ _ (by norm_num)
  refine ⟨before, child, rng1, hbefore, hchild, ?_, ?_, ?_⟩
  · intro hp
    apply hgene _ (Math.random before.2).2
    unfold mateGene
    have hp2 : (Math.random before.2).1 < Double.round 0.4 := hp
    simp only [hp2, if_true]
    rfl
  · intro hp1 hp2
    have hs := setRandom_unfold before.1 k assetData investmentLimit
      (fun n => before.2 (n + 1)) asset hget
    refine ⟨_, ?_, hs, rfl, fun hprice hb hfin =>
      random_gene_closed_form investmentLimit asset.currentSharePrice _ hprice hb hfin⟩
    apply hgene _ (fun n => before.2 (n + 1 + 1))
    unfold mateGene
    have hq1 : ¬ (Math.random before.2).1 < Double.round 0.4 := not_lt.mpr hp1
    have hq2 : (Math.random before.2).1 < Double.round 0.6 := hp2
    simp only [hq1, hq2, if_true, if_false]
    exact hs
  · intro hp
    apply hgene _ (Math.random before.2).2
    unfold mateGene
    have hq1 : ¬ (Math.random before.2).1 < Double.round 0.4 :=
      not_lt.mpr (le_trans hlow hp)
    have hq2 : ¬ (Math.random before.2).1 < Double.round 0.6 := not_lt.mpr hp
    simp only [hq1, hq2, if_false]
    rfl

theorem threeFifths_not_lt_low : ¬ Example.threeFifths.val < Double.round 0.4 := by
  rw [round_two_fifths]
  norm_num [Example.threeFifths]

theorem threeFifths_ge : Double.round 0.6 ≤ Example.threeFifths.val := by
  rw [round_three_fifths]
  norm_num [Example.threeFifths]

/-- C18 at the catalog of the scenarios, for asset B with budget 100 when every draw is
the double 0.6 = 5404319552844595 / 2^53: the draw is not below 0.6 and the child takes
parent2's gene, 2 shares. -/
theorem C18_mate_gene_by_draw_witness :
    Example.catalogAB.WF ∧ Example.catalogAB.keys = ["A"] ++ "B" :: []
      ∧ Example.catalogAB.get "B" = some ⟨50, 0, 10⟩
      ∧ ∃ before child rng1,
        ["A"].foldlM (mateGene Example.parentOnes Example.parentTwos Example.catalogAB 100)
            (JSMap.empty, Example.constantDraws Example.threeFifths) = some before
        ∧ mateStrategies Example.parentOnes Example.parentTwos Example.catalogAB 100
            (Example.constantDraws Example.threeFifths) = some (child, rng1)
        ∧ (before.2 0).val = 5404319552844595 / 2 ^ 53
        ∧ Double.round 0.6 ≤ (before.2 0).val
        ∧ child.get "B" = some (Example.parentTwos.count "B")
        ∧ Example.parentTwos.count "B" = .number 2 := by
  have hk : Example.catalogAB.keys = ["A"] ++ "B" :: [] := by
    simp [Example.catalogAB, JSMap.keys]
  have hg : Example.catalogAB.get "B" = some ⟨50, 0, 10⟩ := by
    simp [Example.catalogAB, JSMap.get, List.lookup]
  obtain ⟨before, child, rng1, hbefore, hchild, _, _, h3⟩ :=
    C18_mate_gene_by_draw Example.parentOnes Example.parentTwos Example.catalogAB 100
      (Example.constantDraws Example.threeFifths) wf_catalogAB ["A"] [] "B" ⟨50, 0, 10⟩ hk hg
  have hb : ["A"].foldlM (mateGene Example.parentOnes Example.parentTwos Example.catalogAB 100)
      (JSMap.empty, Example.constantDraws Example.threeFifths)
      = some (JSMap.empty.set "A" (Example.parentTwos.count "A"),
          Example.constantDraws Example.threeFifths) := by
    have h2 : ¬ Example.threeFifths.val < Double.round 0.6 := not_lt.mpr threeFifths_ge
    simp only [List.foldlM_cons, List.foldlM_nil, mateGene, random_constantDraws,
      threeFifths_not_lt_low, h2, if_false]
    rfl
  rw [hb] at hbefore
  have hbe := Option.some.inj hbefore
  have hp : (before.2 0).val = Example.threeFifths.val := by
    rw [← hbe]
    rfl
  have hge : Double.round 0.6 ≤ (before.2 0).val := by
    rw [hp]
    exact threeFifths_ge
  refine ⟨wf_catalogAB, hk, hg, before, child, rng1, ?_, hchild, ?_, hge, h3 hge, ?_⟩
  · rw [hb, hbe]
  · rw [hp]
    rfl
  · simp [Example.parentTwos, Strategy.count, JSMap.get, List.lookup]
/-! ## A run that never stops -/

theorem strategy_eq_buyAB_zero (s : Strategy) (hk : s.keys = Example.catalogAB.keys)
    (hg : ∀ k ∈ Example.catalogAB.keys, s.get k = some (.number 0)) :
    s = Spec.strategyOf (Example.buyAB 0 0) := by
  cases s with
  | mk entries =>
    have hA := hg "A" (by simp [Example.catalogAB, JSMap.keys])
    have hB := hg "B" (by simp [Example.catalogAB, JSMap.keys])
    simp only [JSMap.keys, Example.catalogAB, List.map_cons, List.map_nil] at hk
    match entries, hk, hA, hB with
    | [(a1, v1), (a2, v2)], hk, hA, hB =>
      simp only [List.map_cons, List.map_nil, List.cons.injEq, and_true] at hk
      obtain ⟨rfl, rfl⟩ := hk
      simp only [JSMap.get, List.lookup_cons, beq_self_eq_true, Option.some.injEq] at hA
      have hne : (("B" : String) == "A") = false := by decide
      simp only [JSMap.get, List.lookup_cons, hne, beq_self_eq_true, Option.some.injEq] at hB
      subst hA
      subst hB
      rfl
    | [], hk, _, _ => simp at hk
    | [_], hk, _, _ => simp at hk
    | _ :: _ :: _ :: _, hk, _, _ => simp at hk

theorem randomGene_poor (k : String) (v : JSValue)
    (h : Spec.RandomGene Example.catalogAB 5 k v) : v = .number 0 := by
  obtain ⟨asset, n, hget, hv, h0, hle⟩ := h
  have hp : asset.currentSharePrice = 10 := by
    have hm := mem_of_get Example.catalogAB k asset hget
    simp only [Example.catalogAB, List.mem_cons, List.mem_singleton, Prod.mk.injEq,
      List.not_mem_nil, or_false] at hm
    rcases hm with ⟨_, rfl⟩ | ⟨_, rfl⟩ <;> rfl
  rw [hp] at hle
  have hfl : ⌊(5 : ℚ) / 10⌋ = 0 := by norm_num
  rw [hfl] at hle
  have hn : n = 0 := le_antisymm hle h0
  rw [hv, hn]
  norm_num
theorem finite_poor : ∀ e ∈ Example.catalogAB.entries,
    (⌊(5 : ℚ) / e.2.currentSharePrice⌋ : ℚ) < Double.overflow := by
  intro e he
  simp only [Example.catalogAB, List.mem_cons, List.mem_singleton, List.not_mem_nil,
    or_false] at he
  have hfl : ⌊(5 : ℚ) / 10⌋ = 0 := by norm_num
  rcases he with rfl | rfl <;> simp only [hfl] <;> norm_num [Double.overflow]

theorem createStrategy_poor (rng : RandomSource) :
    ∃ rng1, createStrategy Example.catalogAB 5 rng
      = some (Spec.strategyOf (Example.buyAB 0 0), rng1) := by
  obtain ⟨s, rng1, hs, hk, hg⟩ := createStrategy_spec Example.catalogAB 5 rng wf_catalogAB
    prices_catalogAB (by norm_num) finite_poor
  refine ⟨rng1, ?_⟩
  rw [hs, strategy_eq_buyAB_zero s hk (fun k hkm => by
    obtain ⟨v, hv, hr⟩ := hg k hkm
    rw [hv, randomGene_poor k v hr])]

theorem count_buyAB_zero (k : String) (hk : k ∈ Example.catalogAB.keys) :
    (Spec.strategyOf (Example.buyAB 0 0)).count k = .number 0 := by
  simp only [Example.catalogAB, JSMap.keys, List.map_cons, List.map_nil, List.mem_cons,
    List.mem_singleton, List.not_mem_nil, or_false] at hk
  rcases hk with rfl | rfl <;>
    simp [Strategy.count, JSMap.get, Spec.strategyOf, Example.buyAB, List.lookup]

theorem mateStrategies_poor (rng : RandomSource) :
    ∃ rng1, mateStrategies (Spec.strategyOf (Example.buyAB 0 0))
        (Spec.strategyOf (Example.buyAB 0 0)) Example.catalogAB 5 rng
      = some (Spec.strategyOf (Example.buyAB 0 0), rng1) := by
  obtain ⟨s, rng1, hs, hk, hg⟩ := mateStrategies_spec (Spec.strategyOf (Example.buyAB 0 0))
    (Spec.strategyOf (Example.buyAB 0 0)) Example.catalogAB 5 rng wf_catalogAB
    prices_catalogAB (by norm_num) finite_poor
  refine ⟨rng1, ?_⟩
  rw [hs, strategy_eq_buyAB_zero s hk (fun k hkm => by
    obtain ⟨v, hv, hr⟩ := hg k hkm
    rw [hv]
    rcases hr with h | h | h
    · rw [h, count_buyAB_zero k hkm]
    · rw [h, count_buyAB_zero k hkm]
    · rw [randomGene_poor k v h])]

theorem barren_poor : Example.Barren 5 (fun _ => True) :=
  ⟨by norm_num, fun _ _ => trivial,
    fun rng _ => by
      obtain ⟨rng1, h⟩ := createStrategy_poor rng
      exact ⟨rng1, trivial, h⟩,
    fun rng _ => by
      obtain ⟨rng1, h⟩ := mateStrategies_poor rng
      exact ⟨rng1, trivial, h⟩⟩

theorem createStrategy_zero_draws :
    createStrategy Example.catalogAB 100 (Example.constantDraws Example.zero)
      = some (Spec.strategyOf (Example.buyAB 0 0), Example.constantDraws Example.zero) := by
  have h0 : ∀ n, ⌊Double.round ((Example.constantDraws Example.zero n).val * 10) + 1 / 2⌋ = 0 := by
    intro n
    norm_num [Example.constantDraws, Example.zero,
      round_zero, round_five, round_five_halves]
  rw [createStrategy_catalogAB, h0, h0]
  norm_num
  rfl

theorem mateStrategies_zero_draws :
    mateStrategies (Spec.strategyOf (Example.buyAB 0 0)) (Spec.strategyOf (Example.buyAB 0 0))
        Example.catalogAB 100 (Example.constantDraws Example.zero)
      = some (Spec.strategyOf (Example.buyAB 0 0), Example.constantDraws Example.zero) := by
  simp [mateStrategies, mateGene, Example.catalogAB, Example.buyAB, Spec.strategyOf,
    Strategy.count, Example.constantDraws, Example.zero, JSMap.keys, JSMap.get, JSMap.set,
    JSMap.has, JSMap.empty, List.lookup, Math.random, round_two_fifths,
    show ("A" : String) ≠ "B" from by decide]
  rfl

theorem barren_zero_draws :
    Example.Barren 100 (fun rng => rng = Example.constantDraws Example.zero) :=
  ⟨by norm_num, fun rng h => by rw [h]; rfl,
    fun rng h => ⟨_, rfl, by rw [h]; exact createStrategy_zero_draws⟩,
    fun rng h => ⟨_, rfl, by rw [h]; exact mateStrategies_zero_draws⟩⟩

theorem fitness_barren (R : ℚ → ℚ) (investmentLimit : ℚ) (hb : 0 ≤ investmentLimit) :
    calculateStrategyFitness R (Spec.strategyOf (Example.buyAB 0 0)) Example.catalogAB
      investmentLimit = some .nan := by
  apply fitness_of_zero R Example.catalogAB investmentLimit (Example.buyAB 0 0) wf_catalogAB
    (covers_buyAB 0 0)
  · have : Spec.totalProjected (Example.buyAB 0 0) = 0 := by
      norm_num [Spec.totalProjected, Spec.projectedInvestment, Example.buyAB]
    rw [this]
    exact hb
  · simp [Example.buyAB]
  · norm_num [Spec.projectedTotalValue, Spec.currentValueSum, Spec.totalProjected,
      Spec.projectedInvestment, Example.buyAB, Example.catalogAB]
  · intro p hp
    simp only [Example.buyAB, List.mem_cons, List.mem_singleton, List.not_mem_nil,
      or_false] at hp
    rcases hp with rfl | rfl <;> norm_num [Spec.newValue, Spec.projectedInvestment]

theorem createInitialPopulation_barren (R : ℚ → ℚ) (investmentLimit : ℚ)
    (P : RandomSource → Prop) (hB : Example.Barren investmentLimit P) :
    ∀ (count : ℕ) (population : List InvestmentStrategy) (rng : RandomSource), P rng →
      ∃ rng1, P rng1
        ∧ createInitialPopulation R Example.catalogAB investmentLimit count population rng
          = some (population ++ List.replicate count Example.nothingBought, rng1) := by
  intro count
  induction count with
  | zero => intro population rng hP; exact ⟨rng, hP, by simp [createInitialPopulation]⟩
  | succ n ih =>
    intro population rng hP
    obtain ⟨rng1, hP1, h1⟩ := hB.2.2.1 rng hP
    obtain ⟨rng2, hP2, h2⟩ := ih (population ++ [Example.nothingBought]) rng1 hP1
    refine ⟨rng2, hP2, ?_⟩
    simp only [createInitialPopulation, h1, Option.bind_eq_bind, Option.some_bind,
      fitness_barren R investmentLimit hB.1]
    rw [show ({ strategy := Spec.strategyOf (Example.buyAB 0 0), fitness := BigNumber.nan } :
      InvestmentStrategy) = Example.nothingBought from rfl, h2]
    simp [List.replicate_succ]

theorem produceOffspring_barren (R : ℚ → ℚ) (investmentLimit : ℚ)
    (P : RandomSource → Prop) (hB : Example.Barren investmentLimit P) (m half : ℕ)
    (h1 : 1 ≤ half) (h2 : half ≤ m) :
    ∀ (count : ℕ) (newGeneration : List InvestmentStrategy) (rng : RandomSource), P rng →
      ∃ rng1, P rng1
        ∧ produceOffspring R Example.catalogAB investmentLimit
            (List.replicate m Example.nothingBought) half count newGeneration rng
          = some (newGeneration ++ List.replicate count Example.nothingBought, rng1) := by
  intro count
  induction count with
  | zero => intro newGeneration rng hP; exact ⟨rng, hP, by simp [produceOffspring]⟩
  | succ n ih =>
    intro newGeneration rng hP
    obtain ⟨rng1, hP1, hm⟩ := hB.2.2.2 (Math.random (Math.random rng).2).2
      (hB.2.1 _ (hB.2.1 _ hP))
    obtain ⟨rng2, hP2, hrec⟩ := ih (newGeneration ++ [Example.nothingBought]) rng1 hP1
    refine ⟨rng2, hP2, ?_⟩
    simp only [produceOffspring, pickParent_replicate _ m half h1 h2, Option.bind_eq_bind,
      Option.some_bind]
    rw [show Example.nothingBought.strategy = Spec.strategyOf (Example.buyAB 0 0) from rfl, hm]
    simp only [Option.some_bind, fitness_barren R investmentLimit hB.1]
    rw [show ({ strategy := Spec.strategyOf (Example.buyAB 0 0), fitness := BigNumber.nan } :
      InvestmentStrategy) = Example.nothingBought from rfl, hrec]
    simp [List.replicate_succ]

theorem stop_all_nan (w : List BigNumber) (c : ℕ) (hw : w ≠ [])
    (hall : ∀ f ∈ w, f = BigNumber.nan) : stop w c = some false := by
  have hl : w.getLast? = some BigNumber.nan := by
    rw [List.getLast?_eq_getLast w hw, hall _ (List.getLast_mem hw)]
  have hh : w.head? = some BigNumber.nan := by
    rw [List.head?_eq_head hw, hall _ (List.head_mem hw)]
  unfold stop
  simp [hl, hh, BigNumber.isZero, BigNumber.comparedTo]

theorem generationStep_stuck (R : ℚ → ℚ) (investmentLimit : ℚ) (P : RandomSource → Prop)
    (hB : Example.Barren investmentLimit P) (populationSize c : ℕ) (hN : 2 ≤ populationSize)
    (hc : 1 ≤ c) (st : WorkerState) (h : Example.Stuck P populationSize st) :
    ∃ st1, generationStep R populationSize c Example.catalogAB investmentLimit st = some st1
      ∧ st1.population.head? = some Example.nothingBought
      ∧ stop st1.lastNBestFitnesses c = some false
      ∧ Example.Stuck P populationSize { st1 with generation := st1.generation + 1 } := by
  obtain ⟨hw, hP, hpop⟩ := h
  have hsort : ∀ n, sortPopulation (List.replicate n Example.nothingBought)
      = List.replicate n Example.nothingBought := fun n =>
    sortPopulation_replicate _
      (by simp [compareFitness, BigNumber.comparedTo, Example.nothingBought]) n
  have key : ∃ m rng1, P rng1 ∧ 1 ≤ m ∧ 50 * populationSize / 100 ≤ m
      ∧ buildPopulation R populationSize Example.catalogAB investmentLimit st
        = some (List.replicate m Example.nothingBought, rng1) ∧ 1 ≤ st.generation := by
    rcases hpop with ⟨hg, hp⟩ | ⟨hg, m, hm, hp⟩
    · obtain ⟨rng1, hP1, h1⟩ := createInitialPopulation_barren R investmentLimit P hB
        populationSize [] st.rng hP
      refine ⟨populationSize, rng1, hP1, by omega, by omega, ?_, by omega⟩
      unfold buildPopulation
      rw [if_pos hg, hp, h1, List.nil_append]
    · obtain ⟨rng1, hP1, h1⟩ := produceOffspring_barren R investmentLimit P hB m
        (50 * populationSize / 100) (by omega) hm (90 * populationSize / 100)
        ((List.replicate m Example.nothingBought).take (10 * populationSize / 100)) st.rng hP
      refine ⟨min (10 * populationSize / 100) m + 90 * populationSize / 100, rng1, hP1,
        by omega, by omega, ?_, by omega⟩
      unfold buildPopulation
      rw [if_neg (by omega), hp, h1, List.take_replicate, List.append_replicate_replicate]
  obtain ⟨m, rng1, hP1, hm1, hmh, hb, hgen⟩ := key
  obtain ⟨n, rfl⟩ : ∃ n, m = n + 1 := ⟨m - 1, by omega⟩
  have hdrop : ∀ f ∈ (st.lastNBestFitnesses ++ [BigNumber.nan]).drop
      ((st.lastNBestFitnesses ++ [BigNumber.nan]).length - c), f = BigNumber.nan := by
    intro f hf
    rcases List.mem_append.mp (List.mem_of_mem_drop hf) with h1 | h1
    · exact hw f h1
    · simpa using h1
  have hne : (st.lastNBestFitnesses ++ [BigNumber.nan]).drop
      ((st.lastNBestFitnesses ++ [BigNumber.nan]).length - c) ≠ [] := by
    intro h0
    have hlen := congrArg List.length h0
    simp only [List.length_drop, List.length_append, List.length_singleton,
      List.length_nil] at hlen
    omega
  refine ⟨⟨st.generation, List.replicate (n + 1) Example.nothingBought,
    (st.lastNBestFitnesses ++ [BigNumber.nan]).drop
      ((st.lastNBestFitnesses ++ [BigNumber.nan]).length - c), rng1⟩, ?_, ?_, ?_, ?_⟩
  · unfold generationStep
    simp only [hb, Option.bind_eq_bind, Option.some_bind, hsort]
    simp [List.replicate_succ, Example.nothingBought]
  · simp [List.replicate_succ]
  · exact stop_all_nan _ c hne hdrop
  · exact ⟨hdrop, hP1, Or.inr ⟨by show 2 ≤ st.generation + 1; omega, n + 1, hmh, rfl⟩⟩

theorem runLoop_stuck (R : ℚ → ℚ) (investmentLimit : ℚ) (P : RandomSource → Prop)
    (hB : Example.Barren investmentLimit P) (populationSize c : ℕ) (hN : 2 ≤ populationSize)
    (hc : 1 ≤ c) :
    ∀ (fuel : ℕ) (st : WorkerState) (messages : List Message),
      Example.Stuck P populationSize st →
      ∃ st1 messages1,
        runLoop R populationSize c Example.catalogAB investmentLimit fuel st messages
          = .pending st1 messages1 := by
  intro fuel
  induction fuel with
  | zero => intro st messages _; exact ⟨st, messages, rfl⟩
  | succ fuel ih =>
    intro st messages h
    obtain ⟨st1, hstep, hhead, hstop, hnext⟩ :=
      generationStep_stuck R investmentLimit P hB populationSize c hN hc st h
    unfold runLoop
    simp only [hstep, hhead, hstop]
    exact ih _ _ hnext

/-- A run with a single individual and a capacity of 2 throws in generation 2: no
elite is promoted (floor(10 / 100) = 0), no child is produced (floor(90 / 100) = 0),
and `population[0]` of the empty population is `undefined`. -/
theorem runWorker_single_throws :
    runWorker BigNumber.ROUND_HALF_UP 2 1 2 Example.catalogAB 100
        (Example.constantDraws Example.quarter)
      = .threw [Message.intermediate 1 ⟨Spec.strategyOf (Example.buyAB 3 3), .fin 40⟩] := by
  have h1 : generationStep BigNumber.ROUND_HALF_UP 1 2 Example.catalogAB 100
      (initialState (Example.constantDraws Example.quarter)) = _ :=
    quarters_first_full 1 2 (by decide)
  have hstop1 : stop ([BigNumber.fin 40].drop (1 - 2)) 2 = some false := by
    norm_num [stop, BigNumber.isZero]
  unfold runWorker runLoop
  simp only [h1, List.replicate, List.head?_cons, hstop1, List.nil_append]
  unfold runLoop generationStep buildPopulation
  simp [produceOffspring, sortPopulation]

/-- C12: runs that never stop. The catalog of the scenarios is valid and has no
holdings, so an individual that buys nothing has the fitness `NaN` (the missing zero
guard of C5). When every individual of every generation buys nothing, every entry of
`lastNBestFitnesses` is `NaN` and `stop` returns `false` for ever, `NaN` being neither
zero nor equal to itself. This happens for every population size >= 2 and every
capacity >= 1 with the budget 100 when every draw is 0, and with the budget 5, below
the share price 10, whatever the draws are: the loop is still running after any number
of iterations. -/
theorem C12_run_never_stops (populationSize c : ℕ) (hN : 2 ≤ populationSize) (hc : 1 ≤ c)
    (fuel : ℕ) :
    Spec.ValidCatalog Example.catalogAB
      ∧ (∃ st messages, runWorker BigNumber.ROUND_HALF_UP fuel populationSize c
          Example.catalogAB 100 (Example.constantDraws Example.zero) = .pending st messages)
      ∧ ∀ rng : RandomSource, ∃ st messages,
          runWorker BigNumber.ROUND_HALF_UP fuel populationSize c Example.catalogAB 5 rng
            = .pending st messages :=
  ⟨valid_catalogAB,
    runLoop_stuck BigNumber.ROUND_HALF_UP 100 _ barren_zero_draws populationSize c hN hc fuel
      (initialState (Example.constantDraws Example.zero)) []
      ⟨by simp [initialState], rfl, Or.inl ⟨rfl, rfl⟩⟩,
    fun rng => runLoop_stuck BigNumber.ROUND_HALF_UP 5 _ barren_poor populationSize c hN hc
      fuel (initialState rng) [] ⟨by simp [initialState], trivial, Or.inl ⟨rfl, rfl⟩⟩⟩

/-- C12 at the smallest population size and capacity the form accepts, 100 and 5, after
1000 iterations. -/
theorem C12_run_never_stops_witness :
    (2 ≤ 100) ∧ (1 ≤ 5) ∧ Spec.ValidCatalog Example.catalogAB
      ∧ (∃ st messages, runWorker BigNumber.ROUND_HALF_UP 1000 100 5
          Example.catalogAB 100 (Example.constantDraws Example.zero) = .pending st messages)
      ∧ ∀ rng : RandomSource, ∃ st messages,
          runWorker BigNumber.ROUND_HALF_UP 1000 100 5 Example.catalogAB 5 rng
            = .pending st messages :=
  ⟨by decide, by decide, C12_run_never_stops 100 5 (by decide) (by decide) 1000⟩
/-! ## Genes within bounds -/

theorem count_of_get (s : Strategy) (k : String) (v : JSValue) (h : s.get k = some v) :
    s.count k = v := by
  simp [Strategy.count, h]

/-- The bounds of the genes are kept by creation and by mating. -/
theorem kept_inBounds (R : ℚ → ℚ) (assetData : JSMap AssetData) (investmentLimit : ℚ)
    (hwf : assetData.WF) (hprice : ∀ e ∈ assetData.entries, 0 < e.2.currentSharePrice)
    (hb : 0 ≤ investmentLimit)
    (hfin : ∀ e ∈ assetData.entries,
      (⌊investmentLimit / e.2.currentSharePrice⌋ : ℚ) < Double.overflow) :
    Spec.Kept R assetData investmentLimit (Spec.InBounds assetData investmentLimit)
      (fun _ => True) := by
  refine ⟨fun rng => ?_, fun p1 p2 rng h1 h2 => ?_, fun s hs => ?_⟩
  · obtain ⟨s, rng1, hs, hk, hg⟩ := createStrategy_spec assetData investmentLimit rng hwf
      hprice hb hfin
    exact ⟨s, rng1, hs, hk, hg⟩
  · obtain ⟨s, rng1, hs, hk, hg⟩ := mateStrategies_spec p1 p2 assetData investmentLimit rng
      hwf hprice hb hfin
    refine ⟨s, rng1, hs, hk, fun k hkm => ?_⟩
    obtain ⟨v, hv, hor⟩ := hg k hkm
    refine ⟨v, hv, ?_⟩
    rcases hor with h | h | h
    · obtain ⟨w, hw, hr⟩ := h1.2 k hkm
      rw [h, count_of_get p1 k w hw]
      exact hr
    · obtain ⟨w, hw, hr⟩ := h2.2 k hkm
      rw [h, count_of_get p2 k w hw]
      exact hr
    · exact h
  · obtain ⟨f, hf⟩ := calculateStrategyFitness_total R s assetData investmentLimit hs.1
    exact ⟨f, hf, trivial⟩

theorem zip_entries :
    ∀ (es : List (String × AssetData)) (ss : List (String × JSValue)),
      ss.map Prod.fst = es.map Prod.fst → (∀ x ∈ ss, ∃ q : ℚ, x.2 = .number q) →
      ∃ ps : List Position, ss = ps.map (fun p => (p.name, JSValue.number p.shares))
        ∧ es = ps.map (fun p => (p.name, p.asset)) := by
  intro es
  induction es with
  | nil =>
    intro ss hk _
    have : ss = [] := by simpa using hk
    exact ⟨[], by simp [this], rfl⟩
  | cons e es ih =>
    intro ss hk hnum
    cases ss with
    | nil => simp at hk
    | cons x ss =>
      simp only [List.map_cons, List.cons.injEq] at hk
      obtain ⟨q, hq⟩ := hnum x (List.mem_cons_self _ _)
      obtain ⟨ps, h1, h2⟩ := ih ss hk.2 (fun y hy => hnum y (List.mem_cons_of_mem _ hy))
      refine ⟨⟨e.1, e.2, q⟩ :: ps, ?_, ?_⟩
      · rw [List.map_cons, ← h1]
        congr 1
        exact Prod.ext hk.1 hq
      · rw [List.map_cons, ← h2]

/-- A strategy within bounds buys, for every asset of the catalog in catalog order, a
whole number of shares between 0 and floor(budget / price). -/
theorem positions_of_inBounds (assetData : JSMap AssetData) (investmentLimit : ℚ)
    (hwf : assetData.WF) (s : Strategy) (h : Spec.InBounds assetData investmentLimit s) :
    ∃ ps, s = Spec.strategyOf ps ∧ Spec.CoversAll assetData ps
      ∧ ∀ p ∈ ps, ∃ n : ℤ, p.shares = (n : ℚ) ∧ 0 ≤ n
          ∧ n ≤ ⌊investmentLimit / p.asset.currentSharePrice⌋ := by
  have hswf : s.WF := by
    unfold JSMap.WF
    rw [h.1]
    exact hwf
  have hgene : ∀ x ∈ s.entries, Spec.RandomGene assetData investmentLimit x.1 x.2 := by
    intro x hx
    obtain ⟨v, hv, hr⟩ := h.2 x.1 (h.1 ▸ List.mem_map_of_mem Prod.fst hx)
    have := get_of_mem s hswf x hx
    rw [hv] at this
    rw [← Option.some.inj this]
    exact hr
  obtain ⟨ps, h1, h2⟩ := zip_entries assetData.entries s.entries h.1 (fun x hx => by
    obtain ⟨_, n, _, hv, _⟩ := hgene x hx
    exact ⟨n, hv⟩)
  refine ⟨ps, ?_, h2, ?_⟩
  · cases s with
    | mk entries => simp only [Spec.strategyOf] at h1 ⊢; rw [h1]
  · intro p hp
    have hx : (p.name, JSValue.number p.shares) ∈ s.entries := by
      rw [h1]
      exact List.mem_map_of_mem _ hp
    have he : (p.name, p.asset) ∈ assetData.entries := by
      rw [h2]
      exact List.mem_map_of_mem _ hp
    obtain ⟨asset, n, hget, hv, h0, hle⟩ := hgene _ hx
    have ha : asset = p.asset := by
      have := get_of_mem assetData hwf _ he
      rw [hget] at this
      exact Option.some.inj this
    exact ⟨n, JSValue.number.inj hv, h0, ha ▸ hle⟩
theorem totalProjected_nonneg (ps : List Position)
    (h : ∀ p ∈ ps, 0 ≤ p.asset.currentSharePrice ∧ 0 ≤ p.shares) :
    0 ≤ Spec.totalProjected ps := by
  unfold Spec.totalProjected
  apply List.sum_nonneg
  intro x hx
  obtain ⟨p, hp, rfl⟩ := List.mem_map.mp hx
  exact mul_nonneg (h p hp).1 (h p hp).2

/-- With holdings in the catalog and a budget > 0, the fitness of a strategy within
bounds is a number. -/
theorem fitness_fin_of_inBounds (R : ℚ → ℚ) (assetData : JSMap AssetData)
    (investmentLimit : ℚ) (hval : Spec.ValidCatalog assetData) (hb : 0 < investmentLimit)
    (hS : 0 < Spec.currentValueSum assetData) (s : Strategy)
    (h : Spec.InBounds assetData investmentLimit s) :
    ∃ q : ℚ, calculateStrategyFitness R s assetData investmentLimit = some (.fin q) := by
  obtain ⟨ps, rfl, hall, hbound⟩ := positions_of_inBounds assetData investmentLimit hval.1 s h
  have hcov := covers_of_coversAll assetData ps hval.1 hall
  have hT : 0 ≤ Spec.totalProjected ps := by
    apply totalProjected_nonneg
    intro p hp
    have he : (p.name, p.asset) ∈ assetData.entries := by
      rw [hall]
      exact List.mem_map_of_mem _ hp
    obtain ⟨n, hn, h0, _⟩ := hbound p hp
    refine ⟨le_of_lt (hval.2.1 _ he).2.2.2, ?_⟩
    rw [hn]
    exact_mod_cast h0
  by_cases hle : Spec.totalProjected ps ≤ investmentLimit
  · refine ⟨_, fitness_of_within R assetData investmentLimit ps hval.1 hcov hle ?_
      (ne_of_gt hb)⟩
    unfold Spec.projectedTotalValue
    linarith
  · exact ⟨_, fitness_of_over R assetData investmentLimit ps hcov (not_le.mp hle)⟩

/-- With holdings in the catalog and a budget > 0 that gives every asset a maximum
below the overflow threshold, every strategy the program makes is within bounds and
every fitness it computes is a number. -/
theorem kept_finite (R : ℚ → ℚ) (assetData : JSMap AssetData) (investmentLimit : ℚ)
    (hval : Spec.ValidCatalog assetData) (hb : 0 < investmentLimit)
    (hS : 0 < Spec.currentValueSum assetData)
    (hfin : ∀ e ∈ assetData.entries,
      (⌊investmentLimit / e.2.currentSharePrice⌋ : ℚ) < Double.overflow) :
    Spec.Kept R assetData investmentLimit (Spec.InBounds assetData investmentLimit)
      (fun f => ∃ q : ℚ, f = .fin q) := by
  have hk := kept_inBounds R assetData investmentLimit hval.1
    (fun e he => (hval.2.1 e he).2.2.2) (le_of_lt hb) hfin
  refine ⟨hk.1, hk.2.1, fun s hs => ?_⟩
  obtain ⟨q, hq⟩ := fitness_fin_of_inBounds R assetData investmentLimit hval hb hS s hs
  exact ⟨_, hq, q, rfl⟩
/-! ## The best fitness never gets worse -/

theorem isLessThanOrEqualTo_fin (x y : ℚ) :
    (BigNumber.fin x).isLessThanOrEqualTo (.fin y) = true ↔ x ≤ y := by
  unfold BigNumber.isLessThanOrEqualTo BigNumber.comparedTo
  by_cases h1 : x < y
  · simp [h1, le_of_lt h1]
  · by_cases h2 : y < x
    · simp [h1, h2]
    · have : x = y := le_antisymm (not_lt.mp h2) (not_lt.mp h1)
      simp [this]

theorem head_of_generationState (R : ℚ → ℚ) (populationSize c : ℕ)
    (assetData : JSMap AssetData) (investmentLimit : ℚ) (rng : RandomSource) (g : ℕ)
    (st : WorkerState)
    (h : generationState R populationSize c assetData investmentLimit rng g = some st) :
    ∃ best, st.population.head? = some best := by
  cases g with
  | zero => simp [generationState] at h
  | succ g =>
    cases g with
    | zero =>
      obtain ⟨_, best, _, hh, _⟩ := generationStep_population R populationSize c assetData
        investmentLimit _ st h
      exact ⟨best, hh⟩
    | succ g =>
      obtain ⟨prev, _, _, hstep⟩ := generationState_succ R populationSize c assetData
        investmentLimit rng g st h
      obtain ⟨_, best, _, hh, _⟩ := generationStep_population R populationSize c assetData
        investmentLimit _ st hstep
      exact ⟨best, hh⟩

/-- With at least one elite and no `NaN` fitness, the best individual of a generation
is at least as fit as the best individual of the generation before. -/
theorem best_antitone (R : ℚ → ℚ) (populationSize c : ℕ)
    (assetData : JSMap AssetData) (investmentLimit : ℚ) (rng : RandomSource)
    (G : Strategy → Prop)
    (hk : Spec.Kept R assetData investmentLimit G (fun f => ∃ q : ℚ, f = .fin q))
    (hN : 10 ≤ populationSize) (g : ℕ) (prev st : WorkerState)
    (hprev : generationState R populationSize c assetData investmentLimit rng (g + 1)
      = some prev)
    (hst : generationState R populationSize c assetData investmentLimit rng (g + 2) = some st) :
    ∃ (bp bs : InvestmentStrategy) (x y : ℚ), prev.population.head? = some bp
      ∧ st.population.head? = some bs ∧ bp.fitness = .fin x ∧ bs.fitness = .fin y
      ∧ y ≤ x := by
  obtain ⟨bp, hbp⟩ := head_of_generationState R populationSize c assetData investmentLimit
    rng _ prev hprev
  obtain ⟨bs, hbs⟩ := head_of_generationState R populationSize c assetData investmentLimit
    rng _ st hst
  have hsp := generationState_sound R populationSize c assetData investmentLimit rng G _ hk
    _ prev hprev
  have hss := generationState_sound R populationSize c assetData investmentLimit rng G _ hk
    _ st hst
  obtain ⟨x, hx⟩ := (hsp bp (List.mem_of_mem_head? hbp)).2.2
  obtain ⟨y, hy⟩ := (hss bs (List.mem_of_mem_head? hbs)).2.2
  refine ⟨bp, bs, x, y, hbp, hbs, hx, hy, ?_⟩
  -- the best individual of the previous generation is an elite
  obtain ⟨prev2, hprev2, _, hstep⟩ := generationState_succ R populationSize c assetData
    investmentLimit rng g st hst
  have hpe : prev2 = prev := Option.some.inj (hprev2.symm.trans hprev)
  subst hpe
  obtain ⟨built, _, hb, hpop, _⟩ := generationStep_built R populationSize c assetData
    investmentLimit _ st hstep
  have hgen := generationState_generation R populationSize c assetData investmentLimit rng
    (g + 1) prev2 hprev
  obtain ⟨children, hc, _⟩ := buildPopulation_later R populationSize assetData
    investmentLimit _ (by simp [hgen]) built hb
  have hmem : bp ∈ st.population := by
    rw [hpop, mem_sortPopulation, hc]
    apply List.mem_append_left
    obtain ⟨k, hk10⟩ : ∃ k, 10 * populationSize / 100 = k + 1 :=
      ⟨10 * populationSize / 100 - 1, by omega⟩
    show bp ∈ List.take (10 * populationSize / 100) prev2.population
    rw [hk10]
    cases hp : prev2.population with
    | nil => rw [hp] at hbp; simp at hbp
    | cons a t =>
      rw [hp] at hbp
      simp only [List.head?_cons, Option.some.injEq] at hbp
      simp [hbp]
  -- the generation is sorted
  have hsorted := generation_sorted_of_no_nan R populationSize c assetData investmentLimit
    rng (g + 2) st hst (fun a ha => by
      obtain ⟨q, hq⟩ := (hss a ha).2.2
      rw [hq]
      exact fun hn => by cases hn)
  cases hp : st.population with
  | nil => rw [hp] at hbs; simp at hbs
  | cons a t =>
    rw [hp] at hbs hmem hsorted
    simp only [List.head?_cons, Option.some.injEq] at hbs
    subst hbs
    rcases List.mem_cons.mp hmem with h1 | h1
    · rw [h1] at hx
      rw [hx] at hy
      exact le_of_eq (BigNumber.fin.inj hy).symm
    · have := (List.pairwise_cons.mp hsorted).1 bp h1
      rw [hx, hy] at this
      exact (isLessThanOrEqualTo_fin y x).mp this
/-! ## Finitely many strategies -/

theorem positions_finite (investmentLimit : ℚ) :
    ∀ es : List (String × AssetData),
      {ps : List Position | es = ps.map (fun p => (p.name, p.asset))
        ∧ ∀ p ∈ ps, ∃ n : ℤ, p.shares = (n : ℚ) ∧ 0 ≤ n
            ∧ n ≤ ⌊investmentLimit / p.asset.currentSharePrice⌋}.Finite := by
  intro es
  induction es with
  | nil =>
    apply Set.Finite.subset (Set.finite_singleton [])
    rintro ps ⟨h, _⟩
    have : ps = [] := by simpa using h.symm
    simp [this]
  | cons e es ih =>
    have hhead : {p : Position | ∃ n : ℤ, n ∈ Set.Icc (0 : ℤ)
        ⌊investmentLimit / e.2.currentSharePrice⌋ ∧ p = ⟨e.1, e.2, (n : ℚ)⟩}.Finite := by
      apply Set.Finite.subset ((Set.finite_Icc (0 : ℤ)
        ⌊investmentLimit / e.2.currentSharePrice⌋).image
          (fun n : ℤ => (⟨e.1, e.2, (n : ℚ)⟩ : Position)))
      rintro p ⟨n, hn, rfl⟩
      exact ⟨n, hn, rfl⟩
    apply Set.Finite.subset (Set.Finite.image2 List.cons hhead ih)
    rintro ps ⟨h, hb⟩
    cases ps with
    | nil => simp at h
    | cons p ps =>
      simp only [List.map_cons, List.cons.injEq] at h
      obtain ⟨n, hn, h0, hle⟩ := hb p (List.mem_cons_self _ _)
      refine ⟨p, ⟨n, ⟨h0, ?_⟩, ?_⟩, ps,
        ⟨h.2, fun q hq => hb q (List.mem_cons_of_mem _ hq)⟩, rfl⟩
      · have : e.2 = p.asset := congrArg Prod.snd h.1
        rw [this]
        exact hle
      · cases p with
        | mk name asset shares =>
          have h1 : e.1 = name := congrArg Prod.fst h.1
          have h2 : e.2 = asset := congrArg Prod.snd h.1
          simp only at hn
          rw [h1, h2, hn]

/-- The fitness values of the strategies within bounds are finitely many. -/
theorem fitness_values_finite (R : ℚ → ℚ) (assetData : JSMap AssetData)
    (investmentLimit : ℚ) (hwf : assetData.WF) :
    {q : ℚ | ∃ s, Spec.InBounds assetData investmentLimit s
      ∧ calculateStrategyFitness R s assetData investmentLimit = some (.fin q)}.Finite := by
  apply Set.Finite.subset ((positions_finite investmentLimit assetData.entries).image
    (fun ps => match calculateStrategyFitness R (Spec.strategyOf ps) assetData
        investmentLimit with
      | some (.fin q) => q
      | _ => 0))
  rintro q ⟨s, hs, hq⟩
  obtain ⟨ps, rfl, hall, hbound⟩ := positions_of_inBounds assetData investmentLimit hwf s hs
  refine ⟨ps, ⟨hall, hbound⟩, ?_⟩
  simp only [hq]
/-! ## The ends of the list of best fitnesses -/

theorem window_getElem (R : ℚ → ℚ) (populationSize c : ℕ) (hc : 1 ≤ c)
    (assetData : JSMap AssetData) (investmentLimit : ℚ) (rng : RandomSource) (g : ℕ)
    (st : WorkerState)
    (h : generationState R populationSize c assetData investmentLimit rng g = some st)
    (i : ℕ) (hi : g - c + i < g) :
    (st.lastNBestFitnesses[i]?).map some
      = some (bestFitness R populationSize c assetData investmentLimit rng (g - c + i + 1)) := by
  have hw := window_eq_history R populationSize c hc assetData investmentLimit rng g st h
  have h1 : (st.lastNBestFitnesses.map some)[i]? = (st.lastNBestFitnesses[i]?).map some := by
    simp
  rw [← h1, hw, List.getElem?_drop]
  simp [Spec.bestHistory, List.getElem?_range hi]

theorem window_length (R : ℚ → ℚ) (populationSize c : ℕ) (hc : 1 ≤ c)
    (assetData : JSMap AssetData) (investmentLimit : ℚ) (rng : RandomSource) (g : ℕ)
    (st : WorkerState)
    (h : generationState R populationSize c assetData investmentLimit rng g = some st) :
    st.lastNBestFitnesses.length = min g c := by
  have hw := congrArg List.length
    (window_eq_history R populationSize c hc assetData investmentLimit rng g st h)
  simp only [List.length_map, List.length_drop, bestHistory_length] at hw
  omega

theorem window_last (R : ℚ → ℚ) (populationSize c : ℕ) (hc : 1 ≤ c)
    (assetData : JSMap AssetData) (investmentLimit : ℚ) (rng : RandomSource) (g : ℕ)
    (st : WorkerState)
    (h : generationState R populationSize c assetData investmentLimit rng g = some st) :
    ∃ last, st.lastNBestFitnesses.getLast? = some last
      ∧ bestFitness R populationSize c assetData investmentLimit rng g = some last := by
  have hg : 1 ≤ g := by
    cases g with
    | zero => simp [generationState] at h
    | succ g => omega
  have hlen := window_length R populationSize c hc assetData investmentLimit rng g st h
  have hi := window_getElem R populationSize c hc assetData investmentLimit rng g st h
    (min g c - 1) (by omega)
  rw [List.getLast?_eq_getElem?, hlen]
  cases hx : st.lastNBestFitnesses[min g c - 1]? with
  | none => rw [hx] at hi; simp at hi
  | some last =>
    rw [hx] at hi
    simp only [Option.map_some', Option.some.injEq] at hi
    refine ⟨last, rfl, ?_⟩
    rw [hi]
    congr 1
    omega

theorem window_first (R : ℚ → ℚ) (populationSize c : ℕ) (hc : 1 ≤ c)
    (assetData : JSMap AssetData) (investmentLimit : ℚ) (rng : RandomSource) (g : ℕ)
    (st : WorkerState)
    (h : generationState R populationSize c assetData investmentLimit rng g = some st)
    (hg : 1 ≤ g) :
    ∃ first, st.lastNBestFitnesses.head? = some first
      ∧ bestFitness R populationSize c assetData investmentLimit rng (g - c + 1)
        = some first := by
  have hi := window_getElem R populationSize c hc assetData investmentLimit rng g st h 0
    (by omega)
  rw [List.head?_eq_getElem?]
  cases hx : st.lastNBestFitnesses[0]? with
  | none => rw [hx] at hi; simp at hi
  | some first =>
    rw [hx] at hi
    simp only [Option.map_some', Option.some.injEq] at hi
    exact ⟨first, rfl, hi.symm⟩
/-! ## Runs that stop -/

/-- With at least ten individuals, holdings in the catalog and a budget > 0 that gives
every asset a maximum below the overflow threshold, the loop reaches a generation at
which `stop` returns `true`, whatever the draws are. -/
theorem exists_stop (R : ℚ → ℚ) (populationSize c : ℕ) (assetData : JSMap AssetData)
    (investmentLimit : ℚ) (rng : RandomSource) (hval : Spec.ValidCatalog assetData)
    (hb : 0 < investmentLimit) (hS : 0 < Spec.currentValueSum assetData)
    (hfin : ∀ e ∈ assetData.entries,
      (⌊investmentLimit / e.2.currentSharePrice⌋ : ℚ) < Double.overflow)
    (hN : 10 ≤ populationSize) (hc : 1 ≤ c) :
    ∃ g st, generationState R populationSize c assetData investmentLimit rng g = some st
      ∧ stop st.lastNBestFitnesses c = some true := by
  have hk := kept_finite R assetData investmentLimit hval hb hS hfin
  by_contra hno
  -- no generation stops
  have hfalse : ∀ g st,
      generationState R populationSize c assetData investmentLimit rng g = some st →
      stop st.lastNBestFitnesses c = some false := by
    intro g st h
    have hg : 1 ≤ g := by
      cases g with
      | zero => simp [generationState] at h
      | succ g => omega
    have hlen := window_length R populationSize c hc assetData investmentLimit rng g st h
    have hne : st.lastNBestFitnesses ≠ [] := by
      intro h0
      rw [h0] at hlen
      simp only [List.length_nil] at hlen
      omega
    obtain ⟨b, hb1, _⟩ := stop_of_ne_nil st.lastNBestFitnesses c hne
    cases b with
    | false => exact hb1
    | true => exact absurd ⟨g, st, h, hb1⟩ hno
  -- so every generation is reached
  have hall : ∀ g, ∃ st,
      generationState R populationSize c assetData investmentLimit rng (g + 1) = some st := by
    intro g
    induction g with
    | zero =>
      exact generationState_one_total R populationSize c assetData investmentLimit rng _ _ hk
        (by omega)
    | succ g ih =>
      obtain ⟨prev, hprev⟩ := ih
      exact generationState_next_total R populationSize c assetData investmentLimit rng _ _ hk
        (by omega) g prev hprev (hfalse _ _ hprev)
  choose st hst using hall
  -- the best fitness of every generation is a number, one of finitely many
  have hbest : ∀ g, ∃ q : ℚ,
      bestFitness R populationSize c assetData investmentLimit rng (g + 1) = some (.fin q)
        ∧ ∃ s, Spec.InBounds assetData investmentLimit s
          ∧ calculateStrategyFitness R s assetData investmentLimit = some (.fin q) := by
    intro g
    obtain ⟨best, hbest⟩ := head_of_generationState R populationSize c assetData
      investmentLimit rng _ (st g) (hst g)
    have hs := generationState_sound R populationSize c assetData investmentLimit rng _ _ hk
      _ (st g) (hst g) best (List.mem_of_mem_head? hbest)
    obtain ⟨q, hq⟩ := hs.2.2
    refine ⟨q, ?_, best.strategy, hs.1, ?_⟩
    · rw [bestFitness_of_state R populationSize c assetData investmentLimit rng _ (st g) best
        (hst g) hbest, hq]
    · rw [hs.2.1, hq]
  choose b hb1 hb2 using hbest
  -- it never goes up
  have hanti : ∀ g, b (g + 1) ≤ b g := by
    intro g
    obtain ⟨bp, bs, x, y, hbp, hbs, hx, hy, hle⟩ := best_antitone R populationSize c assetData
      investmentLimit rng _ hk hN g (st g) (st (g + 1)) (hst g) (hst (g + 1))
    have e1 := bestFitness_of_state R populationSize c assetData investmentLimit rng _ (st g)
      bp (hst g) hbp
    have e2 := bestFitness_of_state R populationSize c assetData investmentLimit rng _
      (st (g + 1)) bs (hst (g + 1)) hbs
    rw [hb1 g, hx] at e1
    rw [hb1 (g + 1), hy] at e2
    have e1' : b g = x := BigNumber.fin.inj (Option.some.inj e1)
    have e2' : b (g + 1) = y := BigNumber.fin.inj (Option.some.inj e2)
    rw [e1', e2']
    exact hle
  have hmono : Antitone b := antitone_nat_of_succ_le hanti
  -- and it differs from the one c - 1 generations earlier
  obtain ⟨d, rfl⟩ : ∃ d, c = d + 1 := ⟨c - 1, by omega⟩
  have hne : ∀ m, b (m + d) ≠ b m := by
    intro m heq
    have hstate := hst (m + d)
    have hstop := hfalse _ _ hstate
    have hlen := window_length R populationSize (d + 1) hc assetData investmentLimit rng _ _
      hstate
    obtain ⟨last, hl1, hl2⟩ := window_last R populationSize (d + 1) hc assetData
      investmentLimit rng _ _ hstate
    obtain ⟨first, hf1, hf2⟩ := window_first R populationSize (d + 1) hc assetData
      investmentLimit rng _ _ hstate (by omega)
    rw [show m + d + 1 - (d + 1) + 1 = m + 1 from by omega, hb1 m] at hf2
    rw [hb1 (m + d)] at hl2
    have hfirst : first = .fin (b m) := (Option.some.inj hf2).symm
    have hlast : last = .fin (b m) := by rw [← heq]; exact (Option.some.inj hl2).symm
    have hwne : (st (m + d)).lastNBestFitnesses ≠ [] := by
      intro h0
      rw [h0] at hl1
      simp at hl1
    obtain ⟨bb, hbb, hiff⟩ := stop_of_ne_nil (st (m + d)).lastNBestFitnesses (d + 1) hwne
    rw [hstop] at hbb
    have hbf : bb = false := (Option.some.inj hbb).symm
    have htrue : bb = true := by
      rw [hiff]
      right
      refine ⟨by rw [hlen]; omega, ?_⟩
      have h1 : (st (m + d)).lastNBestFitnesses.head hwne = first := by
        have := List.head?_eq_head hwne
        rw [hf1] at this
        exact (Option.some.inj this).symm
      have h2 : (st (m + d)).lastNBestFitnesses.getLast hwne = last := by
        have := List.getLast?_eq_getLast _ hwne
        rw [hl1] at this
        exact (Option.some.inj this).symm
      rw [h1, h2, hfirst, hlast]
      exact ⟨BigNumber.noConfusion, rfl⟩
    rw [hbf] at htrue
    cases htrue
  cases d with
  | zero => exact hne 0 rfl
  | succ d =>
    have hstrict : StrictAnti (fun k => b (k * (d + 1))) := by
      apply strictAnti_nat_of_succ_lt
      intro k
      have h1 : b (k * (d + 1) + (d + 1)) ≤ b (k * (d + 1)) := hmono (by omega)
      have h2 := hne (k * (d + 1))
      rw [show (k + 1) * (d + 1) = k * (d + 1) + (d + 1) from by ring]
      exact lt_of_le_of_ne h1 h2
    exact (Set.infinite_of_injective_forall_mem hstrict.injective
      (fun k => hb2 (k * (d + 1))))
      (fitness_values_finite R assetData investmentLimit hval.1)

/-- With at least ten individuals, holdings in the catalog and a budget > 0 that gives
every asset a maximum below the overflow threshold, `runWorker` returns, whatever the
draws are, once its fuel covers the generation at which `stop` returns `true`. -/
theorem runWorker_terminates (R : ℚ → ℚ) (populationSize c : ℕ) (assetData : JSMap AssetData)
    (investmentLimit : ℚ) (rng : RandomSource) (hval : Spec.ValidCatalog assetData)
    (hb : 0 < investmentLimit) (hS : 0 < Spec.currentValueSum assetData)
    (hfin : ∀ e ∈ assetData.entries,
      (⌊investmentLimit / e.2.currentSharePrice⌋ : ℚ) < Double.overflow)
    (hN : 10 ≤ populationSize) (hc : 1 ≤ c) :
    ∃ fuel out, runWorker R fuel populationSize c assetData investmentLimit rng
      = .completed out := by
  obtain ⟨g, st, hst, hstop⟩ := exists_stop R populationSize c assetData investmentLimit rng
    hval hb hS hfin hN hc
  obtain ⟨out, hout⟩ := runWorker_of_stop R populationSize c assetData investmentLimit rng
    hval.1 g st hst hstop
  exact ⟨g, out, hout⟩

/-- At the generation at which a run returns, the newest best fitness is zero, or the
list of best fitnesses is full and its oldest and newest entries are numerically
equal. -/
theorem runWorker_stop_reason (R : ℚ → ℚ) (fuel populationSize c : ℕ)
    (assetData : JSMap AssetData) (investmentLimit : ℚ) (rng : RandomSource)
    (out : List Message)
    (h : runWorker R fuel populationSize c assetData investmentLimit rng = .completed out) :
    ∃ (g : ℕ) (st : WorkerState) (hw : st.lastNBestFitnesses ≠ []),
      generationState R populationSize c assetData investmentLimit rng g = some st
        ∧ (st.lastNBestFitnesses.getLast hw = .fin 0
          ∨ (c ≤ st.lastNBestFitnesses.length
            ∧ Spec.NumericallyEqual (st.lastNBestFitnesses.head hw)
                (st.lastNBestFitnesses.getLast hw))) := by
  obtain ⟨g, st, _, _, _, hst, hstop, _⟩ :=
    runLoop_completed R populationSize c assetData investmentLimit rng fuel 0
      (initialState rng) [] out (Or.inl ⟨rfl, rfl⟩) rfl h
  have hw : st.lastNBestFitnesses ≠ [] := by
    intro h0
    rw [h0] at hstop
    by_cases hc : c = 0
    · simp [stop, hc] at hstop
    · simp [stop, hc] at hstop
  obtain ⟨b, hb, hiff⟩ := stop_of_ne_nil st.lastNBestFitnesses c hw
  rw [hstop] at hb
  exact ⟨g, st, hw, hst, hiff.mp (Option.some.inj hb).symm⟩
/-! ## Claims on the individuals of a generation -/

/-- C21: in every generation the loop reaches, every individual of the population,
created, mated or carried over, stores the fitness that `calculateStrategyFitness`
returns for its strategy, the catalog and the budget. -/
theorem C21_stored_fitness (populationSize c : ℕ) (assetData : JSMap AssetData)
    (investmentLimit : ℚ) (rng : RandomSource) (hwf : assetData.WF) (g : ℕ)
    (st : WorkerState)
    (h : generationState BigNumber.ROUND_HALF_UP populationSize c assetData investmentLimit
      rng g = some st) :
    ∀ a ∈ st.population,
      calculateStrategyFitness BigNumber.ROUND_HALF_UP a.strategy assetData investmentLimit
        = some a.fitness := by
  intro a ha
  exact (generationState_sound BigNumber.ROUND_HALF_UP populationSize c assetData
    investmentLimit rng _ _ (kept_keys BigNumber.ROUND_HALF_UP assetData investmentLimit hwf)
    g st h a ha).2.1

/-- C21 at generation 2 of the run with the draws 1/4, population size 12 and capacity
2, whose 11 individuals are one elite and ten children. -/
theorem C21_stored_fitness_witness :
    Example.catalogAB.WF
      ∧ ∃ st, generationState BigNumber.ROUND_HALF_UP 12 2 Example.catalogAB 100
          (Example.constantDraws Example.quarter) 2 = some st
        ∧ st.population.length = 11
        ∧ ∀ a ∈ st.population,
            calculateStrategyFitness BigNumber.ROUND_HALF_UP a.strategy Example.catalogAB 100
              = some a.fitness :=
  ⟨wf_catalogAB, _, quarters_second_full 12 (by decide), by simp,
    C21_stored_fitness 12 2 Example.catalogAB 100 (Example.constantDraws Example.quarter)
      wf_catalogAB 2 _ (quarters_second_full 12 (by decide))⟩

theorem fitness_overflow (R : ℚ → ℚ) :
    calculateStrategyFitness R ⟨[("A", JSValue.infinity false), ("B", JSValue.infinity false)]⟩
      Example.catalogAB (10 ^ 310) = some MAX_VALUE := by
  simp [calculateStrategyFitness, Utility.calculateProjectedInvestmentPerAsset,
    Utility.sumMoney, Example.catalogAB, Strategy.count, JSMap.keys, JSMap.values, JSMap.get,
    JSMap.set, JSMap.has, JSMap.empty, List.lookup, BigNumber.ofValue, BigNumber.multipliedBy,
    BigNumber.plus, BigNumber.comparedTo, show ("A" : String) ≠ "B" from by decide]

theorem createInitialPopulation_overflow :
    ∀ (count : ℕ) (population : List InvestmentStrategy),
      createInitialPopulation BigNumber.ROUND_HALF_UP Example.catalogAB (10 ^ 310) count
          population (Example.constantDraws Example.half)
        = some (population ++ List.replicate count
            ⟨⟨[("A", JSValue.infinity false), ("B", JSValue.infinity false)]⟩, MAX_VALUE⟩,
          Example.constantDraws Example.half) := by
  intro count
  induction count with
  | zero => intro population; simp [createInitialPopulation]
  | succ n ih =>
    intro population
    simp only [createInitialPopulation, createStrategy_overflow_full, Option.bind_eq_bind,
      Option.some_bind, fitness_overflow, ih]
    simp [List.replicate_succ]

/-- The first generation of the run with the catalog of the scenarios, the budget
10^310 and the draws 1/2: every individual buys `Infinity` shares of both assets and
has the sentinel fitness. -/
theorem generationState_overflow (populationSize c : ℕ) (hN : 1 ≤ populationSize) :
    (generationState BigNumber.ROUND_HALF_UP populationSize c Example.catalogAB (10 ^ 310)
        (Example.constantDraws Example.half) 1).map (fun st => st.population)
      = some (List.replicate populationSize
          ⟨⟨[("A", JSValue.infinity false), ("B", JSValue.infinity false)]⟩, MAX_VALUE⟩) := by
  obtain ⟨n, rfl⟩ : ∃ n, populationSize = n + 1 := ⟨populationSize - 1, by omega⟩
  unfold generationState generationStep buildPopulation
  simp only [initialState, if_true, createInitialPopulation_overflow, Option.bind_eq_bind,
    Option.some_bind, List.nil_append]
  rw [sortPopulation_replicate _ (by simp [compareFitness, BigNumber.comparedTo, MAX_VALUE])]
  simp [List.replicate_succ]

/-- C24 as stated fails for a budget beyond the range of a JavaScript number. With the
catalog of the scenarios (share price 10), the budget 10^310, population size 100,
capacity 5 and the draws 1/2, the maximum `floor(budget / price) = 10^309` is `Infinity`
after `toNumber()`, and all 100 individuals of generation 1 hold the gene `Infinity`,
which is not an integer, for both assets. -/
theorem C24_genes_within_bounds_counterexample :
    Example.catalogAB.WF ∧ (∀ e ∈ Example.catalogAB.entries, 0 < e.2.currentSharePrice)
      ∧ (0 : ℚ) < 10 ^ 310
      ∧ (generationState BigNumber.ROUND_HALF_UP 100 5 Example.catalogAB (10 ^ 310)
          (Example.constantDraws Example.half) 1).map (fun st => st.population)
        = some (List.replicate 100
            ⟨⟨[("A", JSValue.infinity false), ("B", JSValue.infinity false)]⟩, MAX_VALUE⟩)
      ∧ (⟨[("A", JSValue.infinity false), ("B", JSValue.infinity false)]⟩ : Strategy).get "A"
        = some (JSValue.infinity false)
      ∧ ¬ ∃ n : ℤ, JSValue.infinity false = .number (n : ℚ) := by
  refine ⟨wf_catalogAB, prices_catalogAB, by positivity,
    generationState_overflow 100 5 (by norm_num), rfl, ?_⟩
  rintro ⟨n, hn⟩
  cases hn

/-- C24, amended: for a catalog whose share prices are > 0 and a budget >= 0 whose
`floor(investmentLimit / currentSharePrice)` is, for every asset, below 2^1024 - 2^970
(the least number that `toNumber()` turns into `Infinity`), in every generation the
loop reaches, the strategy of every individual has exactly the catalog's assets, in
catalog order, and its gene for every asset is an integer between 0 and
floor(investmentLimit / currentSharePrice). -/
theorem C24_genes_within_bounds (populationSize c : ℕ) (assetData : JSMap AssetData)
    (investmentLimit : ℚ) (rng : RandomSource) (hwf : assetData.WF)
    (hprice : ∀ e ∈ assetData.entries, 0 < e.2.currentSharePrice) (hb : 0 ≤ investmentLimit)
    (hfin : ∀ e ∈ assetData.entries,
      (⌊investmentLimit / e.2.currentSharePrice⌋ : ℚ) < 2 ^ 1024 - 2 ^ 970)
    (g : ℕ) (st : WorkerState)
    (h : generationState BigNumber.ROUND_HALF_UP populationSize c assetData investmentLimit
      rng g = some st) :
    ∀ a ∈ st.population, a.strategy.keys = assetData.keys
      ∧ ∀ e ∈ assetData.entries, ∃ n : ℤ, a.strategy.get e.1 = some (.number (n : ℚ))
          ∧ 0 ≤ n ∧ n ≤ ⌊investmentLimit / e.2.currentSharePrice⌋ := by
  intro a ha
  have hs := (generationState_sound BigNumber.ROUND_HALF_UP populationSize c assetData
    investmentLimit rng _ _
    (kept_inBounds BigNumber.ROUND_HALF_UP assetData investmentLimit hwf hprice hb hfin)
    g st h a ha).1
  refine ⟨hs.1, fun e he => ?_⟩
  obtain ⟨v, hv, asset, n, hget, hn, h0, hle⟩ := hs.2 e.1 (List.mem_map_of_mem Prod.fst he)
  have hae : asset = e.2 := by
    have := get_of_mem assetData hwf e he
    rw [hget] at this
    exact Option.some.inj this
  exact ⟨n, by rw [hv, hn], h0, hae ▸ hle⟩

/-- C24, amended, at generation 2 of the run with the draws 1/4, population size 12 and
capacity 2. -/
theorem C24_genes_within_bounds_witness :
    Example.catalogAB.WF ∧ (∀ e ∈ Example.catalogAB.entries, 0 < e.2.currentSharePrice)
      ∧ (0 : ℚ) ≤ 100
      ∧ (∀ e ∈ Example.catalogAB.entries,
          (⌊(100 : ℚ) / e.2.currentSharePrice⌋ : ℚ) < 2 ^ 1024 - 2 ^ 970)
      ∧ ∃ st, generationState BigNumber.ROUND_HALF_UP 12 2 Example.catalogAB 100
          (Example.constantDraws Example.quarter) 2 = some st
        ∧ st.population.length = 11
        ∧ ∀ a ∈ st.population, a.strategy.keys = Example.catalogAB.keys
          ∧ ∀ e ∈ Example.catalogAB.entries, ∃ n : ℤ,
              a.strategy.get e.1 = some (.number (n : ℚ))
              ∧ 0 ≤ n ∧ n ≤ ⌊(100 : ℚ) / e.2.currentSharePrice⌋ :=
  ⟨wf_catalogAB, prices_catalogAB, by norm_num, finite_catalogAB, _,
    quarters_second_full 12 (by decide), by simp,
    C24_genes_within_bounds 12 2 Example.catalogAB 100 (Example.constantDraws Example.quarter)
      wf_catalogAB prices_catalogAB (by norm_num) finite_catalogAB 2 _
      (quarters_second_full 12 (by decide))⟩
/-! ## The population is read at index 0 -/

/-- C22 as stated fails for a population size of 1. With a capacity of 2 the run does
not stop at generation 1; in generation 2 no elite is promoted (floor(10 / 100) = 0) and
no child is produced (floor(90 / 100) = 0), the population is empty,
`population[0].fitness` throws a `TypeError` and the run ends with it after one
intermediate message. -/
theorem C22_population_nonempty_counterexample :
    ∃ prev, generationState BigNumber.ROUND_HALF_UP 1 2 Example.catalogAB 100
        (Example.constantDraws Example.quarter) 1 = some prev
      ∧ stop prev.lastNBestFitnesses 2 = some false
      ∧ (buildPopulation BigNumber.ROUND_HALF_UP 1 Example.catalogAB 100
          { prev with generation := prev.generation + 1 }).map Prod.fst = some []
      ∧ generationState BigNumber.ROUND_HALF_UP 1 2 Example.catalogAB 100
          (Example.constantDraws Example.quarter) 2 = none
      ∧ runWorker BigNumber.ROUND_HALF_UP 2 1 2 Example.catalogAB 100
          (Example.constantDraws Example.quarter)
        = .threw [Message.intermediate 1 ⟨Spec.strategyOf (Example.buyAB 3 3), .fin 40⟩] := by
  have h1 := quarters_first_full 1 2 (by decide)
  have hstop : stop ([BigNumber.fin 40].drop (1 - 2)) 2 = some false := by
    norm_num [stop, BigNumber.isZero]
  refine ⟨_, h1, hstop, ?_, ?_, runWorker_single_throws⟩
  · simp [buildPopulation, produceOffspring]
  · unfold generationState
    simp only [h1, hstop, Option.bind_eq_bind, Option.some_bind]
    simp [generationStep, buildPopulation, produceOffspring, sortPopulation]

/-- C22, amended: for a population size >= 2, the population of generation 1 has
`populationSize` individuals, and whenever the loop goes on after a generation it has
reached, the population of the next generation has
floor(10 * N / 100) + floor(90 * N / 100) >= 1 individuals; in both cases
`population[0]` exists where it is read. -/
theorem C22_population_nonempty (populationSize c : ℕ) (assetData : JSMap AssetData)
    (investmentLimit : ℚ) (rng : RandomSource) (hwf : assetData.WF)
    (hN : 2 ≤ populationSize) :
    (∃ st best, generationState BigNumber.ROUND_HALF_UP populationSize c assetData
          investmentLimit rng 1 = some st
        ∧ st.population.length = populationSize
        ∧ st.population.head? = some best)
      ∧ ∀ (g : ℕ) (prev : WorkerState),
          generationState BigNumber.ROUND_HALF_UP populationSize c assetData investmentLimit
            rng (g + 1) = some prev →
          stop prev.lastNBestFitnesses c = some false →
          ∃ st best, generationState BigNumber.ROUND_HALF_UP populationSize c assetData
              investmentLimit rng (g + 2) = some st
            ∧ st.population.length
              = 10 * populationSize / 100 + 90 * populationSize / 100
            ∧ 1 ≤ st.population.length
            ∧ st.population.head? = some best := by
  have hk := kept_keys BigNumber.ROUND_HALF_UP assetData investmentLimit hwf
  constructor
  · obtain ⟨st, hst⟩ := generationState_one_total BigNumber.ROUND_HALF_UP populationSize c
      assetData investmentLimit rng _ _ hk (by omega)
    obtain ⟨best, hbest⟩ := head_of_generationState BigNumber.ROUND_HALF_UP populationSize c
      assetData investmentLimit rng 1 st hst
    have hlen := generationState_length BigNumber.ROUND_HALF_UP populationSize c assetData
      investmentLimit rng 1 st hst
    exact ⟨st, best, hst, by simpa using hlen, hbest⟩
  · intro g prev hprev hstop
    obtain ⟨st, hst⟩ := generationState_next_total BigNumber.ROUND_HALF_UP populationSize c
      assetData investmentLimit rng _ _ hk hN g prev hprev hstop
    obtain ⟨best, hbest⟩ := head_of_generationState BigNumber.ROUND_HALF_UP populationSize c
      assetData investmentLimit rng (g + 2) st hst
    have hlen := generationState_length BigNumber.ROUND_HALF_UP populationSize c assetData
      investmentLimit rng (g + 2) st hst
    have hlen2 : st.population.length
        = 10 * populationSize / 100 + 90 * populationSize / 100 := by
      simpa using hlen
    exact ⟨st, best, hst, hlen2, by omega, hbest⟩

/-- C22, amended, at the run with the draws 1/4, population size 12 and capacity 2:
generation 1 has 12 individuals, the run goes on and generation 2 has 11. -/
theorem C22_population_nonempty_witness :
    Example.catalogAB.WF ∧ 2 ≤ 12
      ∧ (∃ st best, generationState BigNumber.ROUND_HALF_UP 12 2 Example.catalogAB 100
            (Example.constantDraws Example.quarter) 1 = some st
          ∧ st.population.length = 12
          ∧ st.population.head? = some best)
      ∧ ∃ st best, generationState BigNumber.ROUND_HALF_UP 12 2 Example.catalogAB 100
            (Example.constantDraws Example.quarter) 2 = some st
          ∧ st.population.length = 10 * 12 / 100 + 90 * 12 / 100
          ∧ 1 ≤ st.population.length
          ∧ st.population.head? = some best :=
  have h := C22_population_nonempty 12 2 Example.catalogAB 100
    (Example.constantDraws Example.quarter) wf_catalogAB (by decide)
  ⟨wf_catalogAB, by decide, h.1,
    h.2 0 _ (quarters_first_full 12 2 (by decide)) (by norm_num [stop, BigNumber.isZero])⟩
/-! ## The best fitness of a run whose individuals buy nothing -/

theorem generationState_stuck (R : ℚ → ℚ) (investmentLimit : ℚ) (P : RandomSource → Prop)
    (hB : Example.Barren investmentLimit P) (populationSize c : ℕ) (hN : 2 ≤ populationSize)
    (hc : 1 ≤ c) (rng : RandomSource) (hP : P rng) :
    ∀ g : ℕ, ∃ st,
      generationState R populationSize c Example.catalogAB investmentLimit rng (g + 1) = some st
        ∧ st.population.head? = some Example.nothingBought
        ∧ stop st.lastNBestFitnesses c = some false
        ∧ Example.Stuck P populationSize { st with generation := st.generation + 1 } := by
  intro g
  induction g with
  | zero =>
    exact generationStep_stuck R investmentLimit P hB populationSize c hN hc (initialState rng)
      ⟨by simp [initialState], hP, Or.inl ⟨rfl, rfl⟩⟩
  | succ g ih =>
    obtain ⟨prev, hprev, _, hstop, hstuck⟩ := ih
    obtain ⟨st, hstep, hhead, hstop2, hnext⟩ :=
      generationStep_stuck R investmentLimit P hB populationSize c hN hc _ hstuck
    refine ⟨st, ?_, hhead, hstop2, hnext⟩
    show generationState R populationSize c Example.catalogAB investmentLimit rng (g + 2) = _
    unfold generationState
    simp only [hprev, hstop, Option.bind_eq_bind, Option.some_bind]
    exact hstep

theorem bestFitness_stuck (R : ℚ → ℚ) (investmentLimit : ℚ) (P : RandomSource → Prop)
    (hB : Example.Barren investmentLimit P) (populationSize c : ℕ) (hN : 2 ≤ populationSize)
    (hc : 1 ≤ c) (rng : RandomSource) (hP : P rng) (g : ℕ) :
    bestFitness R populationSize c Example.catalogAB investmentLimit rng (g + 1)
      = some .nan := by
  obtain ⟨st, hst, hhead, _⟩ :=
    generationState_stuck R investmentLimit P hB populationSize c hN hc rng hP g
  rw [bestFitness_of_state R populationSize c Example.catalogAB investmentLimit rng _ st _
    hst hhead]
  rfl

/-- C23: a run whose best fitness is not a number. The catalog of the scenarios is
valid and has no holdings; with the budget 100 and every draw 0, every individual of
every generation buys nothing and has the fitness `NaN` (the missing zero guard of C5).
For every population size >= 10 and every capacity >= 1 the best fitness of
generation g + 1 and that of generation g + 2 are both `NaN`, and `NaN` is not less
than or equal to `NaN`: `comparedTo` returns `null` and `isLessThanOrEqualTo` returns
`false`. -/
theorem C23_best_fitness_nan (populationSize c : ℕ) (hN : 10 ≤ populationSize) (hc : 1 ≤ c)
    (g : ℕ) :
    Spec.ValidCatalog Example.catalogAB
      ∧ bestFitness BigNumber.ROUND_HALF_UP populationSize c Example.catalogAB 100
          (Example.constantDraws Example.zero) (g + 1) = some .nan
      ∧ bestFitness BigNumber.ROUND_HALF_UP populationSize c Example.catalogAB 100
          (Example.constantDraws Example.zero) (g + 2) = some .nan
      ∧ BigNumber.nan.comparedTo .nan = none
      ∧ BigNumber.nan.isLessThanOrEqualTo .nan = false :=
  ⟨valid_catalogAB,
    bestFitness_stuck BigNumber.ROUND_HALF_UP 100 _ barren_zero_draws populationSize c
      (by omega) hc _ rfl g,
    bestFitness_stuck BigNumber.ROUND_HALF_UP 100 _ barren_zero_draws populationSize c
      (by omega) hc _ rfl (g + 1),
    rfl, rfl⟩

/-- C23 at the smallest population size and capacity the form accepts, 100 and 5, for
the generations 1 and 2. -/
theorem C23_best_fitness_nan_witness :
    10 ≤ 100 ∧ 1 ≤ 5 ∧ Spec.ValidCatalog Example.catalogAB
      ∧ bestFitness BigNumber.ROUND_HALF_UP 100 5 Example.catalogAB 100
          (Example.constantDraws Example.zero) (0 + 1) = some .nan
      ∧ bestFitness BigNumber.ROUND_HALF_UP 100 5 Example.catalogAB 100
          (Example.constantDraws Example.zero) (0 + 2) = some .nan
      ∧ BigNumber.nan.comparedTo .nan = none
      ∧ BigNumber.nan.isLessThanOrEqualTo .nan = false :=
  ⟨by decide, by decide, C23_best_fitness_nan 100 5 (by decide) (by decide) 0⟩
/-! ## The percentages of the report add up -/

theorem sumOf_fin {γ : Type} (f : γ → ℚ) (l : List γ) :
    Spec.sumOf (l.map (fun c => BigNumber.fin (f c))) = .fin ((l.map f).sum) := by
  have h := foldl_plus_fin (l.map f) 0
  simp only [List.map_map, zero_add] at h
  exact h

theorem sum_div_mul (f : Position → ℚ) (V : ℚ) :
    ∀ l : List Position,
      (l.map (fun p => f p / V * 100)).sum = (l.map f).sum / V * 100 := by
  intro l
  induction l with
  | nil => simp
  | cons a t ih =>
    simp only [List.map_cons, List.sum_cons, ih]
    ring

theorem ROUND_HALF_UP_error (q : ℚ) : |BigNumber.ROUND_HALF_UP q - q| ≤ 1 / (2 * 10 ^ 20) := by
  have key : ∀ x : ℚ, |((⌊x * 10 ^ 20 + 1 / 2⌋ : ℤ) : ℚ) / 10 ^ 20 - x| ≤ 1 / (2 * 10 ^ 20) := by
    intro x
    have h1 : ((⌊x * 10 ^ 20 + 1 / 2⌋ : ℤ) : ℚ) ≤ x * 10 ^ 20 + 1 / 2 := Int.floor_le _
    have h2 : x * 10 ^ 20 + 1 / 2 < ((⌊x * 10 ^ 20 + 1 / 2⌋ : ℤ) : ℚ) + 1 :=
      Int.lt_floor_add_one _
    rw [abs_le]
    constructor
    · rw [le_sub_iff_add_le, le_div_iff₀ (by norm_num)]
      have : (-(1 / (2 * 10 ^ 20)) + x) * (10 ^ 20 : ℚ) = x * 10 ^ 20 - 1 / 2 := by
        field_simp
        ring
      rw [this]
      linarith
    · rw [sub_le_iff_le_add, div_le_iff₀ (by norm_num)]
      have : (1 / (2 * 10 ^ 20) + x) * (10 ^ 20 : ℚ) = x * 10 ^ 20 + 1 / 2 := by
        field_simp
        ring
      rw [this]
      exact h1
  unfold BigNumber.ROUND_HALF_UP BigNumber.roundHalfUp BigNumber.DECIMAL_PLACES
  split
  · exact key q
  · have := key (-q)
    rw [show -(((⌊-q * 10 ^ 20 + 1 / 2⌋ : ℤ) : ℚ) / 10 ^ 20) - q
      = -(((⌊-q * 10 ^ 20 + 1 / 2⌋ : ℤ) : ℚ) / 10 ^ 20 - -q) from by ring, abs_neg]
    exact this

theorem sum_round_error (R : ℚ → ℚ) (ε : ℚ) (hR : ∀ q, |R q - q| ≤ ε) (f : Position → ℚ) :
    ∀ l : List Position,
      |(l.map (fun p => R (f p) * 100)).sum - (l.map (fun p => f p * 100)).sum|
        ≤ l.length * (ε * 100) := by
  intro l
  induction l with
  | nil => simp
  | cons a t ih =>
    simp only [List.map_cons, List.sum_cons, List.length_cons]
    have h1 : |R (f a) * 100 - f a * 100| ≤ ε * 100 := by
      rw [← sub_mul, abs_mul]
      have := hR (f a)
      rw [show |(100 : ℚ)| = 100 from by norm_num]
      linarith
    have h2 := abs_add (R (f a) * 100 - f a * 100)
      ((t.map (fun p => R (f p) * 100)).sum - (t.map (fun p => f p * 100)).sum)
    have h3 : R (f a) * 100 + (t.map (fun p => R (f p) * 100)).sum
        - (f a * 100 + (t.map (fun p => f p * 100)).sum)
        = (R (f a) * 100 - f a * 100)
          + ((t.map (fun p => R (f p) * 100)).sum - (t.map (fun p => f p * 100)).sum) := by
      ring
    rw [h3]
    push_cast
    linarith
theorem sum_current_of_coversAll (assetData : JSMap AssetData) (ps : List Position)
    (hall : Spec.CoversAll assetData ps) :
    (ps.map (fun p => p.asset.currentTotalValue)).sum = Spec.currentValueSum assetData := by
  unfold Spec.currentValueSum
  rw [hall, List.map_map]
  rfl

theorem rebalanced_sum (R : ℚ → ℚ) (assetData : JSMap AssetData) (ps : List Position) :
    Spec.sumOf ((Spec.roundedStats R assetData ps).stats.map
        (fun row => row.rebalancedPercentage))
      = .fin ((ps.map (fun p => if Spec.projectedTotalValue assetData ps = 0 then 0
          else R (Spec.newValue p / Spec.projectedTotalValue assetData ps) * 100)).sum) := by
  rw [← sumOf_fin]
  simp [Spec.roundedStats, Spec.roundedRow, Function.comp_def]

theorem current_sum (R : ℚ → ℚ) (assetData : JSMap AssetData) (ps : List Position) :
    Spec.sumOf ((Spec.roundedStats R assetData ps).stats.map
        (fun row => row.currentPercentage))
      = .fin ((ps.map (fun p => if Spec.currentValueSum assetData = 0 then 0
          else R (p.asset.currentTotalValue / Spec.currentValueSum assetData) * 100)).sum) := by
  rw [← sumOf_fin]
  simp [Spec.roundedStats, Spec.roundedRow, Function.comp_def]

theorem covers_of_perm (assetData : JSMap AssetData) (ps : List Position)
    (hwf : assetData.WF)
    (hperm : (ps.map (fun p => (p.name, p.asset))).Perm assetData.entries) :
    Spec.Covers assetData ps := by
  constructor
  · have h1 : (ps.map Position.name).Perm assetData.keys := by
      have := hperm.map Prod.fst
      simpa [JSMap.keys, Function.comp_def] using this
    exact h1.nodup_iff.mpr hwf
  · intro p hp
    have hmem : (p.name, p.asset) ∈ assetData.entries :=
      hperm.subset (List.mem_map_of_mem (fun p => (p.name, p.asset)) hp)
    exact get_of_mem assetData hwf _ hmem

theorem sum_current_of_perm (assetData : JSMap AssetData) (ps : List Position)
    (hperm : (ps.map (fun p => (p.name, p.asset))).Perm assetData.entries) :
    (ps.map (fun p => p.asset.currentTotalValue)).sum = Spec.currentValueSum assetData := by
  unfold Spec.currentValueSum
  have := (hperm.map (fun e : String × AssetData => e.2.currentTotalValue)).sum_eq
  simpa [Function.comp_def] using this

theorem sum_newValue_of_perm (assetData : JSMap AssetData) (ps : List Position)
    (hperm : (ps.map (fun p => (p.name, p.asset))).Perm assetData.entries) :
    (ps.map Spec.newValue).sum = Spec.projectedTotalValue assetData ps := by
  unfold Spec.projectedTotalValue Spec.totalProjected
  rw [← sum_current_of_perm assetData ps hperm, ← List.sum_map_add]
  rfl

theorem sum_of_not_rounded (R : ℚ → ℚ) (f : Position → ℚ) (ps : List Position)
    (h : ∀ p ∈ ps, R (f p) = f p) :
    (ps.map (fun p => R (f p) * 100)).sum = (ps.map (fun p => f p * 100)).sum := by
  congr 1
  apply List.map_congr_left
  intro p hp
  rw [h p hp]

/-- C25 as stated fails for the program, whose quotients are rounded to 20 decimal
places. Three assets held at the value 1 each, with nothing bought, have the current
percentage 33.333333333333333333 each, and the three add up to 99.999999999999999999,
not to 100, although the sum of the current values is 3. -/
theorem C25_percentages_sum_counterexample :
    Example.catalogTriple.WF
      ∧ (Example.buyTriple.map (fun p => (p.name, p.asset))).Perm Example.catalogTriple.entries
      ∧ Spec.currentValueSum Example.catalogTriple ≠ 0
      ∧ ∃ stats, Utility.calculateStrategyStats BigNumber.ROUND_HALF_UP
          (Spec.strategyOf Example.buyTriple) Example.catalogTriple = some stats
        ∧ stats.stats.map (fun row => row.currentPercentage)
          = [.fin 33.333333333333333333, .fin 33.333333333333333333,
              .fin 33.333333333333333333]
        ∧ Spec.sumOf (stats.stats.map (fun row => row.currentPercentage))
          = .fin 99.999999999999999999
        ∧ BigNumber.fin 99.999999999999999999 ≠ .fin 100 := by
  have hwf : Example.catalogTriple.WF := by
    simp [JSMap.WF, JSMap.keys, Example.catalogTriple]
  have hall : Spec.CoversAll Example.catalogTriple Example.buyTriple := rfl
  refine ⟨hwf, List.Perm.refl _, ?_, _, calculateStrategyStats_eq BigNumber.ROUND_HALF_UP _ _ hwf
    (covers_of_coversAll _ _ hwf hall), ?_, ?_, ?_⟩
  · norm_num [Spec.currentValueSum, Example.catalogTriple]
  · norm_num [Spec.roundedStats, Spec.roundedRow, Spec.currentValueSum, Example.catalogTriple,
      Example.buyTriple, BigNumber.ROUND_HALF_UP, BigNumber.roundHalfUp,
      BigNumber.DECIMAL_PLACES]
  · rw [current_sum]
    norm_num [Spec.currentValueSum, Example.catalogTriple, Example.buyTriple,
      BigNumber.ROUND_HALF_UP, BigNumber.roundHalfUp, BigNumber.DECIMAL_PLACES]
  · intro h
    have h2 := BigNumber.fin.inj h
    norm_num at h2

/-- C25, amended: as the program computes it, every quotient being rounded to 20
decimal places before the multiplication by 100, the report of a strategy with finite
share counts that names every asset of the catalog once, in any order, has one row per
asset; whenever the sum of the current values plus the total projected investment is
not zero its rebalancedPercentage values add up to a number within 5e-19 per asset of
100, and to exactly 100 when no quotient is changed by the rounding; whenever the sum
of the current values is not zero the same holds of its currentPercentage values. -/
theorem C25_percentages_sum (assetData : JSMap AssetData) (ps : List Position)
    (hwf : assetData.WF)
    (hperm : (ps.map (fun p => (p.name, p.asset))).Perm assetData.entries) :
    ∃ stats, Utility.calculateStrategyStats BigNumber.ROUND_HALF_UP (Spec.strategyOf ps)
        assetData = some stats
      ∧ stats.stats.length = ps.length
      ∧ (Spec.currentValueSum assetData + Spec.totalProjected ps ≠ 0 →
          ∃ s : ℚ, Spec.sumOf (stats.stats.map (fun row => row.rebalancedPercentage)) = .fin s
            ∧ |s - 100| ≤ ps.length * (1 / (2 * 10 ^ 18))
            ∧ ((∀ p ∈ ps, BigNumber.ROUND_HALF_UP
                  (Spec.newValue p / (Spec.currentValueSum assetData + Spec.totalProjected ps))
                = Spec.newValue p / (Spec.currentValueSum assetData + Spec.totalProjected ps))
              → s = 100))
      ∧ (Spec.currentValueSum assetData ≠ 0 →
          ∃ s : ℚ, Spec.sumOf (stats.stats.map (fun row => row.currentPercentage)) = .fin s
            ∧ |s - 100| ≤ ps.length * (1 / (2 * 10 ^ 18))
            ∧ ((∀ p ∈ ps, BigNumber.ROUND_HALF_UP
                  (p.asset.currentTotalValue / Spec.currentValueSum assetData)
                = p.asset.currentTotalValue / Spec.currentValueSum assetData)
              → s = 100)) := by
  have herr : (1 : ℚ) / (2 * 10 ^ 20) * 100 = 1 / (2 * 10 ^ 18) := by norm_num
  refine ⟨_, calculateStrategyStats_eq BigNumber.ROUND_HALF_UP assetData ps hwf
    (covers_of_perm assetData ps hwf hperm), by simp [Spec.roundedStats], ?_, ?_⟩
  · intro hV
    have hV2 : Spec.projectedTotalValue assetData ps ≠ 0 := hV
    refine ⟨_, rebalanced_sum BigNumber.ROUND_HALF_UP assetData ps, ?_, ?_⟩
    · simp only [hV2, if_false]
      have h := sum_round_error BigNumber.ROUND_HALF_UP _ ROUND_HALF_UP_error
        (fun p => Spec.newValue p / Spec.projectedTotalValue assetData ps) ps
      rw [sum_div_mul Spec.newValue, sum_newValue_of_perm assetData ps hperm,
        div_self hV2, herr] at h
      simpa using h
    · intro hex
      simp only [hV2, if_false]
      rw [sum_of_not_rounded BigNumber.ROUND_HALF_UP
        (fun p => Spec.newValue p / Spec.projectedTotalValue assetData ps) ps hex,
        sum_div_mul Spec.newValue, sum_newValue_of_perm assetData ps hperm, div_self hV2]
      norm_num
  · intro hS
    refine ⟨_, current_sum BigNumber.ROUND_HALF_UP assetData ps, ?_, ?_⟩
    · simp only [hS, if_false]
      have h := sum_round_error BigNumber.ROUND_HALF_UP _ ROUND_HALF_UP_error
        (fun p => p.asset.currentTotalValue / Spec.currentValueSum assetData) ps
      rw [sum_div_mul (fun p => p.asset.currentTotalValue),
        sum_current_of_perm assetData ps hperm, div_self hS, herr] at h
      simpa using h
    · intro hex
      simp only [hS, if_false]
      rw [sum_of_not_rounded BigNumber.ROUND_HALF_UP
        (fun p => p.asset.currentTotalValue / Spec.currentValueSum assetData) ps hex,
        sum_div_mul (fun p => p.asset.currentTotalValue),
        sum_current_of_perm assetData ps hperm, div_self hS]
      norm_num

theorem perm_buyHeld :
    (Example.buyHeld.map (fun p => (p.name, p.asset))).Perm Example.catalogHeld.entries :=
  List.Perm.refl _

/-- C25, amended, at `catalogHeld`, whose holdings are 1 and 2, with nothing bought:
both sums are within 2 * 5e-19 of 100. -/
theorem C25_percentages_sum_witness :
    Example.catalogHeld.WF
      ∧ (Example.buyHeld.map (fun p => (p.name, p.asset))).Perm Example.catalogHeld.entries
      ∧ Spec.currentValueSum Example.catalogHeld + Spec.totalProjected Example.buyHeld ≠ 0
      ∧ Spec.currentValueSum Example.catalogHeld ≠ 0
      ∧ ∃ stats, Utility.calculateStrategyStats BigNumber.ROUND_HALF_UP
          (Spec.strategyOf Example.buyHeld) Example.catalogHeld = some stats
        ∧ stats.stats.length = Example.buyHeld.length
        ∧ (∃ s : ℚ, Spec.sumOf (stats.stats.map (fun row => row.rebalancedPercentage)) = .fin s
            ∧ |s - 100| ≤ Example.buyHeld.length * (1 / (2 * 10 ^ 18)))
        ∧ (∃ s : ℚ, Spec.sumOf (stats.stats.map (fun row => row.currentPercentage)) = .fin s
            ∧ |s - 100| ≤ Example.buyHeld.length * (1 / (2 * 10 ^ 18))) := by
  have hV : Spec.currentValueSum Example.catalogHeld + Spec.totalProjected Example.buyHeld
      ≠ 0 := by
    norm_num [Spec.currentValueSum, Spec.totalProjected, Spec.projectedInvestment,
      Example.catalogHeld, Example.buyHeld]
  have hS : Spec.currentValueSum Example.catalogHeld ≠ 0 := by
    norm_num [Spec.currentValueSum, Example.catalogHeld]
  obtain ⟨stats, hstats, hlen, h1, h2⟩ :=
    C25_percentages_sum Example.catalogHeld Example.buyHeld wf_catalogHeld perm_buyHeld
  obtain ⟨s1, hs1, hb1, _⟩ := h1 hV
  obtain ⟨s2, hs2, hb2, _⟩ := h2 hS
  exact ⟨wf_catalogHeld, perm_buyHeld, hV, hS, stats, hstats, hlen, ⟨s1, hs1, hb1⟩,
    ⟨s2, hs2, hb2⟩⟩

/-- With at least ten individuals, holdings in the catalog and a budget > 0 that gives
every asset a maximum below the overflow threshold, the best fitness of a generation is
a number and is not greater than the best fitness of the generation before. -/
theorem bestFitness_antitone (R : ℚ → ℚ) (populationSize c : ℕ) (assetData : JSMap AssetData)
    (investmentLimit : ℚ) (rng : RandomSource) (hval : Spec.ValidCatalog assetData)
    (hb : 0 < investmentLimit) (hS : 0 < Spec.currentValueSum assetData)
    (hfin : ∀ e ∈ assetData.entries,
      (⌊investmentLimit / e.2.currentSharePrice⌋ : ℚ) < Double.overflow)
    (hN : 10 ≤ populationSize) (g : ℕ) (prev st : WorkerState)
    (hprev : generationState R populationSize c assetData investmentLimit rng (g + 1)
      = some prev)
    (hst : generationState R populationSize c assetData investmentLimit rng (g + 2) = some st) :
    ∃ x y : ℚ,
      bestFitness R populationSize c assetData investmentLimit rng (g + 1) = some (.fin x)
        ∧ bestFitness R populationSize c assetData investmentLimit rng (g + 2) = some (.fin y)
        ∧ y ≤ x := by
  obtain ⟨bp, bs, x, y, hbp, hbs, hx, hy, hle⟩ := best_antitone R populationSize c assetData
    investmentLimit rng _ (kept_finite R assetData investmentLimit hval hb hS hfin) hN g prev
    st
    hprev hst
  refine ⟨x, y, ?_, ?_, hle⟩
  · rw [bestFitness_of_state R populationSize c assetData investmentLimit rng _ prev bp hprev
      hbp, hx]
  · rw [bestFitness_of_state R populationSize c assetData investmentLimit rng _ st bs hst
      hbs, hy]
/-! ## A run that improves twice -/

theorem fitness_buyAB_four :
    calculateStrategyFitness BigNumber.ROUND_HALF_UP
      (Spec.strategyOf (Example.buyAB ((4 : ℤ) : ℚ) ((4 : ℤ) : ℚ)))
      Example.catalogAB 100 = some (.fin 20) := by
  rw [fitness_of_within _ _ _ _ wf_catalogAB (covers_buyAB _ _)
    (by norm_num [Spec.totalProjected, Spec.projectedInvestment, Example.buyAB])
    (by norm_num [Spec.projectedTotalValue, Spec.currentValueSum, Spec.totalProjected,
      Spec.projectedInvestment, Example.buyAB, Example.catalogAB])
    (by norm_num)]
  congr 2
  norm_num [Spec.totalDiff, Spec.newPercentage, Spec.newValue, Spec.unspentPenalty,
    Spec.projectedTotalValue, Spec.currentValueSum, Spec.totalProjected,
    Spec.projectedInvestment, Example.buyAB, Example.catalogAB,
    BigNumber.ROUND_HALF_UP, BigNumber.roundHalfUp, BigNumber.DECIMAL_PLACES]

/-- The child of `mateStrategies` for the catalog of the scenarios and the budget 100
when the draws made for both assets are 1/2: both genes are mutated. -/
theorem mateStrategies_mutated (parent1 parent2 : Strategy) (rng : RandomSource)
    (hA : (rng 0).val = 1 / 2) (hB : (rng 2).val = 1 / 2) :
    mateStrategies parent1 parent2 Example.catalogAB 100 rng
      = some (Spec.strategyOf (Example.buyAB (⌊Double.round ((rng 1).val * 10) + 1 / 2⌋ : ℤ)
          (⌊Double.round ((rng 3).val * 10) + 1 / 2⌋ : ℤ)), fun n => rng (n + 4)) := by
  have hgA : Example.catalogAB.get "A" = some ⟨50, 0, 10⟩ := rfl
  have hgB : Example.catalogAB.get "B" = some ⟨50, 0, 10⟩ := rfl
  have hfl : ⌊(100 : ℚ) / 10⌋ = 10 := by norm_num
  have hfin : ((⌊(100 : ℚ) / 10⌋ : ℤ) : ℚ) < Double.overflow := by
    rw [hfl]
    norm_num [Double.overflow]
  have h1 : ¬ ((1 : ℚ) / 2 < Double.round 0.4) := by
    rw [round_two_fifths]
    norm_num
  have h2 : (1 : ℚ) / 2 < Double.round 0.6 := by
    rw [round_three_fifths]
    norm_num
  simp only [mateStrategies, Example.catalogAB, JSMap.keys, List.map_cons, List.map_nil,
    List.foldlM_cons, List.foldlM_nil]
  rw [show (⟨[("A", (⟨50, 0, 10⟩ : AssetData)), ("B", ⟨50, 0, 10⟩)]⟩ : JSMap AssetData)
    = Example.catalogAB from rfl]
  simp only [mateGene, Math.random, hA, h1, h2, if_true, if_false]
  rw [setRandom_eq _ "A" _ _ _ _ hgA (by norm_num) (by norm_num) hfin]
  simp only [Option.bind_eq_bind, Option.some_bind, Math.random]
  rw [show (rng (0 + 1 + 1)).val = 1 / 2 from hB]
  simp only [h1, h2, if_true, if_false]
  rw [setRandom_eq _ "B" _ _ _ _ hgB (by norm_num) (by norm_num) hfin]
  simp only [hfl, Int.cast_ofNat, round_ten, Math.random]
  simp [Example.buyAB, Spec.strategyOf, JSMap.set, JSMap.has, JSMap.empty]

/-- A later generation of a run with two individuals on the catalog of the scenarios,
when the population is made of copies of one individual and the draws made for both
assets of the child are 1/2: no elite is kept and the only child, mated from two
copies, has both genes mutated. -/
theorem generationStep_single (c g m : ℕ) (hg : g ≠ 1) (hm : 1 ≤ m) (a : InvestmentStrategy)
    (w : List BigNumber) (rng : RandomSource) (hA : (rng 2).val = 1 / 2)
    (hB : (rng 4).val = 1 / 2) (x y : ℤ)
    (hx : ⌊Double.round ((rng 3).val * 10) + 1 / 2⌋ = x)
    (hy : ⌊Double.round ((rng 5).val * 10) + 1 / 2⌋ = y) (f : BigNumber)
    (hf : calculateStrategyFitness BigNumber.ROUND_HALF_UP
      (Spec.strategyOf (Example.buyAB x y)) Example.catalogAB 100 = some f) :
    generationStep BigNumber.ROUND_HALF_UP 2 c Example.catalogAB 100
        ⟨g, List.replicate m a, w, rng⟩
      = some ⟨g, [⟨Spec.strategyOf (Example.buyAB x y), f⟩],
          (w ++ [f]).drop ((w ++ [f]).length - c), fun n => rng (n + 6)⟩ := by
  have h50 : 50 * 2 / 100 = 1 := by norm_num
  have h90 : 90 * 2 / 100 = 0 + 1 := by norm_num
  have h10 : 10 * 2 / 100 = 0 := by norm_num
  have hmate := mateStrategies_mutated a.strategy a.strategy
    (Math.random (Math.random rng).2).2 hA hB
  have hx2 : ⌊Double.round (((Math.random (Math.random rng).2).2 1).val * 10) + 1 / 2⌋ = x := hx
  have hy2 : ⌊Double.round (((Math.random (Math.random rng).2).2 3).val * 10) + 1 / 2⌋ = y := hy
  rw [hx2, hy2] at hmate
  unfold generationStep buildPopulation
  simp only [if_neg hg, h50, h90, h10, produceOffspring, List.take_zero,
    pickParent_replicate a m 1 (le_refl 1) hm, hmate, hf, Option.bind_eq_bind,
    Option.some_bind, List.nil_append]
  simp [sortPopulation, List.insertionSort, List.orderedInsert]
  rfl

theorem climbing_first :
    generationState BigNumber.ROUND_HALF_UP 2 2 Example.catalogAB 100 Example.climbing 1
      = some ⟨1, List.replicate 2 ⟨Spec.strategyOf (Example.buyAB 3 3), .fin 40⟩,
          [.fin 40], fun n => Example.climbing (n + 4)⟩ := by
  have h0 : ∀ n, n < 4 →
      ⌊Double.round ((Example.climbing n).val * 10) + 1 / 2⌋ = 3 := by
    intro n hn
    interval_cases n <;>
      norm_num [Example.climbing, Example.drawsFrom, Example.quarter, round_five_halves]
  have hf := fitness_buyAB_three
  unfold generationState generationStep buildPopulation
  simp only [initialState, if_true, createInitialPopulation, createStrategy_catalogAB,
    h0 0 (by norm_num), h0 1 (by norm_num), h0 (0 + 2) (by norm_num), h0 (1 + 2) (by norm_num),
    Option.bind_eq_bind, Option.some_bind, hf, List.nil_append, List.cons_append]
  simp [sortPopulation, List.insertionSort, List.orderedInsert, compareFitness,
    BigNumber.comparedTo]

theorem climbing_second :
    generationState BigNumber.ROUND_HALF_UP 2 2 Example.catalogAB 100 Example.climbing 2
      = some ⟨2, [⟨Spec.strategyOf (Example.buyAB 4 4), .fin 20⟩],
          [.fin 40, .fin 20], fun n => Example.climbing (n + 10)⟩ := by
  have hstop : stop [BigNumber.fin 40] 2 = some false := by
    norm_num [stop, BigNumber.isZero]
  have hf := fitness_buyAB_four
  have h1 : generationState BigNumber.ROUND_HALF_UP 2 2 Example.catalogAB 100 Example.climbing
      (0 + 1) = _ := climbing_first
  unfold generationState
  simp only [h1, hstop, Option.bind_eq_bind, Option.some_bind, Bool.false_eq_true, if_false]
  rw [generationStep_single 2 2 2 (by norm_num) (by norm_num) _ _ _
    (by norm_num [Example.climbing, Example.drawsFrom, Example.half])
    (by norm_num [Example.climbing, Example.drawsFrom, Example.half]) 4 4
    (by norm_num [Example.climbing, Example.drawsFrom, Example.threeEighths,
      round_fifteen_quarters])
    (by norm_num [Example.climbing, Example.drawsFrom, Example.threeEighths,
      round_fifteen_quarters]) _ hf]
  rfl

theorem climbing_third :
    generationState BigNumber.ROUND_HALF_UP 2 2 Example.catalogAB 100 Example.climbing 3
      = some ⟨3, [⟨Spec.strategyOf (Example.buyAB 5 5), .fin 0⟩],
          [.fin 20, .fin 0], fun n => Example.climbing (n + 16)⟩ := by
  have hstop : stop [BigNumber.fin 40, BigNumber.fin 20] 2 = some false := by
    norm_num [stop, BigNumber.isZero, BigNumber.comparedTo]
  have hf := fitness_strategyOf_buyAB_five
  have h2 : generationState BigNumber.ROUND_HALF_UP 2 2 Example.catalogAB 100 Example.climbing
      (1 + 1) = _ := climbing_second
  unfold generationState
  simp only [h2, hstop, Option.bind_eq_bind, Option.some_bind, Bool.false_eq_true, if_false]
  rw [show [(⟨Spec.strategyOf (Example.buyAB 4 4), .fin 20⟩ : InvestmentStrategy)]
    = List.replicate 1 ⟨Spec.strategyOf (Example.buyAB 4 4), .fin 20⟩ from rfl]
  rw [generationStep_single 2 3 1 (by norm_num) (by norm_num) _ _ _
    (by norm_num [Example.climbing, Example.drawsFrom, Example.half])
    (by norm_num [Example.climbing, Example.drawsFrom, Example.half]) 5 5
    (by norm_num [Example.climbing, Example.drawsFrom, Example.half, round_five])
    (by norm_num [Example.climbing, Example.drawsFrom, Example.half, round_five]) _ hf]
  rfl

/-- C10 at generation 3 of the run with two individuals and a capacity of 2 under the
draws `climbing`: the best fitnesses of the generations 1, 2 and 3 are 40, 20 and 0,
and after generation 3 the list holds those of the generations 2 and 3, oldest first,
the one of generation 1 having been evicted. -/
theorem C10_last_best_fitnesses_witness :
    1 ≤ 2
      ∧ bestFitness BigNumber.ROUND_HALF_UP 2 2 Example.catalogAB 100 Example.climbing 1
        = some (.fin 40)
      ∧ bestFitness BigNumber.ROUND_HALF_UP 2 2 Example.catalogAB 100 Example.climbing 2
        = some (.fin 20)
      ∧ bestFitness BigNumber.ROUND_HALF_UP 2 2 Example.catalogAB 100 Example.climbing 3
        = some (.fin 0)
      ∧ ∃ st, generationState BigNumber.ROUND_HALF_UP 2 2 Example.catalogAB 100
          Example.climbing 3 = some st
        ∧ st.lastNBestFitnesses = [.fin 20, .fin 0]
        ∧ st.lastNBestFitnesses.length = min 3 2
        ∧ st.lastNBestFitnesses.length ≤ 2
        ∧ ∀ i, i < min 3 2 →
            st.lastNBestFitnesses[i]?
              = bestFitness BigNumber.ROUND_HALF_UP 2 2 Example.catalogAB 100
                  Example.climbing (max 1 (3 + 1 - 2) + i) :=
  ⟨by norm_num, by simp [bestFitness, climbing_first], by simp [bestFitness, climbing_second],
    by simp [bestFitness, climbing_third], _, climbing_third, rfl,
    C10_last_best_fitnesses BigNumber.ROUND_HALF_UP 2 2 (by norm_num) Example.catalogAB 100
      Example.climbing 3 _ climbing_third⟩
/-! ## The model rounds where the program does -/

/-- The product of a draw and the maximum is rounded before `Math.round`: for the draw
2895171189023890 / 2^52 and the maximum 7 the product, a little below 4.5, is the
double 4.5 and the gene is 5, where the product without rounding gives 4. -/
theorem random_gene_rounds_product :
    Math.round (JSValue.times (2895171189023890 / 2 ^ 52) (BigNumber.toNumber (.fin 7)))
        = .number 5
      ∧ ⌊(2895171189023890 / 2 ^ 52 : ℚ) * 7 + 1 / 2⌋ = 4 := by
  have h7 : Double.round 7 = 7 :=
    round_of_isValue 7 ⟨7, 0, by norm_num, by norm_num, by norm_num⟩
  have hp : Double.round (2895171189023890 / 2 ^ 52 * 7) = 9 / 2 := by
    rw [round_eq_pos _ 2 (by norm_num) (by norm_num) (by norm_num)]
    norm_num [Double.roundHalfEven]
  constructor
  · show Math.round (JSValue.times _ (JSValue.ofRat 7)) = _
    rw [ofRat_of_lt 7 (by norm_num [Double.overflow]), h7]
    show Math.round (JSValue.ofRat _) = _
    rw [ofRat_of_lt _ (by rw [abs_of_nonneg (by norm_num)]; norm_num [Double.overflow]), hp]
    norm_num [Math.round]
  · norm_num

/-- The product of a draw and the number of parents is rounded before `Math.floor`: for
the draw 0.6799999999999999 = 6124895493223874 / 2^53 and 50 parents the product, a
little below 34, is the double 34 and the index is 34, where the product without
rounding gives 33. -/
theorem parentIndex_rounds_product :
    parentIndex (6124895493223874 / 2 ^ 53) 50 = 34
      ∧ ⌊(6124895493223874 / 2 ^ 53 : ℚ) * 50⌋ = 33 := by
  have hp : Double.round (6124895493223874 / 2 ^ 53 * ((50 : ℕ) : ℚ)) = 34 := by
    rw [round_eq_pos _ 5 (by norm_num) (by norm_num) (by norm_num)]
    norm_num [Double.roundHalfEven]
  constructor
  · unfold parentIndex
    rw [hp]
    norm_num
    rfl
  · norm_num

/-- The decimal 2^53 + 1 is not a double: `toNumber()` gives 2^53. -/
theorem toNumber_rounds : BigNumber.toNumber (.fin (2 ^ 53 + 1)) = .number (2 ^ 53) := by
  have hp : Double.round (2 ^ 53 + 1) = 2 ^ 53 := by
    rw [round_eq_pos _ 53 (by norm_num) (by norm_num) (by norm_num)]
    norm_num [Double.roundHalfEven]
  show JSValue.ofRat (2 ^ 53 + 1) = _
  rw [ofRat_of_lt _ (by rw [abs_of_nonneg (by norm_num)]; norm_num [Double.overflow]), hp]

end Rebalancer
